import Mathlib

/-! nginx 1.18.0 core: pool allocator, buffer chains, arrays, lists and queues

A shallow embedding of `src/core/ngx_palloc.c`, `src/core/ngx_buf.c`,
`src/core/ngx_array.c`, `src/core/ngx_list.c` and `src/core/ngx_queue.c` with their
headers.

* Addresses and sizes are natural numbers; the null pointer is `0`.
* A singly linked C list (blocks through `d.next`, large records, cleanup
  records, chain links through `next`) is a Lean list of its nodes, head first.
  A node keeps its own address in the field `addr`, which is its identity.
* Every call of the system allocator (`ngx_alloc`, `ngx_memalign`) consumes the
  next answer of an explicit list of answers; `0` is a refusal.
* Buffer descriptors are shared through pointers, so they live in a store that
  maps the address of a descriptor to its contents.
* Values of `size_t` and of `ngx_uint_t` are natural numbers and values of `off_t`
  are integers; where the code can leave the range of the type, the result is reduced
  to that range (`size_mul`, `off_wrap`, the counters of `ngx_array_push_n`).
-/

namespace Nginx

/-! ## Definitions: platform layout -/

/-- Sizes and constants that come from headers which are not part of the
sources at hand (`ngx_palloc.h`, `ngx_buf.h`, `ngx_config.h`); they are
parameters of the embedding. -/
structure Layout where
  /-- the value of `sizeof(ngx_pool_t)` -/
  sizeof_pool : Nat
  /-- the value of `sizeof(ngx_pool_data_t)` -/
  sizeof_pool_data : Nat
  /-- the value of `sizeof(ngx_pool_large_t)` -/
  sizeof_large : Nat
  /-- the value of `sizeof(ngx_pool_cleanup_t)` -/
  sizeof_cleanup : Nat
  /-- the value of `sizeof(ngx_chain_t)` -/
  sizeof_chain : Nat
  /-- the value of `sizeof(ngx_buf_t)` -/
  sizeof_buf : Nat
  /-- the constant `NGX_ALIGNMENT` -/
  NGX_ALIGNMENT : Nat
  /-- the constant `NGX_MAX_ALLOC_FROM_POOL`, the page size minus one -/
  NGX_MAX_ALLOC_FROM_POOL : Nat
  /-- the number of values of `size_t` -/
  size_max : Nat
  /-- the value of `sizeof(ngx_array_t)` -/
  sizeof_array : Nat
  /-- the value of `sizeof(ngx_list_part_t)` -/
  sizeof_list_part : Nat
  /-- the value of `sizeof(ngx_list_t)` -/
  sizeof_list : Nat
  /-- the variable `ngx_pagesize` -/
  ngx_pagesize : Nat
  /-- half the number of values of `off_t`, which ranges over
  `-off_half .. off_half - 1` -/
  off_half : Nat
  /-- the number of values of `ngx_uint_t` -/
  uint_max : Nat
  deriving DecidableEq, Repr

/-- The layout of a 64-bit Unix build with 4096-byte pages. -/
def lp64 : Layout :=
  { sizeof_pool := 80, sizeof_pool_data := 32, sizeof_large := 16, sizeof_cleanup := 24,
    sizeof_chain := 16, sizeof_buf := 80, NGX_ALIGNMENT := 8,
    NGX_MAX_ALLOC_FROM_POOL := 4095, size_max := 2 ^ 64, sizeof_array := 40,
    sizeof_list_part := 24, sizeof_list := 56, ngx_pagesize := 4096, off_half := 2 ^ 63,
    uint_max := 2 ^ 64 }

/-- Modelled from the spec: the macro `ngx_align_ptr(p, a)` of `ngx_config.h` is not
among the sources; the spec says "align `last` upward to machine word alignment". -/
def ngx_align_ptr (p a : Nat) : Nat :=
  (p + (a - 1)) / a * a

/-- The cast `(size_t) (e - m)` of a pointer difference: the difference modulo the
number of values of `size_t`, so that a negative difference becomes a huge size. -/
def ptrdiff_to_size (L : Layout) (e m : Nat) : Nat :=
  if m ≤ e then (e - m) % L.size_max
  else (L.size_max - (m - e) % L.size_max) % L.size_max

/-- The subtraction `a - b` in `size_t`. -/
def size_sub (L : Layout) (a b : Nat) : Nat :=
  ptrdiff_to_size L a b

/-- What the layout of a real platform satisfies: a positive alignment, and a pool
header that has room for the aligned block header followed by one large record. -/
def Layout.WF (L : Layout) : Prop :=
  0 < L.NGX_ALIGNMENT ∧
  ngx_align_ptr L.sizeof_pool_data L.NGX_ALIGNMENT + L.sizeof_large ≤ L.sizeof_pool

instance (L : Layout) : Decidable L.WF := by
  unfold Layout.WF; infer_instance

/-! ## Definitions: the system allocator -/

/-- The answers of the system allocator, one per call, in call order. -/
abbrev Oracle := List Nat

/-- The call `ngx_alloc(size, log)` (and `ngx_memalign`, which the sources define as
`ngx_alloc`): the next answer, null when there is none left. -/
def ngx_alloc : Oracle → Nat × Oracle
  | [] => (0, [])
  | a :: o => (a, o)

/-! ## Definitions: pool data model -/

/-- The fields `last`, `end`, `failed` of `ngx_pool_data_t`, the header of every block,
with the address of the block; `next` is the position in the list of blocks. -/
structure ngx_pool_data_t where
  addr : Nat
  last : Nat
  end_ : Nat
  failed : Nat
  deriving DecidableEq, Repr

/-- A record `ngx_pool_large_t`: its own address and the raw pointer `alloc`. -/
structure ngx_pool_large_t where
  addr : Nat
  alloc : Nat
  deriving DecidableEq, Repr

/-- A record `ngx_pool_cleanup_t`: its own address, `handler` (null is `0`) and `data`. -/
structure ngx_pool_cleanup_t where
  addr : Nat
  handler : Nat
  data : Nat
  deriving DecidableEq, Repr

/-- A link `ngx_chain_t`: its own address and the pointer `buf` to a buffer descriptor. -/
structure ngx_chain_t where
  addr : Nat
  buf : Nat
  deriving DecidableEq, Repr

/-- The pool `ngx_pool_t`: the chain of blocks (the head block first), `max`,
`current` as the index of a block in the chain, and the three list heads. -/
structure ngx_pool_t where
  blocks : List ngx_pool_data_t
  max : Nat
  current : Nat
  chain : List ngx_chain_t
  large : List ngx_pool_large_t
  cleanup : List ngx_pool_cleanup_t
  deriving DecidableEq, Repr

/-- Status code `NGX_OK`. -/
def NGX_OK : Int := 0

/-- Status code `NGX_ERROR`. -/
def NGX_ERROR : Int := -1

/-- Status code `NGX_DECLINED`. -/
def NGX_DECLINED : Int := -5

/-! ## Definitions: pool operations -/

/-- The function `ngx_create_pool(size, log)`. -/
def ngx_create_pool (L : Layout) (size : Nat) (o : Oracle) : Option ngx_pool_t × Oracle :=
  let (p, o1) := ngx_alloc o
  if p = 0 then (none, o1)
  else
    let size1 := size_sub L size L.sizeof_pool
    (some { blocks := [{ addr := p, last := p + L.sizeof_pool, end_ := p + size, failed := 0 }],
            max := if size1 < L.NGX_MAX_ALLOC_FROM_POOL then size1 else L.NGX_MAX_ALLOC_FROM_POOL,
            current := 0, chain := [], large := [], cleanup := [] }, o1)

/-- The `do ... while (p)` loop of `ngx_palloc_small` over the blocks from `p` on: the
first block with room gets its cursor moved; the result is the address handed out and
the blocks after the change, or `none` when the loop runs off the chain. -/
def palloc_small_loop (L : Layout) (size : Nat) (align : Bool) :
    List ngx_pool_data_t → Option (Nat × List ngx_pool_data_t)
  | [] => none
  | b :: bs =>
    let m := if align then ngx_align_ptr b.last L.NGX_ALIGNMENT else b.last
    if size ≤ ptrdiff_to_size L b.end_ m then
      some (m, { b with last := m + size } :: bs)
    else
      match palloc_small_loop L size align bs with
      | none => none
      | some (r, bs1) => some (r, b :: bs1)

/-- The `for` loop of `ngx_palloc_block` from the block with index `i` on: a block
that has a successor gets `failed` incremented, and when the value before the
increment exceeds 4, `current` becomes its successor. The last block is not touched. -/
def palloc_block_loop : Nat → Nat → List ngx_pool_data_t → List ngx_pool_data_t × Nat
  | _, cur, [] => ([], cur)
  | _, cur, [b] => ([b], cur)
  | i, cur, b :: b1 :: bs =>
    let cur1 := if b.failed > 4 then i + 1 else cur
    let r := palloc_block_loop (i + 1) cur1 (b1 :: bs)
    ({ b with failed := b.failed + 1 } :: r.1, r.2)

/-- The function `ngx_palloc_block(pool, size)`. -/
def ngx_palloc_block (L : Layout) (pool : ngx_pool_t) (size : Nat) (o : Oracle) :
    Nat × ngx_pool_t × Oracle :=
  match pool.blocks with
  | [] => (0, pool, o)
  | d :: _ =>
    let psize := ptrdiff_to_size L d.end_ d.addr
    let (m, o1) := ngx_alloc o
    if m = 0 then (0, pool, o1)
    else
      let m1 := ngx_align_ptr (m + L.sizeof_pool_data) L.NGX_ALIGNMENT
      let new : ngx_pool_data_t := { addr := m, last := m1 + size, end_ := m + psize, failed := 0 }
      let r := palloc_block_loop pool.current pool.current (pool.blocks.drop pool.current)
      (m1, { pool with blocks := pool.blocks.take pool.current ++ r.1 ++ [new],
                       current := r.2 }, o1)

/-- The function `ngx_palloc_small(pool, size, align)`. -/
def ngx_palloc_small (L : Layout) (pool : ngx_pool_t) (size : Nat) (align : Bool) (o : Oracle) :
    Nat × ngx_pool_t × Oracle :=
  match palloc_small_loop L size align (pool.blocks.drop pool.current) with
  | some (m, bs) => (m, { pool with blocks := pool.blocks.take pool.current ++ bs }, o)
  | none => ngx_palloc_block L pool size o

/-- The scan of `ngx_palloc_large` over the large records with the counter `n`: the
first record met with a null `alloc` receives `p`; the scan gives up at a record that
is in use when `n++ > 3`. -/
def palloc_large_scan (p : Nat) : Nat → List ngx_pool_large_t → Option (List ngx_pool_large_t)
  | _, [] => none
  | n, l :: ls =>
    if l.alloc = 0 then some ({ l with alloc := p } :: ls)
    else if n > 3 then none
    else
      match palloc_large_scan p (n + 1) ls with
      | none => none
      | some ls1 => some (l :: ls1)

/-- The function `ngx_palloc_large(pool, size)`. -/
def ngx_palloc_large (L : Layout) (pool : ngx_pool_t) (_size : Nat) (o : Oracle) :
    Nat × ngx_pool_t × Oracle :=
  let (p, o1) := ngx_alloc o
  if p = 0 then (0, pool, o1)
  else
    match palloc_large_scan p 0 pool.large with
    | some ls => (p, { pool with large := ls }, o1)
    | none =>
      let (large, pool1, o2) := ngx_palloc_small L pool L.sizeof_large true o1
      if large = 0 then (0, pool1, o2)
      else (p, { pool1 with large := { addr := large, alloc := p } :: pool1.large }, o2)

/-- The function `ngx_palloc(pool, size)`. -/
def ngx_palloc (L : Layout) (pool : ngx_pool_t) (size : Nat) (o : Oracle) :
    Nat × ngx_pool_t × Oracle :=
  if size ≤ pool.max then ngx_palloc_small L pool size true o
  else ngx_palloc_large L pool size o

/-- The function `ngx_pnalloc(pool, size)`. -/
def ngx_pnalloc (L : Layout) (pool : ngx_pool_t) (size : Nat) (o : Oracle) :
    Nat × ngx_pool_t × Oracle :=
  if size ≤ pool.max then ngx_palloc_small L pool size false o
  else ngx_palloc_large L pool size o

/-- The function `ngx_pcalloc(pool, size)`; the zero fill writes to the memory handed
out and leaves the pool as `ngx_palloc` left it. -/
def ngx_pcalloc (L : Layout) (pool : ngx_pool_t) (size : Nat) (o : Oracle) :
    Nat × ngx_pool_t × Oracle :=
  ngx_palloc L pool size o

/-- The function `ngx_pmemalign(pool, size, alignment)`. -/
def ngx_pmemalign (L : Layout) (pool : ngx_pool_t) (_size _alignment : Nat) (o : Oracle) :
    Nat × ngx_pool_t × Oracle :=
  let (p, o1) := ngx_alloc o
  if p = 0 then (0, pool, o1)
  else
    let (large, pool1, o2) := ngx_palloc_small L pool L.sizeof_large true o1
    if large = 0 then (0, pool1, o2)
    else (p, { pool1 with large := { addr := large, alloc := p } :: pool1.large }, o2)

/-- The loop of `ngx_pfree` over the large records: the first record whose `alloc`
equals `p` gets it set to null; `none` when no record matches. -/
def pfree_loop (p : Nat) : List ngx_pool_large_t → Option (List ngx_pool_large_t)
  | [] => none
  | l :: ls =>
    if p = l.alloc then some ({ l with alloc := 0 } :: ls)
    else
      match pfree_loop p ls with
      | none => none
      | some ls1 => some (l :: ls1)

/-- The function `ngx_pfree(pool, p)`. -/
def ngx_pfree (pool : ngx_pool_t) (p : Nat) : Int × ngx_pool_t :=
  match pfree_loop p pool.large with
  | some ls => (NGX_OK, { pool with large := ls })
  | none => (NGX_DECLINED, pool)

/-- The function `ngx_pool_cleanup_add(p, size)`; the result is the address of the new
record, null on failure. -/
def ngx_pool_cleanup_add (L : Layout) (p : ngx_pool_t) (size : Nat) (o : Oracle) :
    Nat × ngx_pool_t × Oracle :=
  let (c, p1, o1) := ngx_palloc L p L.sizeof_cleanup o
  if c = 0 then (0, p1, o1)
  else if size ≠ 0 then
    let (data, p2, o2) := ngx_palloc L p1 size o1
    if data = 0 then (0, p2, o2)
    else (c, { p2 with cleanup := { addr := c, handler := 0, data := data } :: p2.cleanup }, o2)
  else (c, { p1 with cleanup := { addr := c, handler := 0, data := 0 } :: p1.cleanup }, o1)

/-- The function `ngx_reset_pool(pool)`; the second component lists the raw pointers
passed to `ngx_free`, in call order. -/
def ngx_reset_pool (L : Layout) (pool : ngx_pool_t) : ngx_pool_t × List Nat :=
  ({ pool with
      blocks := pool.blocks.map (fun p => { p with last := p.addr + L.sizeof_pool, failed := 0 }),
      current := 0, chain := [], large := [] },
   (pool.large.filter (fun l => l.alloc ≠ 0)).map (fun l => l.alloc))

/-- What `ngx_destroy_pool` does, as seen from outside: the handler calls
`handler(data)`, then the raw pointers and the blocks passed to `ngx_free`. -/
structure DestroyTrace where
  calls : List (Nat × Nat)
  freed_large : List Nat
  freed_blocks : List Nat
  deriving DecidableEq, Repr

/-- The address of the first record of a cleanup list, null for the empty list: the
value of `pool->cleanup` for the whole list, and the value that the field `next` of a
record got when it was linked in front of the list. -/
def cleanup_head (cl : List ngx_pool_cleanup_t) : Nat :=
  match cl with
  | [] => 0
  | r :: _ => r.addr

/-- The record that memory holds at the address `c`, with its field `next`. The
cleanup list holds the records in the order `ngx_pool_cleanup_add` linked them, newest
first, and `ngx_reset_pool` keeps the list while it hands the memory of the blocks out
again; so the list can hold several records with one address, of which memory holds the
newest, linked to the record that follows it in the list. -/
def cleanup_at : List ngx_pool_cleanup_t → Nat → Option (ngx_pool_cleanup_t × Nat)
  | [], _ => none
  | r :: rest, c => if r.addr = c then some (r, cleanup_head rest) else cleanup_at rest c

/-- How far a walk along the cleanup records got: it reached the null pointer, it was
still under way when the passes granted were used up, or it met memory whose contents
the cleanup list does not determine. -/
inductive WalkStatus where
  | finished
  | running
  | undetermined
  deriving DecidableEq, Repr

/-- The loop `for (c = pool->cleanup; c; c = c->next)` of `ngx_destroy_pool`, from the
address `c`, for at most `fuel` passes: the calls `handler(data)` made, in order, and
how far the walk got. Each pass reads the record that memory holds at `c`. -/
def destroy_cleanup_loop (cl : List ngx_pool_cleanup_t) :
    Nat → Nat → List (Nat × Nat) × WalkStatus
  | 0, c => ([], if c = 0 then WalkStatus.finished else WalkStatus.running)
  | fuel + 1, c =>
    if c = 0 then ([], WalkStatus.finished)
    else
      match cleanup_at cl c with
      | none => ([], WalkStatus.undetermined)
      | some (r, next) =>
        let rest := destroy_cleanup_loop cl fuel next
        (if r.handler ≠ 0 then (r.handler, r.data) :: rest.1 else rest.1, rest.2)

/-- Any two records of the cleanup list are at the same address or do not overlap. A
record that overlaps another one without being at its address has overwritten part of
its fields, which the list does not show. -/
def cleanup_intact (L : Layout) (cl : List ngx_pool_cleanup_t) : Prop :=
  cl.Pairwise (fun r r1 => r.addr = r1.addr ∨ r.addr + L.sizeof_cleanup ≤ r1.addr ∨
    r1.addr + L.sizeof_cleanup ≤ r.addr)

instance (L : Layout) (cl : List ngx_pool_cleanup_t) : Decidable (cleanup_intact L cl) := by
  unfold cleanup_intact; infer_instance

/-- The outcome of `ngx_destroy_pool`: it returned, after the calls and frees of the
trace; or its cleanup loop was still running after the passes granted, having made the
calls listed; or the cleanup list does not determine what the loop reads. -/
inductive DestroyResult where
  | returned (t : DestroyTrace)
  | running (calls : List (Nat × Nat))
  | undetermined
  deriving DecidableEq, Repr

/-- The function `ngx_destroy_pool(pool)`, with at most `fuel` passes of its cleanup
loop. The cleanup loop follows the addresses of the records through memory
(`destroy_cleanup_loop`); the loops over the large records and the blocks follow. The
fields of a record are those `ngx_pool_cleanup_add` and the caller that stored the
handler left in it. -/
def ngx_destroy_pool (L : Layout) (fuel : Nat) (pool : ngx_pool_t) : DestroyResult :=
  if cleanup_intact L pool.cleanup then
    match destroy_cleanup_loop pool.cleanup fuel (cleanup_head pool.cleanup) with
    | (calls, WalkStatus.finished) =>
      DestroyResult.returned
        { calls := calls,
          freed_large := (pool.large.filter (fun l => l.alloc ≠ 0)).map (fun l => l.alloc),
          freed_blocks := pool.blocks.map (fun p => p.addr) }
    | (calls, WalkStatus.running) => DestroyResult.running calls
    | (_, WalkStatus.undetermined) => DestroyResult.undetermined
  else DestroyResult.undetermined

/-- One call of the pool interface, with its arguments. -/
inductive PoolOp where
  | palloc (size : Nat)
  | pnalloc (size : Nat)
  | pcalloc (size : Nat)
  | pmemalign (size alignment : Nat)
  | pfree (p : Nat)
  | cleanup_add (size : Nat)
  | reset_pool
  deriving DecidableEq, Repr

/-- The pool and the allocator answers left after one call. -/
def PoolOp.apply (L : Layout) : PoolOp → ngx_pool_t × Oracle → ngx_pool_t × Oracle
  | .palloc size, (p, o) => (ngx_palloc L p size o).2
  | .pnalloc size, (p, o) => (ngx_pnalloc L p size o).2
  | .pcalloc size, (p, o) => (ngx_pcalloc L p size o).2
  | .pmemalign size alignment, (p, o) => (ngx_pmemalign L p size alignment o).2
  | .pfree x, (p, o) => ((ngx_pfree p x).2, o)
  | .cleanup_add size, (p, o) => (ngx_pool_cleanup_add L p size o).2
  | .reset_pool, (p, o) => ((ngx_reset_pool L p).1, o)

/-- The pool and the allocator answers left after a sequence of calls. -/
def run_ops (L : Layout) (ops : List PoolOp) (st : ngx_pool_t × Oracle) : ngx_pool_t × Oracle :=
  ops.foldl (fun s op => op.apply L s) st

/-- The first byte after the header of the block with index `i` in the chain: the
whole `ngx_pool_t` for the head block, `ngx_pool_data_t` for an appended block. -/
def header_end (L : Layout) (i : Nat) (b : ngx_pool_data_t) : Nat :=
  b.addr + (if i = 0 then L.sizeof_pool else L.sizeof_pool_data)

/-- A block of total size `S` whose cursor lies between the end of the block header
and the end of the block, and whose end is aligned. -/
def BlockOK (L : Layout) (S : Nat) (b : ngx_pool_data_t) : Prop :=
  b.addr + L.sizeof_pool_data ≤ b.last ∧ b.last ≤ b.end_ ∧ b.end_ = b.addr + S ∧
    L.NGX_ALIGNMENT ∣ b.end_

/-- The allocator answers are aligned addresses. -/
def OracleOK (L : Layout) (o : Oracle) : Prop :=
  ∀ a ∈ o, L.NGX_ALIGNMENT ∣ a

/-- The invariant of a pool created with size `S`, a multiple of the alignment, from
aligned memory: `S` is an aligned value of `size_t`, `max` leaves room for the pool header, every block is `BlockOK`,
and the cursor of the head block is past the pool header. -/
def PoolInv (L : Layout) (S : Nat) (p : ngx_pool_t) : Prop :=
  S < L.size_max ∧ L.NGX_ALIGNMENT ∣ S ∧ p.max + L.sizeof_pool ≤ S ∧
    (∀ b ∈ p.blocks, BlockOK L S b) ∧
    ∃ d bs, p.blocks = d :: bs ∧ d.addr + L.sizeof_pool ≤ d.last

/-- A pool state that a sequence of interface calls reaches from `ngx_create_pool`
with size `S`, the allocator answering `o`. -/
def Reachable (L : Layout) (S : Nat) (o : Oracle) (p : ngx_pool_t) (o1 : Oracle) : Prop :=
  ∃ p0 o0 ops, ngx_create_pool L S o = (some p0, o0) ∧ run_ops L ops (p0, o0) = (p, o1)

/-- What a call of the small allocator guarantees, given the pool before it. -/
def SmallPost (L : Layout) (S : Nat) (p : ngx_pool_t) (size : Nat)
    (res : Nat × ngx_pool_t × Oracle) : Prop :=
  PoolInv L S res.2.1 ∧ OracleOK L res.2.2 ∧ res.2.1.max = p.max ∧ res.2.1.large = p.large ∧
    res.2.1.cleanup = p.cleanup ∧ res.2.1.chain = p.chain ∧
    (res.1 ≠ 0 → ∃ i b, res.2.1.blocks[i]? = some b ∧ header_end L i b ≤ res.1 ∧
      res.1 + size ≤ b.end_)

/-- What the counters `failed` of the blocks, in chain order, and `current` satisfy in
every pool: `current` is a block of the chain, a block before it has a counter of at
least 5, a block from it on has a counter of at most 5, and from `current` on the
counters do not increase along the chain. -/
def FailedInv (fl : List Nat) (cur : Nat) : Prop :=
  cur < fl.length ∧
    (∀ i f, fl[i]? = some f → (i < cur → 5 ≤ f) ∧ (cur ≤ i → f ≤ 5)) ∧
    (fl.drop cur).Pairwise (fun a b => b ≤ a)

/-- The invariant `FailedInv` of the blocks and `current` of a pool. -/
def CurInv (p : ngx_pool_t) : Prop :=
  FailedInv (p.blocks.map (fun b => b.failed)) p.current

/-! ## Definitions: regions handed out by the pool -/

/-- The answers of the system allocator that are not refusals. -/
def live (o : Oracle) : List Nat :=
  o.filter (fun a => a ≠ 0)

/-- The addresses the system allocator has handed out for the blocks of the pool,
followed by those it will hand out. -/
def bases (p : ngx_pool_t) (o : Oracle) : List Nat :=
  p.blocks.map (fun b => b.addr) ++ live o

/-- Addresses that lie at least `D` bytes apart from one another: what the system
allocator guarantees for memory areas of up to `D` bytes that are in use together. -/
def AddrSep (D : Nat) (l : List Nat) : Prop :=
  l.Pairwise (fun a b => a + D ≤ b ∨ b + D ≤ a)

instance (D : Nat) (l : List Nat) : Decidable (AddrSep D l) := by
  unfold AddrSep; infer_instance

/-- The invariant `PoolInv` of a pool of block size `S`, with aligned allocator
answers that lie `D` bytes apart from one another and from the blocks. -/
def PoolOK (L : Layout) (S D : Nat) (p : ngx_pool_t) (o : Oracle) : Prop :=
  PoolInv L S p ∧ OracleOK L o ∧ AddrSep D (bases p o)

/-- The blocks `bs1` are the blocks `bs`, in the same places and with cursors that are
not lower, possibly followed by more blocks. -/
def Grows (bs bs1 : List ngx_pool_data_t) : Prop :=
  ∀ (i : Nat) (b : ngx_pool_data_t), bs[i]? = some b →
    ∃ b1 : ngx_pool_data_t,
      bs1[i]? = some b1 ∧ b1.addr = b.addr ∧ b1.end_ = b.end_ ∧ b.last ≤ b1.last

/-- A call took the pool from `p` to `p1` and the allocator answers from `o` to `o1`:
the blocks grew, and no address came from elsewhere than the answers. -/
def PoolStep (p : ngx_pool_t) (o : Oracle) (p1 : ngx_pool_t) (o1 : Oracle) : Prop :=
  Grows p.blocks p1.blocks ∧ (∀ a ∈ bases p1 o1, a ∈ bases p o) ∧ p1.max = p.max

/-- Two regions `[r, r + s)`, each given by its address and size, do not overlap. -/
def region_disjoint (x y : Nat × Nat) : Prop :=
  x.1 + x.2 ≤ y.1 ∨ y.1 + y.2 ≤ x.1

instance (x y : Nat × Nat) : Decidable (region_disjoint x y) := by
  unfold region_disjoint; infer_instance

/-- A region handed out earlier, as seen in a later state: it lies below the cursor of
a block, or it is a large allocation of at most `D` bytes whose address lies `D` bytes
apart from every block and every allocator answer to come. -/
def RegionOK (D : Nat) (p : ngx_pool_t) (o : Oracle) (x : Nat × Nat) : Prop :=
  (∃ (i : Nat) (b : ngx_pool_data_t), p.blocks[i]? = some b ∧ b.addr ≤ x.1 ∧
      x.1 + x.2 ≤ b.last) ∨
    (x.2 ≤ D ∧ ∀ a ∈ bases p o, x.1 + D ≤ a ∨ a + D ≤ x.1)

/-- The regions handed out so far are pairwise disjoint and each is `RegionOK`. -/
def Ledger (D : Nat) (p : ngx_pool_t) (o : Oracle) (rs : List (Nat × Nat)) : Prop :=
  (∀ x ∈ rs, RegionOK D p o x) ∧ rs.Pairwise region_disjoint

/-- The region a call hands out from the blocks of the pool: address and size for a
`ngx_palloc`, `ngx_pnalloc` or `ngx_pcalloc` with `size <= pool->max` that does not
return null, nothing for any other call. -/
def op_region (L : Layout) : PoolOp → ngx_pool_t × Oracle → List (Nat × Nat)
  | .palloc size, (p, o) =>
    if size ≤ p.max ∧ (ngx_palloc L p size o).1 ≠ 0 then [((ngx_palloc L p size o).1, size)]
    else []
  | .pnalloc size, (p, o) =>
    if size ≤ p.max ∧ (ngx_pnalloc L p size o).1 ≠ 0 then [((ngx_pnalloc L p size o).1, size)]
    else []
  | .pcalloc size, (p, o) =>
    if size ≤ p.max ∧ (ngx_pcalloc L p size o).1 ≠ 0 then [((ngx_pcalloc L p size o).1, size)]
    else []
  | _, _ => []

/-- The regions that the small allocations of a sequence of calls hand out, in call
order. -/
def small_regions (L : Layout) : List PoolOp → ngx_pool_t × Oracle → List (Nat × Nat)
  | [], _ => []
  | op :: ops, st => op_region L op st ++ small_regions L ops (op.apply L st)

/-! ## Definitions: buffers and chains -/

/-- A buffer descriptor `ngx_buf_t` (declared in `ngx_buf.h`): the memory range, the
file range with the descriptor `file->fd`, the tag and the flag bits. -/
structure ngx_buf_t where
  pos : Nat
  last : Nat
  file_pos : Int
  file_last : Int
  start : Nat
  end_ : Nat
  tag : Nat
  file_fd : Int
  shadow : Nat
  temporary : Bool
  memory : Bool
  mmap : Bool
  recycled : Bool
  in_file : Bool
  flush : Bool
  sync : Bool
  last_buf : Bool
  last_in_chain : Bool
  deriving DecidableEq, Repr

/-- The buffer descriptors in memory, by address. -/
abbrev BufStore := Nat → ngx_buf_t

/-- The macro `ngx_buf_in_memory(b)`, as quoted in the comment inside
`ngx_chain_update_chains`: `(b->temporary || b->memory || b->mmap)`. -/
def ngx_buf_in_memory (b : ngx_buf_t) : Bool :=
  b.temporary || b.memory || b.mmap

/-- The macro `ngx_buf_size(b)`, as quoted in the comment inside
`ngx_chain_update_chains`: `(off_t) (b->last - b->pos)` for a buffer in memory and
`b->file_last - b->file_pos` otherwise. -/
def ngx_buf_size (b : ngx_buf_t) : Int :=
  if ngx_buf_in_memory b then (b.last : Int) - (b.pos : Int) else b.file_last - b.file_pos

/-- The two assignments `buf->pos = buf->start; buf->last = buf->start`. -/
def buf_rewind (b : ngx_buf_t) : ngx_buf_t :=
  { b with pos := b.start, last := b.start }

/-- The function `ngx_alloc_chain_link(pool)`; the result is the address of the link,
null on failure. -/
def ngx_alloc_chain_link (L : Layout) (pool : ngx_pool_t) (o : Oracle) :
    Nat × ngx_pool_t × Oracle :=
  match pool.chain with
  | cl :: rest => (cl.addr, { pool with chain := rest }, o)
  | [] => ngx_palloc L pool L.sizeof_chain o

/-- The `while (in)` loop of `ngx_chain_add_copy`; `dest` is the destination chain up
to the link `ll` points into. -/
def chain_add_copy_loop (L : Layout) :
    List ngx_chain_t → ngx_pool_t → List ngx_chain_t → Oracle →
      Int × ngx_pool_t × List ngx_chain_t × Oracle
  | [], p, dest, o => (NGX_OK, p, dest, o)
  | i :: rest, p, dest, o =>
    match ngx_alloc_chain_link L p o with
    | (cl, p1, o1) =>
      if cl = 0 then (NGX_ERROR, p1, dest, o1)
      else chain_add_copy_loop L rest p1 (dest ++ [{ addr := cl, buf := i.buf }]) o1

/-- The function `ngx_chain_add_copy(pool, chain, in)`; the third component is the
chain `*chain` afterwards. -/
def ngx_chain_add_copy (L : Layout) (pool : ngx_pool_t) (chain in_ : List ngx_chain_t)
    (o : Oracle) : Int × ngx_pool_t × List ngx_chain_t × Oracle :=
  chain_add_copy_loop L in_ pool chain o

/-- The results of `n` successive calls of `ngx_alloc_chain_link`, `none` when one of
them returns null. -/
def alloc_chain_links (L : Layout) : Nat → ngx_pool_t → Oracle →
    Option (List Nat × ngx_pool_t × Oracle)
  | 0, p, o => some ([], p, o)
  | n + 1, p, o =>
    match ngx_alloc_chain_link L p o with
    | (cl, p1, o1) =>
      if cl = 0 then none
      else
        match alloc_chain_links L n p1 o1 with
        | none => none
        | some (cls, p2, o2) => some (cl :: cls, p2, o2)

/-- What `ngx_chain_update_chains` works on: the pool, the buffer descriptors and the
three chains `*free`, `*busy` and `*out`. -/
structure ChainsState where
  pool : ngx_pool_t
  bufs : BufStore
  free : List ngx_chain_t
  busy : List ngx_chain_t
  out : List ngx_chain_t

/-- The `while (*busy)` loop of `ngx_chain_update_chains`, on the links of `*busy`:
it stops at a buffer of nonzero size; a link whose buffer has another tag goes to the
pool (`ngx_free_chain`, quoted after the function: `cl->next = pool->chain;
pool->chain = cl`); otherwise the buffer is rewound and the link goes to `*free`. -/
def update_chains_loop (tag : Nat) :
    List ngx_chain_t → ngx_pool_t → BufStore → List ngx_chain_t → ChainsState
  | [], p, bufs, free => { pool := p, bufs := bufs, free := free, busy := [], out := [] }
  | cl :: rest, p, bufs, free =>
    if ngx_buf_size (bufs cl.buf) ≠ 0 then
      { pool := p, bufs := bufs, free := free, busy := cl :: rest, out := [] }
    else if (bufs cl.buf).tag ≠ tag then
      update_chains_loop tag rest { p with chain := cl :: p.chain } bufs free
    else
      update_chains_loop tag rest p (Function.update bufs cl.buf (buf_rewind (bufs cl.buf)))
        (cl :: free)

/-- The function `ngx_chain_update_chains(p, free, busy, out, tag)`. -/
def ngx_chain_update_chains (p : ngx_pool_t) (bufs : BufStore)
    (free busy out : List ngx_chain_t) (tag : Nat) : ChainsState :=
  let busy1 :=
    match out with
    | [] => busy
    | _ :: _ =>
      match busy with
      | [] => out
      | _ :: _ => busy ++ out
  update_chains_loop tag busy1 p bufs free

/-- The links of a chain that `ngx_chain_update_chains` takes off the front: those
before the first buffer of nonzero size. -/
def consumed_links (bufs : BufStore) (chain : List ngx_chain_t) : List ngx_chain_t :=
  chain.takeWhile (fun cl => ngx_buf_size (bufs cl.buf) = 0)

/-- The descriptor that `ngx_calloc_buf` hands out: every field zero. -/
def buf_zero : ngx_buf_t :=
  { pos := 0, last := 0, file_pos := 0, file_last := 0, start := 0, end_ := 0, tag := 0,
    file_fd := 0, shadow := 0, temporary := false, memory := false, mmap := false,
    recycled := false, in_file := false, flush := false, sync := false, last_buf := false,
    last_in_chain := false }

/-- The descriptor one pass of the loop of `ngx_create_chain_of_bufs` leaves for the
slice at `p`: zero-filled, then `pos = last = start = p`, `temporary = 1` and
`end = p + size`. -/
def temp_buf_at (p size : Nat) : ngx_buf_t :=
  { buf_zero with pos := p, last := p, temporary := true, start := p, end_ := p + size }

/-- The `for` loop of `ngx_create_chain_of_bufs` with `k` passes to go and the cursor
at `p`; `ngx_calloc_buf(pool)` is `ngx_pcalloc(pool, sizeof(ngx_buf_t))`, as the
comment in `ngx_create_temp_buf` quotes. The first component is `none` when a pass
returns `NULL`, and otherwise the links from this pass on. -/
def create_chain_loop (L : Layout) (size : Nat) :
    Nat → Nat → ngx_pool_t → BufStore → Oracle →
      Option (List ngx_chain_t) × ngx_pool_t × BufStore × Oracle
  | 0, _, pool, bufs, o => (some [], pool, bufs, o)
  | k + 1, p, pool, bufs, o =>
    match ngx_pcalloc L pool L.sizeof_buf o with
    | (b, pool1, o1) =>
      if b = 0 then (none, pool1, bufs, o1)
      else
        let bufs1 := Function.update bufs b (temp_buf_at p size)
        match ngx_alloc_chain_link L pool1 o1 with
        | (cl, pool2, o2) =>
          if cl = 0 then (none, pool2, bufs1, o2)
          else
            match create_chain_loop L size k (p + size) pool2 bufs1 o2 with
            | (none, pool3, bufs3, o3) => (none, pool3, bufs3, o3)
            | (some rest, pool3, bufs3, o3) =>
              (some ({ addr := cl, buf := b } :: rest), pool3, bufs3, o3)

/-- The function `ngx_create_chain_of_bufs(pool, bufs)` for `bufs = {num, size}`; the
product `num * size` is taken in `size_t`. The first component is the chain returned,
empty for `NULL`. -/
def ngx_create_chain_of_bufs (L : Layout) (pool : ngx_pool_t) (bufs : BufStore) (num : Int)
    (size : Nat) (o : Oracle) : List ngx_chain_t × ngx_pool_t × BufStore × Oracle :=
  match ngx_palloc L pool (Int.toNat ((num * (size : Int)) % (L.size_max : Int))) o with
  | (p, pool1, o1) =>
    if p = 0 then ([], pool1, bufs, o1)
    else
      match create_chain_loop L size num.toNat p pool1 bufs o1 with
      | (none, pool2, bufs2, o2) => ([], pool2, bufs2, o2)
      | (some chain, pool2, bufs2, o2) => (chain, pool2, bufs2, o2)

/-- The allocations the loop of `ngx_create_chain_of_bufs` makes in `k` passes, one
`ngx_calloc_buf` and one `ngx_alloc_chain_link` per pass: the pairs of addresses they
return, `none` when one of them returns null. -/
def chain_of_bufs_allocs (L : Layout) :
    Nat → ngx_pool_t → Oracle → Option (List (Nat × Nat) × ngx_pool_t × Oracle)
  | 0, p, o => some ([], p, o)
  | k + 1, p, o =>
    match ngx_pcalloc L p L.sizeof_buf o with
    | (b, p1, o1) =>
      if b = 0 then none
      else
        match ngx_alloc_chain_link L p1 o1 with
        | (cl, p2, o2) =>
          if cl = 0 then none
          else
            match chain_of_bufs_allocs L k p2 o2 with
            | none => none
            | some (prs, p3, o3) => some ((b, cl) :: prs, p3, o3)

/-- Modelled from the spec: the macro `ngx_buf_special(b)` of `ngx_buf.h` is not among
the sources; the spec says "a buffer is special if none of the content flags are set",
the content flags being `temporary`, `memory`, `mmap` and `in_file`. -/
def ngx_buf_special (b : ngx_buf_t) : Bool :=
  !(b.temporary || b.memory || b.mmap || b.in_file)

/-- The cast `(size_t) sent` of an `off_t`. -/
def off_to_size (L : Layout) (sent : Int) : Nat :=
  Int.toNat (sent % (L.size_max : Int))

/-- The buffer after the branch `sent >= size` of `ngx_chain_update_sent`: `pos = last`
when it is in memory, `file_pos = file_last` when it is in a file. -/
def buf_consume (b : ngx_buf_t) : ngx_buf_t :=
  let b1 := if ngx_buf_in_memory b then { b with pos := b.last } else b
  if b1.in_file then { b1 with file_pos := b1.file_last } else b1

/-- The buffer after the last branch of `ngx_chain_update_sent`: `pos += (size_t) sent`
when it is in memory, `file_pos += sent` when it is in a file. -/
def buf_advance (L : Layout) (b : ngx_buf_t) (sent : Int) : ngx_buf_t :=
  let b1 := if ngx_buf_in_memory b then { b with pos := b.pos + off_to_size L sent } else b
  if b1.in_file then { b1 with file_pos := b1.file_pos + sent } else b1

/-- The function `ngx_chain_update_sent(in, sent)`: the link returned, as the rest of
the chain from it on (empty for null), and the buffer descriptors afterwards. -/
def ngx_chain_update_sent (L : Layout) :
    List ngx_chain_t → BufStore → Int → List ngx_chain_t × BufStore
  | [], bufs, _ => ([], bufs)
  | cl :: rest, bufs, sent =>
    if ngx_buf_special (bufs cl.buf) then ngx_chain_update_sent L rest bufs sent
    else if sent = 0 then (cl :: rest, bufs)
    else
      let size := ngx_buf_size (bufs cl.buf)
      if sent ≥ size then
        ngx_chain_update_sent L rest (Function.update bufs cl.buf (buf_consume (bufs cl.buf)))
          (sent - size)
      else
        (cl :: rest, Function.update bufs cl.buf (buf_advance L (bufs cl.buf) sent))

/-- The sum of the remaining sizes `ngx_buf_size` of the buffers of a chain that are
not special. -/
def chain_total (bufs : BufStore) : List ngx_chain_t → Int
  | [] => 0
  | cl :: rest =>
    (if ngx_buf_special (bufs cl.buf) then 0 else ngx_buf_size (bufs cl.buf)) +
      chain_total bufs rest

/-- The conversion of an integer to `off_t`: the value with the same residue modulo
the number of values of `off_t` in the range `-off_half .. off_half - 1`. Every sum and
difference of `off_t` values is taken through it. -/
def off_wrap (L : Layout) (x : Int) : Int :=
  (x + (L.off_half : Int)) % (2 * (L.off_half : Int)) - (L.off_half : Int)

/-- The `do ... while` loop of `ngx_chain_coalesce_file`, entered at the first link of
the chain given, with the running `total`: the total returned and the chain `*in` is
left at. The differences and sums of `off_t` values wrap around. In
`(file_pos + size + ngx_pagesize - 1) & ~((off_t) ngx_pagesize - 1)` the variable
`ngx_pagesize` is an `ngx_uint_t`, so the sum is an unsigned value, taken modulo the
number of values of `off_t`; the mask, for a page size that is a power of two, rounds
it down to a multiple of the page size; the store to `aligned` converts it to `off_t`. -/
def coalesce_loop (L : Layout) (bufs : BufStore) (fd limit : Int) :
    List ngx_chain_t → Int → Int × List ngx_chain_t
  | [], total => (total, [])
  | cl :: rest, total =>
    let b := bufs cl.buf
    let size := off_wrap L (b.file_last - b.file_pos)
    if size > off_wrap L (limit - total) then
      let size1 := off_wrap L (limit - total)
      let aligned := off_wrap L
        ((b.file_pos + size1 + (L.ngx_pagesize : Int) - 1) % (2 * (L.off_half : Int)) /
          (L.ngx_pagesize : Int) * (L.ngx_pagesize : Int))
      let size2 := if aligned ≤ b.file_last then off_wrap L (aligned - b.file_pos) else size1
      (off_wrap L (total + size2), cl :: rest)
    else
      let total1 := off_wrap L (total + size)
      let fprev := off_wrap L (b.file_pos + size)
      match rest with
      | [] => (total1, [])
      | c2 :: rest2 =>
        if (bufs c2.buf).in_file = true ∧ total1 < limit ∧ fd = (bufs c2.buf).file_fd ∧
            fprev = (bufs c2.buf).file_pos then
          coalesce_loop L bufs fd limit (c2 :: rest2) total1
        else (total1, c2 :: rest2)

/-- The function `ngx_chain_coalesce_file(in, limit)` on a chain `*in` that is not
empty: the total returned and the chain `*in` afterwards. -/
def ngx_chain_coalesce_file (L : Layout) (bufs : BufStore) (in_ : List ngx_chain_t)
    (limit : Int) : Int × List ngx_chain_t :=
  match in_ with
  | [] => (0, [])
  | cl :: rest => coalesce_loop L bufs (bufs cl.buf).file_fd limit (cl :: rest) 0

/-! ## Definitions: arrays -/

/-- The product `a * b` in `size_t`. -/
def size_mul (L : Layout) (a b : Nat) : Nat :=
  (a * b) % L.size_max

/-- The header `ngx_array_t`; the field `pool` is the pool passed along with it. The
counters `nelts` and `nalloc` are of the type `ngx_uint_t`. -/
structure ngx_array_t where
  elts : Nat
  nelts : Nat
  size : Nat
  nalloc : Nat
  deriving DecidableEq, Repr

/-- The bytes of memory, by address. -/
abbrev Mem := Nat → Nat

/-- The call `ngx_memcpy(dst, src, n)`. -/
def ngx_memcpy (mem : Mem) (dst src n : Nat) : Mem :=
  fun x => if dst ≤ x ∧ x < dst + n then mem (src + (x - dst)) else mem x

/-- The function `ngx_array_init(array, pool, n, size)`: the status, the header as it
is left, the pool and the allocator answers. -/
def ngx_array_init (L : Layout) (pool : ngx_pool_t) (n size : Nat) (o : Oracle) :
    Int × ngx_array_t × ngx_pool_t × Oracle :=
  match ngx_palloc L pool (size_mul L n size) o with
  | (elts, pool1, o1) =>
    (if elts = 0 then NGX_ERROR else NGX_OK,
      { elts := elts, nelts := 0, size := size, nalloc := n }, pool1, o1)

/-- The function `ngx_array_create(p, n, size)`: the address of the header with the
header, `none` for `NULL`. -/
def ngx_array_create (L : Layout) (pool : ngx_pool_t) (n size : Nat) (o : Oracle) :
    Option (Nat × ngx_array_t) × ngx_pool_t × Oracle :=
  match ngx_palloc L pool L.sizeof_array o with
  | (a, pool1, o1) =>
    if a = 0 then (none, pool1, o1)
    else
      match ngx_array_init L pool1 n size o1 with
      | (rc, arr, pool2, o2) =>
        if rc ≠ NGX_OK then (none, pool2, o2) else (some (a, arr), pool2, o2)

/-- The function `ngx_array_push(a)`: the address of the new element (null on
failure), the header, the pool, the memory and the allocator answers afterwards. -/
def ngx_array_push (L : Layout) (a : ngx_array_t) (pool : ngx_pool_t) (mem : Mem) (o : Oracle) :
    Nat × ngx_array_t × ngx_pool_t × Mem × Oracle :=
  if a.nelts = a.nalloc then
    let size := size_mul L a.size a.nalloc
    match pool.blocks with
    | [] => (0, a, pool, mem, o)
    | d :: rest =>
      if a.elts + size = d.last ∧ d.last + a.size ≤ d.end_ then
        (a.elts + size_mul L a.size a.nelts,
          { a with nalloc := a.nalloc + 1, nelts := a.nelts + 1 },
          { pool with blocks := { d with last := d.last + a.size } :: rest }, mem, o)
      else
        match ngx_palloc L pool (size_mul L 2 size) o with
        | (new, pool1, o1) =>
          if new = 0 then (0, a, pool1, mem, o1)
          else
            (new + size_mul L a.size a.nelts,
              { a with elts := new, nalloc := a.nalloc * 2, nelts := a.nelts + 1 },
              pool1, ngx_memcpy mem new a.elts size, o1)
  else
    (a.elts + size_mul L a.size a.nelts, { a with nelts := a.nelts + 1 }, pool, mem, o)

/-- The function `ngx_array_push_n(a, n)`. The sums `a->nelts + n` and
`a->nalloc + n` and the product `2 * ((n >= a->nalloc) ? n : a->nalloc)` are taken in
`ngx_uint_t`, modulo `uint_max`. -/
def ngx_array_push_n (L : Layout) (a : ngx_array_t) (n : Nat) (pool : ngx_pool_t) (mem : Mem)
    (o : Oracle) : Nat × ngx_array_t × ngx_pool_t × Mem × Oracle :=
  let size := size_mul L n a.size
  if (a.nelts + n) % L.uint_max > a.nalloc then
    match pool.blocks with
    | [] => (0, a, pool, mem, o)
    | d :: rest =>
      if a.elts + size_mul L a.size a.nalloc = d.last ∧ d.last + size ≤ d.end_ then
        (a.elts + size_mul L a.size a.nelts,
          { a with nalloc := (a.nalloc + n) % L.uint_max, nelts := (a.nelts + n) % L.uint_max },
          { pool with blocks := { d with last := d.last + size } :: rest }, mem, o)
      else
        let nalloc := (2 * (if n ≥ a.nalloc then n else a.nalloc)) % L.uint_max
        match ngx_palloc L pool (size_mul L nalloc a.size) o with
        | (new, pool1, o1) =>
          if new = 0 then (0, a, pool1, mem, o1)
          else
            (new + size_mul L a.size a.nelts,
              { a with elts := new, nalloc := nalloc, nelts := (a.nelts + n) % L.uint_max },
              pool1, ngx_memcpy mem new a.elts (size_mul L a.nelts a.size), o1)
  else
    (a.elts + size_mul L a.size a.nelts, { a with nelts := (a.nelts + n) % L.uint_max }, pool,
      mem, o)

/-- One step of a user of an array: a push, a push of `n` elements, or another
allocation from the pool of the array. -/
inductive ArrayOp where
  | push
  | push_n (n : Nat)
  | palloc (size : Nat)
  | pnalloc (size : Nat)
  deriving DecidableEq, Repr

/-- The array, the pool, the memory and the allocator answers. -/
structure ArrayState where
  a : ngx_array_t
  pool : ngx_pool_t
  mem : Mem
  o : Oracle

/-- The state after one step. -/
def ArrayOp.apply (L : Layout) : ArrayOp → ArrayState → ArrayState
  | .push, s =>
    match ngx_array_push L s.a s.pool s.mem s.o with
    | (_, a, pool, mem, o) => { a := a, pool := pool, mem := mem, o := o }
  | .push_n n, s =>
    match ngx_array_push_n L s.a n s.pool s.mem s.o with
    | (_, a, pool, mem, o) => { a := a, pool := pool, mem := mem, o := o }
  | .palloc size, s =>
    match ngx_palloc L s.pool size s.o with
    | (_, pool, o) => { s with pool := pool, o := o }
  | .pnalloc size, s =>
    match ngx_pnalloc L s.pool size s.o with
    | (_, pool, o) => { s with pool := pool, o := o }

/-- The state after a sequence of steps. -/
def run_array_ops (L : Layout) (ops : List ArrayOp) (s : ArrayState) : ArrayState :=
  ops.foldl (fun s op => op.apply L s) s

/-- The number of elements that a sequence of steps asks for: one for a push and `n`
for a push of `n` elements. -/
def array_ops_elts : List ArrayOp → Nat
  | [] => 0
  | .push :: rest => 1 + array_ops_elts rest
  | .push_n n :: rest => n + array_ops_elts rest
  | .palloc _ :: rest => array_ops_elts rest
  | .pnalloc _ :: rest => array_ops_elts rest

/-- A part `ngx_list_part_t`: the address `elts` of its elements and the count `nelts`;
`next` is the position in the list of parts. -/
structure ngx_list_part_t where
  elts : Nat
  nelts : Nat
  deriving DecidableEq, Repr

/-- The header `ngx_list_t`: the parts from the inline first part `part` on, the last
of them being `*last`, with `size` and `nalloc`; the field `pool` is the pool passed
along with it. The counter `nelts` is taken without wrap-around. -/
structure ngx_list_t where
  parts : List ngx_list_part_t
  size : Nat
  nalloc : Nat
  deriving DecidableEq, Repr

/-- The function `ngx_list_init(list, pool, n, size)`: the header as it is left, `none`
for `NGX_ERROR`. -/
def ngx_list_init (L : Layout) (pool : ngx_pool_t) (n size : Nat) (o : Oracle) :
    Option ngx_list_t × ngx_pool_t × Oracle :=
  match ngx_palloc L pool (size_mul L n size) o with
  | (elts, pool1, o1) =>
    if elts = 0 then (none, pool1, o1)
    else (some { parts := [{ elts := elts, nelts := 0 }], size := size, nalloc := n }, pool1, o1)

/-- The function `ngx_list_create(pool, n, size)`: the address of the header with the
header, `none` for `NULL`. -/
def ngx_list_create (L : Layout) (pool : ngx_pool_t) (n size : Nat) (o : Oracle) :
    Option (Nat × ngx_list_t) × ngx_pool_t × Oracle :=
  match ngx_palloc L pool L.sizeof_list o with
  | (list, pool1, o1) =>
    if list = 0 then (none, pool1, o1)
    else
      match ngx_list_init L pool1 n size o1 with
      | (none, pool2, o2) => (none, pool2, o2)
      | (some l, pool2, o2) => (some (list, l), pool2, o2)

/-- The function `ngx_list_push(l)`: the address of the new element (null on failure),
the header, the pool and the allocator answers afterwards. -/
def ngx_list_push (L : Layout) (l : ngx_list_t) (pool : ngx_pool_t) (o : Oracle) :
    Nat × ngx_list_t × ngx_pool_t × Oracle :=
  match l.parts.getLast? with
  | none => (0, l, pool, o)
  | some last =>
    if last.nelts = l.nalloc then
      match ngx_palloc L pool L.sizeof_list_part o with
      | (part, pool1, o1) =>
        if part = 0 then (0, l, pool1, o1)
        else
          match ngx_palloc L pool1 (size_mul L l.nalloc l.size) o1 with
          | (elts, pool2, o2) =>
            if elts = 0 then (0, l, pool2, o2)
            else
              (elts + size_mul L l.size 0,
                { l with parts := l.parts ++ [{ elts := elts, nelts := 0 + 1 }] }, pool2, o2)
    else
      (last.elts + size_mul L l.size last.nelts,
        { l with parts := l.parts.dropLast ++ [{ last with nelts := last.nelts + 1 }] }, pool, o)

/-- The loop of "the iteration through the list" in the comment of `ngx_list.h`, from
the part `part` with the index `i`, run for at most `fuel` passes: the addresses of the
elements `data[i]` it visits, an element taking `size` bytes. -/
def list_iterate (size : Nat) : Nat → ngx_list_part_t → List ngx_list_part_t → Nat → List Nat
  | 0, _, _, _ => []
  | fuel + 1, part, rest, i =>
    if i ≥ part.nelts then
      match rest with
      | [] => []
      | part1 :: rest1 => (part1.elts + 0 * size) :: list_iterate size fuel part1 rest1 (0 + 1)
    else (part.elts + i * size) :: list_iterate size fuel part rest (i + 1)

/-- The iteration through the list of the comment in `ngx_list.h`, which starts with
`part = &list.part` and `i = 0`. -/
def ngx_list_iterate (fuel : Nat) (l : ngx_list_t) : List Nat :=
  match l.parts with
  | [] => []
  | part :: rest => list_iterate l.size fuel part rest 0

/-- As the spec words it, the inner iteration over `[0, part.count)`: the addresses of
the elements of one part. -/
def part_slots (size : Nat) (pt : ngx_list_part_t) : List Nat :=
  (List.range pt.nelts).map (fun i => pt.elts + i * size)

/-- As the spec words it, the nested iteration: outer over the parts via `next`, inner
over `[0, part.count)`. -/
def list_slots (l : ngx_list_t) : List Nat :=
  l.parts.flatMap (part_slots l.size)

/-- A caller that pushes `k` elements: the addresses returned, in push order, `none`
when a push returns null. -/
def list_push_all (L : Layout) :
    Nat → ngx_list_t → ngx_pool_t → Oracle → Option (List Nat × ngx_list_t × ngx_pool_t × Oracle)
  | 0, l, pool, o => some ([], l, pool, o)
  | k + 1, l, pool, o =>
    match ngx_list_push L l pool o with
    | (elt, l1, pool1, o1) =>
      if elt = 0 then none
      else
        match list_push_all L k l1 pool1 o1 with
        | none => none
        | some (elts, l2, pool2, o2) => some (elt :: elts, l2, pool2, o2)

/-- The regions of the elements of the parts of a list of per-part capacity `n` and
element size `size`. -/
def part_regions (n size : Nat) (parts : List ngx_list_part_t) : List (Nat × Nat) :=
  parts.map (fun pt => (pt.elts, n * size))

/-- What holds of a list of per-part capacity `n >= 1` between pushes: no part holds
more than `n` elements, every part but the last is full, every part but the first holds
an element, and the regions of the parts are in the ledger of the pool. -/
def ListInv (D n size : Nat) (l : ngx_list_t) (pool : ngx_pool_t) (o : Oracle) : Prop :=
  l.size = size ∧ l.nalloc = n ∧ l.parts ≠ [] ∧ (∀ pt ∈ l.parts, pt.nelts ≤ n) ∧
    (∀ pt ∈ l.parts.dropLast, pt.nelts = n) ∧ (∀ pt ∈ l.parts.tail, 1 ≤ pt.nelts) ∧
    Ledger D pool o (part_regions n size l.parts)

/-! ## Definitions: queues -/

/-- The memory that holds queue nodes `ngx_queue_t`: the fields `prev` and `next` of
the node at each address. -/
structure QHeap where
  prev : Nat → Nat
  next : Nat → Nat

/-- The macro `ngx_queue_remove(x)`, in the variant without `NGX_DEBUG`. -/
def ngx_queue_remove (h : QHeap) (x : Nat) : QHeap :=
  let h1 : QHeap := { h with prev := Function.update h.prev (h.next x) (h.prev x) }
  { h1 with next := Function.update h1.next (h1.prev x) (h1.next x) }

/-- The macro `ngx_queue_insert_head(h, x)`, with `hd` for the node `h`. -/
def ngx_queue_insert_head (h : QHeap) (hd x : Nat) : QHeap :=
  let h1 : QHeap := { h with next := Function.update h.next x (h.next hd) }
  let h2 : QHeap := { h1 with prev := Function.update h1.prev (h1.next x) x }
  let h3 : QHeap := { h2 with prev := Function.update h2.prev x hd }
  { h3 with next := Function.update h3.next hd x }

/-- The macro `ngx_queue_insert_after`, defined as `ngx_queue_insert_head`. -/
def ngx_queue_insert_after (h : QHeap) (hd x : Nat) : QHeap :=
  ngx_queue_insert_head h hd x

/-- The macro `ngx_queue_split(h, q, n)`, with `hd` for the node `h`. -/
def ngx_queue_split (h : QHeap) (hd q n : Nat) : QHeap :=
  let h1 : QHeap := { h with prev := Function.update h.prev n (h.prev hd) }
  let h2 : QHeap := { h1 with next := Function.update h1.next (h1.prev n) n }
  let h3 : QHeap := { h2 with next := Function.update h2.next n q }
  let h4 : QHeap := { h3 with prev := Function.update h3.prev hd (h3.prev q) }
  let h5 : QHeap := { h4 with next := Function.update h4.next (h4.prev hd) hd }
  { h5 with prev := Function.update h5.prev q n }

/-- The `for ( ;; )` loop of `ngx_queue_middle`, run for at most `fuel` passes. -/
def queue_middle_loop (h : QHeap) (queue : Nat) : Nat → Nat → Nat → Option Nat
  | 0, _, _ => none
  | fuel + 1, middle, next =>
    let middle1 := h.next middle
    let next1 := h.next next
    if next1 = h.prev queue then some middle1
    else
      let next2 := h.next next1
      if next2 = h.prev queue then some middle1
      else queue_middle_loop h queue fuel middle1 next2

/-- The function `ngx_queue_middle(queue)`, its loop run for at most `fuel` passes;
`none` when the passes do not suffice. -/
def ngx_queue_middle (fuel : Nat) (h : QHeap) (queue : Nat) : Option Nat :=
  let middle := h.next queue
  if middle = h.prev queue then some middle
  else queue_middle_loop h queue fuel middle (h.next queue)

/-- The `do ... while` loop of `ngx_queue_sort` for the node `q`, entered with `prev`
and run for at most `fuel` passes: the node `q` is to be inserted after. -/
def queue_sort_inner (h : QHeap) (cmp : Nat → Nat → Int) (queue q : Nat) :
    Nat → Nat → Option Nat
  | 0, _ => none
  | fuel + 1, prev =>
    if cmp prev q ≤ 0 then some prev
    else
      let prev1 := h.prev prev
      if prev1 ≠ queue then queue_sort_inner h cmp queue q fuel prev1 else some prev1

/-- The `for` loop of `ngx_queue_sort` from the node `q` on, run for at most `fuel`
passes, its inner loop for at most `ifuel` passes each time. -/
def queue_sort_outer (cmp : Nat → Nat → Int) (queue ifuel : Nat) :
    Nat → QHeap → Nat → Option QHeap
  | 0, _, _ => none
  | fuel + 1, h, q =>
    if q = queue then some h
    else
      let prev := h.prev q
      let next := h.next q
      let h1 := ngx_queue_remove h q
      match queue_sort_inner h1 cmp queue q ifuel prev with
      | none => none
      | some p => queue_sort_outer cmp queue ifuel fuel (ngx_queue_insert_after h1 p q) next

/-- The function `ngx_queue_sort(queue, cmp)`, each of its loops run for at most `fuel`
passes; `none` when the passes do not suffice. -/
def ngx_queue_sort (fuel : Nat) (cmp : Nat → Nat → Int) (h : QHeap) (queue : Nat) :
    Option QHeap :=
  let q := h.next queue
  if q = h.prev queue then some h
  else queue_sort_outer cmp queue fuel fuel h (h.next q)

/-- The `next` fields link `a`, the nodes of the list and `e` in a row. -/
def Seg (next : Nat → Nat) : Nat → List Nat → Nat → Prop
  | a, [], e => next a = e
  | a, x :: xs, e => next a = x ∧ Seg next x xs e

/-- The `prev` fields link `e`, the nodes of the list in reverse and `a` in a row. -/
def PSeg (prev : Nat → Nat) : Nat → List Nat → Nat → Prop
  | a, [], e => prev e = a
  | a, x :: xs, e => prev x = a ∧ PSeg prev x xs e

/-- The last node of `a :: l`. -/
def last_of : Nat → List Nat → Nat
  | a, [] => a
  | _, x :: xs => last_of x xs

/-- The first node of `l ++ [e]`. -/
def head_of : List Nat → Nat → Nat
  | [], e => e
  | x :: _, _ => x

/-- The `next` fields link the nodes of the list and `e` in a row. -/
def SegT (next : Nat → Nat) : List Nat → Nat → Prop
  | [], _ => True
  | x :: xs, e => Seg next x xs e

/-- The `prev` fields link `e` and the nodes of the list in reverse in a row. -/
def PSegT (prev : Nat → Nat) : List Nat → Nat → Prop
  | [], _ => True
  | x :: xs, e => PSeg prev x xs e

instance decSeg (next : Nat → Nat) : ∀ (l : List Nat) (a e : Nat), Decidable (Seg next a l e)
  | [], a, e => inferInstanceAs (Decidable (next a = e))
  | x :: xs, _, e => @instDecidableAnd _ _ _ (decSeg next xs x e)

instance decPSeg (prev : Nat → Nat) : ∀ (l : List Nat) (a e : Nat), Decidable (PSeg prev a l e)
  | [], a, e => inferInstanceAs (Decidable (prev e = a))
  | x :: xs, _, e => @instDecidableAnd _ _ _ (decPSeg prev xs x e)

/-- A well-formed queue: the sentinel `q` and the nodes `xs`, in order, are pairwise
distinct and linked in a circle through `next`, and back through `prev`. -/
def IsQueue (h : QHeap) (q : Nat) (xs : List Nat) : Prop :=
  (q :: xs).Nodup ∧ Seg h.next q xs q ∧ PSeg h.prev q xs q

instance (h : QHeap) (q : Nat) (xs : List Nat) : Decidable (IsQueue h q xs) := by
  unfold IsQueue; infer_instance

/-- The queue that follows the `next` fields from the sentinel `queue`, for at most
`fuel` nodes. -/
def queue_nodes (h : QHeap) (queue : Nat) : Nat → Nat → List Nat
  | 0, _ => []
  | fuel + 1, x => if h.next x = queue then [] else h.next x :: queue_nodes h queue fuel (h.next x)

/-- A heap in which the sentinel `q` and the nodes `xs` form a queue, every other
address holding a node linked to itself. -/
def queue_of (q : Nat) (xs : List Nat) : QHeap :=
  { next := fun a =>
      match (q :: xs).indexOf? a with
      | none => a
      | some i => ((xs ++ [q]).getD i a),
    prev := fun a =>
      match (xs ++ [q]).indexOf? a with
      | none => a
      | some i => ((q :: xs).getD i a) }

/-- The insertion of `x` into a list given back to front: before the first element
`e` with `cmp e x ≤ 0`. -/
def rinsert (cmp : Nat → Nat → Int) (x : Nat) : List Nat → List Nat
  | [] => [x]
  | e :: r => if cmp e x ≤ 0 then x :: e :: r else e :: rinsert cmp x r

/-- The insertion of `x` into a list: after the last element `e` with `cmp e x ≤ 0`,
at the front when there is none. -/
def insert_back (cmp : Nat → Nat → Int) (x : Nat) (l : List Nat) : List Nat :=
  (rinsert cmp x l.reverse).reverse

/-- The insertion sort on lists: each element after the first is taken in turn and
inserted among those before it. -/
def sort_list (cmp : Nat → Nat → Int) : List Nat → List Nat
  | [] => []
  | y :: ys => ys.foldl (fun l x => insert_back cmp x l) [y]

/-! ## Definitions: the run of file links that `ngx_chain_coalesce_file` may take -/

/-- The size `file_last - file_pos` of the file range of a buffer. -/
def file_size (b : ngx_buf_t) : Int :=
  b.file_last - b.file_pos

/-- The sum of the sizes `file_last - file_pos` of the buffers of a chain. -/
def chain_file_size (bufs : BufStore) : List ngx_chain_t → Int
  | [] => 0
  | cl :: rest => file_size (bufs cl.buf) + chain_file_size bufs rest

/-- As the spec words it, the links that continue a run of file-backed links: each is
in a file, has the file descriptor `fd`, and its `file_pos` equals `fprev`, the
`file_pos` of the link before plus its size. -/
def file_run_tail (bufs : BufStore) (fd : Int) : Int → List ngx_chain_t → List ngx_chain_t
  | _, [] => []
  | fprev, cl :: rest =>
    if (bufs cl.buf).in_file = true ∧ fd = (bufs cl.buf).file_fd ∧
        fprev = (bufs cl.buf).file_pos then
      cl :: file_run_tail bufs fd ((bufs cl.buf).file_pos + file_size (bufs cl.buf)) rest
    else []

/-- As the spec words it, the maximal leading run of a chain: the first link, followed
by the links that share its file descriptor and have contiguous file offsets. -/
def file_run (bufs : BufStore) : List ngx_chain_t → List ngx_chain_t
  | [] => []
  | cl :: rest =>
    cl :: file_run_tail bufs (bufs cl.buf).file_fd
      ((bufs cl.buf).file_pos + file_size (bufs cl.buf)) rest

/-! ## Definitions: the `next` fields of chain links -/

/-- The fields `next` of the links `ngx_chain_t` in memory, by the address of the link;
null is `0`. -/
abbrev NextStore := Nat → Nat

/-- The address of the first link of a chain, null for the empty chain. -/
def chain_head : List ngx_chain_t → Nat
  | [] => 0
  | cl :: _ => cl.addr

/-- The `next` fields in memory are those of the chain: every link points to its
successor, the last link to null. -/
def chain_linked (next : NextStore) : List ngx_chain_t → Prop
  | [] => True
  | cl :: rest => next cl.addr = chain_head rest ∧ chain_linked next rest

instance decChainLinked (next : NextStore) : ∀ (c : List ngx_chain_t), Decidable (chain_linked next c)
  | [] => isTrue trivial
  | _ :: rest => @instDecidableAnd _ _ _ (decChainLinked next rest)

/-- The function `ngx_alloc_chain_link(pool)` with the `next` fields of the links in
view. With a link `cl` on the freelist it executes `pool->chain = cl->next; return cl;`
and stores to no link, so the fields are as before; the memory that `ngx_palloc` hands
out for a new link is not written either. -/
def ngx_alloc_chain_link_next (L : Layout) (next : NextStore) (pool : ngx_pool_t) (o : Oracle) :
    Nat × NextStore × ngx_pool_t × Oracle :=
  match pool.chain with
  | cl :: rest => (cl.addr, next, { pool with chain := rest }, o)
  | [] =>
    match ngx_palloc L pool L.sizeof_chain o with
    | (cl, pool1, o1) => (cl, next, pool1, o1)

/-! ## Definitions: example states -/

/-- A pool whose large list holds two records in use, with raw pointers 12288 and 20480. -/
def pool_two_large : ngx_pool_t :=
  { blocks := [{ addr := 1024, last := 1136, end_ := 9216, failed := 0 }], max := 4095,
    current := 0, chain := [],
    large := [{ addr := 1120, alloc := 12288 }, { addr := 1104, alloc := 20480 }],
    cleanup := [] }

/-- The pool `ngx_create_pool(1024, log)` makes at address 1024. -/
def pool_fresh : ngx_pool_t :=
  { blocks := [{ addr := 1024, last := 1104, end_ := 2048, failed := 0 }], max := 944,
    current := 0, chain := [], large := [], cleanup := [] }

/-- The pool `pool_fresh` after a registration with handler 11, `ngx_reset_pool` and a
registration with handler 13: both records of the cleanup list are at the address
1104, which the pool handed out twice, and hold what the second registration wrote. -/
def pool_cleanup_cycle : ngx_pool_t :=
  { blocks := [{ addr := 1024, last := 1128, end_ := 2048, failed := 0 }], max := 944,
    current := 0, chain := [], large := [],
    cleanup := [{ addr := 1104, handler := 13, data := 0 },
                { addr := 1104, handler := 13, data := 0 }] }

/-- The pool `pool_fresh` after nine `palloc(100)`: 12 bytes are left in its block. -/
def pool_nine_allocs : ngx_pool_t :=
  { blocks := [{ addr := 1024, last := 2036, end_ := 2048, failed := 0 }], max := 944,
    current := 0, chain := [], large := [], cleanup := [] }

/-- The pool `pool_nine_allocs` after a tenth `palloc(100)`, which appended a block at
address 4096 and returned 4128, the first byte after that block's header. -/
def pool_two_blocks : ngx_pool_t :=
  { blocks := [{ addr := 1024, last := 2036, end_ := 2048, failed := 0 },
               { addr := 4096, last := 4228, end_ := 5120, failed := 0 }], max := 944,
    current := 0, chain := [], large := [], cleanup := [] }

/-- A temporary buffer of 64 bytes at `start`, with tag `tag`, holding the data
between `pos` and `last`. -/
def temp_buf_64 (start pos last tag : Nat) : ngx_buf_t :=
  { pos := pos, last := last, file_pos := 0, file_last := 0, start := start,
    end_ := start + 64, tag := tag, file_fd := 0, shadow := 0, temporary := true,
    memory := false, mmap := false, recycled := false, in_file := false, flush := false,
    sync := false, last_buf := false, last_in_chain := false }

/-- Two buffers of tag 7 at the addresses 100 and 200, both filled and sent in full
(`pos = last = end`). -/
def bufs_two_sent : BufStore := fun a =>
  if a = 100 then temp_buf_64 5000 5064 5064 7
  else if a = 200 then temp_buf_64 6000 6064 6064 7
  else temp_buf_64 0 0 0 0

/-- Three buffers at the addresses 100, 200 and 300: the first of tag 7 and the second
of tag 9 are sent in full, the third of tag 7 has 24 bytes left. -/
def bufs_one_pending : BufStore := fun a =>
  if a = 100 then temp_buf_64 5000 5064 5064 7
  else if a = 200 then temp_buf_64 6000 6064 6064 9
  else if a = 300 then temp_buf_64 7000 7040 7064 7
  else temp_buf_64 0 0 0 0

/-- The pool `pool_fresh` with one link, at address 900, on its chain-link freelist. -/
def pool_one_free_link : ngx_pool_t :=
  { blocks := [{ addr := 1024, last := 1104, end_ := 2048, failed := 0 }], max := 944,
    current := 0, chain := [{ addr := 900, buf := 100 }], large := [], cleanup := [] }

/-- The pool `pool_one_free_link` after two calls of `ngx_alloc_chain_link`: the
freelist is used up and 16 bytes were taken from the block. -/
def pool_two_links_taken : ngx_pool_t :=
  { blocks := [{ addr := 1024, last := 1120, end_ := 2048, failed := 0 }], max := 944,
    current := 0, chain := [], large := [], cleanup := [] }

/-- The pool `pool_fresh` after `ngx_palloc(pool, 48)` returned 1104. -/
def pool_region_48 : ngx_pool_t :=
  { blocks := [{ addr := 1024, last := 1152, end_ := 2048, failed := 0 }], max := 944,
    current := 0, chain := [], large := [], cleanup := [] }

/-- The pool `pool_region_48` after three descriptors and three links were taken. -/
def pool_three_bufs : ngx_pool_t :=
  { blocks := [{ addr := 1024, last := 1440, end_ := 2048, failed := 0 }], max := 944,
    current := 0, chain := [], large := [], cleanup := [] }

/-- A buffer in a file: descriptor `fd`, file range from `fp` to `fl`. -/
def file_buf (fd fp fl : Int) : ngx_buf_t :=
  { buf_zero with in_file := true, file_fd := fd, file_pos := fp, file_last := fl }

/-- Two buffers of the file 3 at the addresses 100 and 200, with the contiguous ranges
from 0 to 10000 and from 10000 to 12000. -/
def bufs_file_two : BufStore := fun a =>
  if a = 100 then file_buf 3 0 10000
  else if a = 200 then file_buf 3 10000 12000
  else buf_zero

/-- A memory of zero bytes. -/
def mem_zero : Mem := fun _ => 0

/-- The pool `pool_fresh` after `ngx_array_create(pool, 4, 8)`: the header is at 1104
and the element region from 1144 ends at the cursor 1176. -/
def pool_array_made : ngx_pool_t :=
  { blocks := [{ addr := 1024, last := 1176, end_ := 2048, failed := 0 }], max := 944,
    current := 0, chain := [], large := [], cleanup := [] }

/-- The array that `ngx_array_create(pool, 4, 8)` makes on `pool_fresh`. -/
def array_made : ngx_array_t :=
  { elts := 1144, nelts := 0, size := 8, nalloc := 4 }

/-- Eight queue nodes, at the addresses 101 to 108. -/
def nodes8 : List Nat := [101, 102, 103, 104, 105, 106, 107, 108]

/-- The queue with the sentinel 100 and the nodes `nodes8`. -/
def queue8 : QHeap := queue_of 100 nodes8

/-- The keys 3, 1, 4, 1, 5, 9, 2, 6 of the structures that hold the nodes `nodes8`. -/
def key8 (a : Nat) : Int :=
  ([3, 1, 4, 1, 5, 9, 2, 6] : List Int).getD (a - 101) 0

/-- The comparison of two nodes by their keys. -/
def cmp8 (a b : Nat) : Int :=
  key8 a - key8 b

/-- A pool whose large list holds six records: the first four are in use, the fifth
has a null raw pointer, the sixth is in use. -/
def pool_five_large : ngx_pool_t :=
  { blocks := [{ addr := 1024, last := 1200, end_ := 9216, failed := 0 }], max := 4095,
    current := 0, chain := [],
    large := [{ addr := 1184, alloc := 65536 }, { addr := 1168, alloc := 61440 },
              { addr := 1152, alloc := 57344 }, { addr := 1136, alloc := 53248 },
              { addr := 1120, alloc := 0 }, { addr := 1104, alloc := 45056 }],
    cleanup := [] }

/-- A pool whose large list holds six records: the first five are in use and the sixth
has a null raw pointer. -/
def pool_six_large : ngx_pool_t :=
  { blocks := [{ addr := 1024, last := 1200, end_ := 9216, failed := 0 }], max := 4095,
    current := 0, chain := [],
    large := [{ addr := 1184, alloc := 65536 }, { addr := 1168, alloc := 61440 },
              { addr := 1152, alloc := 57344 }, { addr := 1136, alloc := 53248 },
              { addr := 1120, alloc := 49152 }, { addr := 1104, alloc := 0 }],
    cleanup := [] }

/-- A pool of three blocks with `current` at the head block: the counters `failed` of
the first two blocks are 5 and 4, and no block has room for 100 bytes. -/
def pool_three_blocks : ngx_pool_t :=
  { blocks := [{ addr := 1024, last := 2036, end_ := 2048, failed := 5 },
               { addr := 4096, last := 5108, end_ := 5120, failed := 4 },
               { addr := 8192, last := 9204, end_ := 9216, failed := 0 }], max := 944,
    current := 0, chain := [], large := [], cleanup := [] }

/-- The pool `pool_fresh` with two links, at the addresses 900 and 950, on its
chain-link freelist. -/
def pool_two_free_links : ngx_pool_t :=
  { blocks := [{ addr := 1024, last := 1104, end_ := 2048, failed := 0 }], max := 944,
    current := 0, chain := [{ addr := 900, buf := 100 }, { addr := 950, buf := 200 }],
    large := [], cleanup := [] }

/-- The `next` fields of the freelist of `pool_two_free_links`: the link at 900 points
to the link at 950, which points to null. -/
def next_two_free_links : NextStore := fun a =>
  if a = 900 then 950 else 0

/-- Three buffers at the addresses 100, 200 and 300: two contiguous ranges of the file
3, each one page long, from 0 to 4096 and from 4096 to 8192, and a range of the file 4. -/
def bufs_file_pages : BufStore := fun a =>
  if a = 100 then file_buf 3 0 4096
  else if a = 200 then file_buf 3 4096 8192
  else if a = 300 then file_buf 4 0 500
  else buf_zero

/-- The pool `ngx_create_pool(1024, log)` at 1024 after eight `ngx_palloc(pool, 900)`:
the first fits the head block and each of the others appends a block. -/
def pool_eight_blocks : ngx_pool_t :=
  { blocks := [{ addr := 1024, last := 2004, end_ := 2048, failed := 6 },
               { addr := 4096, last := 5028, end_ := 5120, failed := 5 },
               { addr := 8192, last := 9124, end_ := 9216, failed := 4 },
               { addr := 12288, last := 13220, end_ := 13312, failed := 3 },
               { addr := 16384, last := 17316, end_ := 17408, failed := 2 },
               { addr := 20480, last := 21412, end_ := 21504, failed := 1 },
               { addr := 24576, last := 25508, end_ := 25600, failed := 0 },
               { addr := 28672, last := 29604, end_ := 29696, failed := 0 }],
    max := 944, current := 1, chain := [], large := [], cleanup := [] }

/-- A sequence of calls on a pool: small allocations, one that appends a block, a
`ngx_pfree`, and a large allocation. -/
def ops_mixed : List PoolOp :=
  [PoolOp.palloc 100, PoolOp.pnalloc 7, PoolOp.palloc 900, PoolOp.pfree 5, PoolOp.pcalloc 8,
   PoolOp.palloc 5000, PoolOp.pnalloc 3]

/-- The pool `pool_fresh` after `ngx_list_init(list, pool, 2, 8)`: the 16 bytes of the
first part are taken from 1104. -/
def pool_list_made : ngx_pool_t :=
  { blocks := [{ addr := 1024, last := 1120, end_ := 2048, failed := 0 }], max := 944,
    current := 0, chain := [], large := [], cleanup := [] }

/-- The list that `ngx_list_init(list, pool, 2, 8)` makes on `pool_fresh`. -/
def list_made : ngx_list_t :=
  { parts := [{ elts := 1104, nelts := 0 }], size := 8, nalloc := 2 }

/-- The list `list_made` after five pushes: two full parts and a part with one element. -/
def list_five_pushed : ngx_list_t :=
  { parts := [{ elts := 1104, nelts := 2 }, { elts := 1144, nelts := 2 },
              { elts := 1184, nelts := 1 }], size := 8, nalloc := 2 }

/-- The pool `pool_list_made` after the five pushes, which took two part headers and
two more element regions. -/
def pool_list_pushed : ngx_pool_t :=
  { blocks := [{ addr := 1024, last := 1200, end_ := 2048, failed := 0 }], max := 944,
    current := 0, chain := [], large := [], cleanup := [] }

/-- The list that `ngx_list_init(list, pool, 2, 0)` makes on `pool_fresh`: elements of
size 0. -/
def list_made_size0 : ngx_list_t :=
  { parts := [{ elts := 1104, nelts := 0 }], size := 0, nalloc := 2 }

/-! ## Theorems -/

/-! ## Lemmas: alignment and size arithmetic -/


theorem le_ngx_align_ptr (p a : Nat) (ha : 0 < a) : p ≤ ngx_align_ptr p a := by
  unfold ngx_align_ptr
  have h1 := Nat.div_add_mod (p + (a - 1)) a
  have h2 := Nat.mod_lt (p + (a - 1)) ha
  have h3 : (p + (a - 1)) / a * a = a * ((p + (a - 1)) / a) := Nat.mul_comm _ _
  omega

theorem ngx_align_ptr_dvd (p a : Nat) : a ∣ ngx_align_ptr p a :=
  Nat.dvd_mul_left _ _

theorem ngx_align_ptr_le_of_dvd (p a e : Nat) (ha : 0 < a) (hd : a ∣ e) (hp : p ≤ e) :
    ngx_align_ptr p a ≤ e := by
  obtain ⟨k, rfl⟩ := hd
  unfold ngx_align_ptr
  have h1 : (p + (a - 1)) / a ≤ k := by
    have : p + (a - 1) < a * (k + 1) := by
      rw [Nat.mul_add, Nat.mul_one]; omega
    have := Nat.div_lt_of_lt_mul this
    omega
  calc (p + (a - 1)) / a * a ≤ k * a := Nat.mul_le_mul_right a h1
    _ = a * k := Nat.mul_comm _ _

theorem ngx_align_ptr_add_of_dvd (m x a : Nat) (ha : 0 < a) (hd : a ∣ m) :
    ngx_align_ptr (m + x) a = m + ngx_align_ptr x a := by
  obtain ⟨k, rfl⟩ := hd
  unfold ngx_align_ptr
  have h : a * k + x + (a - 1) = a * k + (x + (a - 1)) := by omega
  rw [h, Nat.mul_add_div ha, Nat.add_mul, Nat.mul_comm k a]

theorem ptrdiff_to_size_le (L : Layout) (e m : Nat) (h : m ≤ e) :
    ptrdiff_to_size L e m ≤ e - m := by
  unfold ptrdiff_to_size
  rw [if_pos h]
  exact Nat.mod_le _ _

theorem ptrdiff_to_size_eq (L : Layout) (e m : Nat) (h : m ≤ e) (hlt : e - m < L.size_max) :
    ptrdiff_to_size L e m = e - m := by
  unfold ptrdiff_to_size
  rw [if_pos h]
  exact Nat.mod_eq_of_lt hlt


/-! ## Lemmas: the loops of the small allocator -/


theorem ngx_alloc_ok (L : Layout) (o o1 : Oracle) (a : Nat) (h : ngx_alloc o = (a, o1))
    (ho : OracleOK L o) : L.NGX_ALIGNMENT ∣ a ∧ OracleOK L o1 := by
  cases o with
  | nil =>
    simp [ngx_alloc] at h
    obtain ⟨rfl, rfl⟩ := h
    exact ⟨Nat.dvd_zero _, ho⟩
  | cons x xs =>
    simp [ngx_alloc] at h
    obtain ⟨rfl, rfl⟩ := h
    exact ⟨ho _ (List.mem_cons_self _ _), fun a ha => ho a (List.mem_cons_of_mem _ ha)⟩

theorem palloc_small_loop_some (L : Layout) (size : Nat) (al : Bool) :
    ∀ (bs bs1 : List ngx_pool_data_t) (r : Nat),
      palloc_small_loop L size al bs = some (r, bs1) →
      ∃ pre b post, bs = pre ++ b :: post ∧ bs1 = pre ++ { b with last := r + size } :: post ∧
        r = (if al then ngx_align_ptr b.last L.NGX_ALIGNMENT else b.last) ∧
        size ≤ ptrdiff_to_size L b.end_ r := by
  intro bs
  induction bs with
  | nil => intro bs1 r h; simp [palloc_small_loop] at h
  | cons b bs ih =>
    intro bs1 r h
    simp only [palloc_small_loop] at h
    by_cases hfit : size ≤ ptrdiff_to_size L b.end_
        (if al = true then ngx_align_ptr b.last L.NGX_ALIGNMENT else b.last)
    · rw [if_pos hfit] at h
      simp only [Option.some.injEq, Prod.mk.injEq] at h
      obtain ⟨rfl, rfl⟩ := h
      exact ⟨[], b, bs, rfl, rfl, rfl, hfit⟩
    · rw [if_neg hfit] at h
      cases hrec : palloc_small_loop L size al bs with
      | none => rw [hrec] at h; exact absurd h (by simp)
      | some v =>
        obtain ⟨r1, bs2⟩ := v
        rw [hrec] at h
        simp only [Option.some.injEq, Prod.mk.injEq] at h
        obtain ⟨rfl, rfl⟩ := h
        obtain ⟨pre, b0, post, h1, h2, h3, h4⟩ := ih _ _ hrec
        exact ⟨b :: pre, b0, post, by rw [h1]; rfl, by rw [h2]; rfl, h3, h4⟩

theorem palloc_block_loop_mem :
    ∀ (bs : List ngx_pool_data_t) (i cur : Nat) (b1 : ngx_pool_data_t),
      b1 ∈ (palloc_block_loop i cur bs).1 →
      ∃ b ∈ bs, b1.addr = b.addr ∧ b1.last = b.last ∧ b1.end_ = b.end_ := by
  intro bs
  induction bs with
  | nil => intro i cur b1 h; simp [palloc_block_loop] at h
  | cons b bs ih =>
    intro i cur b1 h
    cases bs with
    | nil =>
      simp [palloc_block_loop] at h
      exact ⟨b, List.mem_cons_self _ _, by rw [h], by rw [h], by rw [h]⟩
    | cons b2 bs =>
      simp only [palloc_block_loop, List.mem_cons] at h
      rcases h with h | h
      · exact ⟨b, List.mem_cons_self _ _, by rw [h], by rw [h], by rw [h]⟩
      · obtain ⟨b0, hb0, h0⟩ := ih _ _ b1 (by simpa using h)
        exact ⟨b0, List.mem_cons_of_mem _ hb0, h0⟩

theorem palloc_block_loop_head (b : ngx_pool_data_t) (bs : List ngx_pool_data_t) (i cur : Nat) :
    ∃ b1 bs1, (palloc_block_loop i cur (b :: bs)).1 = b1 :: bs1 ∧
      b1.addr = b.addr ∧ b1.last = b.last ∧ b1.end_ = b.end_ := by
  cases bs with
  | nil => exact ⟨b, [], rfl, rfl, rfl, rfl⟩
  | cons b2 bs => exact ⟨_, _, rfl, rfl, rfl, rfl⟩


/-! ## Lemmas: the small allocator keeps the pool invariant -/


theorem palloc_block_loop_length :
    ∀ (bs : List ngx_pool_data_t) (i cur : Nat),
      (palloc_block_loop i cur bs).1.length = bs.length := by
  intro bs
  induction bs with
  | nil => intro i cur; rfl
  | cons b bs ih =>
    intro i cur
    cases bs with
    | nil => rfl
    | cons b2 bs =>
      simp only [palloc_block_loop, List.length_cons]
      rw [ih]
      rfl

theorem ngx_palloc_block_spec (L : Layout) (hL : L.WF) (S : Nat) (p : ngx_pool_t)
    (size : Nat) (o : Oracle) (hinv : PoolInv L S p) (ho : OracleOK L o)
    (hsz : ngx_align_ptr L.sizeof_pool_data L.NGX_ALIGNMENT + size ≤ S) :
    SmallPost L S p size (ngx_palloc_block L p size o) := by
  obtain ⟨hS, hSa, hmax, hall, d, bs, hblocks, hd⟩ := hinv
  obtain ⟨ha, hlay⟩ := hL
  unfold ngx_palloc_block
  rw [hblocks]
  simp only
  cases halloc : ngx_alloc o with
  | mk m o1 =>
    obtain ⟨hm, ho1⟩ := ngx_alloc_ok L o o1 m halloc ho
    simp only
    by_cases hm0 : m = 0
    · rw [if_pos hm0]
      exact ⟨⟨hS, hSa, hmax, hall, d, bs, hblocks, hd⟩, ho1, rfl, rfl, rfl, rfl,
        fun h => absurd rfl h⟩
    · rw [if_neg hm0]
      have hdOK := hall d (by rw [hblocks]; exact List.mem_cons_self _ _)
      have hpsize : ptrdiff_to_size L d.end_ d.addr = S := by
        rw [ptrdiff_to_size_eq L _ _ (by have := hdOK.2.2.1; omega)
          (by have := hdOK.2.2.1; omega)]
        have := hdOK.2.2.1; omega
      rw [hpsize, ngx_align_ptr_add_of_dvd _ _ _ ha hm, ← hblocks]
      have hpd := le_ngx_align_ptr L.sizeof_pool_data L.NGX_ALIGNMENT ha
      have hnew : BlockOK L S
          { addr := m, last := m + ngx_align_ptr L.sizeof_pool_data L.NGX_ALIGNMENT + size,
            end_ := m + S, failed := 0 } := by
        refine ⟨?_, ?_, rfl, ?_⟩
        · show m + L.sizeof_pool_data ≤ m + ngx_align_ptr _ _ + size
          omega
        · show m + ngx_align_ptr _ _ + size ≤ m + S
          omega
        · exact Nat.dvd_add hm hSa
      refine ⟨⟨hS, hSa, hmax, ?_, ?_⟩, ho1, rfl, rfl, rfl, rfl, ?_⟩
      · intro b1 hb1
        simp only [List.mem_append, List.mem_singleton] at hb1
        rcases hb1 with (hb1 | hb1) | hb1
        · exact hall b1 (List.mem_of_mem_take hb1)
        · obtain ⟨b0, hb0, e1, e2, e3⟩ := palloc_block_loop_mem _ _ _ _ hb1
          have := hall b0 (List.mem_of_mem_drop hb0)
          unfold BlockOK at this ⊢
          rw [e1, e2, e3]
          exact this
        · rw [hb1]; exact hnew
      · show ∃ d1 bs1, List.take p.current p.blocks ++
            (palloc_block_loop p.current p.current (List.drop p.current p.blocks)).1 ++ [_]
              = d1 :: bs1 ∧ d1.addr + L.sizeof_pool ≤ d1.last
        rw [hblocks]
        cases hc : p.current with
        | zero =>
          obtain ⟨b1, bs1, e0, e1, e2, _⟩ := palloc_block_loop_head d bs 0 0
          simp only [List.take_zero, List.drop_zero, List.nil_append]
          rw [e0]
          exact ⟨b1, _, rfl, by rw [e1, e2]; exact hd⟩
        | succ n => exact ⟨d, _, rfl, hd⟩
      · intro _
        refine ⟨(List.take p.current p.blocks ++
            (palloc_block_loop p.current p.current (List.drop p.current p.blocks)).1).length,
          { addr := m, last := m + ngx_align_ptr L.sizeof_pool_data L.NGX_ALIGNMENT + size,
            end_ := m + S, failed := 0 }, ?_, ?_, ?_⟩
        · show (List.take p.current p.blocks ++
            (palloc_block_loop p.current p.current (List.drop p.current p.blocks)).1 ++ [_])[_]?
              = some _
          rw [List.getElem?_append_right (Nat.le_refl _)]
          simp
        · have hlen : (List.take p.current p.blocks ++
              (palloc_block_loop p.current p.current (List.drop p.current p.blocks)).1).length
                = p.blocks.length := by
            rw [List.length_append, palloc_block_loop_length, ← List.length_append,
              List.take_append_drop]
          have hpos : p.blocks.length ≠ 0 := by rw [hblocks]; simp
          unfold header_end
          rw [hlen, if_neg hpos]
          show m + L.sizeof_pool_data ≤ m + ngx_align_ptr _ _
          omega
        · show m + ngx_align_ptr _ _ + size ≤ m + S
          omega

theorem ngx_palloc_small_spec (L : Layout) (hL : L.WF) (S : Nat) (p : ngx_pool_t)
    (size : Nat) (al : Bool) (o : Oracle) (hinv : PoolInv L S p) (ho : OracleOK L o)
    (hsz : ngx_align_ptr L.sizeof_pool_data L.NGX_ALIGNMENT + size ≤ S) :
    SmallPost L S p size (ngx_palloc_small L p size al o) := by
  unfold ngx_palloc_small
  cases hloop : palloc_small_loop L size al (List.drop p.current p.blocks) with
  | none => exact ngx_palloc_block_spec L hL S p size o hinv ho hsz
  | some v =>
    obtain ⟨r, bs1⟩ := v
    obtain ⟨pre, b, post, h1, h2, h3, h4⟩ := palloc_small_loop_some L size al _ _ _ hloop
    obtain ⟨hS, hSa, hmax, hall, d, bs, hblocks, hd⟩ := hinv
    have ha := hL.1
    have hsplit : p.blocks = (List.take p.current p.blocks ++ pre) ++ b :: post := by
      rw [List.append_assoc, ← h1, List.take_append_drop]
    have hbOK : BlockOK L S b := hall b (by rw [hsplit]; simp)
    obtain ⟨hb1, hb2, hb3, hb4⟩ := hbOK
    have hr1 : b.last ≤ r := by
      rw [h3]; split
      · exact le_ngx_align_ptr _ _ ha
      · exact Nat.le_refl _
    have hr2 : r ≤ b.end_ := by
      rw [h3]; split
      · exact ngx_align_ptr_le_of_dvd _ _ _ ha hb4 hb2
      · exact hb2
    have hr3 : r + size ≤ b.end_ := by
      have := ptrdiff_to_size_le L b.end_ r hr2
      omega
    have hnew : BlockOK L S { b with last := r + size } :=
      ⟨by show b.addr + L.sizeof_pool_data ≤ r + size; omega, hr3, hb3, hb4⟩
    have hblocks1 : List.take p.current p.blocks ++ bs1 =
        (List.take p.current p.blocks ++ pre) ++ { b with last := r + size } :: post := by
      rw [h2, List.append_assoc]
    show SmallPost L S p size (r, { p with blocks := List.take p.current p.blocks ++ bs1 }, o)
    rw [hblocks1]
    generalize hA : List.take p.current p.blocks ++ pre = A at hsplit
    refine ⟨⟨hS, hSa, hmax, ?_, ?_⟩, ho, rfl, rfl, rfl, rfl, ?_⟩
    · intro b1 hb1
      simp only [List.mem_append, List.mem_cons] at hb1
      rcases hb1 with hb1 | hb1 | hb1
      · exact hall b1 (by rw [hsplit]; simp [hb1])
      · rw [hb1]; exact hnew
      · exact hall b1 (by rw [hsplit]; simp [hb1])
    · show ∃ d1 bs2, A ++ { b with last := r + size } :: post = d1 :: bs2 ∧
          d1.addr + L.sizeof_pool ≤ d1.last
      cases A with
      | nil =>
        rw [hblocks] at hsplit
        simp only [List.nil_append, List.cons.injEq] at hsplit
        have hdb : b.addr + L.sizeof_pool ≤ b.last := by rw [← hsplit.1]; exact hd
        refine ⟨_, _, rfl, ?_⟩
        show b.addr + L.sizeof_pool ≤ r + size
        omega
      | cons a A1 =>
        rw [hblocks] at hsplit
        simp only [List.cons_append, List.cons.injEq] at hsplit
        exact ⟨a, _, rfl, by rw [← hsplit.1]; exact hd⟩
    · intro _
      refine ⟨A.length, { b with last := r + size }, ?_, ?_, hr3⟩
      · show (A ++ { b with last := r + size } :: post)[A.length]? = some _
        rw [List.getElem?_append_right (Nat.le_refl _)]
        simp
      · unfold header_end
        show b.addr + (if A.length = 0 then L.sizeof_pool else L.sizeof_pool_data) ≤ r
        split
        · rename_i hlen
          have hnil : A = [] := List.length_eq_zero.mp hlen
          rw [hnil, hblocks] at hsplit
          simp only [List.nil_append, List.cons.injEq] at hsplit
          have hdb : b.addr + L.sizeof_pool ≤ b.last := by rw [← hsplit.1]; exact hd
          omega
        · omega

/-! ## Lemmas: every interface call keeps the pool invariant -/

theorem PoolInv_congr (L : Layout) (S : Nat) (p p1 : ngx_pool_t) (hb : p1.blocks = p.blocks)
    (hm : p1.max = p.max) (h : PoolInv L S p) : PoolInv L S p1 := by
  unfold PoolInv at h ⊢
  rw [hb, hm]
  exact h

theorem large_record_fits (L : Layout) (hL : L.WF) (S : Nat) (p : ngx_pool_t)
    (hinv : PoolInv L S p) :
    ngx_align_ptr L.sizeof_pool_data L.NGX_ALIGNMENT + L.sizeof_large ≤ S := by
  have h1 := hL.2
  have h2 := hinv.2.2.1
  omega

theorem small_request_fits (L : Layout) (hL : L.WF) (S : Nat) (p : ngx_pool_t) (size : Nat)
    (hinv : PoolInv L S p) (hs : size ≤ p.max) :
    ngx_align_ptr L.sizeof_pool_data L.NGX_ALIGNMENT + size ≤ S := by
  have h1 := hL.2
  have h2 := hinv.2.2.1
  omega

theorem ngx_pmemalign_inv (L : Layout) (hL : L.WF) (S : Nat) (p : ngx_pool_t)
    (size alignment : Nat) (o : Oracle) (hinv : PoolInv L S p) (ho : OracleOK L o) :
    PoolInv L S (ngx_pmemalign L p size alignment o).2.1 ∧
      OracleOK L (ngx_pmemalign L p size alignment o).2.2 ∧
      (ngx_pmemalign L p size alignment o).2.1.cleanup = p.cleanup := by
  unfold ngx_pmemalign
  cases halloc : ngx_alloc o with
  | mk a o1 =>
    obtain ⟨_, ho1⟩ := ngx_alloc_ok L o o1 a halloc ho
    simp only
    by_cases ha : a = 0
    · rw [if_pos ha]; exact ⟨hinv, ho1, rfl⟩
    · rw [if_neg ha]
      have hs := ngx_palloc_small_spec L hL S p L.sizeof_large true o1 hinv ho1
        (large_record_fits L hL S p hinv)
      cases hres : ngx_palloc_small L p L.sizeof_large true o1 with
      | mk large rest =>
        obtain ⟨pool1, o2⟩ := rest
        rw [hres] at hs
        obtain ⟨h1, h2, h3, _, h5, _, _⟩ := hs
        simp only
        by_cases hl : large = 0
        · rw [if_pos hl]; exact ⟨h1, h2, h5⟩
        · rw [if_neg hl]
          exact ⟨PoolInv_congr L S pool1 _ rfl rfl h1, h2, h5⟩

theorem ngx_palloc_large_inv (L : Layout) (hL : L.WF) (S : Nat) (p : ngx_pool_t)
    (size : Nat) (o : Oracle) (hinv : PoolInv L S p) (ho : OracleOK L o) :
    PoolInv L S (ngx_palloc_large L p size o).2.1 ∧
      OracleOK L (ngx_palloc_large L p size o).2.2 ∧
      (ngx_palloc_large L p size o).2.1.cleanup = p.cleanup := by
  unfold ngx_palloc_large
  cases halloc : ngx_alloc o with
  | mk a o1 =>
    obtain ⟨_, ho1⟩ := ngx_alloc_ok L o o1 a halloc ho
    simp only
    by_cases ha : a = 0
    · rw [if_pos ha]; exact ⟨hinv, ho1, rfl⟩
    · rw [if_neg ha]
      cases hscan : palloc_large_scan a 0 p.large with
      | some ls => exact ⟨PoolInv_congr L S p _ rfl rfl hinv, ho1, rfl⟩
      | none =>
        have hs := ngx_palloc_small_spec L hL S p L.sizeof_large true o1 hinv ho1
          (large_record_fits L hL S p hinv)
        cases hres : ngx_palloc_small L p L.sizeof_large true o1 with
        | mk large rest =>
          obtain ⟨pool1, o2⟩ := rest
          rw [hres] at hs
          obtain ⟨h1, h2, h3, _, h5, _, _⟩ := hs
          simp only
          by_cases hl : large = 0
          · rw [if_pos hl]; exact ⟨h1, h2, h5⟩
          · rw [if_neg hl]
            exact ⟨PoolInv_congr L S pool1 _ rfl rfl h1, h2, h5⟩

theorem ngx_palloc_inv (L : Layout) (hL : L.WF) (S : Nat) (p : ngx_pool_t)
    (size : Nat) (o : Oracle) (hinv : PoolInv L S p) (ho : OracleOK L o) :
    PoolInv L S (ngx_palloc L p size o).2.1 ∧ OracleOK L (ngx_palloc L p size o).2.2 ∧
      (ngx_palloc L p size o).2.1.cleanup = p.cleanup := by
  unfold ngx_palloc
  split
  · rename_i hs
    have h := ngx_palloc_small_spec L hL S p size true o hinv ho
      (small_request_fits L hL S p size hinv hs)
    exact ⟨h.1, h.2.1, h.2.2.2.2.1⟩
  · exact ngx_palloc_large_inv L hL S p size o hinv ho

theorem ngx_pnalloc_inv (L : Layout) (hL : L.WF) (S : Nat) (p : ngx_pool_t)
    (size : Nat) (o : Oracle) (hinv : PoolInv L S p) (ho : OracleOK L o) :
    PoolInv L S (ngx_pnalloc L p size o).2.1 ∧ OracleOK L (ngx_pnalloc L p size o).2.2 := by
  unfold ngx_pnalloc
  split
  · rename_i hs
    have h := ngx_palloc_small_spec L hL S p size false o hinv ho
      (small_request_fits L hL S p size hinv hs)
    exact ⟨h.1, h.2.1⟩
  · have h := ngx_palloc_large_inv L hL S p size o hinv ho
    exact ⟨h.1, h.2.1⟩

theorem ngx_pool_cleanup_add_inv (L : Layout) (hL : L.WF) (S : Nat) (p : ngx_pool_t)
    (size : Nat) (o : Oracle) (hinv : PoolInv L S p) (ho : OracleOK L o) :
    PoolInv L S (ngx_pool_cleanup_add L p size o).2.1 ∧
      OracleOK L (ngx_pool_cleanup_add L p size o).2.2 := by
  unfold ngx_pool_cleanup_add
  have h1 := ngx_palloc_inv L hL S p L.sizeof_cleanup o hinv ho
  cases hres : ngx_palloc L p L.sizeof_cleanup o with
  | mk c rest =>
    obtain ⟨p1, o1⟩ := rest
    rw [hres] at h1
    simp only
    by_cases hc : c = 0
    · rw [if_pos hc]; exact ⟨h1.1, h1.2.1⟩
    · rw [if_neg hc]
      by_cases hsize : size ≠ 0
      · rw [if_pos hsize]
        have h2 := ngx_palloc_inv L hL S p1 size o1 h1.1 h1.2.1
        cases hres2 : ngx_palloc L p1 size o1 with
        | mk data rest2 =>
          obtain ⟨p2, o2⟩ := rest2
          rw [hres2] at h2
          simp only
          by_cases hd : data = 0
          · rw [if_pos hd]; exact ⟨h2.1, h2.2.1⟩
          · rw [if_neg hd]; exact ⟨PoolInv_congr L S p2 _ rfl rfl h2.1, h2.2.1⟩
      · rw [if_neg hsize]; exact ⟨PoolInv_congr L S p1 _ rfl rfl h1.1, h1.2.1⟩

theorem ngx_pfree_blocks (p : ngx_pool_t) (x : Nat) :
    (ngx_pfree p x).2.blocks = p.blocks ∧ (ngx_pfree p x).2.max = p.max := by
  unfold ngx_pfree
  cases pfree_loop x p.large <;> exact ⟨rfl, rfl⟩

theorem ngx_reset_pool_inv (L : Layout) (hL : L.WF) (S : Nat) (p : ngx_pool_t)
    (hinv : PoolInv L S p) : PoolInv L S (ngx_reset_pool L p).1 := by
  obtain ⟨hS, hSa, hmax, hall, d, bs, hblocks, hd⟩ := hinv
  have hpd := le_ngx_align_ptr L.sizeof_pool_data L.NGX_ALIGNMENT hL.1
  have hlay := hL.2
  refine ⟨hS, hSa, hmax, ?_, ?_⟩
  · intro b1 hb1
    simp only [ngx_reset_pool, List.mem_map] at hb1
    obtain ⟨b, hb, rfl⟩ := hb1
    obtain ⟨h1, h2, h3, h4⟩ := hall b hb
    refine ⟨?_, ?_, h3, h4⟩
    · show b.addr + L.sizeof_pool_data ≤ b.addr + L.sizeof_pool
      omega
    · show b.addr + L.sizeof_pool ≤ b.end_
      omega
  · refine ⟨{ d with last := d.addr + L.sizeof_pool, failed := 0 },
      bs.map (fun p => { p with last := p.addr + L.sizeof_pool, failed := 0 }), ?_,
      Nat.le_refl _⟩
    simp only [ngx_reset_pool, hblocks, List.map_cons]

theorem ngx_create_pool_inv (L : Layout) (S : Nat) (o o1 : Oracle) (p : ngx_pool_t)
    (hS : S < L.size_max) (hsz : L.sizeof_pool ≤ S) (hal : L.NGX_ALIGNMENT ∣ S)
    (hpd : L.sizeof_pool_data ≤ L.sizeof_pool)
    (ho : OracleOK L o) (hc : ngx_create_pool L S o = (some p, o1)) :
    PoolInv L S p ∧ OracleOK L o1 := by
  unfold ngx_create_pool at hc
  cases halloc : ngx_alloc o with
  | mk a o2 =>
    obtain ⟨hda, ho2⟩ := ngx_alloc_ok L o o2 a halloc ho
    rw [halloc] at hc
    simp only at hc
    by_cases ha : a = 0
    · rw [if_pos ha] at hc; simp at hc
    · rw [if_neg ha] at hc
      simp only [Prod.mk.injEq, Option.some.injEq] at hc
      obtain ⟨rfl, rfl⟩ := hc
      have hsub : size_sub L S L.sizeof_pool ≤ S - L.sizeof_pool :=
        ptrdiff_to_size_le L S L.sizeof_pool hsz
      refine ⟨⟨hS, hal, ?_, ?_, _, _, rfl, Nat.le_refl _⟩, ho2⟩
      · show (if size_sub L S L.sizeof_pool < L.NGX_MAX_ALLOC_FROM_POOL
          then size_sub L S L.sizeof_pool else L.NGX_MAX_ALLOC_FROM_POOL) + L.sizeof_pool ≤ S
        split <;> omega
      · intro b hb
        simp only [List.mem_singleton] at hb
        rw [hb]
        refine ⟨?_, ?_, rfl, Nat.dvd_add hda hal⟩
        · show a + L.sizeof_pool_data ≤ a + L.sizeof_pool
          omega
        · show a + L.sizeof_pool ≤ a + S
          omega

theorem PoolOp_apply_inv (L : Layout) (hL : L.WF) (S : Nat) (op : PoolOp)
    (st : ngx_pool_t × Oracle) (hinv : PoolInv L S st.1) (ho : OracleOK L st.2) :
    PoolInv L S (op.apply L st).1 ∧ OracleOK L (op.apply L st).2 := by
  obtain ⟨p, o⟩ := st
  cases op with
  | palloc size => exact ⟨(ngx_palloc_inv L hL S p size o hinv ho).1,
      (ngx_palloc_inv L hL S p size o hinv ho).2.1⟩
  | pnalloc size => exact ngx_pnalloc_inv L hL S p size o hinv ho
  | pcalloc size => exact ⟨(ngx_palloc_inv L hL S p size o hinv ho).1,
      (ngx_palloc_inv L hL S p size o hinv ho).2.1⟩
  | pmemalign size alignment => exact ⟨(ngx_pmemalign_inv L hL S p size alignment o hinv ho).1,
      (ngx_pmemalign_inv L hL S p size alignment o hinv ho).2.1⟩
  | pfree x =>
    exact ⟨PoolInv_congr L S p _ (ngx_pfree_blocks p x).1 (ngx_pfree_blocks p x).2 hinv, ho⟩
  | cleanup_add size => exact ngx_pool_cleanup_add_inv L hL S p size o hinv ho
  | reset_pool => exact ⟨ngx_reset_pool_inv L hL S p hinv, ho⟩

theorem run_ops_inv (L : Layout) (hL : L.WF) (S : Nat) (ops : List PoolOp) :
    ∀ (st : ngx_pool_t × Oracle), PoolInv L S st.1 → OracleOK L st.2 →
      PoolInv L S (run_ops L ops st).1 ∧ OracleOK L (run_ops L ops st).2 := by
  induction ops with
  | nil => intro st h1 h2; exact ⟨h1, h2⟩
  | cons op ops ih =>
    intro st h1 h2
    have h := PoolOp_apply_inv L hL S op st h1 h2
    exact ih (op.apply L st) h.1 h.2

/-! ## C1: the block invariant -/

/-- C1 (as stated) fails: a pool created with size 85, which is at least the pool
header size 80 but not a multiple of the alignment 8, is left by `palloc(5)` and
`palloc(1)` with one block whose cursor 1113 is past its end 1109. -/
theorem pool_block_invariant_unaligned_fails :
    ngx_create_pool lp64 85 [1024] =
        (some { blocks := [{ addr := 1024, last := 1104, end_ := 1109, failed := 0 }], max := 5,
                current := 0, chain := [], large := [], cleanup := [] }, []) ∧
      (run_ops lp64 [PoolOp.palloc 5, PoolOp.palloc 1]
          ({ blocks := [{ addr := 1024, last := 1104, end_ := 1109, failed := 0 }], max := 5,
             current := 0, chain := [], large := [], cleanup := [] }, [])).1.blocks =
        [{ addr := 1024, last := 1113, end_ := 1109, failed := 0 }] ∧
      ¬ ((1113 : Nat) ≤ 1109) := by
  refine ⟨by decide, by decide, by decide⟩

/-- C1 (amended): when the creation size is a value of `size_t`, at least the pool
header size and a multiple of `NGX_ALIGNMENT`, and the allocator hands out aligned
addresses, then after any sequence of `palloc`, `pnalloc`, `pcalloc`, `pmemalign`,
`pfree`, `cleanup_add` and `reset_pool` calls with freely chosen arguments every block
`b` of the pool has `block_start(b) ≤ b.last ≤ b.end` and `b.end = block_start(b) + size`. -/
theorem pool_block_invariant (L : Layout) (size : Nat) (o o1 : Oracle) (p : ngx_pool_t)
    (ops : List PoolOp) (hL : L.WF) (hS : size < L.size_max) (hsz : L.sizeof_pool ≤ size)
    (hal : L.NGX_ALIGNMENT ∣ size) (ho : ∀ a ∈ o, L.NGX_ALIGNMENT ∣ a)
    (hc : ngx_create_pool L size o = (some p, o1)) :
    ∀ b ∈ (run_ops L ops (p, o1)).1.blocks,
      b.addr ≤ b.last ∧ b.last ≤ b.end_ ∧ b.end_ = b.addr + size := by
  have hpd : L.sizeof_pool_data ≤ L.sizeof_pool := by
    have h1 := le_ngx_align_ptr L.sizeof_pool_data L.NGX_ALIGNMENT hL.1
    have h2 := hL.2
    omega
  obtain ⟨hinv, ho1⟩ := ngx_create_pool_inv L size o o1 p hS hsz hal hpd ho hc
  have h := (run_ops_inv L hL size ops (p, o1) hinv ho1).1
  intro b hb
  obtain ⟨h1, h2, h3, _⟩ := h.2.2.2.1 b hb
  exact ⟨by omega, h2, h3⟩

/-- C1 witness: a pool of size 1024 at address 1024, eleven `palloc(100)` that
append a second block at 4096, a large allocation, a cleanup and a reset. -/
theorem pool_block_invariant_witness :
    lp64.WF ∧ lp64.NGX_ALIGNMENT ∣ 1024 ∧
      (4096 ≤ 4176 ∧ 4176 ≤ 5120 ∧ 5120 = 4096 + 1024) :=
  ⟨by decide, by decide,
    pool_block_invariant lp64 1024 [1024, 4096, 8192] [4096, 8192]
      { blocks := [{ addr := 1024, last := 1104, end_ := 2048, failed := 0 }], max := 944,
        current := 0, chain := [], large := [], cleanup := [] }
      (List.replicate 11 (PoolOp.palloc 100) ++
        [PoolOp.reset_pool, PoolOp.palloc 5000, PoolOp.cleanup_add 8])
      (by decide) (by decide) (by decide) (by decide) (by decide) (by decide)
      { addr := 4096, last := 4176, end_ := 5120, failed := 0 } (by decide)⟩

/-! ## C2: a small allocation lies inside a block -/

/-- C2 (as stated) fails: the pool created with size 85 at address 1024 is reachable
with its cursor at the block end 1109 (after `palloc(5)`); then `palloc(1)`, with
`1 ≤ max = 5`, returns the non-null address 1112, and the only block of the pool ends
at 1109, before `1112 + 1`. -/
theorem palloc_small_unaligned_escapes :
    ngx_create_pool lp64 85 [1024] =
        (some { blocks := [{ addr := 1024, last := 1104, end_ := 1109, failed := 0 }], max := 5,
                current := 0, chain := [], large := [], cleanup := [] }, []) ∧
      run_ops lp64 [PoolOp.palloc 5]
          ({ blocks := [{ addr := 1024, last := 1104, end_ := 1109, failed := 0 }], max := 5,
             current := 0, chain := [], large := [], cleanup := [] }, []) =
        ({ blocks := [{ addr := 1024, last := 1109, end_ := 1109, failed := 0 }], max := 5,
           current := 0, chain := [], large := [], cleanup := [] }, []) ∧
      ngx_palloc lp64
          { blocks := [{ addr := 1024, last := 1109, end_ := 1109, failed := 0 }], max := 5,
            current := 0, chain := [], large := [], cleanup := [] } 1 [] =
        (1112, { blocks := [{ addr := 1024, last := 1113, end_ := 1109, failed := 0 }], max := 5,
                 current := 0, chain := [], large := [], cleanup := [] }, []) ∧
      ¬ ((1112 : Nat) + 1 ≤ 1109) := by
  refine ⟨by decide, by decide, by decide, by decide⟩

/-- C2 (amended): for a pool reachable from a creation size that is a value of
`size_t`, at least the pool header size and a multiple of `NGX_ALIGNMENT`, with an
allocator that hands out aligned addresses, and for every `s ≤ p.max`: if
`palloc(p, s)` returns `r ≠ null` then some block `b` of the chain after the call has
`header_end(b) ≤ r` and `r + s ≤ b.end`. -/
theorem palloc_small_within_block (L : Layout) (S : Nat) (o0 o o1 : Oracle)
    (p p1 : ngx_pool_t) (s r : Nat) (hL : L.WF) (hS : S < L.size_max)
    (hsz : L.sizeof_pool ≤ S) (hal : L.NGX_ALIGNMENT ∣ S)
    (ho : ∀ a ∈ o0, L.NGX_ALIGNMENT ∣ a) (hreach : Reachable L S o0 p o)
    (hs : s ≤ p.max) (hres : ngx_palloc L p s o = (r, p1, o1)) (hr : r ≠ 0) :
    ∃ i b, p1.blocks[i]? = some b ∧ header_end L i b ≤ r ∧ r + s ≤ b.end_ := by
  have hpd : L.sizeof_pool_data ≤ L.sizeof_pool := by
    have h1 := le_ngx_align_ptr L.sizeof_pool_data L.NGX_ALIGNMENT hL.1
    have h2 := hL.2
    omega
  obtain ⟨p0, o2, ops, hc, hrun⟩ := hreach
  obtain ⟨hinv0, ho2⟩ := ngx_create_pool_inv L S o0 o2 p0 hS hsz hal hpd ho hc
  have h := run_ops_inv L hL S ops (p0, o2) hinv0 ho2
  rw [hrun] at h
  have hpost := ngx_palloc_small_spec L hL S p s true o h.1 h.2
    (small_request_fits L hL S p s h.1 hs)
  unfold ngx_palloc at hres
  rw [if_pos hs] at hres
  rw [hres] at hpost
  exact hpost.2.2.2.2.2.2 hr

/-- C2 witness: in a pool of size 1024 at address 1024 with 904 bytes handed out, the
next `palloc(100)` opens a second block at 4096 and returns 4128, past that block's
header end 4128 and with `4128 + 100` before its end 5120. -/
theorem palloc_small_within_block_witness :
    lp64.WF ∧ lp64.NGX_ALIGNMENT ∣ 1024 ∧
      ∃ i b, ([{ addr := 1024, last := 2036, end_ := 2048, failed := 0 },
               { addr := 4096, last := 4228, end_ := 5120, failed := 0 }] :
                List ngx_pool_data_t)[i]? = some b ∧
        header_end lp64 i b ≤ 4128 ∧ 4128 + 100 ≤ b.end_ :=
  ⟨by decide, by decide,
    palloc_small_within_block lp64 1024 [1024, 4096] [4096] []
      { blocks := [{ addr := 1024, last := 2036, end_ := 2048, failed := 0 }], max := 944,
        current := 0, chain := [], large := [], cleanup := [] }
      { blocks := [{ addr := 1024, last := 2036, end_ := 2048, failed := 0 },
                   { addr := 4096, last := 4228, end_ := 5120, failed := 0 }], max := 944,
        current := 0, chain := [], large := [], cleanup := [] }
      100 4128 (by decide) (by decide) (by decide) (by decide) (by decide)
      ⟨{ blocks := [{ addr := 1024, last := 1104, end_ := 2048, failed := 0 }], max := 944,
         current := 0, chain := [], large := [], cleanup := [] }, [4096],
        List.replicate 9 (PoolOp.palloc 100), by decide, by decide⟩
      (by decide) (by decide) (by decide)⟩

/-! ## C3: a large allocation is recorded exactly once -/

theorem ngx_palloc_block_frame (L : Layout) (p : ngx_pool_t) (size : Nat) (o : Oracle) :
    (ngx_palloc_block L p size o).2.1.large = p.large ∧
      (ngx_palloc_block L p size o).2.1.cleanup = p.cleanup ∧
      (ngx_palloc_block L p size o).2.1.chain = p.chain ∧
      (ngx_palloc_block L p size o).2.1.max = p.max := by
  unfold ngx_palloc_block
  cases p.blocks with
  | nil => exact ⟨rfl, rfl, rfl, rfl⟩
  | cons d bs =>
    cases halloc : ngx_alloc o with
    | mk m o1 =>
      simp only
      by_cases hm : m = 0
      · rw [if_pos hm]; exact ⟨rfl, rfl, rfl, rfl⟩
      · rw [if_neg hm]; exact ⟨rfl, rfl, rfl, rfl⟩

theorem ngx_palloc_small_frame (L : Layout) (p : ngx_pool_t) (size : Nat) (al : Bool)
    (o : Oracle) :
    (ngx_palloc_small L p size al o).2.1.large = p.large ∧
      (ngx_palloc_small L p size al o).2.1.cleanup = p.cleanup ∧
      (ngx_palloc_small L p size al o).2.1.chain = p.chain ∧
      (ngx_palloc_small L p size al o).2.1.max = p.max := by
  unfold ngx_palloc_small
  cases palloc_small_loop L size al (List.drop p.current p.blocks) with
  | none => exact ngx_palloc_block_frame L p size o
  | some v => exact ⟨rfl, rfl, rfl, rfl⟩

theorem count_alloc_eq_zero (x : Nat) (ls : List ngx_pool_large_t)
    (h : ∀ l ∈ ls, l.alloc ≠ x) : (ls.map (fun l => l.alloc)).count x = 0 := by
  rw [List.count_eq_zero]
  intro hmem
  obtain ⟨l, hl, e⟩ := List.mem_map.mp hmem
  exact h l hl e

theorem palloc_large_scan_count (x : Nat) :
    ∀ (ls ls1 : List ngx_pool_large_t) (n : Nat), palloc_large_scan x n ls = some ls1 →
      (∀ l ∈ ls, l.alloc ≠ x) → (ls1.map (fun l => l.alloc)).count x = 1 := by
  intro ls
  induction ls with
  | nil => intro ls1 n h; simp [palloc_large_scan] at h
  | cons l ls ih =>
    intro ls1 n h hfresh
    simp only [palloc_large_scan] at h
    by_cases h0 : l.alloc = 0
    · rw [if_pos h0] at h
      simp only [Option.some.injEq] at h
      rw [← h]
      simp only [List.map_cons, List.count_cons_self]
      rw [count_alloc_eq_zero x ls (fun l1 hl1 => hfresh l1 (List.mem_cons_of_mem _ hl1))]
    · rw [if_neg h0] at h
      by_cases hn : n > 3
      · rw [if_pos hn] at h; exact absurd h (by simp)
      · rw [if_neg hn] at h
        cases hrec : palloc_large_scan x (n + 1) ls with
        | none => rw [hrec] at h; exact absurd h (by simp)
        | some ls2 =>
          rw [hrec] at h
          simp only [Option.some.injEq] at h
          rw [← h]
          have hl : l.alloc ≠ x := hfresh l (List.mem_cons_self _ _)
          simp only [List.map_cons]
          rw [List.count_cons_of_ne (Ne.symm hl)]
          exact ih ls2 (n + 1) hrec (fun l1 hl1 => hfresh l1 (List.mem_cons_of_mem _ hl1))

/-- C3: for every pool and every size above `pool.max`, when the system allocator
answers a non-null pointer that no record of the large list holds and `palloc` succeeds,
`palloc` returns that pointer and exactly one record of the large list afterwards holds
it, be it a recycled record or a freshly prepended one. -/
theorem palloc_large_recorded_once (L : Layout) (p p1 : ngx_pool_t) (size r : Nat)
    (o o1 : Oracle) (hbig : p.max < size)
    (hfresh : ∀ l ∈ p.large, l.alloc ≠ (ngx_alloc o).1)
    (hres : ngx_palloc L p size o = (r, p1, o1)) (hr : r ≠ 0) :
    r = (ngx_alloc o).1 ∧ (p1.large.map (fun l => l.alloc)).count r = 1 := by
  unfold ngx_palloc at hres
  rw [if_neg (by omega)] at hres
  unfold ngx_palloc_large at hres
  cases halloc : ngx_alloc o with
  | mk a o2 =>
    rw [halloc] at hres hfresh
    simp only at hres hfresh
    by_cases ha : a = 0
    · rw [if_pos ha] at hres
      simp only [Prod.mk.injEq] at hres
      exact absurd hres.1.symm hr
    · rw [if_neg ha] at hres
      cases hscan : palloc_large_scan a 0 p.large with
      | some ls =>
        rw [hscan] at hres
        simp only [Prod.mk.injEq] at hres
        obtain ⟨rfl, rfl, _⟩ := hres
        exact ⟨rfl, palloc_large_scan_count a p.large ls 0 hscan hfresh⟩
      | none =>
        rw [hscan] at hres
        have hframe := (ngx_palloc_small_frame L p L.sizeof_large true o2).1
        cases hsmall : ngx_palloc_small L p L.sizeof_large true o2 with
        | mk large rest =>
          obtain ⟨pool1, o3⟩ := rest
          rw [hsmall] at hres hframe
          simp only at hres hframe
          by_cases hl : large = 0
          · rw [if_pos hl] at hres
            simp only [Prod.mk.injEq] at hres
            exact absurd hres.1.symm hr
          · rw [if_neg hl] at hres
            simp only [Prod.mk.injEq] at hres
            obtain ⟨rfl, rfl, _⟩ := hres
            refine ⟨rfl, ?_⟩
            simp only [List.map_cons, List.count_cons_self]
            rw [hframe, count_alloc_eq_zero a p.large hfresh]

/-- C3 witness: a pool with `max = 4095` whose large list holds a record in use and a
free record; `palloc(4096)` answered with 20480 recycles the free record. -/
theorem palloc_large_recorded_once_witness :
    (20480 : Nat) = (ngx_alloc [20480]).1 ∧
      (([{ addr := 1120, alloc := 12288 }, { addr := 1104, alloc := 20480 }] :
          List ngx_pool_large_t).map (fun l => l.alloc)).count 20480 = 1 :=
  palloc_large_recorded_once lp64
    { blocks := [{ addr := 1024, last := 1136, end_ := 9216, failed := 0 }], max := 4095,
      current := 0, chain := [],
      large := [{ addr := 1120, alloc := 12288 }, { addr := 1104, alloc := 0 }], cleanup := [] }
    { blocks := [{ addr := 1024, last := 1136, end_ := 9216, failed := 0 }], max := 4095,
      current := 0, chain := [],
      large := [{ addr := 1120, alloc := 12288 }, { addr := 1104, alloc := 20480 }],
      cleanup := [] }
    4096 20480 [20480] [] (by decide) (by decide) (by decide) (by decide)

/-! ## C4: `ngx_pfree` -/

theorem pfree_loop_none (x : Nat) :
    ∀ (ls : List ngx_pool_large_t), pfree_loop x ls = none ↔ ∀ l ∈ ls, l.alloc ≠ x := by
  intro ls
  induction ls with
  | nil => simp [pfree_loop]
  | cons l ls ih =>
    simp only [pfree_loop]
    by_cases h : x = l.alloc
    · rw [if_pos h]
      constructor
      · intro h1; exact absurd h1 (by simp)
      · intro h1; exact absurd h.symm (h1 l (List.mem_cons_self _ _))
    · rw [if_neg h]
      cases hrec : pfree_loop x ls with
      | none =>
        have := ih.mp hrec
        constructor
        · intro _ l1 hl1
          rcases List.mem_cons.mp hl1 with e | e
          · rw [e]; exact fun e1 => h e1.symm
          · exact this l1 e
        · intro _; rfl
      | some ls1 =>
        constructor
        · intro h1; exact absurd h1 (by simp)
        · intro h1
          have : pfree_loop x ls = none :=
            ih.mpr (fun l1 hl1 => h1 l1 (List.mem_cons_of_mem _ hl1))
          rw [hrec] at this
          exact absurd this (by simp)

theorem pfree_loop_some (x : Nat) :
    ∀ (ls ls1 : List ngx_pool_large_t), pfree_loop x ls = some ls1 →
      ∃ pre l post, ls = pre ++ l :: post ∧ (∀ l1 ∈ pre, l1.alloc ≠ x) ∧ l.alloc = x ∧
        ls1 = pre ++ { l with alloc := 0 } :: post := by
  intro ls
  induction ls with
  | nil => intro ls1 h; simp [pfree_loop] at h
  | cons l ls ih =>
    intro ls1 h
    simp only [pfree_loop] at h
    by_cases hx : x = l.alloc
    · rw [if_pos hx] at h
      simp only [Option.some.injEq] at h
      exact ⟨[], l, ls, rfl, by simp, hx.symm, h.symm⟩
    · rw [if_neg hx] at h
      cases hrec : pfree_loop x ls with
      | none => rw [hrec] at h; exact absurd h (by simp)
      | some ls2 =>
        rw [hrec] at h
        simp only [Option.some.injEq] at h
        obtain ⟨pre, l0, post, e1, e2, e3, e4⟩ := ih ls2 hrec
        refine ⟨l :: pre, l0, post, by rw [e1]; rfl, ?_, e3, by rw [← h, e4]; rfl⟩
        intro l1 hl1
        rcases List.mem_cons.mp hl1 with e | e
        · rw [e]; exact fun e5 => hx e5.symm
        · exact e2 l1 e

/-- C4: `pfree(p, x)` returns `ok` exactly when some record of the large list holds a
raw pointer equal to `x`, and `declined` otherwise; on `ok` the first such record, and
nothing else in the pool, has its pointer set to null; on `declined` the pool is
unchanged; and for a non-null `x` held by exactly one record a first `pfree` returns
`ok` and a second one right after it returns `declined`. -/
theorem pfree_spec (p : ngx_pool_t) (x : Nat) :
    ((ngx_pfree p x).1 = NGX_OK ↔ ∃ l ∈ p.large, l.alloc = x) ∧
    ((ngx_pfree p x).1 = NGX_OK ∨ (ngx_pfree p x).1 = NGX_DECLINED) ∧
    ((ngx_pfree p x).1 = NGX_OK →
      ∃ pre l post, p.large = pre ++ l :: post ∧ (∀ l1 ∈ pre, l1.alloc ≠ x) ∧ l.alloc = x ∧
        (ngx_pfree p x).2 = { p with large := pre ++ { l with alloc := 0 } :: post }) ∧
    ((ngx_pfree p x).1 = NGX_DECLINED → (ngx_pfree p x).2 = p) ∧
    (x ≠ 0 → (p.large.map (fun l => l.alloc)).count x = 1 →
      (ngx_pfree p x).1 = NGX_OK ∧ (ngx_pfree (ngx_pfree p x).2 x).1 = NGX_DECLINED) := by
  have hne : NGX_OK ≠ NGX_DECLINED := by decide
  cases hloop : pfree_loop x p.large with
  | none =>
    have hnone := (pfree_loop_none x p.large).mp hloop
    have hres : ngx_pfree p x = (NGX_DECLINED, p) := by
      unfold ngx_pfree; rw [hloop]
    rw [hres]
    refine ⟨⟨fun h => absurd h.symm hne, fun ⟨l, hl, e⟩ => absurd e (hnone l hl)⟩,
      Or.inr rfl, fun h => absurd h.symm hne, fun _ => rfl, ?_⟩
    intro _ hcount
    have h0 := count_alloc_eq_zero x p.large hnone
    omega
  | some ls =>
    obtain ⟨pre, l, post, e1, e2, e3, e4⟩ := pfree_loop_some x p.large ls hloop
    have hres : ngx_pfree p x = (NGX_OK, { p with large := ls }) := by
      unfold ngx_pfree; rw [hloop]
    rw [hres]
    refine ⟨⟨fun _ => ⟨l, by rw [e1]; simp, e3⟩, fun _ => rfl⟩, Or.inl rfl,
      fun _ => ⟨pre, l, post, e1, e2, e3, by rw [e4]⟩, fun h => absurd h hne, ?_⟩
    intro hx hcount
    refine ⟨rfl, ?_⟩
    have hpost : ∀ l1 ∈ post, l1.alloc ≠ x := by
      intro l1 hl1 e
      have hc1 : (post.map (fun l => l.alloc)).count x = 0 := by
        rw [e1] at hcount
        simp only [List.map_append, List.map_cons, List.count_append, e3,
          List.count_cons_self] at hcount
        omega
      rw [List.count_eq_zero] at hc1
      exact hc1 (List.mem_map.mpr ⟨l1, hl1, e⟩)
    have hnone : pfree_loop x ls = none := by
      rw [pfree_loop_none, e4]
      intro l1 hl1
      simp only [List.mem_append, List.mem_cons] at hl1
      rcases hl1 with h | h | h
      · exact e2 l1 h
      · rw [h]; exact fun e => hx e.symm
      · exact hpost l1 h
    show (ngx_pfree { p with large := ls } x).1 = NGX_DECLINED
    unfold ngx_pfree
    simp only [hnone]

/-- C4 witness: the pointer 20480 is held by one record of two; the first `pfree`
returns `ok`, the second `declined`. -/
theorem pfree_spec_witness :
    (ngx_pfree pool_two_large 20480).1 = NGX_OK ∧
      (ngx_pfree (ngx_pfree pool_two_large 20480).2 20480).1 = NGX_DECLINED :=
  (pfree_spec pool_two_large 20480).2.2.2.2 (by decide) (by decide)

/-! ## Lemmas: what `ngx_palloc` and `ngx_pool_cleanup_add` leave in place -/

theorem ngx_reset_pool_effects (L : Layout) (p : ngx_pool_t) :
    (ngx_reset_pool L p).1.large = [] ∧ (ngx_reset_pool L p).1.cleanup = p.cleanup ∧
      (ngx_reset_pool L p).1.blocks.length = p.blocks.length ∧
      ∀ b ∈ (ngx_reset_pool L p).1.blocks, b.failed = 0 ∧ b.last = b.addr + L.sizeof_pool := by
  refine ⟨rfl, rfl, by simp [ngx_reset_pool], ?_⟩
  intro b hb
  simp only [ngx_reset_pool, List.mem_map] at hb
  obtain ⟨b0, _, rfl⟩ := hb
  exact ⟨rfl, rfl⟩

/-- C6 at its failing input: the tenth `palloc(100)` on a pool of size 1024 appends a
block at 4096 whose payload starts at 4128, the end of its `ngx_pool_data_t` header;
`reset_pool` then leaves that block's cursor at 4176, the block address plus the size
of the whole `ngx_pool_t`, and not at its header end 4128. -/
theorem reset_pool_appended_block_cursor :
    ngx_palloc lp64 pool_nine_allocs 100 [4096] = (4128, pool_two_blocks, []) ∧
      (ngx_reset_pool lp64 pool_two_blocks).1.blocks =
        [{ addr := 1024, last := 1104, end_ := 2048, failed := 0 },
         { addr := 4096, last := 4176, end_ := 5120, failed := 0 }] ∧
      header_end lp64 1 { addr := 4096, last := 4176, end_ := 5120, failed := 0 } = 4128 ∧
      (4176 : Nat) ≠ 4128 := by
  refine ⟨by decide, by decide, by decide, by decide⟩

/-- C7: `reset_pool` is idempotent: the pool after two consecutive calls (the cursor
and failed counter of every block, `current`, the large list, the chain-link freelist
and the cleanup list) is the pool after one call. -/
theorem reset_pool_idempotent (L : Layout) (p : ngx_pool_t) :
    (ngx_reset_pool L (ngx_reset_pool L p).1).1 = (ngx_reset_pool L p).1 := by
  simp only [ngx_reset_pool, List.map_map]
  congr 1

/-! ## C8 and C9: `ngx_chain_update_chains` -/

theorem ngx_buf_size_rewind (b : ngx_buf_t) (h : ngx_buf_size b = 0) :
    ngx_buf_size (buf_rewind b) = ngx_buf_size b := by
  have hm : ngx_buf_in_memory (buf_rewind b) = ngx_buf_in_memory b := rfl
  by_cases hin : ngx_buf_in_memory b = true
  · rw [h]
    unfold ngx_buf_size
    rw [hm, if_pos hin]
    show ((b.start : Int) - (b.start : Int)) = 0
    omega
  · unfold ngx_buf_size
    rw [hm, if_neg hin, if_neg hin]
    rfl

theorem update_size_eq (bufs : BufStore) (x : Nat) (h : ngx_buf_size (bufs x) = 0) (a : Nat) :
    ngx_buf_size (Function.update bufs x (buf_rewind (bufs x)) a) = ngx_buf_size (bufs a) := by
  by_cases e : a = x
  · rw [e, Function.update_same, ngx_buf_size_rewind _ h]
  · rw [Function.update_noteq e]

theorem update_tag_eq (bufs : BufStore) (x : Nat) (a : Nat) :
    (Function.update bufs x (buf_rewind (bufs x)) a).tag = (bufs a).tag := by
  by_cases e : a = x
  · rw [e, Function.update_same]; rfl
  · rw [Function.update_noteq e]

theorem update_chains_loop_spec (tag : Nat) :
    ∀ (busy : List ngx_chain_t) (p : ngx_pool_t) (bufs : BufStore) (free : List ngx_chain_t),
      (update_chains_loop tag busy p bufs free).busy =
          busy.dropWhile (fun cl => ngx_buf_size (bufs cl.buf) = 0) ∧
        (update_chains_loop tag busy p bufs free).out = [] ∧
        (update_chains_loop tag busy p bufs free).free =
          ((consumed_links bufs busy).filter (fun cl => (bufs cl.buf).tag = tag)).reverse ++ free ∧
        (update_chains_loop tag busy p bufs free).pool =
          { p with chain :=
              ((consumed_links bufs busy).filter (fun cl => (bufs cl.buf).tag ≠ tag)).reverse ++
                p.chain } ∧
        (∀ a, (∃ cl ∈ consumed_links bufs busy, cl.buf = a ∧ (bufs a).tag = tag) →
          (update_chains_loop tag busy p bufs free).bufs a = buf_rewind (bufs a)) ∧
        (∀ a, (¬ ∃ cl ∈ consumed_links bufs busy, cl.buf = a ∧ (bufs a).tag = tag) →
          (update_chains_loop tag busy p bufs free).bufs a = bufs a) ∧
        (∀ a, ngx_buf_size ((update_chains_loop tag busy p bufs free).bufs a) =
          ngx_buf_size (bufs a)) := by
  intro busy
  induction busy with
  | nil =>
    intro p bufs free
    refine ⟨rfl, rfl, rfl, rfl, ?_, fun _ _ => rfl, fun _ => rfl⟩
    intro a h
    obtain ⟨cl, hcl, _⟩ := h
    simp [consumed_links] at hcl
  | cons cl rest ih =>
    intro p bufs free
    by_cases hsz : ngx_buf_size (bufs cl.buf) = 0
    · have hcons : consumed_links bufs (cl :: rest) = cl :: consumed_links bufs rest := by
        simp [consumed_links, List.takeWhile_cons, hsz]
      have hdrop : (cl :: rest).dropWhile (fun cl => ngx_buf_size (bufs cl.buf) = 0) =
          rest.dropWhile (fun cl => ngx_buf_size (bufs cl.buf) = 0) := by
        simp [List.dropWhile_cons, hsz]
      by_cases htag : (bufs cl.buf).tag = tag
      · have hstep : update_chains_loop tag (cl :: rest) p bufs free =
            update_chains_loop tag rest p
              (Function.update bufs cl.buf (buf_rewind (bufs cl.buf))) (cl :: free) := by
          simp [update_chains_loop, hsz, htag]
        have hs := update_size_eq bufs cl.buf hsz
        have ht := update_tag_eq bufs cl.buf
        have hcl : consumed_links (Function.update bufs cl.buf (buf_rewind (bufs cl.buf))) rest =
            consumed_links bufs rest := by
          unfold consumed_links
          congr 1
          funext c
          rw [hs]
        obtain ⟨i1, i2, i3, i4, i5, i6, i7⟩ :=
          ih p (Function.update bufs cl.buf (buf_rewind (bufs cl.buf))) (cl :: free)
        rw [hstep, hcons, hdrop]
        rw [hcl] at i3 i4 i5 i6
        refine ⟨?_, i2, ?_, ?_, ?_, ?_, ?_⟩
        · rw [i1]; congr 1; funext c; rw [hs]
        · rw [i3]
          have : (fun c : ngx_chain_t => decide
              ((Function.update bufs cl.buf (buf_rewind (bufs cl.buf)) c.buf).tag = tag)) =
              (fun c : ngx_chain_t => decide ((bufs c.buf).tag = tag)) := by
            funext c; rw [ht]
          rw [this]
          simp [List.filter_cons, htag]
        · rw [i4]
          have : (fun c : ngx_chain_t => decide
              ((Function.update bufs cl.buf (buf_rewind (bufs cl.buf)) c.buf).tag ≠ tag)) =
              (fun c : ngx_chain_t => decide ((bufs c.buf).tag ≠ tag)) := by
            funext c; rw [ht]
          rw [this]
          simp [List.filter_cons, htag]
        · intro a ha
          by_cases e : a = cl.buf
          · by_cases hin : ∃ c ∈ consumed_links bufs rest, c.buf = a ∧
                (Function.update bufs cl.buf (buf_rewind (bufs cl.buf)) a).tag = tag
            · rw [i5 a hin, e, Function.update_same]; rfl
            · rw [i6 a hin, e, Function.update_same]
          · obtain ⟨c, hc, hc1, hc2⟩ := ha
            rcases List.mem_cons.mp hc with h | h
            · exact absurd (by rw [← hc1, h]) e
            · rw [i5 a ⟨c, h, hc1, by rw [ht]; exact hc2⟩, Function.update_noteq e]
        · intro a ha
          have e : a ≠ cl.buf := by
            intro e
            exact ha ⟨cl, List.mem_cons_self _ _, e.symm, by rw [e]; exact htag⟩
          have hin : ¬ ∃ c ∈ consumed_links bufs rest, c.buf = a ∧
              (Function.update bufs cl.buf (buf_rewind (bufs cl.buf)) a).tag = tag := by
            rintro ⟨c, hc, hc1, hc2⟩
            exact ha ⟨c, List.mem_cons_of_mem _ hc, hc1, by rw [← ht]; exact hc2⟩
          rw [i6 a hin, Function.update_noteq e]
        · intro a; rw [i7, hs]
      · have hstep : update_chains_loop tag (cl :: rest) p bufs free =
            update_chains_loop tag rest { p with chain := cl :: p.chain } bufs free := by
          simp [update_chains_loop, hsz, htag]
        obtain ⟨i1, i2, i3, i4, i5, i6, i7⟩ := ih { p with chain := cl :: p.chain } bufs free
        rw [hstep, hcons, hdrop]
        refine ⟨i1, i2, ?_, ?_, ?_, ?_, i7⟩
        · rw [i3]; simp [List.filter_cons, htag]
        · rw [i4]; simp [List.filter_cons, htag]
        · intro a ha
          obtain ⟨c, hc, hc1, hc2⟩ := ha
          rcases List.mem_cons.mp hc with h | h
          · exact absurd (by rw [← hc1, h] at hc2; exact hc2) htag
          · exact i5 a ⟨c, h, hc1, hc2⟩
        · intro a ha
          exact i6 a (fun ⟨c, hc, hc1, hc2⟩ => ha ⟨c, List.mem_cons_of_mem _ hc, hc1, hc2⟩)
    · have hstep : update_chains_loop tag (cl :: rest) p bufs free =
          { pool := p, bufs := bufs, free := free, busy := cl :: rest, out := [] } := by
        simp [update_chains_loop, hsz]
      have hcons : consumed_links bufs (cl :: rest) = [] := by
        simp [consumed_links, List.takeWhile_cons, hsz]
      rw [hstep, hcons]
      refine ⟨by simp [List.dropWhile_cons, hsz], rfl, rfl, rfl, ?_, fun _ _ => rfl, fun _ => rfl⟩
      intro a h
      obtain ⟨c, hc, _⟩ := h
      simp at hc

theorem update_chains_busy_append (busy out : List ngx_chain_t) :
    (match out with
      | [] => busy
      | _ :: _ =>
        match busy with
        | [] => out
        | _ :: _ => busy ++ out) = busy ++ out := by
  cases out with
  | nil => simp
  | cons x xs =>
    cases busy with
    | nil => rfl
    | cons y ys => rfl

/-- C8: after `update_chains(p, &free, &busy, &out, tag)`, `out` is empty and `busy`
is the suffix of old `busy` followed by old `out` that begins at the first link whose
buffer has nonzero remaining size (empty when there is none); the remaining size of no
buffer changes; and the links put in front of `free` and of the pool's chain-link
freelist all have a buffer of remaining size zero. -/
theorem update_chains_busy_suffix (p : ngx_pool_t) (bufs : BufStore)
    (free busy out : List ngx_chain_t) (tag : Nat) :
    (ngx_chain_update_chains p bufs free busy out tag).out = [] ∧
      (ngx_chain_update_chains p bufs free busy out tag).busy =
        (busy ++ out).dropWhile (fun cl => ngx_buf_size (bufs cl.buf) = 0) ∧
      consumed_links bufs (busy ++ out) ++ (ngx_chain_update_chains p bufs free busy out tag).busy
        = busy ++ out ∧
      (∀ cl, (ngx_chain_update_chains p bufs free busy out tag).busy.head? = some cl →
        ngx_buf_size (bufs cl.buf) ≠ 0) ∧
      (∀ a, ngx_buf_size ((ngx_chain_update_chains p bufs free busy out tag).bufs a) =
        ngx_buf_size (bufs a)) ∧
      ∃ mf mc, (ngx_chain_update_chains p bufs free busy out tag).free = mf ++ free ∧
        (ngx_chain_update_chains p bufs free busy out tag).pool.chain = mc ++ p.chain ∧
        ∀ cl ∈ mf ++ mc, ngx_buf_size (bufs cl.buf) = 0 := by
  unfold ngx_chain_update_chains
  simp only
  rw [update_chains_busy_append]
  obtain ⟨h1, h2, h3, h4, _, _, h7⟩ := update_chains_loop_spec tag (busy ++ out) p bufs free
  refine ⟨h2, h1, ?_, ?_, h7, _, _, h3, by rw [h4], ?_⟩
  · rw [h1]
    exact List.takeWhile_append_dropWhile _ _
  · intro cl hcl
    rw [h1] at hcl
    have := List.head?_dropWhile_not (fun cl => decide (ngx_buf_size (bufs cl.buf) = 0))
      (busy ++ out)
    rw [hcl] at this
    simpa using this
  · intro cl hcl
    simp only [List.mem_append, List.mem_reverse, List.mem_filter] at hcl
    rcases hcl with h | h
    · simpa using List.mem_takeWhile_imp h.1
    · simpa using List.mem_takeWhile_imp h.1

/-- C8 witness: `busy` holds a sent buffer of tag 7, `out` a sent buffer of tag 9 and
a buffer with 24 bytes left; afterwards `busy` is the link of the pending buffer. -/
theorem update_chains_busy_suffix_witness :
    (ngx_chain_update_chains pool_fresh bufs_one_pending [] [{ addr := 10, buf := 100 }]
        [{ addr := 20, buf := 200 }, { addr := 30, buf := 300 }] 7).busy =
      [{ addr := 30, buf := 300 }] :=
  (update_chains_busy_suffix pool_fresh bufs_one_pending [] [{ addr := 10, buf := 100 }]
    [{ addr := 20, buf := 200 }, { addr := 30, buf := 300 }] 7).2.1.trans (by decide)

/-- C9: in `update_chains`, with the consumed links being those of old `busy` followed
by old `out` before the first buffer of nonzero remaining size: `free` afterwards is
the consumed links whose buffer has the tag `tag`, in reverse order, followed by the
old `free`; the pool's chain-link freelist is the consumed links of another tag, in
reverse order, followed by the old freelist, and nothing else in the pool changes; the
buffer of a consumed link of tag `tag` has `pos` and `last` set to `start`; every other
buffer, the buffer of a consumed link of another tag included, is unchanged. -/
theorem update_chains_tag_routing (p : ngx_pool_t) (bufs : BufStore)
    (free busy out : List ngx_chain_t) (tag : Nat) :
    (ngx_chain_update_chains p bufs free busy out tag).free =
        ((consumed_links bufs (busy ++ out)).filter
          (fun cl => (bufs cl.buf).tag = tag)).reverse ++ free ∧
      (ngx_chain_update_chains p bufs free busy out tag).pool =
        { p with chain := ((consumed_links bufs (busy ++ out)).filter
          (fun cl => (bufs cl.buf).tag ≠ tag)).reverse ++ p.chain } ∧
      (∀ cl ∈ consumed_links bufs (busy ++ out), (bufs cl.buf).tag = tag →
        (ngx_chain_update_chains p bufs free busy out tag).bufs cl.buf =
          { bufs cl.buf with pos := (bufs cl.buf).start, last := (bufs cl.buf).start }) ∧
      (∀ cl ∈ consumed_links bufs (busy ++ out), (bufs cl.buf).tag ≠ tag →
        (ngx_chain_update_chains p bufs free busy out tag).bufs cl.buf = bufs cl.buf) ∧
      (∀ a, (¬ ∃ cl ∈ consumed_links bufs (busy ++ out), cl.buf = a ∧ (bufs a).tag = tag) →
        (ngx_chain_update_chains p bufs free busy out tag).bufs a = bufs a) := by
  unfold ngx_chain_update_chains
  simp only
  rw [update_chains_busy_append]
  obtain ⟨_, _, h3, h4, h5, h6, _⟩ := update_chains_loop_spec tag (busy ++ out) p bufs free
  refine ⟨h3, h4, ?_, ?_, h6⟩
  · intro cl hcl htag
    exact h5 cl.buf ⟨cl, hcl, rfl, htag⟩
  · intro cl _ htag
    exact h6 cl.buf (fun ⟨_, _, _, h⟩ => htag h)

/-- C9 witness: two fully sent 64-byte buffers of tag 7 in `out`; afterwards `free`
holds both links, and the first buffer has `pos = last = start`. -/
theorem update_chains_tag_routing_witness :
    (ngx_chain_update_chains pool_fresh bufs_two_sent [] []
        [{ addr := 10, buf := 100 }, { addr := 20, buf := 200 }] 7).free =
        [{ addr := 20, buf := 200 }, { addr := 10, buf := 100 }] ∧
      (ngx_chain_update_chains pool_fresh bufs_two_sent [] []
        [{ addr := 10, buf := 100 }, { addr := 20, buf := 200 }] 7).bufs 100 =
        temp_buf_64 5000 5000 5000 7 :=
  ⟨(update_chains_tag_routing pool_fresh bufs_two_sent [] []
      [{ addr := 10, buf := 100 }, { addr := 20, buf := 200 }] 7).1.trans (by decide),
    ((update_chains_tag_routing pool_fresh bufs_two_sent [] []
      [{ addr := 10, buf := 100 }, { addr := 20, buf := 200 }] 7).2.2.1
        { addr := 10, buf := 100 } (by decide) (by decide)).trans (by decide)⟩

/-! ## C10: `ngx_chain_add_copy` -/

theorem chain_add_copy_loop_spec (L : Layout) :
    ∀ (in_ : List ngx_chain_t) (p p1 : ngx_pool_t) (dest : List ngx_chain_t) (o o1 : Oracle)
      (cls : List Nat), alloc_chain_links L in_.length p o = some (cls, p1, o1) →
      chain_add_copy_loop L in_ p dest o =
          (NGX_OK, p1, dest ++ List.zipWith (fun a i => { addr := a, buf := i.buf }) cls in_, o1) ∧
        cls.length = in_.length := by
  intro in_
  induction in_ with
  | nil =>
    intro p p1 dest o o1 cls h
    simp only [List.length_nil, alloc_chain_links, Option.some.injEq, Prod.mk.injEq] at h
    obtain ⟨rfl, rfl, rfl⟩ := h
    simp [chain_add_copy_loop]
  | cons i rest ih =>
    intro p p1 dest o o1 cls h
    simp only [List.length_cons, alloc_chain_links] at h
    simp only [chain_add_copy_loop]
    cases hlink : ngx_alloc_chain_link L p o with
    | mk cl r =>
      obtain ⟨pa, oa⟩ := r
      rw [hlink] at h
      simp only at h ⊢
      by_cases hcl : cl = 0
      · rw [if_pos hcl] at h; exact absurd h (by simp)
      · rw [if_neg hcl] at h ⊢
        cases hrec : alloc_chain_links L rest.length pa oa with
        | none => rw [hrec] at h; exact absurd h (by simp)
        | some v =>
          obtain ⟨cls1, p2, o2⟩ := v
          rw [hrec] at h
          simp only [Option.some.injEq, Prod.mk.injEq] at h
          obtain ⟨rfl, rfl, rfl⟩ := h
          obtain ⟨e1, e2⟩ := ih pa p2 (dest ++ [{ addr := cl, buf := i.buf }]) oa o2 cls1 hrec
          rw [e1]
          simp [e2]

theorem map_buf_zipWith :
    ∀ (cls : List Nat) (in_ : List ngx_chain_t), cls.length = in_.length →
      (List.zipWith (fun a i => ({ addr := a, buf := i.buf } : ngx_chain_t)) cls in_).map
        (fun c => c.buf) = in_.map (fun c => c.buf) := by
  intro cls
  induction cls with
  | nil =>
    intro in_ h
    cases in_ with
    | nil => rfl
    | cons i rest => simp at h
  | cons a cls ih =>
    intro in_ h
    cases in_ with
    | nil => simp at h
    | cons i rest =>
      simp only [List.zipWith_cons_cons, List.map_cons, List.cons.injEq, true_and]
      exact ih rest (by simpa using h)

/-- C10: when the link allocations that `chain_add_copy(p, &D, C)` makes, one per link
of `C`, all succeed, it returns `ok`, and the destination afterwards is the old `D`
followed by one new link per link of `C`, in the order of `C`, at the addresses the
allocations returned and each holding the buffer pointer of its link of `C`; hence the
buffers of the destination are those of `D` followed by those of `C`. The chain `C`
and the buffer descriptors are read only. -/
theorem chain_add_copy_appends (L : Layout) (p p1 : ngx_pool_t) (D C : List ngx_chain_t)
    (o o1 : Oracle) (cls : List Nat)
    (halloc : alloc_chain_links L C.length p o = some (cls, p1, o1)) :
    ngx_chain_add_copy L p D C o =
        (NGX_OK, p1, D ++ List.zipWith (fun a i => { addr := a, buf := i.buf }) cls C, o1) ∧
      cls.length = C.length ∧
      (ngx_chain_add_copy L p D C o).2.2.1.map (fun c => c.buf) =
        D.map (fun c => c.buf) ++ C.map (fun c => c.buf) := by
  obtain ⟨e1, e2⟩ := chain_add_copy_loop_spec L C p p1 D o o1 cls halloc
  unfold ngx_chain_add_copy
  refine ⟨e1, e2, ?_⟩
  rw [e1]
  simp only [List.map_append]
  rw [map_buf_zipWith cls C e2]

/-- C10 witness: a chain of two links is copied behind a chain of one link; the first
new link comes from the pool's freelist (address 900), the second from the block
(address 1104), and the destination iterates the buffers 300, 100, 200. -/
theorem chain_add_copy_appends_witness :
    (ngx_chain_add_copy lp64 pool_one_free_link [{ addr := 30, buf := 300 }]
        [{ addr := 10, buf := 100 }, { addr := 20, buf := 200 }] []).2.2.1.map (fun c => c.buf) =
      [300, 100, 200] :=
  (chain_add_copy_appends lp64 pool_one_free_link pool_two_links_taken
    [{ addr := 30, buf := 300 }] [{ addr := 10, buf := 100 }, { addr := 20, buf := 200 }]
    [] [] [900, 1104] (by decide)).2.2

/-! ## C11: `ngx_create_chain_of_bufs` -/

theorem create_chain_loop_spec (L : Layout) (size : Nat) :
    ∀ (k p : Nat) (pool pool1 : ngx_pool_t) (bufs : BufStore) (o o1 : Oracle)
      (prs : List (Nat × Nat)),
      chain_of_bufs_allocs L k pool o = some (prs, pool1, o1) →
      (prs.map Prod.fst).Nodup →
      ∃ bufs1, create_chain_loop L size k p pool bufs o =
          (some (prs.map (fun pr => { addr := pr.2, buf := pr.1 })), pool1, bufs1, o1) ∧
        prs.length = k ∧
        (∀ i pr, prs[i]? = some pr → bufs1 pr.1 = temp_buf_at (p + i * size) size) ∧
        (∀ a, a ∉ prs.map Prod.fst → bufs1 a = bufs a) := by
  intro k
  induction k with
  | zero =>
    intro p pool pool1 bufs o o1 prs h _
    simp only [chain_of_bufs_allocs, Option.some.injEq, Prod.mk.injEq] at h
    obtain ⟨rfl, rfl, rfl⟩ := h
    exact ⟨bufs, rfl, rfl, by simp, fun _ _ => rfl⟩
  | succ k ih =>
    intro p pool pool1 bufs o o1 prs h hnd
    simp only [chain_of_bufs_allocs] at h
    simp only [create_chain_loop]
    cases hb : ngx_pcalloc L pool L.sizeof_buf o with
    | mk b r1 =>
      obtain ⟨pa, oa⟩ := r1
      rw [hb] at h
      simp only at h ⊢
      by_cases hb0 : b = 0
      · rw [if_pos hb0] at h; exact absurd h (by simp)
      · rw [if_neg hb0] at h ⊢
        cases hl : ngx_alloc_chain_link L pa oa with
        | mk cl r2 =>
          obtain ⟨pb, ob⟩ := r2
          rw [hl] at h
          simp only at h ⊢
          by_cases hcl : cl = 0
          · rw [if_pos hcl] at h; exact absurd h (by simp)
          · rw [if_neg hcl] at h ⊢
            cases hrec : chain_of_bufs_allocs L k pb ob with
            | none => rw [hrec] at h; exact absurd h (by simp)
            | some v =>
              obtain ⟨prs1, p3, o3⟩ := v
              rw [hrec] at h
              simp only [Option.some.injEq, Prod.mk.injEq] at h
              obtain ⟨rfl, rfl, rfl⟩ := h
              simp only [List.map_cons, List.nodup_cons] at hnd
              obtain ⟨bufs1, e1, e2, e3, e4⟩ := ih (p + size) pb p3
                (Function.update bufs b (temp_buf_at p size)) ob o3 prs1 hrec hnd.2
              rw [e1]
              refine ⟨bufs1, rfl, by simp [e2], ?_, ?_⟩
              · intro i pr hi
                cases i with
                | zero =>
                  simp only [List.getElem?_cons_zero, Option.some.injEq] at hi
                  rw [← hi, e4 b hnd.1, Function.update_same]
                  simp
                | succ i =>
                  simp only [List.getElem?_cons_succ] at hi
                  rw [e3 i pr hi]
                  congr 1
                  rw [Nat.add_mul]
                  omega
              · intro a ha
                simp only [List.map_cons, List.mem_cons, not_or] at ha
                rw [e4 a ha.2, Function.update_noteq ha.1]

/-- C11: for a request `{num, size}` with `num ≥ 0`, when the allocation of the
content region returns `base` and the allocations of the `num` passes (a descriptor
and a link each) succeed, handing out pairwise distinct descriptors,
`create_chain_of_bufs` returns a chain of exactly `num` links, link `i` at the address
its allocation returned and pointing to descriptor `i`; descriptor `i` is zero except
for `start = pos = last = base + i * size`, `end = start + size` and the temporary
flag; and the end of each buffer is the start of the next one. -/
theorem create_chain_of_bufs_spec (L : Layout) (pool pool0 pool1 : ngx_pool_t)
    (bufs : BufStore) (num : Int) (size base : Nat) (o o0 o1 : Oracle)
    (prs : List (Nat × Nat)) (hnum : 0 ≤ num)
    (hbase : ngx_palloc L pool (Int.toNat ((num * (size : Int)) % (L.size_max : Int))) o =
      (base, pool0, o0))
    (hb : base ≠ 0)
    (hallocs : chain_of_bufs_allocs L num.toNat pool0 o0 = some (prs, pool1, o1))
    (hnd : (prs.map Prod.fst).Nodup) :
    (ngx_create_chain_of_bufs L pool bufs num size o).1 =
        prs.map (fun pr => { addr := pr.2, buf := pr.1 }) ∧
      ((ngx_create_chain_of_bufs L pool bufs num size o).1.length : Int) = num ∧
      (∀ i cl, (ngx_create_chain_of_bufs L pool bufs num size o).1[i]? = some cl →
        (ngx_create_chain_of_bufs L pool bufs num size o).2.2.1 cl.buf =
          temp_buf_at (base + i * size) size) ∧
      (∀ i cl cl1, (ngx_create_chain_of_bufs L pool bufs num size o).1[i]? = some cl →
        (ngx_create_chain_of_bufs L pool bufs num size o).1[i + 1]? = some cl1 →
        ((ngx_create_chain_of_bufs L pool bufs num size o).2.2.1 cl.buf).end_ =
          ((ngx_create_chain_of_bufs L pool bufs num size o).2.2.1 cl1.buf).start) := by
  obtain ⟨bufs1, e1, e2, e3, _⟩ :=
    create_chain_loop_spec L size num.toNat base pool0 pool1 bufs o0 o1 prs hallocs hnd
  have hres : ngx_create_chain_of_bufs L pool bufs num size o =
      (prs.map (fun pr => { addr := pr.2, buf := pr.1 }), pool1, bufs1, o1) := by
    unfold ngx_create_chain_of_bufs
    rw [hbase]
    simp only
    rw [if_neg hb, e1]
  rw [hres]
  have hbuf : ∀ i cl, (prs.map (fun pr => ({ addr := pr.2, buf := pr.1 } : ngx_chain_t)))[i]?
      = some cl → bufs1 cl.buf = temp_buf_at (base + i * size) size := by
    intro i cl hi
    rw [List.getElem?_map] at hi
    cases hpr : prs[i]? with
    | none => rw [hpr] at hi; exact absurd hi (by simp)
    | some pr =>
      rw [hpr] at hi
      simp only [Option.map_some', Option.some.injEq] at hi
      rw [← hi]
      exact e3 i pr hpr
  refine ⟨rfl, ?_, hbuf, ?_⟩
  · simp only [List.length_map]
    rw [e2]
    exact Int.toNat_of_nonneg hnum
  · intro i cl cl1 h1 h2
    show (bufs1 cl.buf).end_ = (bufs1 cl1.buf).start
    rw [hbuf i cl h1, hbuf (i + 1) cl1 h2]
    show base + i * size + size = base + (i + 1) * size
    rw [Nat.add_mul]
    omega

/-- C11 witness: the request `{3, 16}` on a fresh pool: three links, the buffers at
1104, 1120 and 1136, each ending where the next one starts. -/
theorem create_chain_of_bufs_spec_witness :
    (ngx_create_chain_of_bufs lp64 pool_fresh bufs_two_sent 3 16 []).1 =
        [{ addr := 1232, buf := 1152 }, { addr := 1328, buf := 1248 },
         { addr := 1424, buf := 1344 }] ∧
      (ngx_create_chain_of_bufs lp64 pool_fresh bufs_two_sent 3 16 []).2.2.1 1248 =
        temp_buf_at (1104 + 1 * 16) 16 :=
  ⟨(create_chain_of_bufs_spec lp64 pool_fresh pool_region_48 pool_three_bufs bufs_two_sent
      3 16 1104 [] [] [] [(1152, 1232), (1248, 1328), (1344, 1424)]
      (by decide) (by decide) (by decide) (by decide) (by decide)).1,
    (create_chain_of_bufs_spec lp64 pool_fresh pool_region_48 pool_three_bufs bufs_two_sent
      3 16 1104 [] [] [] [(1152, 1232), (1248, 1328), (1344, 1424)]
      (by decide) (by decide) (by decide) (by decide) (by decide)).2.2.1 1
        { addr := 1328, buf := 1248 } (by decide)⟩

/-! ## C12: `ngx_chain_update_sent` with the whole amount -/

theorem chain_total_congr (bufs bufs1 : BufStore) :
    ∀ (chain : List ngx_chain_t), (∀ cl ∈ chain, bufs1 cl.buf = bufs cl.buf) →
      chain_total bufs1 chain = chain_total bufs chain := by
  intro chain
  induction chain with
  | nil => intro _; rfl
  | cons cl rest ih =>
    intro h
    simp only [chain_total]
    rw [h cl (List.mem_cons_self _ _), ih (fun c hc => h c (List.mem_cons_of_mem _ hc))]

theorem chain_total_nonneg (bufs : BufStore) :
    ∀ (chain : List ngx_chain_t), (∀ cl ∈ chain, 0 ≤ ngx_buf_size (bufs cl.buf)) →
      0 ≤ chain_total bufs chain := by
  intro chain
  induction chain with
  | nil => intro _; exact Int.le_refl 0
  | cons cl rest ih =>
    intro h
    simp only [chain_total]
    have h1 := h cl (List.mem_cons_self _ _)
    have h2 := ih (fun c hc => h c (List.mem_cons_of_mem _ hc))
    split <;> omega

theorem chain_total_zero (bufs : BufStore) :
    ∀ (chain : List ngx_chain_t), (∀ cl ∈ chain, 0 ≤ ngx_buf_size (bufs cl.buf)) →
      chain_total bufs chain = 0 →
      ∀ cl ∈ chain, ngx_buf_special (bufs cl.buf) = false → ngx_buf_size (bufs cl.buf) = 0 := by
  intro chain
  induction chain with
  | nil => intro _ _ cl hcl; simp at hcl
  | cons c rest ih =>
    intro h ht cl hcl hsp
    simp only [chain_total] at ht
    have h1 := h c (List.mem_cons_self _ _)
    have h2 := chain_total_nonneg bufs rest (fun c hc => h c (List.mem_cons_of_mem _ hc))
    rcases List.mem_cons.mp hcl with e | e
    · rw [e] at hsp ⊢
      rw [hsp] at ht
      simp only [Bool.false_eq_true, if_false] at ht
      omega
    · refine ih (fun c hc => h c (List.mem_cons_of_mem _ hc)) ?_ cl e hsp
      split at ht <;> omega

theorem ngx_buf_size_consume (b : ngx_buf_t) (h : ngx_buf_special b = false) :
    ngx_buf_size (buf_consume b) = 0 := by
  obtain ⟨pos, last, fp, fl, st, en, tag, fd, sh, t, m, mm, rc, inf, fls, sy, lb, lc⟩ := b
  cases t <;> cases m <;> cases mm <;> cases inf <;>
    simp [ngx_buf_special, ngx_buf_size, buf_consume, ngx_buf_in_memory] at h ⊢

theorem update_sent_total (L : Layout) :
    ∀ (chain : List ngx_chain_t) (bufs : BufStore),
      (chain.map (fun cl => cl.buf)).Nodup →
      (∀ cl ∈ chain, 0 ≤ ngx_buf_size (bufs cl.buf)) →
      (∀ cl ∈ chain, ngx_buf_special (bufs cl.buf) = false →
        ngx_buf_size ((ngx_chain_update_sent L chain bufs (chain_total bufs chain)).2 cl.buf) = 0) ∧
      (∀ a, a ∉ chain.map (fun cl => cl.buf) →
        (ngx_chain_update_sent L chain bufs (chain_total bufs chain)).2 a = bufs a) ∧
      (∃ pre, chain = pre ++ (ngx_chain_update_sent L chain bufs (chain_total bufs chain)).1 ∧
        ∀ pre1 cl pre2, pre = pre1 ++ cl :: pre2 → ngx_buf_special (bufs cl.buf) = false →
          chain_total bufs (cl :: (pre2 ++
            (ngx_chain_update_sent L chain bufs (chain_total bufs chain)).1)) ≠ 0) ∧
      chain_total bufs (ngx_chain_update_sent L chain bufs (chain_total bufs chain)).1 = 0 ∧
      ((ngx_chain_update_sent L chain bufs (chain_total bufs chain)).1 = [] ∨
        ∃ cl rest, (ngx_chain_update_sent L chain bufs (chain_total bufs chain)).1 = cl :: rest ∧
          ngx_buf_special (bufs cl.buf) = false) := by
  intro chain
  induction chain with
  | nil =>
    intro bufs _ _
    refine ⟨by simp, fun _ _ => rfl, ⟨[], rfl, ?_⟩, rfl, Or.inl rfl⟩
    intro pre1 cl pre2 h
    have := congrArg List.length h
    simp only [List.length_append, List.length_cons, List.length_nil] at this
    omega
  | cons c rest ih =>
    intro bufs hnd hpos
    simp only [List.map_cons, List.nodup_cons] at hnd
    have hpos1 : ∀ cl ∈ rest, 0 ≤ ngx_buf_size (bufs cl.buf) :=
      fun cl hcl => hpos cl (List.mem_cons_of_mem _ hcl)
    have hrest := chain_total_nonneg bufs rest hpos1
    have hc := hpos c (List.mem_cons_self _ _)
    by_cases hsp : ngx_buf_special (bufs c.buf) = true
    · have htot : chain_total bufs (c :: rest) = chain_total bufs rest := by
        simp [chain_total, hsp]
      have hstep : ngx_chain_update_sent L (c :: rest) bufs (chain_total bufs (c :: rest)) =
          ngx_chain_update_sent L rest bufs (chain_total bufs rest) := by
        rw [htot]; simp [ngx_chain_update_sent, hsp]
      obtain ⟨i1, i2, ⟨pre, i3, i4⟩, i5, i6⟩ := ih bufs hnd.2 hpos1
      rw [hstep]
      refine ⟨?_, ?_, ⟨c :: pre, by rw [List.cons_append, ← i3], ?_⟩, i5, i6⟩
      · intro cl hcl hsp1
        rcases List.mem_cons.mp hcl with e | e
        · rw [e, hsp] at hsp1; exact absurd hsp1 (by simp)
        · exact i1 cl e hsp1
      · intro a ha
        simp only [List.map_cons, List.mem_cons, not_or] at ha
        exact i2 a ha.2
      · intro pre1 cl pre2 h hsp1
        cases pre1 with
        | nil =>
          simp only [List.nil_append, List.cons.injEq] at h
          rw [← h.1, hsp] at hsp1; exact absurd hsp1 (by simp)
        | cons x pre1 =>
          simp only [List.cons_append, List.cons.injEq] at h
          exact i4 pre1 cl pre2 h.2 hsp1
    · have hsp0 : ngx_buf_special (bufs c.buf) = false := by simpa using hsp
      have htot : chain_total bufs (c :: rest) =
          ngx_buf_size (bufs c.buf) + chain_total bufs rest := by
        simp [chain_total, hsp0]
      by_cases hz : chain_total bufs (c :: rest) = 0
      · have hstep : ngx_chain_update_sent L (c :: rest) bufs (chain_total bufs (c :: rest)) =
            (c :: rest, bufs) := by
          rw [hz]; simp [ngx_chain_update_sent, hsp0]
        rw [hstep]
        refine ⟨?_, fun _ _ => rfl, ⟨[], rfl, ?_⟩, hz, Or.inr ⟨c, rest, rfl, hsp0⟩⟩
        · intro cl hcl hsp1
          exact chain_total_zero bufs (c :: rest) hpos hz cl hcl hsp1
        · intro pre1 cl pre2 h
          have := congrArg List.length h
          simp only [List.length_append, List.length_cons, List.length_nil] at this
          omega
      · have hagree : ∀ cl ∈ rest,
            Function.update bufs c.buf (buf_consume (bufs c.buf)) cl.buf = bufs cl.buf := by
          intro cl hcl
          have : cl.buf ≠ c.buf := fun e => hnd.1 (List.mem_map.mpr ⟨cl, hcl, e⟩)
          rw [Function.update_noteq this]
        have htot1 := chain_total_congr bufs _ rest hagree
        have hstep : ngx_chain_update_sent L (c :: rest) bufs (chain_total bufs (c :: rest)) =
            ngx_chain_update_sent L rest (Function.update bufs c.buf (buf_consume (bufs c.buf)))
              (chain_total (Function.update bufs c.buf (buf_consume (bufs c.buf))) rest) := by
          rw [htot1]
          have hge : chain_total bufs (c :: rest) ≥ ngx_buf_size (bufs c.buf) := by omega
          have hsub : chain_total bufs (c :: rest) - ngx_buf_size (bufs c.buf) =
              chain_total bufs rest := by omega
          simp only [ngx_chain_update_sent, hsp0, hz, hge, hsub, Bool.false_eq_true, if_false,
            if_true]
        obtain ⟨i1, i2, ⟨pre, i3, i4⟩, i5, i6⟩ :=
          ih (Function.update bufs c.buf (buf_consume (bufs c.buf))) hnd.2
            (fun cl hcl => by rw [hagree cl hcl]; exact hpos1 cl hcl)
        rw [hstep]
        have hsuffix : ∀ cl ∈ (ngx_chain_update_sent L rest
            (Function.update bufs c.buf (buf_consume (bufs c.buf)))
            (chain_total (Function.update bufs c.buf (buf_consume (bufs c.buf))) rest)).1,
            cl ∈ rest := by
          intro cl hcl
          rw [i3]; exact List.mem_append_right _ hcl
        refine ⟨?_, ?_, ⟨c :: pre, by rw [List.cons_append, ← i3], ?_⟩, ?_, ?_⟩
        · intro cl hcl hsp1
          rcases List.mem_cons.mp hcl with e | e
          · rw [e, i2 c.buf hnd.1, Function.update_same]
            exact ngx_buf_size_consume _ hsp0
          · exact i1 cl e (by rw [hagree cl e]; exact hsp1)
        · intro a ha
          simp only [List.map_cons, List.mem_cons, not_or] at ha
          rw [i2 a ha.2, Function.update_noteq ha.1]
        · intro pre1 cl pre2 h hsp1
          cases pre1 with
          | nil =>
            simp only [List.nil_append, List.cons.injEq] at h
            rw [← h.1, ← h.2, ← i3]
            exact hz
          | cons x pre1 =>
            simp only [List.cons_append, List.cons.injEq] at h
            have hmem : ∀ y ∈ cl :: (pre2 ++ (ngx_chain_update_sent L rest
                (Function.update bufs c.buf (buf_consume (bufs c.buf)))
                (chain_total (Function.update bufs c.buf (buf_consume (bufs c.buf))) rest)).1),
                y ∈ rest := by
              intro y hy
              rw [i3, h.2]
              simp only [List.mem_cons, List.mem_append] at hy ⊢
              rcases hy with hy | hy | hy
              · exact Or.inl (Or.inr (Or.inl hy))
              · exact Or.inl (Or.inr (Or.inr hy))
              · exact Or.inr hy
            have hcl : cl ∈ rest := hmem cl (by simp)
            have := i4 pre1 cl pre2 h.2 (by rw [hagree cl hcl]; exact hsp1)
            rw [chain_total_congr bufs _ _ (fun y hy => hagree y (hmem y hy))] at this
            exact this
        · rw [← chain_total_congr bufs _ _ (fun y hy => hagree y (hsuffix y hy))]
          exact i5
        · rcases i6 with e | ⟨cl, r, e, hsp1⟩
          · exact Or.inl e
          · refine Or.inr ⟨cl, r, e, ?_⟩
            have hcl : cl ∈ rest := hsuffix cl (by rw [e]; simp)
            rw [← hagree cl hcl]; exact hsp1

/-- C12 (as stated) fails: for the chain of one temporary buffer that is already sent
in full (remaining size 0, sum 0), `chain_update_sent(chain, 0)` returns the link of
that buffer, which is neither null nor a link whose buffer is special. -/
theorem update_sent_returns_data_link :
    (ngx_chain_update_sent lp64 [{ addr := 10, buf := 100 }] bufs_two_sent
        (chain_total bufs_two_sent [{ addr := 10, buf := 100 }])).1 =
        [{ addr := 10, buf := 100 }] ∧
      ngx_buf_special (bufs_two_sent 100) = false ∧
      chain_total bufs_two_sent [{ addr := 10, buf := 100 }] = 0 := by
  refine ⟨by decide, by decide, by decide⟩

/-- C12 (amended): for every chain of pairwise distinct buffers with non-negative
remaining sizes, `chain_update_sent(chain, S)` with `S` the sum of the remaining sizes
of the non-special buffers leaves every non-special buffer fully consumed (`pos = last`
when it is in memory, `file_pos = file_last` otherwise) and returns either null or a
link whose buffer is not special: the first non-special link of the chain from which
on nothing is left to send. A link whose buffer is special is never returned. -/
theorem update_sent_whole_amount (L : Layout) (chain : List ngx_chain_t) (bufs : BufStore)
    (hnd : (chain.map (fun cl => cl.buf)).Nodup)
    (hpos : ∀ cl ∈ chain, 0 ≤ ngx_buf_size (bufs cl.buf)) :
    (∀ cl ∈ chain, ngx_buf_special (bufs cl.buf) = false →
      ngx_buf_size ((ngx_chain_update_sent L chain bufs (chain_total bufs chain)).2 cl.buf) = 0 ∧
      (ngx_buf_in_memory ((ngx_chain_update_sent L chain bufs (chain_total bufs chain)).2 cl.buf)
          = true →
        ((ngx_chain_update_sent L chain bufs (chain_total bufs chain)).2 cl.buf).pos =
          ((ngx_chain_update_sent L chain bufs (chain_total bufs chain)).2 cl.buf).last) ∧
      (ngx_buf_in_memory ((ngx_chain_update_sent L chain bufs (chain_total bufs chain)).2 cl.buf)
          = false →
        ((ngx_chain_update_sent L chain bufs (chain_total bufs chain)).2 cl.buf).file_pos =
          ((ngx_chain_update_sent L chain bufs (chain_total bufs chain)).2 cl.buf).file_last)) ∧
    (∃ pre, chain = pre ++ (ngx_chain_update_sent L chain bufs (chain_total bufs chain)).1 ∧
      ∀ pre1 cl pre2, pre = pre1 ++ cl :: pre2 → ngx_buf_special (bufs cl.buf) = false →
        chain_total bufs (cl :: (pre2 ++
          (ngx_chain_update_sent L chain bufs (chain_total bufs chain)).1)) ≠ 0) ∧
    chain_total bufs (ngx_chain_update_sent L chain bufs (chain_total bufs chain)).1 = 0 ∧
    ((ngx_chain_update_sent L chain bufs (chain_total bufs chain)).1 = [] ∨
      ∃ cl rest, (ngx_chain_update_sent L chain bufs (chain_total bufs chain)).1 = cl :: rest ∧
        ngx_buf_special (bufs cl.buf) = false) := by
  obtain ⟨h1, _, h3, h4, h5⟩ := update_sent_total L chain bufs hnd hpos
  refine ⟨?_, h3, h4, h5⟩
  intro cl hcl hsp
  have hz := h1 cl hcl hsp
  refine ⟨hz, ?_, ?_⟩
  · intro hm
    unfold ngx_buf_size at hz
    rw [if_pos hm] at hz
    omega
  · intro hm
    unfold ngx_buf_size at hz
    rw [hm] at hz
    simp only [Bool.false_eq_true, if_false] at hz
    omega

/-- C12 witness: three temporary buffers with 0, 0 and 24 bytes left; after the call
with the sum 24 the third buffer has nothing left. -/
theorem update_sent_whole_amount_witness :
    ngx_buf_size ((ngx_chain_update_sent lp64
        [{ addr := 10, buf := 100 }, { addr := 20, buf := 200 }, { addr := 30, buf := 300 }]
        bufs_one_pending
        (chain_total bufs_one_pending
          [{ addr := 10, buf := 100 }, { addr := 20, buf := 200 },
           { addr := 30, buf := 300 }])).2 300) = 0 :=
  ((update_sent_whole_amount lp64
      [{ addr := 10, buf := 100 }, { addr := 20, buf := 200 }, { addr := 30, buf := 300 }]
      bufs_one_pending (by decide) (by decide)).1
    { addr := 30, buf := 300 } (by decide) (by decide)).1

/-! ## C13: the total of `ngx_chain_coalesce_file` -/

theorem page_round_bounds (x ps : Int) (hps : 0 < ps) :
    x - ps < x / ps * ps ∧ x / ps * ps ≤ x := by
  have h1 := Int.emod_add_ediv x ps
  have h2 := Int.emod_nonneg x (Int.ne_of_gt hps)
  have h3 := Int.emod_lt_of_pos x hps
  have h4 : x / ps * ps = ps * (x / ps) := Int.mul_comm _ _
  constructor <;> omega

theorem off_wrap_id (L : Layout) (x : Int) (h1 : -(L.off_half : Int) ≤ x)
    (h2 : x < (L.off_half : Int)) : off_wrap L x = x := by
  unfold off_wrap
  rw [Int.emod_eq_of_lt (by omega) (by omega)]
  omega

/-- The cut branch of the loop when no `off_t` operation wraps: the file range of the
link is in order and ends a page below the largest `off_t`, and the running total is
at most `limit` and at most `file_pos`. -/
theorem coalesce_loop_cut_eq (L : Layout) (bufs : BufStore) (fd limit : Int)
    (hps : 0 < L.ngx_pagesize) (cl : ngx_chain_t) (rest : List ngx_chain_t) (total : Int)
    (hb0 : 0 ≤ (bufs cl.buf).file_pos)
    (hb2 : (bufs cl.buf).file_last + (L.ngx_pagesize : Int) ≤ (L.off_half : Int))
    (ht0 : 0 ≤ total) (ht1 : total ≤ limit) (hl : limit < (L.off_half : Int))
    (htp : total ≤ (bufs cl.buf).file_pos)
    (hbig : (bufs cl.buf).file_last - (bufs cl.buf).file_pos > limit - total) :
    coalesce_loop L bufs fd limit (cl :: rest) total =
      (total + (if ((bufs cl.buf).file_pos + (limit - total) + (L.ngx_pagesize : Int) - 1) /
            (L.ngx_pagesize : Int) * (L.ngx_pagesize : Int) ≤ (bufs cl.buf).file_last then
          ((bufs cl.buf).file_pos + (limit - total) + (L.ngx_pagesize : Int) - 1) /
            (L.ngx_pagesize : Int) * (L.ngx_pagesize : Int) - (bufs cl.buf).file_pos
        else limit - total), cl :: rest) := by
  have hps1 : (0 : Int) < (L.ngx_pagesize : Int) := by exact_mod_cast hps
  obtain ⟨r1, r2⟩ := page_round_bounds
    ((bufs cl.buf).file_pos + (limit - total) + (L.ngx_pagesize : Int) - 1)
    (L.ngx_pagesize : Int) hps1
  have e1 : off_wrap L ((bufs cl.buf).file_last - (bufs cl.buf).file_pos) =
      (bufs cl.buf).file_last - (bufs cl.buf).file_pos := off_wrap_id L _ (by omega) (by omega)
  have e2 : off_wrap L (limit - total) = limit - total := off_wrap_id L _ (by omega) (by omega)
  have e3 : ((bufs cl.buf).file_pos + (limit - total) + (L.ngx_pagesize : Int) - 1) %
      (2 * (L.off_half : Int)) =
      (bufs cl.buf).file_pos + (limit - total) + (L.ngx_pagesize : Int) - 1 :=
    Int.emod_eq_of_lt (by omega) (by omega)
  have e4 : off_wrap L (((bufs cl.buf).file_pos + (limit - total) + (L.ngx_pagesize : Int) - 1) /
      (L.ngx_pagesize : Int) * (L.ngx_pagesize : Int)) =
      ((bufs cl.buf).file_pos + (limit - total) + (L.ngx_pagesize : Int) - 1) /
      (L.ngx_pagesize : Int) * (L.ngx_pagesize : Int) := off_wrap_id L _ (by omega) (by omega)
  rw [coalesce_loop]
  simp only
  rw [e1, e2, if_pos hbig, e3, e4]
  by_cases ha : ((bufs cl.buf).file_pos + (limit - total) + (L.ngx_pagesize : Int) - 1) /
      (L.ngx_pagesize : Int) * (L.ngx_pagesize : Int) ≤ (bufs cl.buf).file_last
  · rw [if_pos ha, if_pos ha,
      off_wrap_id L (((bufs cl.buf).file_pos + (limit - total) + (L.ngx_pagesize : Int) - 1) /
        (L.ngx_pagesize : Int) * (L.ngx_pagesize : Int) - (bufs cl.buf).file_pos)
        (by omega) (by omega),
      off_wrap_id L _ (by omega) (by omega)]
  · rw [if_neg ha, if_neg ha, off_wrap_id L _ (by omega) (by omega)]

/-- The branch of the loop that takes a whole link, when no `off_t` operation wraps. -/
theorem coalesce_loop_take_eq (L : Layout) (bufs : BufStore) (fd limit : Int)
    (cl : ngx_chain_t) (rest : List ngx_chain_t) (total : Int)
    (hb0 : 0 ≤ (bufs cl.buf).file_pos)
    (hb1 : (bufs cl.buf).file_pos ≤ (bufs cl.buf).file_last)
    (hb2 : (bufs cl.buf).file_last < (L.off_half : Int))
    (ht0 : 0 ≤ total) (ht1 : total ≤ limit) (hl : limit < (L.off_half : Int))
    (hbig : ¬ (bufs cl.buf).file_last - (bufs cl.buf).file_pos > limit - total) :
    coalesce_loop L bufs fd limit (cl :: rest) total =
      match rest with
      | [] => (total + ((bufs cl.buf).file_last - (bufs cl.buf).file_pos), [])
      | c2 :: rest2 =>
        if (bufs c2.buf).in_file = true ∧
            total + ((bufs cl.buf).file_last - (bufs cl.buf).file_pos) < limit ∧
            fd = (bufs c2.buf).file_fd ∧
            (bufs cl.buf).file_pos + ((bufs cl.buf).file_last - (bufs cl.buf).file_pos) =
              (bufs c2.buf).file_pos then
          coalesce_loop L bufs fd limit (c2 :: rest2)
            (total + ((bufs cl.buf).file_last - (bufs cl.buf).file_pos))
        else (total + ((bufs cl.buf).file_last - (bufs cl.buf).file_pos), c2 :: rest2) := by
  have e1 : off_wrap L ((bufs cl.buf).file_last - (bufs cl.buf).file_pos) =
      (bufs cl.buf).file_last - (bufs cl.buf).file_pos := off_wrap_id L _ (by omega) (by omega)
  have e2 : off_wrap L (limit - total) = limit - total := off_wrap_id L _ (by omega) (by omega)
  have e3 : off_wrap L (total + ((bufs cl.buf).file_last - (bufs cl.buf).file_pos)) =
      total + ((bufs cl.buf).file_last - (bufs cl.buf).file_pos) :=
    off_wrap_id L _ (by omega) (by omega)
  have e4 : off_wrap L ((bufs cl.buf).file_pos +
      ((bufs cl.buf).file_last - (bufs cl.buf).file_pos)) =
      (bufs cl.buf).file_pos + ((bufs cl.buf).file_last - (bufs cl.buf).file_pos) :=
    off_wrap_id L _ (by omega) (by omega)
  rw [coalesce_loop]
  simp only
  rw [e1, e2, if_neg hbig, e3, e4]

theorem coalesce_loop_bound (L : Layout) (bufs : BufStore) (fd limit : Int)
    (hps : 0 < L.ngx_pagesize) (hl : limit < (L.off_half : Int)) :
    ∀ (rest : List ngx_chain_t) (cl : ngx_chain_t) (total : Int), 0 ≤ total → total ≤ limit →
      total ≤ (bufs cl.buf).file_pos →
      (∀ c ∈ cl :: rest, 0 ≤ (bufs c.buf).file_pos ∧
        (bufs c.buf).file_pos ≤ (bufs c.buf).file_last ∧
        (bufs c.buf).file_last + (L.ngx_pagesize : Int) ≤ (L.off_half : Int)) →
      0 ≤ (coalesce_loop L bufs fd limit (cl :: rest) total).1 ∧
        (coalesce_loop L bufs fd limit (cl :: rest) total).1 < limit + (L.ngx_pagesize : Int) := by
  have hps1 : (0 : Int) < (L.ngx_pagesize : Int) := by exact_mod_cast hps
  intro rest
  induction rest with
  | nil =>
    intro cl total h0 h1 htp hr
    obtain ⟨hb0, hb1, hb2⟩ := hr cl (List.mem_cons_self _ _)
    by_cases hbig : (bufs cl.buf).file_last - (bufs cl.buf).file_pos > limit - total
    · rw [coalesce_loop_cut_eq L bufs fd limit hps cl [] total hb0 hb2 h0 h1 hl htp hbig]
      obtain ⟨r1, r2⟩ := page_round_bounds
        ((bufs cl.buf).file_pos + (limit - total) + (L.ngx_pagesize : Int) - 1)
        (L.ngx_pagesize : Int) hps1
      simp only
      split <;> constructor <;> omega
    · rw [coalesce_loop_take_eq L bufs fd limit cl [] total hb0 hb1 (by omega) h0 h1 hl hbig]
      simp only
      constructor <;> omega
  | cons c2 rest2 ih =>
    intro cl total h0 h1 htp hr
    obtain ⟨hb0, hb1, hb2⟩ := hr cl (List.mem_cons_self _ _)
    by_cases hbig : (bufs cl.buf).file_last - (bufs cl.buf).file_pos > limit - total
    · rw [coalesce_loop_cut_eq L bufs fd limit hps cl (c2 :: rest2) total hb0 hb2 h0 h1 hl htp
        hbig]
      obtain ⟨r1, r2⟩ := page_round_bounds
        ((bufs cl.buf).file_pos + (limit - total) + (L.ngx_pagesize : Int) - 1)
        (L.ngx_pagesize : Int) hps1
      simp only
      split <;> constructor <;> omega
    · rw [coalesce_loop_take_eq L bufs fd limit cl (c2 :: rest2) total hb0 hb1 (by omega) h0 h1
        hl hbig]
      simp only
      split
      · rename_i hcond
        exact ih c2 _ (by omega) (by omega) (by omega)
          (fun c hc => hr c (List.mem_cons_of_mem _ hc))
      · simp only
        constructor <;> omega

/-- C13 (as stated) fails: with a page size of 4096 and `limit = 100`, a chain of one
file buffer with the range from 0 to 10000 makes `chain_coalesce_file` return 4096:
the last contribution, cut to 100, is rounded up to the page boundary 4096. -/
theorem coalesce_file_exceeds_limit :
    (ngx_chain_coalesce_file lp64 bufs_file_two [{ addr := 10, buf := 100 }] 100).1 = 4096 ∧
      ¬ ((4096 : Int) ≤ 100) := by
  refine ⟨by decide, by decide⟩

/-- The page rounding leaves the range of `off_t`: with a page size of 4096, one file
buffer with the range from 0 to `2 ^ 63 - 1` and `limit = 2 ^ 63 - 2`, the cut
contribution is rounded up to `2 ^ 63`, which as an `off_t` is `-2 ^ 63`, and that is
the total returned. -/
theorem coalesce_file_rounding_wraps :
    (ngx_chain_coalesce_file lp64 (fun _ => file_buf 3 0 (2 ^ 63 - 1))
      [{ addr := 10, buf := 100 }] (2 ^ 63 - 2)).1 = -2 ^ 63 := by
  decide

/-- C13 (amended): for every non-empty chain whose buffers all satisfy
`0 ≤ file_pos ≤ file_last` and `file_last + ngx_pagesize ≤ off_half` (the file ranges
end at least a page below the largest `off_t`), every `limit` with
`0 ≤ limit < off_half` (a non-negative `off_t`) and a positive page size, the value
returned by `chain_coalesce_file(&in, limit)` is at least 0 and less than
`limit + ngx_pagesize`. -/
theorem coalesce_file_bound (L : Layout) (bufs : BufStore) (chain : List ngx_chain_t)
    (limit : Int) (hps : 0 < L.ngx_pagesize) (hne : chain ≠ [])
    (hrange : ∀ cl ∈ chain, 0 ≤ (bufs cl.buf).file_pos ∧
      (bufs cl.buf).file_pos ≤ (bufs cl.buf).file_last ∧
      (bufs cl.buf).file_last + (L.ngx_pagesize : Int) ≤ (L.off_half : Int))
    (hlim : 0 ≤ limit) (hoff : limit < (L.off_half : Int)) :
    0 ≤ (ngx_chain_coalesce_file L bufs chain limit).1 ∧
      (ngx_chain_coalesce_file L bufs chain limit).1 < limit + (L.ngx_pagesize : Int) := by
  cases chain with
  | nil => exact absurd rfl hne
  | cons cl rest =>
    exact coalesce_loop_bound L bufs _ limit hps hoff rest cl 0 (Int.le_refl 0) hlim
      (hrange cl (List.mem_cons_self _ _)).1 hrange

/-- C13 witness: two contiguous buffers of one file with 12000 bytes in all and
`limit = 11000`: the total returned is between 0 and `11000 + 4096`. -/
theorem coalesce_file_bound_witness :
    0 ≤ (ngx_chain_coalesce_file lp64 bufs_file_two
        [{ addr := 10, buf := 100 }, { addr := 20, buf := 200 }] 11000).1 ∧
      (ngx_chain_coalesce_file lp64 bufs_file_two
        [{ addr := 10, buf := 100 }, { addr := 20, buf := 200 }] 11000).1 <
        11000 + (lp64.ngx_pagesize : Int) :=
  coalesce_file_bound lp64 bufs_file_two
    [{ addr := 10, buf := 100 }, { addr := 20, buf := 200 }] 11000
    (by decide) (by decide) (by decide) (by decide) (by decide)

/-! ## C14: the capacity invariant of arrays -/

theorem ngx_array_push_capacity (L : Layout) (a : ngx_array_t) (pool : ngx_pool_t) (mem : Mem)
    (o : Oracle) (n0 k : Nat)
    (h : a.nelts ≤ a.nalloc ∧ 1 ≤ a.nalloc ∧ a.nelts ≤ k ∧ a.nalloc ≤ 2 * (n0 + k)) :
    (ngx_array_push L a pool mem o).2.1.nelts ≤ (ngx_array_push L a pool mem o).2.1.nalloc ∧
      1 ≤ (ngx_array_push L a pool mem o).2.1.nalloc ∧
      (ngx_array_push L a pool mem o).2.1.nelts ≤ k + 1 ∧
      (ngx_array_push L a pool mem o).2.1.nalloc ≤ 2 * (n0 + (k + 1)) := by
  have hmono : a.nelts ≤ a.nalloc ∧ 1 ≤ a.nalloc ∧ a.nelts ≤ k + 1 ∧
      a.nalloc ≤ 2 * (n0 + (k + 1)) := ⟨h.1, h.2.1, by omega, by omega⟩
  unfold ngx_array_push
  by_cases hfull : a.nelts = a.nalloc
  · rw [if_pos hfull]
    simp only
    cases hb : pool.blocks with
    | nil => exact hmono
    | cons d rest =>
      simp only
      split
      · simp only; omega
      · cases hp : ngx_palloc L pool (size_mul L 2 (size_mul L a.size a.nalloc)) o with
        | mk new r =>
          obtain ⟨pool1, o1⟩ := r
          simp only
          split
          · exact hmono
          · simp only; omega
  · rw [if_neg hfull]
    simp only
    omega

theorem ngx_array_push_n_capacity (L : Layout) (a : ngx_array_t) (n : Nat) (pool : ngx_pool_t)
    (mem : Mem) (o : Oracle) (n0 k : Nat)
    (h : a.nelts ≤ a.nalloc ∧ 1 ≤ a.nalloc ∧ a.nelts ≤ k ∧ a.nalloc ≤ 2 * (n0 + k))
    (hU : 2 * (n0 + (k + n)) < L.uint_max) :
    (ngx_array_push_n L a n pool mem o).2.1.nelts ≤
        (ngx_array_push_n L a n pool mem o).2.1.nalloc ∧
      1 ≤ (ngx_array_push_n L a n pool mem o).2.1.nalloc ∧
      (ngx_array_push_n L a n pool mem o).2.1.nelts ≤ k + n ∧
      (ngx_array_push_n L a n pool mem o).2.1.nalloc ≤ 2 * (n0 + (k + n)) := by
  have hmono : a.nelts ≤ a.nalloc ∧ 1 ≤ a.nalloc ∧ a.nelts ≤ k + n ∧
      a.nalloc ≤ 2 * (n0 + (k + n)) := ⟨h.1, h.2.1, by omega, by omega⟩
  have e1 : (a.nelts + n) % L.uint_max = a.nelts + n := Nat.mod_eq_of_lt (by omega)
  have e2 : (a.nalloc + n) % L.uint_max = a.nalloc + n := Nat.mod_eq_of_lt (by omega)
  unfold ngx_array_push_n
  simp only
  rw [e1, e2]
  by_cases hfull : a.nelts + n > a.nalloc
  · have e3 : (2 * (if n ≥ a.nalloc then n else a.nalloc)) % L.uint_max =
        2 * (if n ≥ a.nalloc then n else a.nalloc) :=
      Nat.mod_eq_of_lt (by
        by_cases hc : n ≥ a.nalloc
        · rw [if_pos hc]; omega
        · rw [if_neg hc]; omega)
    rw [if_pos hfull, e3]
    cases hb : pool.blocks with
    | nil => exact hmono
    | cons d rest =>
      simp only
      split
      · simp only; omega
      · cases hp : ngx_palloc L pool
            (size_mul L (2 * (if n ≥ a.nalloc then n else a.nalloc)) a.size) o with
        | mk new r =>
          obtain ⟨pool1, o1⟩ := r
          simp only
          split
          · exact hmono
          · simp only
            split <;> omega
  · rw [if_neg hfull]
    simp only
    omega

theorem run_array_ops_capacity (L : Layout) (n0 : Nat) (ops : List ArrayOp) :
    ∀ (s : ArrayState) (k : Nat),
      s.a.nelts ≤ s.a.nalloc ∧ 1 ≤ s.a.nalloc ∧ s.a.nelts ≤ k ∧ s.a.nalloc ≤ 2 * (n0 + k) →
      2 * (n0 + (k + array_ops_elts ops)) < L.uint_max →
      (run_array_ops L ops s).a.nelts ≤ (run_array_ops L ops s).a.nalloc ∧
        (run_array_ops L ops s).a.nalloc ≤ 2 * (n0 + (k + array_ops_elts ops)) := by
  induction ops with
  | nil => intro s k h _; exact ⟨h.1, h.2.2.2⟩
  | cons op ops ih =>
    intro s k h hU
    cases op with
    | push =>
      have := ih (ArrayOp.apply L ArrayOp.push s) (k + 1) (ngx_array_push_capacity L s.a s.pool s.mem s.o n0 k h) (by
        simp only [array_ops_elts] at hU; omega)
      refine ⟨this.1, ?_⟩
      have h2 := this.2
      simp only [array_ops_elts]
      show (run_array_ops L ops (ArrayOp.apply L ArrayOp.push s)).a.nalloc ≤ _
      omega
    | push_n n =>
      have := ih (ArrayOp.apply L (ArrayOp.push_n n) s) (k + n) (ngx_array_push_n_capacity L s.a n s.pool s.mem s.o n0 k h (by
        simp only [array_ops_elts] at hU; omega)) (by
        simp only [array_ops_elts] at hU; omega)
      refine ⟨this.1, ?_⟩
      have h2 := this.2
      simp only [array_ops_elts]
      show (run_array_ops L ops (ArrayOp.apply L (ArrayOp.push_n n) s)).a.nalloc ≤ _
      omega
    | palloc size => exact ih _ k h (by simp only [array_ops_elts] at hU; omega)
    | pnalloc size => exact ih _ k h (by simp only [array_ops_elts] at hU; omega)

/-- C14 (as stated) fails for the initial capacity 0: after `array_init` with `n = 0`
and element size 8, another allocation of 8 bytes and one `array_push` (which
succeeds, the region being "doubled" from 0 to 0 elements) the array has `nelts = 1`
and `nalloc = 0`. -/
theorem array_capacity_zero_fails :
    ngx_array_init lp64 pool_fresh 0 8 [] =
        (NGX_OK, { elts := 1104, nelts := 0, size := 8, nalloc := 0 }, pool_fresh, []) ∧
      (ngx_array_push lp64 { elts := 1104, nelts := 0, size := 8, nalloc := 0 }
        (ngx_palloc lp64 pool_fresh 8 []).2.1 mem_zero []).1 = 1112 ∧
      (run_array_ops lp64 [ArrayOp.palloc 8, ArrayOp.push]
        { a := { elts := 1104, nelts := 0, size := 8, nalloc := 0 }, pool := pool_fresh,
          mem := mem_zero, o := [] }).a = { elts := 1112, nelts := 1, size := 8, nalloc := 0 } ∧
      ¬ ((1 : Nat) ≤ 0) := by
  refine ⟨by decide, by decide, by decide, by decide⟩

/-- The counters of `ngx_array_push_n` wrap around: on the array that
`ngx_array_create(pool, 4, 8)` made, after another allocation of 16 bytes, the call
`ngx_array_push_n(a, 2 ^ 63)` succeeds (the new capacity `2 * 2 ^ 63` is 0 in
`ngx_uint_t`, and so is the size of the new region) and leaves `nelts = 2 ^ 63` with
`nalloc = 0`. -/
theorem array_push_n_wraps :
    (run_array_ops lp64 [ArrayOp.palloc 16, ArrayOp.push_n (2 ^ 63)]
        { a := array_made, pool := pool_array_made, mem := mem_zero, o := [] }).a =
      { elts := 1192, nelts := 2 ^ 63, size := 8, nalloc := 0 } := by
  decide

/-- C14 (amended): for every array made by `array_create` or `array_init` with an
initial capacity `n ≥ 1` and any element size, after any sequence of `array_push` and
`array_push_n` calls, interleaved with arbitrary other allocations from the same pool,
that asks for `k` elements in all with `2 * (n + k)` below the number of values of
`ngx_uint_t`, the element count `nelts` is at most the capacity `nalloc`, and the
capacity is at most `2 * (n + k)`, so that no counter leaves the range of
`ngx_uint_t`. -/
theorem array_capacity_invariant (L : Layout) (pool pool1 : ngx_pool_t) (n size : Nat)
    (o o1 : Oracle) (a : ngx_array_t) (mem : Mem) (ops : List ArrayOp) (hn : 1 ≤ n)
    (hcount : 2 * (n + array_ops_elts ops) < L.uint_max)
    (hmade : (∃ rc, ngx_array_init L pool n size o = (rc, a, pool1, o1)) ∨
      (∃ addr, ngx_array_create L pool n size o = (some (addr, a), pool1, o1))) :
    (run_array_ops L ops { a := a, pool := pool1, mem := mem, o := o1 }).a.nelts ≤
        (run_array_ops L ops { a := a, pool := pool1, mem := mem, o := o1 }).a.nalloc ∧
      (run_array_ops L ops { a := a, pool := pool1, mem := mem, o := o1 }).a.nalloc ≤
        2 * (n + array_ops_elts ops) := by
  have hinit : ∀ (p : ngx_pool_t) (oo : Oracle),
      (ngx_array_init L p n size oo).2.1.nelts = 0 ∧
        (ngx_array_init L p n size oo).2.1.nalloc = n := by
    intro p oo
    unfold ngx_array_init
    cases ngx_palloc L p (size_mul L n size) oo with
    | mk e r => exact ⟨rfl, rfl⟩
  have ha : a.nelts = 0 ∧ a.nalloc = n := by
    rcases hmade with ⟨rc, h⟩ | ⟨addr, h⟩
    · have := hinit pool o
      rw [h] at this
      exact this
    · unfold ngx_array_create at h
      cases hp : ngx_palloc L pool L.sizeof_array o with
      | mk x r =>
        obtain ⟨pa, oa⟩ := r
        rw [hp] at h
        simp only at h
        by_cases hx : x = 0
        · rw [if_pos hx] at h; simp at h
        · rw [if_neg hx] at h
          have hi := hinit pa oa
          cases hini : ngx_array_init L pa n size oa with
          | mk rc r2 =>
            obtain ⟨arr, pb, ob⟩ := r2
            rw [hini] at h hi
            simp only at h hi
            split at h
            · simp at h
            · simp only [Prod.mk.injEq, Option.some.injEq] at h
              rw [← h.1.2]
              exact hi
  have hrun := run_array_ops_capacity L n ops { a := a, pool := pool1, mem := mem, o := o1 } 0
    ⟨by show a.nelts ≤ a.nalloc; omega, by show 1 ≤ a.nalloc; omega,
      by show a.nelts ≤ 0; omega, by show a.nalloc ≤ 2 * (n + 0); omega⟩ (by omega)
  exact ⟨hrun.1, by have := hrun.2; omega⟩

/-- C14 witness: an array created with `n = 4` and element size 8, then five pushes,
an allocation of 16 bytes, a push of three elements and one more push: 9 elements in a
capacity of 10. -/
theorem array_capacity_invariant_witness :
    (run_array_ops lp64
        (List.replicate 5 ArrayOp.push ++ [ArrayOp.palloc 16, ArrayOp.push_n 3, ArrayOp.push])
        { a := array_made, pool := pool_array_made, mem := mem_zero, o := [] }).a.nelts ≤
      (run_array_ops lp64
        (List.replicate 5 ArrayOp.push ++ [ArrayOp.palloc 16, ArrayOp.push_n 3, ArrayOp.push])
        { a := array_made, pool := pool_array_made, mem := mem_zero, o := [] }).a.nalloc :=
  (array_capacity_invariant lp64 pool_fresh pool_array_made 4 8 [] [] array_made mem_zero
    (List.replicate 5 ArrayOp.push ++ [ArrayOp.palloc 16, ArrayOp.push_n 3, ArrayOp.push])
    (by decide) (by decide) (Or.inr ⟨1104, by decide⟩)).1

/-! ## C16: in-place growth of an array -/

/-- C16: when the array is full, its element region ends at the cursor of the head
block (`elts + size * nalloc = pool.d.last`, the product fitting `size_t`) and the head
block has `size` bytes left, `array_push` returns the slot at index old `nelts`, leaves
`elts` unchanged, raises `nalloc` (and `nelts`) by one, advances the cursor of the head
block by `size` and changes nothing else. -/
theorem array_push_in_place (L : Layout) (a : ngx_array_t) (pool : ngx_pool_t)
    (d : ngx_pool_data_t) (rest : List ngx_pool_data_t) (mem : Mem) (o : Oracle)
    (hfull : a.nelts = a.nalloc) (hblocks : pool.blocks = d :: rest)
    (hfit : a.size * a.nalloc < L.size_max)
    (hflush : a.elts + a.size * a.nalloc = d.last) (hroom : d.last + a.size ≤ d.end_) :
    ngx_array_push L a pool mem o =
      (a.elts + a.size * a.nelts, { a with nalloc := a.nalloc + 1, nelts := a.nelts + 1 },
        { pool with blocks := { d with last := d.last + a.size } :: rest }, mem, o) := by
  have hmul : size_mul L a.size a.nalloc = a.size * a.nalloc := Nat.mod_eq_of_lt hfit
  have hmul1 : size_mul L a.size a.nelts = a.size * a.nelts := by rw [hfull]; exact hmul
  unfold ngx_array_push
  rw [if_pos hfull, hblocks]
  simp only
  rw [hmul, hmul1, if_pos ⟨hflush, hroom⟩]

/-- C16 witness: a fresh pool, an array created with `n = 4` and `size = 8`, four
pushes and no other allocation; the fifth push returns the slot at `elts + 32`, the
capacity becomes 5 and `elts` stays 1144. -/
theorem array_push_in_place_witness :
    (run_array_ops lp64 (List.replicate 4 ArrayOp.push)
        { a := array_made, pool := pool_array_made, mem := mem_zero, o := [] }).a =
        { elts := 1144, nelts := 4, size := 8, nalloc := 4 } ∧
      ngx_array_push lp64 { elts := 1144, nelts := 4, size := 8, nalloc := 4 } pool_array_made
          mem_zero [] =
        (1144 + 8 * 4, { elts := 1144, nelts := 5, size := 8, nalloc := 5 },
          { pool_array_made with
            blocks := [{ addr := 1024, last := 1176 + 8, end_ := 2048, failed := 0 }] },
          mem_zero, []) :=
  ⟨by decide,
    array_push_in_place lp64 { elts := 1144, nelts := 4, size := 8, nalloc := 4 }
      pool_array_made { addr := 1024, last := 1176, end_ := 2048, failed := 0 } [] mem_zero []
      (by decide) (by decide) (by decide) (by decide) (by decide)⟩

/-! ## C15: the round trip of pushed items -/

theorem last_of_mem : ∀ (A : List Nat) (a : Nat), last_of a A ∈ a :: A := by
  intro A
  induction A with
  | nil => intro a; simp [last_of]
  | cons x xs ih =>
    intro a
    simp only [last_of]
    exact List.mem_cons_of_mem _ (ih x)

theorem last_of_append : ∀ (A : List Nat) (a x : Nat) (B : List Nat),
    last_of a (A ++ x :: B) = last_of x B := by
  intro A
  induction A with
  | nil => intro a x B; rfl
  | cons y ys ih => intro a x B; simp only [List.cons_append, last_of]; exact ih y x B

theorem head_of_mem (B : List Nat) (e : Nat) : head_of B e ∈ B ++ [e] := by
  cases B with
  | nil => simp [head_of]
  | cons x xs => simp [head_of]

theorem seg_split (nx : Nat → Nat) :
    ∀ (A : List Nat) (a : Nat) (B : List Nat) (e : Nat),
      Seg nx a (A ++ B) e ↔ Seg nx a A (head_of B e) ∧ SegT nx B e := by
  intro A
  induction A with
  | nil =>
    intro a B e
    cases B with
    | nil => simp [Seg, SegT, head_of]
    | cons x xs => simp [Seg, SegT, head_of]
  | cons y ys ih =>
    intro a B e
    show nx a = y ∧ Seg nx y (ys ++ B) e ↔ _
    rw [ih y B e, Seg, and_assoc]

theorem seg_last (nx : Nat → Nat) :
    ∀ (A : List Nat) (a e : Nat), Seg nx a A e → nx (last_of a A) = e := by
  intro A
  induction A with
  | nil => intro a e h; exact h
  | cons y ys ih => intro a e h; exact ih y e h.2

theorem seg_reend (nx nx1 : Nat → Nat) :
    ∀ (A : List Nat) (a e e1 : Nat), (a :: A).Nodup →
      (∀ y ∈ a :: A, y ≠ last_of a A → nx1 y = nx y) → nx1 (last_of a A) = e1 →
      Seg nx a A e → Seg nx1 a A e1 := by
  intro A
  induction A with
  | nil => intro a e e1 _ _ h1 _; exact h1
  | cons y ys ih =>
    intro a e e1 hnd hfr h1 h
    have hne : a ≠ last_of y ys := by
      intro e2
      have := last_of_mem ys y
      rw [← e2] at this
      exact (List.nodup_cons.mp hnd).1 this
    refine ⟨?_, ih y e e1 (List.nodup_cons.mp hnd).2 ?_ h1 h.2⟩
    · rw [hfr a (List.mem_cons_self _ _) hne]; exact h.1
    · intro z hz hz1
      exact hfr z (List.mem_cons_of_mem _ hz) hz1

theorem seg_frame (nx nx1 : Nat → Nat) :
    ∀ (A : List Nat) (a e : Nat), (∀ y ∈ a :: A, nx1 y = nx y) → Seg nx a A e → Seg nx1 a A e := by
  intro A
  induction A with
  | nil => intro a e hfr h; rw [Seg, hfr a (List.mem_cons_self _ _)]; exact h
  | cons y ys ih =>
    intro a e hfr h
    refine ⟨?_, ih y e (fun z hz => hfr z (List.mem_cons_of_mem _ hz)) h.2⟩
    rw [hfr a (List.mem_cons_self _ _)]; exact h.1

theorem segT_frame (nx nx1 : Nat → Nat) (B : List Nat) (e : Nat)
    (hfr : ∀ y ∈ B, nx1 y = nx y) (h : SegT nx B e) : SegT nx1 B e := by
  cases B with
  | nil => trivial
  | cons x xs => exact seg_frame nx nx1 xs x e hfr h

theorem pseg_split (pv : Nat → Nat) :
    ∀ (A : List Nat) (a : Nat) (B : List Nat) (e : Nat),
      PSeg pv a (A ++ B) e ↔ PSeg pv a A (head_of B e) ∧ PSegT pv B e := by
  intro A
  induction A with
  | nil =>
    intro a B e
    cases B with
    | nil => simp [PSeg, PSegT, head_of]
    | cons x xs => simp [PSeg, PSegT, head_of]
  | cons y ys ih =>
    intro a B e
    show pv y = a ∧ PSeg pv y (ys ++ B) e ↔ _
    rw [ih y B e, PSeg, and_assoc]

theorem pseg_last (pv : Nat → Nat) :
    ∀ (A : List Nat) (a e : Nat), PSeg pv a A e → pv e = last_of a A := by
  intro A
  induction A with
  | nil => intro a e h; exact h
  | cons y ys ih => intro a e h; exact ih y e h.2

theorem pseg_reend (pv pv1 : Nat → Nat) :
    ∀ (A : List Nat) (a e e1 : Nat), (∀ y ∈ A, pv1 y = pv y) → pv1 e1 = last_of a A →
      PSeg pv a A e → PSeg pv1 a A e1 := by
  intro A
  induction A with
  | nil => intro a e e1 _ h1 _; exact h1
  | cons y ys ih =>
    intro a e e1 hfr h1 h
    refine ⟨?_, ih y e e1 (fun z hz => hfr z (List.mem_cons_of_mem _ hz)) h1 h.2⟩
    rw [hfr y (List.mem_cons_self _ _)]; exact h.1

theorem psegT_frame (pv pv1 : Nat → Nat) (B : List Nat) (e : Nat)
    (hfr : ∀ y ∈ (B ++ [e]).tail, pv1 y = pv y) (h : PSegT pv B e) : PSegT pv1 B e := by
  cases B with
  | nil => trivial
  | cons x xs =>
    simp only [List.cons_append, List.tail_cons] at hfr
    refine pseg_reend pv pv1 xs x e e (fun y hy => hfr y (List.mem_append_left _ hy)) ?_ h
    rw [hfr e (by simp)]
    exact pseg_last pv xs x e h

theorem queue_nodup_parts (q x : Nat) (A B : List Nat) (h : (q :: (A ++ x :: B)).Nodup) :
    (q :: A).Nodup ∧ (B ++ [q]).Nodup ∧ x ∉ q :: A ∧ x ∉ B ++ [q] ∧
      (∀ y ∈ q :: A, y ∉ B) ∧ (∀ y ∈ A, y ∉ B ++ [q]) ∧ (q :: (A ++ B)).Nodup := by
  have h1 : ((q :: A) ++ (x :: B)).Nodup := h
  rw [List.nodup_append] at h1
  obtain ⟨n1, n2, n3⟩ := h1
  have hq : q ∉ A := (List.nodup_cons.mp n1).1
  have hB : B.Nodup := (List.nodup_cons.mp n2).2
  have hxB : x ∉ B := (List.nodup_cons.mp n2).1
  have hdis : ∀ y ∈ q :: A, y ∉ x :: B := fun y hy hy1 => n3 hy hy1
  have hxqA : x ∉ q :: A := fun hx => hdis x hx (List.mem_cons_self _ _)
  have hd2 : ∀ y ∈ q :: A, y ∉ B := fun y hy hy1 => hdis y hy (List.mem_cons_of_mem _ hy1)
  have hqB : q ∉ B := hd2 q (List.mem_cons_self _ _)
  refine ⟨n1, ?_, hxqA, ?_, hd2, ?_, ?_⟩
  · rw [List.nodup_append]
    refine ⟨hB, List.nodup_singleton q, ?_⟩
    intro y hy hy1
    rw [List.mem_singleton] at hy1
    rw [hy1] at hy; exact hqB hy
  · intro hx
    rcases List.mem_append.mp hx with h2 | h2
    · exact hxB h2
    · rw [List.mem_singleton] at h2
      exact hxqA (by rw [h2]; exact List.mem_cons_self _ _)
  · intro y hy hy1
    rcases List.mem_append.mp hy1 with h2 | h2
    · exact hd2 y (List.mem_cons_of_mem _ hy) h2
    · rw [List.mem_singleton] at h2
      rw [h2] at hy; exact hq hy
  · have : ((q :: A) ++ B).Nodup := by
      rw [List.nodup_append]
      exact ⟨n1, hB, fun y hy hy1 => hd2 y hy hy1⟩
    exact this

theorem head_of_not_mem_tail (B : List Nat) (e : Nat) (h : (B ++ [e]).Nodup) :
    head_of B e ∉ (B ++ [e]).tail := by
  cases B with
  | nil => simp
  | cons x xs =>
    simp only [List.cons_append, List.tail_cons, head_of]
    exact (List.nodup_cons.mp h).1

theorem queue_remove_spec (h : QHeap) (q x : Nat) (A B : List Nat)
    (hq : IsQueue h q (A ++ x :: B)) :
    IsQueue (ngx_queue_remove h x) q (A ++ B) ∧ h.prev x = last_of q A ∧
      h.next x = head_of B q := by
  obtain ⟨hnd, hs, hp⟩ := hq
  obtain ⟨n1, n2, n3, n4, n5, n6, n7⟩ := queue_nodup_parts q x A B hnd
  rw [seg_split] at hs
  obtain ⟨hs1, hs2⟩ := hs
  have hs3 : Seg h.next x ([] ++ B) q := hs2
  rw [seg_split] at hs3
  obtain ⟨hnx, hs4⟩ := hs3
  rw [pseg_split] at hp
  obtain ⟨hp1, hp2⟩ := hp
  have hp3 : PSeg h.prev x ([] ++ B) q := hp2
  rw [pseg_split] at hp3
  obtain ⟨_, hp4⟩ := hp3
  have hpx : h.prev x = last_of q A := pseg_last h.prev A q x hp1
  have hnx1 : h.next x = head_of B q := hnx
  have hxn : x ≠ head_of B q := fun e => n4 (by rw [e]; exact head_of_mem B q)
  have hres : ngx_queue_remove h x =
      { prev := Function.update h.prev (head_of B q) (last_of q A),
        next := Function.update h.next (last_of q A) (head_of B q) } := by
    unfold ngx_queue_remove
    simp only
    rw [hnx1, hpx, Function.update_noteq hxn, hpx]
  refine ⟨?_, hpx, hnx1⟩
  rw [hres]
  refine ⟨n7, ?_, ?_⟩
  · show Seg (Function.update h.next (last_of q A) (head_of B q)) q (A ++ B) q
    rw [seg_split]
    constructor
    · exact seg_reend h.next _ A q x _ n1
        (fun y _ hy => Function.update_noteq hy _ _) (Function.update_same _ _ _) hs1
    · refine segT_frame h.next _ B q ?_ hs4
      intro y hy
      have : y ≠ last_of q A := fun e => n5 _ (last_of_mem A q) (by rw [← e]; exact hy)
      exact Function.update_noteq this _ _
  · show PSeg (Function.update h.prev (head_of B q) (last_of q A)) q (A ++ B) q
    rw [pseg_split]
    constructor
    · refine pseg_reend h.prev _ A q x _ ?_ (Function.update_same _ _ _) hp1
      intro y hy
      have : y ≠ head_of B q := fun e => n6 y hy (by rw [e]; exact head_of_mem B q)
      exact Function.update_noteq this _ _
    · refine psegT_frame h.prev _ B q ?_ hp4
      intro y hy
      have : y ≠ head_of B q := fun e => head_of_not_mem_tail B q n2 (by rw [← e]; exact hy)
      exact Function.update_noteq this _ _

theorem queue_insert_after_spec (h : QHeap) (q x : Nat) (A B : List Nat)
    (hq : IsQueue h q (A ++ B)) (hx : x ∉ q :: (A ++ B)) :
    IsQueue (ngx_queue_insert_after h (last_of q A) x) q (A ++ x :: B) := by
  obtain ⟨hnd, hs, hp⟩ := hq
  have hnd1 : (q :: (A ++ x :: B)).Nodup := by
    have h1 : ((q :: A) ++ B).Nodup := hnd
    rw [List.nodup_append] at h1
    obtain ⟨m1, m2, m3⟩ := h1
    have h2 : ((q :: A) ++ (x :: B)).Nodup := by
      rw [List.nodup_append]
      refine ⟨m1, List.nodup_cons.mpr ⟨fun hxB => hx ?_, m2⟩, ?_⟩
      · exact List.mem_cons_of_mem _ (List.mem_append_right _ hxB)
      · intro y hy hy1
        rcases List.mem_cons.mp hy1 with e | e
        · apply hx
          rw [← e]
          rcases List.mem_cons.mp hy with e1 | e1
          · rw [e1]; exact List.mem_cons_self _ _
          · exact List.mem_cons_of_mem _ (List.mem_append_left _ e1)
        · exact m3 hy e
    exact h2
  obtain ⟨n1, n2, n3, n4, n5, n6, _⟩ := queue_nodup_parts q x A B hnd1
  rw [seg_split] at hs
  obtain ⟨hs1, hs2⟩ := hs
  rw [pseg_split] at hp
  obtain ⟨hp1, hp2⟩ := hp
  have hlast : h.next (last_of q A) = head_of B q := seg_last h.next A q _ hs1
  have hxp : x ≠ last_of q A := fun e => n3 (by rw [e]; exact last_of_mem A q)
  have hxn : x ≠ head_of B q := fun e => n4 (by rw [e]; exact head_of_mem B q)
  have hres : ngx_queue_insert_after h (last_of q A) x =
      { prev := Function.update (Function.update h.prev (head_of B q) x) x (last_of q A),
        next := Function.update (Function.update h.next x (head_of B q)) (last_of q A) x } := by
    unfold ngx_queue_insert_after ngx_queue_insert_head
    simp only
    rw [hlast, Function.update_same]
  rw [hres]
  refine ⟨hnd1, ?_, ?_⟩
  · show Seg (Function.update (Function.update h.next x (head_of B q)) (last_of q A) x) q
      (A ++ x :: B) q
    rw [seg_split]
    constructor
    · refine seg_reend h.next _ A q _ x n1 ?_ (Function.update_same _ _ _) hs1
      intro y hy hy1
      have : y ≠ x := fun e => n3 (by rw [← e]; exact hy)
      rw [Function.update_noteq hy1, Function.update_noteq this]
    · show Seg _ x ([] ++ B) q
      rw [seg_split]
      constructor
      · show Function.update (Function.update h.next x (head_of B q)) (last_of q A) x x =
          head_of B q
        rw [Function.update_noteq hxp, Function.update_same]
      · refine segT_frame h.next _ B q ?_ hs2
        intro y hy
        have e1 : y ≠ last_of q A := fun e => n5 _ (last_of_mem A q) (by rw [← e]; exact hy)
        have e2 : y ≠ x := fun e => n4 (by rw [← e]; exact List.mem_append_left _ hy)
        rw [Function.update_noteq e1, Function.update_noteq e2]
  · show PSeg (Function.update (Function.update h.prev (head_of B q) x) x (last_of q A)) q
      (A ++ x :: B) q
    rw [pseg_split]
    constructor
    · refine pseg_reend h.prev _ A q _ x ?_ (Function.update_same _ _ _) hp1
      intro y hy
      have e1 : y ≠ x := fun e => n3 (by rw [← e]; exact List.mem_cons_of_mem _ hy)
      have e2 : y ≠ head_of B q := fun e => n6 y hy (by rw [e]; exact head_of_mem B q)
      rw [Function.update_noteq e1, Function.update_noteq e2]
    · show PSeg _ x ([] ++ B) q
      rw [pseg_split]
      constructor
      · show Function.update (Function.update h.prev (head_of B q) x) x (last_of q A)
          (head_of B q) = x
        rw [Function.update_noteq (Ne.symm hxn), Function.update_same]
      · refine psegT_frame h.prev _ B q ?_ hp2
        intro y hy
        have e1 : y ≠ x := fun e => n4 (by rw [← e]; exact List.mem_of_mem_tail hy)
        have e2 : y ≠ head_of B q :=
          fun e => head_of_not_mem_tail B q n2 (by rw [← e]; exact hy)
        rw [Function.update_noteq e1, Function.update_noteq e2]

/-! ## C17: `ngx_queue_middle` -/

theorem seg_next_get (nx : Nat → Nat) :
    ∀ (A : List Nat) (a e : Nat), Seg nx a A e →
      ∀ i y z, A[i]? = some y → A[i + 1]? = some z → nx y = z := by
  intro A
  induction A with
  | nil => intro a e _ i y z hy; simp at hy
  | cons x xs ih =>
    intro a e h i y z hy hz
    cases i with
    | zero =>
      simp only [List.getElem?_cons_zero, Option.some.injEq] at hy
      simp only [List.getElem?_cons_succ] at hz
      cases xs with
      | nil => simp at hz
      | cons x2 xs2 =>
        simp only [List.getElem?_cons_zero, Option.some.injEq] at hz
        rw [← hy, ← hz]
        exact h.2.1
    | succ i =>
      simp only [List.getElem?_cons_succ] at hy hz
      exact ih x e h.2 i y z hy hz

theorem last_of_get : ∀ (A : List Nat) (a y : Nat), A[A.length - 1]? = some y →
    last_of a A = y := by
  intro A
  induction A with
  | nil => intro a y h; simp at h
  | cons x xs ih =>
    intro a y h
    cases xs with
    | nil =>
      simp only [List.length_singleton, Nat.sub_self, List.getElem?_cons_zero,
        Option.some.injEq] at h
      rw [← h]; rfl
    | cons x2 xs2 =>
      simp only [last_of]
      apply ih x
      simpa using h

theorem queue_middle_loop_spec (h : QHeap) (q : Nat) (xs : List Nat) (hq : IsQueue h q xs) :
    ∀ (fuel m ym yt : Nat), xs[m]? = some ym → xs[2 * m]? = some yt →
      2 * m + 1 < xs.length → xs.length ≤ fuel + 2 * m →
      ∃ r, queue_middle_loop h q fuel ym yt = some r ∧ xs[xs.length / 2]? = some r := by
  obtain ⟨hnd, hs, hp⟩ := hq
  have hndx : xs.Nodup := (List.nodup_cons.mp hnd).2
  have hlastq : ∀ y, xs[xs.length - 1]? = some y → h.prev q = y := by
    intro y hy
    rw [pseg_last h.prev xs q q hp]
    exact last_of_get xs q y hy
  intro fuel
  induction fuel with
  | zero => intro m ym yt _ _ h1 h2; omega
  | succ fuel ih =>
    intro m ym yt hm ht h1 h2
    obtain ⟨ym1, hym1⟩ : ∃ y, xs[m + 1]? = some y :=
      ⟨xs[m + 1], List.getElem?_eq_getElem (by omega)⟩
    obtain ⟨yt1, hyt1⟩ : ∃ y, xs[2 * m + 1]? = some y :=
      ⟨xs[2 * m + 1], List.getElem?_eq_getElem (by omega)⟩
    obtain ⟨yl, hyl⟩ : ∃ y, xs[xs.length - 1]? = some y :=
      ⟨xs[xs.length - 1], List.getElem?_eq_getElem (by omega)⟩
    have hmid : h.next ym = ym1 := seg_next_get h.next xs q q hs m ym ym1 hm hym1
    have hnx1 : h.next yt = yt1 := seg_next_get h.next xs q q hs (2 * m) yt yt1 ht hyt1
    have hlast := hlastq yl hyl
    simp only [queue_middle_loop]
    rw [hmid, hnx1, hlast]
    by_cases e1 : yt1 = yl
    · rw [if_pos e1]
      refine ⟨ym1, rfl, ?_⟩
      have hidx : 2 * m + 1 = xs.length - 1 :=
        List.getElem?_inj (by omega) hndx (by rw [hyt1, hyl, e1])
      have : xs.length / 2 = m + 1 := by omega
      rw [this]; exact hym1
    · rw [if_neg e1]
      have hne : 2 * m + 1 ≠ xs.length - 1 := by
        intro e; rw [e, hyl] at hyt1
        exact e1 (Option.some.inj hyt1).symm
      obtain ⟨yt2, hyt2⟩ : ∃ y, xs[2 * m + 1 + 1]? = some y :=
        ⟨xs[2 * m + 1 + 1], List.getElem?_eq_getElem (by omega)⟩
      have hnx2 : h.next yt1 = yt2 :=
        seg_next_get h.next xs q q hs (2 * m + 1) yt1 yt2 hyt1 hyt2
      rw [hnx2]
      by_cases e2 : yt2 = yl
      · rw [if_pos e2]
        refine ⟨ym1, rfl, ?_⟩
        have hidx : 2 * m + 1 + 1 = xs.length - 1 :=
          List.getElem?_inj (by omega) hndx (by rw [hyt2, hyl, e2])
        have : xs.length / 2 = m + 1 := by omega
        rw [this]; exact hym1
      · rw [if_neg e2]
        have hne2 : 2 * m + 1 + 1 ≠ xs.length - 1 := by
          intro e; rw [e, hyl] at hyt2
          exact e2 (Option.some.inj hyt2).symm
        exact ih (m + 1) ym1 yt2 hym1 (by rw [show 2 * (m + 1) = 2 * m + 1 + 1 by omega]; exact hyt2)
          (by omega) (by omega)

/-- C17: for a well-formed queue of `L ≥ 1` nodes, `ngx_queue_middle`, given at least
`L` passes of its loop, returns the node at the zero-based index `L / 2` (rounded
down) counted from the head; it only reads the queue. -/
theorem queue_middle_spec (h : QHeap) (q : Nat) (xs : List Nat) (fuel : Nat)
    (hq : IsQueue h q xs) (hL : 1 ≤ xs.length) (hfuel : xs.length ≤ fuel) :
    ∃ r, ngx_queue_middle fuel h q = some r ∧ xs[xs.length / 2]? = some r := by
  obtain ⟨y0, hy0⟩ : ∃ y, xs[0]? = some y := ⟨xs[0], List.getElem?_eq_getElem (by omega)⟩
  obtain ⟨yl, hyl⟩ : ∃ y, xs[xs.length - 1]? = some y :=
    ⟨xs[xs.length - 1], List.getElem?_eq_getElem (by omega)⟩
  have hnd : xs.Nodup := (List.nodup_cons.mp hq.1).2
  have hhead : h.next q = y0 := by
    cases xs with
    | nil => simp at hL
    | cons x xs1 =>
      simp only [List.getElem?_cons_zero, Option.some.injEq] at hy0
      rw [← hy0]; exact hq.2.1.1
  have hlast : h.prev q = yl := by
    rw [pseg_last h.prev xs q q hq.2.2]
    exact last_of_get xs q yl hyl
  unfold ngx_queue_middle
  simp only
  rw [hhead, hlast]
  by_cases e : y0 = yl
  · rw [if_pos e]
    refine ⟨y0, rfl, ?_⟩
    have hidx : 0 = xs.length - 1 := List.getElem?_inj (by omega) hnd (by rw [hy0, hyl, e])
    have : xs.length / 2 = 0 := by omega
    rw [this]; exact hy0
  · rw [if_neg e]
    have hne : 0 ≠ xs.length - 1 := by
      intro e1; rw [← e1, hy0] at hyl
      exact e (Option.some.inj hyl)
    exact queue_middle_loop_spec h q xs hq fuel 0 y0 y0 hy0 hy0 (by omega) (by omega)

/-- C17 witness: in the queue of the eight nodes with the keys 3, 1, 4, 1, 5, 9, 2, 6
the middle is the node 105, at index 4, with key 5. -/
theorem queue_middle_spec_witness :
    IsQueue queue8 100 nodes8 ∧
      (∃ r, ngx_queue_middle 8 queue8 100 = some r ∧ nodes8[nodes8.length / 2]? = some r) ∧
      ngx_queue_middle 8 queue8 100 = some 105 ∧ key8 105 = 5 :=
  ⟨by decide, queue_middle_spec queue8 100 nodes8 8 (by decide) (by decide) (by decide),
    by decide, by decide⟩

/-! ## C20: `ngx_queue_split` -/

theorem seg_pseg_links (nx pv : Nat → Nat) :
    ∀ (A : List Nat) (a e : Nat), Seg nx a A e → PSeg pv a A e →
      (∀ y ∈ a :: A, pv (nx y) = y) ∧ (∀ y ∈ A ++ [e], nx (pv y) = y) := by
  intro A
  induction A with
  | nil =>
    intro a e hs hp
    constructor
    · intro y hy
      simp only [List.mem_singleton] at hy
      rw [hy, hs]; exact hp
    · intro y hy
      simp only [List.nil_append, List.mem_singleton] at hy
      rw [hy, hp]; exact hs
  | cons x xs ih =>
    intro a e hs hp
    obtain ⟨i1, i2⟩ := ih x e hs.2 hp.2
    constructor
    · intro y hy
      rcases List.mem_cons.mp hy with e1 | e1
      · rw [e1, hs.1]; exact hp.1
      · exact i1 y e1
    · intro y hy
      rcases List.mem_cons.mp hy with e1 | e1
      · rw [e1, hp.1]; exact hs.1
      · exact i2 y e1

theorem isQueue_links (h : QHeap) (q : Nat) (xs : List Nat) (hq : IsQueue h q xs) :
    ∀ y ∈ q :: xs, h.prev (h.next y) = y ∧ h.next (h.prev y) = y := by
  obtain ⟨i1, i2⟩ := seg_pseg_links h.next h.prev xs q q hq.2.1 hq.2.2
  intro y hy
  refine ⟨i1 y hy, i2 y ?_⟩
  rcases List.mem_cons.mp hy with e | e
  · rw [e]; simp
  · exact List.mem_append_left _ e

/-- C20: for a well-formed queue with the sentinel `head` and the nodes `A`, `q`, `B`
in this order, and a node `new_head` that is none of them,
`ngx_queue_split(head, q, new_head)` leaves `head` with exactly the nodes `A` in order
and `new_head` with exactly `q` followed by `B` in order, both well-formed circular
doubly-linked queues: every node `y` of either has `y.next.prev = y` and
`y.prev.next = y`. -/
theorem queue_split_spec (h : QHeap) (hd q n : Nat) (A B : List Nat)
    (hq : IsQueue h hd (A ++ q :: B)) (hn : n ∉ hd :: (A ++ q :: B)) :
    IsQueue (ngx_queue_split h hd q n) hd A ∧ IsQueue (ngx_queue_split h hd q n) n (q :: B) ∧
      (∀ y ∈ hd :: A, (ngx_queue_split h hd q n).prev ((ngx_queue_split h hd q n).next y) = y ∧
        (ngx_queue_split h hd q n).next ((ngx_queue_split h hd q n).prev y) = y) ∧
      (∀ y ∈ n :: q :: B,
        (ngx_queue_split h hd q n).prev ((ngx_queue_split h hd q n).next y) = y ∧
        (ngx_queue_split h hd q n).next ((ngx_queue_split h hd q n).prev y) = y) := by
  obtain ⟨hnd, hs, hp⟩ := hq
  obtain ⟨n1, n2, n3, n4, n5, n6, _⟩ := queue_nodup_parts hd q A B hnd
  have hqB : (q :: B).Nodup := by
    have h1 : ((hd :: A) ++ (q :: B)).Nodup := hnd
    exact (List.nodup_append.mp h1).2.1
  have hdis : ∀ y ∈ hd :: A, y ∉ q :: B := by
    have h1 : ((hd :: A) ++ (q :: B)).Nodup := hnd
    exact fun y hy hy1 => (List.nodup_append.mp h1).2.2 hy hy1
  have hnA : n ∉ hd :: A := by
    intro hm; apply hn
    rcases List.mem_cons.mp hm with e | e
    · rw [e]; exact List.mem_cons_self _ _
    · exact List.mem_cons_of_mem _ (List.mem_append_left _ e)
  have hnB : n ∉ q :: B := fun hm => hn (List.mem_cons_of_mem _ (List.mem_append_right _ hm))
  have hs0 := hs
  have hp0 := hp
  rw [seg_split] at hs
  obtain ⟨hs1, hs2⟩ := hs
  rw [pseg_split] at hp
  obtain ⟨hp1, hp2⟩ := hp
  have hs3 : Seg h.next q B hd := hs2
  have hp3 : PSeg h.prev q B hd := hp2
  have hpt : h.prev hd = last_of q B := by
    rw [pseg_last h.prev _ hd hd hp0, last_of_append]
  have hpq : h.prev q = last_of hd A := pseg_last h.prev A hd q hp1
  have tB := last_of_mem B q
  have pA := last_of_mem A hd
  have hqn : q ≠ n := fun e => hnB (by rw [← e]; exact List.mem_cons_self _ _)
  have hhn : hd ≠ n := fun e => hnA (by rw [← e]; exact List.mem_cons_self _ _)
  have hhq : hd ≠ q := fun e => n3 (by rw [← e]; exact List.mem_cons_self _ _)
  have hres : ngx_queue_split h hd q n =
      { prev := Function.update (Function.update (Function.update h.prev n (last_of q B)) hd
          (last_of hd A)) q n,
        next := Function.update (Function.update (Function.update h.next (last_of q B) n) n q)
          (last_of hd A) hd } := by
    unfold ngx_queue_split
    simp only
    rw [hpt, Function.update_same, Function.update_noteq hqn, hpq, Function.update_same]
  have hq1 : IsQueue (ngx_queue_split h hd q n) hd A := by
    rw [hres]
    refine ⟨n1, ?_, ?_⟩
    · refine seg_reend h.next _ A hd q hd n1 ?_ (Function.update_same _ _ _) hs1
      intro y hy hy1
      have e2 : y ≠ n := fun e => hnA (by rw [← e]; exact hy)
      have e3 : y ≠ last_of q B := fun e => hdis y hy (by rw [e]; exact tB)
      show Function.update (Function.update (Function.update h.next (last_of q B) n) n q)
        (last_of hd A) hd y = h.next y
      rw [Function.update_noteq hy1, Function.update_noteq e2, Function.update_noteq e3]
    · refine pseg_reend h.prev _ A hd q hd ?_ ?_ hp1
      · intro y hy
        have e1 : y ≠ q := fun e => n3 (by rw [← e]; exact List.mem_cons_of_mem _ hy)
        have e2 : y ≠ hd := fun e => (List.nodup_cons.mp n1).1 (by rw [← e]; exact hy)
        have e3 : y ≠ n := fun e => hnA (by rw [← e]; exact List.mem_cons_of_mem _ hy)
        show Function.update (Function.update (Function.update h.prev n (last_of q B)) hd
          (last_of hd A)) q n y = h.prev y
        rw [Function.update_noteq e1, Function.update_noteq e2, Function.update_noteq e3]
      · show Function.update (Function.update (Function.update h.prev n (last_of q B)) hd
          (last_of hd A)) q n hd = last_of hd A
        rw [Function.update_noteq hhq, Function.update_same]
  have hq2 : IsQueue (ngx_queue_split h hd q n) n (q :: B) := by
    rw [hres]
    have hnp : n ≠ last_of hd A := fun e => hnA (by rw [e]; exact pA)
    have htp : last_of q B ≠ last_of hd A := fun e => hdis _ pA (by rw [← e]; exact tB)
    have htn : last_of q B ≠ n := fun e => hnB (by rw [← e]; exact tB)
    refine ⟨List.nodup_cons.mpr ⟨hnB, hqB⟩, ⟨?_, ?_⟩, ⟨?_, ?_⟩⟩
    · show Function.update (Function.update (Function.update h.next (last_of q B) n) n q)
        (last_of hd A) hd n = q
      rw [Function.update_noteq hnp, Function.update_same]
    · refine seg_reend h.next _ B q hd n hqB ?_ ?_ hs3
      · intro y hy hy1
        have e1 : y ≠ last_of hd A := fun e => hdis _ pA (by rw [← e]; exact hy)
        have e2 : y ≠ n := fun e => hnB (by rw [← e]; exact hy)
        show Function.update (Function.update (Function.update h.next (last_of q B) n) n q)
          (last_of hd A) hd y = h.next y
        rw [Function.update_noteq e1, Function.update_noteq e2, Function.update_noteq hy1]
      · show Function.update (Function.update (Function.update h.next (last_of q B) n) n q)
          (last_of hd A) hd (last_of q B) = n
        rw [Function.update_noteq htp, Function.update_noteq htn, Function.update_same]
    · show Function.update (Function.update (Function.update h.prev n (last_of q B)) hd
        (last_of hd A)) q n q = n
      rw [Function.update_same]
    · refine pseg_reend h.prev _ B q hd n ?_ ?_ hp3
      · intro y hy
        have e1 : y ≠ q := fun e => (List.nodup_cons.mp hqB).1 (by rw [← e]; exact hy)
        have e2 : y ≠ hd := fun e => n5 hd (List.mem_cons_self _ _) (by rw [← e]; exact hy)
        have e3 : y ≠ n := fun e => hnB (by rw [← e]; exact List.mem_cons_of_mem _ hy)
        show Function.update (Function.update (Function.update h.prev n (last_of q B)) hd
          (last_of hd A)) q n y = h.prev y
        rw [Function.update_noteq e1, Function.update_noteq e2, Function.update_noteq e3]
      · show Function.update (Function.update (Function.update h.prev n (last_of q B)) hd
          (last_of hd A)) q n n = last_of q B
        rw [Function.update_noteq (Ne.symm hqn), Function.update_noteq (Ne.symm hhn),
          Function.update_same]
  exact ⟨hq1, hq2, isQueue_links _ hd A hq1, isQueue_links _ n (q :: B) hq2⟩

/-- C20 witness: the queue of eight nodes is split at its fourth node 104 with the new
sentinel 200: `head` keeps 101, 102, 103 and the new queue holds 104 to 108. -/
theorem queue_split_spec_witness :
    IsQueue (ngx_queue_split queue8 100 104 200) 100 [101, 102, 103] ∧
      IsQueue (ngx_queue_split queue8 100 104 200) 200 [104, 105, 106, 107, 108] :=
  ⟨(queue_split_spec queue8 100 104 200 [101, 102, 103] [105, 106, 107, 108]
      (by decide) (by decide)).1,
    (queue_split_spec queue8 100 104 200 [101, 102, 103] [105, 106, 107, 108]
      (by decide) (by decide)).2.1⟩

/-! ## Lemmas: the insertion sort on lists -/

theorem rinsert_split (cmp : Nat → Nat → Int) (x : Nat) :
    ∀ (l : List Nat), ∃ P Q, l = P ++ Q ∧ rinsert cmp x l = P ++ x :: Q ∧
      (∀ e ∈ P, ¬ cmp e x ≤ 0) ∧ (∀ e ∈ Q.head?, cmp e x ≤ 0) := by
  intro l
  induction l with
  | nil => exact ⟨[], [], rfl, rfl, by simp, by simp⟩
  | cons e r ih =>
    by_cases hc : cmp e x ≤ 0
    · refine ⟨[], e :: r, rfl, ?_, by simp, ?_⟩
      · simp [rinsert, hc]
      · intro y hy
        simp only [List.head?_cons, Option.mem_def, Option.some.injEq] at hy
        rw [← hy]; exact hc
    · obtain ⟨P, Q, h1, h2, h3, h4⟩ := ih
      refine ⟨e :: P, Q, by rw [h1]; rfl, ?_, ?_, h4⟩
      · simp only [rinsert, if_neg hc, h2, List.cons_append]
      · intro y hy
        rcases List.mem_cons.mp hy with e1 | e1
        · rw [e1]; exact hc
        · exact h3 y e1

theorem rinsert_skip (cmp : Nat → Nat → Int) (x : Nat) :
    ∀ (P Q : List Nat), (∀ e ∈ P, ¬ cmp e x ≤ 0) →
      rinsert cmp x (P ++ Q) = P ++ rinsert cmp x Q := by
  intro P
  induction P with
  | nil => intro Q _; rfl
  | cons e r ih =>
    intro Q h
    have hc := h e (List.mem_cons_self _ _)
    show rinsert cmp x (e :: (r ++ Q)) = e :: (r ++ rinsert cmp x Q)
    rw [rinsert, if_neg hc, ih Q (fun y hy => h y (List.mem_cons_of_mem _ hy))]

theorem insert_back_split (cmp : Nat → Nat → Int) (x : Nat) (l : List Nat) :
    ∃ T1 T2, l = T1 ++ T2 ∧ insert_back cmp x l = T1 ++ x :: T2 ∧
      (∀ e ∈ T2, ¬ cmp e x ≤ 0) ∧ (∀ e ∈ T1.getLast?, cmp e x ≤ 0) := by
  obtain ⟨P, Q, h1, h2, h3, h4⟩ := rinsert_split cmp x l.reverse
  refine ⟨Q.reverse, P.reverse, ?_, ?_, ?_, ?_⟩
  · have := congrArg List.reverse h1
    simpa using this
  · unfold insert_back
    rw [h2]
    simp
  · intro e he
    exact h3 e (List.mem_reverse.mp he)
  · intro e he
    rw [List.getLast?_reverse] at he
    exact h4 e he

theorem insert_back_ne_nil (cmp : Nat → Nat → Int) (x : Nat) (l : List Nat) :
    insert_back cmp x l ≠ [] := by
  obtain ⟨T1, T2, _, h2, _⟩ := insert_back_split cmp x l
  rw [h2]
  simp

theorem insert_back_perm (cmp : Nat → Nat → Int) (x : Nat) (l : List Nat) :
    (insert_back cmp x l).Perm (l ++ [x]) := by
  obtain ⟨T1, T2, h1, h2, _⟩ := insert_back_split cmp x l
  rw [h2, h1]
  have : (T1 ++ x :: T2).Perm (x :: (T1 ++ T2)) := List.perm_middle
  exact this.trans (List.perm_append_singleton x (T1 ++ T2)).symm

theorem foldl_insert_perm (cmp : Nat → Nat → Int) :
    ∀ (R S : List Nat), (R.foldl (fun l x => insert_back cmp x l) S).Perm (S ++ R) := by
  intro R
  induction R with
  | nil => intro S; simp
  | cons x R ih =>
    intro S
    simp only [List.foldl_cons]
    refine (ih (insert_back cmp x S)).trans ?_
    have h1 := (insert_back_perm cmp x S).append_right R
    refine h1.trans ?_
    simp

theorem sort_list_perm (cmp : Nat → Nat → Int) (xs : List Nat) :
    (sort_list cmp xs).Perm xs := by
  cases xs with
  | nil => exact List.Perm.refl _
  | cons y ys => exact foldl_insert_perm cmp ys [y]

theorem insert_back_sorted (cmp : Nat → Nat → Int) (N : List Nat)
    (htot : ∀ a ∈ N, ∀ b ∈ N, cmp a b ≤ 0 ∨ cmp b a ≤ 0)
    (x : Nat) (l : List Nat) (hx : x ∈ N) (hmem : ∀ e ∈ l, e ∈ N)
    (hl : List.Chain' (fun a b => cmp a b ≤ 0) l) :
    List.Chain' (fun a b => cmp a b ≤ 0) (insert_back cmp x l) := by
  obtain ⟨T1, T2, h1, h2, h3, h4⟩ := insert_back_split cmp x l
  rw [h2]
  rw [h1] at hl
  rw [List.chain'_split]
  constructor
  · rw [List.chain'_append] at hl
    rw [List.chain'_append]
    refine ⟨hl.1, List.chain'_singleton x, ?_⟩
    intro a ha b hb
    simp only [List.head?_cons, Option.mem_def, Option.some.injEq] at hb
    rw [← hb]; exact h4 a ha
  · rw [List.chain'_cons']
    refine ⟨?_, (List.chain'_append.mp hl).2.1⟩
    intro y hy
    have hy1 : y ∈ T2 := List.mem_of_mem_head? hy
    have hy2 : y ∈ N := hmem y (by rw [h1]; exact List.mem_append_right _ hy1)
    rcases htot x hx y hy2 with h | h
    · exact h
    · exact absurd h (h3 y hy1)

theorem foldl_insert_sorted (cmp : Nat → Nat → Int) (N : List Nat)
    (htot : ∀ a ∈ N, ∀ b ∈ N, cmp a b ≤ 0 ∨ cmp b a ≤ 0) :
    ∀ (R S : List Nat), (∀ e ∈ R, e ∈ N) → (∀ e ∈ S, e ∈ N) →
      List.Chain' (fun a b => cmp a b ≤ 0) S →
      List.Chain' (fun a b => cmp a b ≤ 0) (R.foldl (fun l x => insert_back cmp x l) S) := by
  intro R
  induction R with
  | nil => intro S _ _ h; exact h
  | cons x R ih =>
    intro S hR hS h
    have hx : x ∈ N := hR x (List.mem_cons_self _ _)
    refine ih _ (fun e he => hR e (List.mem_cons_of_mem _ he)) ?_
      (insert_back_sorted cmp N htot x S hx hS h)
    intro e he
    have hm := (insert_back_perm cmp x S).mem_iff.mp he
    rcases List.mem_append.mp hm with h1 | h1
    · exact hS e h1
    · rw [List.mem_singleton.mp h1]; exact hx

theorem sort_list_sorted (cmp : Nat → Nat → Int) (xs : List Nat)
    (htot : ∀ a ∈ xs, ∀ b ∈ xs, cmp a b ≤ 0 ∨ cmp b a ≤ 0) :
    List.Chain' (fun a b => cmp a b ≤ 0) (sort_list cmp xs) := by
  cases xs with
  | nil => exact List.chain'_nil
  | cons y ys =>
    refine foldl_insert_sorted cmp (y :: ys) htot ys [y]
      (fun e he => List.mem_cons_of_mem _ he) ?_ (List.chain'_singleton y)
    intro e he
    rw [List.mem_singleton.mp he]
    exact List.mem_cons_self _ _

theorem insert_back_stable (cmp : Nat → Nat → Int) (x : Nat) (P S : List Nat)
    (hperm : S.Perm P)
    (hinv : ∀ a b, cmp a b ≤ 0 → [a, b].Sublist P → [a, b].Sublist S) :
    ∀ a b, cmp a b ≤ 0 → [a, b].Sublist (P ++ [x]) → [a, b].Sublist (insert_back cmp x S) := by
  obtain ⟨T1, T2, h1, h2, h3, _⟩ := insert_back_split cmp x S
  intro a b hab hsub
  rw [h2]
  have hS : S.Sublist (T1 ++ x :: T2) := by
    rw [h1]
    exact List.Sublist.append (List.Sublist.refl T1) (List.sublist_cons_self x T2)
  rw [List.sublist_append_iff] at hsub
  obtain ⟨l1, l2, e, s1, s2⟩ := hsub
  cases l2 with
  | nil =>
    rw [List.append_nil] at e
    rw [← e] at s1
    exact (hinv a b hab s1).trans hS
  | cons y l3 =>
    have hy : y = x ∧ l3 = [] := by
      cases s2 with
      | cons _ h => cases h
      | cons₂ _ h => cases h; exact ⟨rfl, rfl⟩
    rw [hy.1, hy.2] at e
    have e1 : l1 = [a] ∧ x = b := by
      cases l1 with
      | nil => simp at e
      | cons z l4 =>
        cases l4 with
        | nil => simp at e; exact ⟨by rw [e.1], e.2.symm⟩
        | cons w l5 =>
          have := congrArg List.length e
          simp at this
    rw [e1.1] at s1
    have haP : a ∈ P := List.singleton_sublist.mp s1
    have haS : a ∈ S := hperm.mem_iff.mpr haP
    rw [h1] at haS
    have haT1 : a ∈ T1 := by
      rcases List.mem_append.mp haS with h | h
      · exact h
      · exact absurd (by rw [e1.2]; exact hab) (h3 a h)
    rw [← e1.2]
    have : [a, x] = [a] ++ [x] := rfl
    rw [this]
    exact List.Sublist.append (List.singleton_sublist.mpr haT1)
      (List.Sublist.cons₂ x (List.nil_sublist T2))

theorem foldl_insert_stable (cmp : Nat → Nat → Int) :
    ∀ (R P S : List Nat), S.Perm P →
      (∀ a b, cmp a b ≤ 0 → [a, b].Sublist P → [a, b].Sublist S) →
      ∀ a b, cmp a b ≤ 0 → [a, b].Sublist (P ++ R) →
        [a, b].Sublist (R.foldl (fun l x => insert_back cmp x l) S) := by
  intro R
  induction R with
  | nil => intro P S _ hinv a b hab hsub; rw [List.append_nil] at hsub; exact hinv a b hab hsub
  | cons x R ih =>
    intro P S hperm hinv a b hab hsub
    simp only [List.foldl_cons]
    refine ih (P ++ [x]) (insert_back cmp x S) ?_ (insert_back_stable cmp x P S hperm hinv)
      a b hab (by rw [List.append_assoc]; exact hsub)
    exact (insert_back_perm cmp x S).trans (hperm.append_right [x])

theorem sort_list_stable (cmp : Nat → Nat → Int) (xs : List Nat) :
    ∀ a b, cmp a b ≤ 0 → [a, b].Sublist xs → [a, b].Sublist (sort_list cmp xs) := by
  cases xs with
  | nil => intro a b _ h; exact h
  | cons y ys =>
    intro a b hab hsub
    refine foldl_insert_stable cmp ys [y] [y] (List.Perm.refl _) ?_ a b hab hsub
    intro a b _ h
    exact h

/-! ## Lemmas: `ngx_queue_sort` carries out the insertion sort -/

theorem last_of_mem_of_ne_nil : ∀ (A : List Nat) (a : Nat), A ≠ [] → last_of a A ∈ A := by
  intro A a hA
  cases A with
  | nil => exact absurd rfl hA
  | cons x xs => exact last_of_mem xs x

theorem last_of_getLast? : ∀ (A : List Nat) (a : Nat), A ≠ [] →
    A.getLast? = some (last_of a A) := by
  intro A
  induction A with
  | nil => intro a h; exact absurd rfl h
  | cons x xs ih =>
    intro a _
    cases xs with
    | nil => rfl
    | cons y ys =>
      rw [List.getLast?_cons_cons]
      exact ih x (by simp)

theorem queue_sort_inner_spec (h : QHeap) (cmp : Nat → Nat → Int) (q x : Nat)
    (T1 : List Nat) (hT1 : ∀ e ∈ T1.getLast?, cmp e x ≤ 0) :
    ∀ (U W : List Nat) (fuel : Nat), PSeg h.prev q (T1 ++ U ++ W) q → q ∉ T1 ++ U →
      T1 ++ U ≠ [] → (∀ e ∈ U, ¬ cmp e x ≤ 0) → U.length < fuel →
      queue_sort_inner h cmp q x fuel (last_of q (T1 ++ U)) = some (last_of q T1) := by
  intro U
  induction U using List.reverseRecOn with
  | nil =>
    intro W fuel _ _ hne _ hf
    rw [List.append_nil] at hne ⊢
    obtain ⟨f, rfl⟩ : ∃ f, fuel = f + 1 := ⟨fuel - 1, by simp at hf; omega⟩
    have hc : cmp (last_of q T1) x ≤ 0 := hT1 _ (last_of_getLast? T1 q hne)
    simp only [queue_sort_inner, if_pos hc]
  | append_singleton U1 u ih =>
    intro W fuel hp hq hne hU hf
    obtain ⟨f, rfl⟩ : ∃ f, fuel = f + 1 := ⟨fuel - 1, by simp at hf; omega⟩
    have hlast : last_of q (T1 ++ (U1 ++ [u])) = u := by
      rw [← List.append_assoc, last_of_append]; rfl
    have hc : ¬ cmp u x ≤ 0 := hU u (by simp)
    have hp1 : PSeg h.prev q ((T1 ++ U1) ++ (u :: W)) q := by
      have : T1 ++ (U1 ++ [u]) ++ W = (T1 ++ U1) ++ (u :: W) := by simp
      rw [this] at hp; exact hp
    have hpu : h.prev u = last_of q (T1 ++ U1) := by
      rw [pseg_split] at hp1
      exact pseg_last h.prev _ q u hp1.1
    rw [hlast]
    simp only [queue_sort_inner, if_neg hc]
    rw [hpu]
    have hq1 : q ∉ T1 ++ U1 := by
      intro hm; apply hq
      rw [← List.append_assoc]; exact List.mem_append_left _ hm
    by_cases hnil : T1 ++ U1 = []
    · have hT : T1 = [] := (List.append_eq_nil.mp hnil).1
      rw [hnil, hT]
      simp [last_of]
    · have hneq : last_of q (T1 ++ U1) ≠ q := by
        intro e
        have := last_of_mem_of_ne_nil (T1 ++ U1) q hnil
        rw [e] at this
        exact hq1 this
      rw [if_pos hneq]
      refine ih (u :: W) f ?_ hq1 hnil (fun e he => hU e (by simp [he])) ?_
      · have : T1 ++ U1 ++ u :: W = (T1 ++ U1) ++ (u :: W) := rfl
        rw [this]; exact hp1
      · simp at hf; omega

theorem queue_sort_outer_spec (cmp : Nat → Nat → Int) (q ifuel : Nat) :
    ∀ (R S : List Nat) (h : QHeap) (fuel : Nat), IsQueue h q (S ++ R) → S ≠ [] →
      R.length < fuel → (S ++ R).length ≤ ifuel →
      ∃ h1, queue_sort_outer cmp q ifuel fuel h (head_of R q) = some h1 ∧
        IsQueue h1 q (R.foldl (fun l x => insert_back cmp x l) S) := by
  intro R
  induction R with
  | nil =>
    intro S h fuel hq _ hf _
    obtain ⟨f, rfl⟩ : ∃ f, fuel = f + 1 := ⟨fuel - 1, by simp at hf; omega⟩
    refine ⟨h, by simp [queue_sort_outer, head_of], ?_⟩
    rw [List.append_nil] at hq
    exact hq
  | cons x R ih =>
    intro S h fuel hq hS hf hif
    obtain ⟨f, rfl⟩ : ∃ f, fuel = f + 1 := ⟨fuel - 1, by simp at hf; omega⟩
    obtain ⟨n1, n2, n3, n4, n5, n6, n7⟩ := queue_nodup_parts q x S R hq.1
    have hxq : x ≠ q := fun e => n3 (by rw [e]; exact List.mem_cons_self _ _)
    obtain ⟨hq1, hprev, hnext⟩ := queue_remove_spec h q x S R hq
    obtain ⟨T1, T2, e1, e2, e3, e4⟩ := insert_back_split cmp x S
    have hinner : queue_sort_inner (ngx_queue_remove h x) cmp q x ifuel (last_of q S) =
        some (last_of q T1) := by
      have hp : PSeg (ngx_queue_remove h x).prev q (T1 ++ T2 ++ R) q := by
        rw [← e1]; exact hq1.2.2
      have := queue_sort_inner_spec (ngx_queue_remove h x) cmp q x T1 e4 T2 R ifuel hp
        (by rw [← e1]; exact (List.nodup_cons.mp n1).1) (by rw [← e1]; exact hS) e3
        (by
          have h1 : T2.length ≤ S.length := by rw [e1]; simp
          simp only [List.length_append, List.length_cons] at hif
          omega)
      rw [← e1] at this
      exact this
    have hq2 : IsQueue (ngx_queue_insert_after (ngx_queue_remove h x) (last_of q T1) x) q
        (T1 ++ x :: (T2 ++ R)) := by
      apply queue_insert_after_spec
      · rw [← List.append_assoc, ← e1]; exact hq1
      · rw [← List.append_assoc, ← e1]
        intro hm
        rcases List.mem_cons.mp hm with e | e
        · exact hxq e
        · rcases List.mem_append.mp e with e5 | e5
          · exact n3 (List.mem_cons_of_mem _ e5)
          · exact n4 (List.mem_append_left _ e5)
    have hq3 : IsQueue (ngx_queue_insert_after (ngx_queue_remove h x) (last_of q T1) x) q
        (insert_back cmp x S ++ R) := by
      rw [e2]
      have : T1 ++ x :: T2 ++ R = T1 ++ x :: (T2 ++ R) := by simp
      rw [this]; exact hq2
    obtain ⟨h1, i1, i2⟩ := ih (insert_back cmp x S) _ f hq3 (insert_back_ne_nil cmp x S)
      (by simp at hf; omega)
      (by
        have := (insert_back_perm cmp x S).length_eq
        simp only [List.length_append, List.length_cons, List.length_nil] at this hif ⊢
        omega)
    refine ⟨h1, ?_, ?_⟩
    · show queue_sort_outer cmp q ifuel (f + 1) h x = some h1
      simp only [queue_sort_outer, if_neg hxq]
      rw [hprev, hinner]
      simp only
      rw [hnext]
      exact i1
    · simp only [List.foldl_cons]
      exact i2

theorem queue_sort_refines (cmp : Nat → Nat → Int) (h : QHeap) (q : Nat) (xs : List Nat)
    (fuel : Nat) (hq : IsQueue h q xs) (hfuel : xs.length ≤ fuel) :
    ∃ h1, ngx_queue_sort fuel cmp h q = some h1 ∧ IsQueue h1 q (sort_list cmp xs) := by
  cases xs with
  | nil =>
    refine ⟨h, ?_, hq⟩
    have h1 : h.next q = q := hq.2.1
    have h2 : h.prev q = q := hq.2.2
    simp [ngx_queue_sort, h1, h2]
  | cons y ys =>
    have hny : h.next q = y := hq.2.1.1
    cases ys with
    | nil =>
      refine ⟨h, ?_, hq⟩
      have h2 : h.prev q = y := hq.2.2.2
      simp [ngx_queue_sort, hny, h2]
    | cons z R =>
      have hlast : h.prev q = last_of z R := pseg_last h.prev _ q q hq.2.2
      have hne : y ≠ last_of z R := by
        intro e
        have hm := last_of_mem R z
        have hnd := (List.nodup_cons.mp (List.nodup_cons.mp hq.1).2).1
        rw [← e] at hm
        exact hnd hm
      have hnz : h.next y = z := hq.2.1.2.1
      obtain ⟨h1, i1, i2⟩ := queue_sort_outer_spec cmp q fuel (z :: R) [y] h fuel hq
        (by simp) (by simp at hfuel ⊢; omega) (by simp at hfuel ⊢; omega)
      refine ⟨h1, ?_, i2⟩
      simp only [ngx_queue_sort, hny, hlast, if_neg hne, hnz]
      exact i1

/-! ## C18: `ngx_queue_sort` leaves the queue sorted -/

/-- C18: for a well-formed queue with the sentinel `q` and the nodes `xs`, and a
comparator `cmp` that is total on these nodes (as every total preorder is),
`ngx_queue_sort(q, cmp)` terminates (fuel of at least the number of nodes is enough)
and leaves a well-formed queue with the same sentinel, whose nodes `ys` are sorted:
every adjacent pair `a`, `b`, with `a` immediately before `b`, has `cmp(a, b) <= 0`. -/
theorem queue_sort_sorted (cmp : Nat → Nat → Int) (h : QHeap) (q : Nat) (xs : List Nat)
    (fuel : Nat) (hq : IsQueue h q xs)
    (htot : ∀ a ∈ xs, ∀ b ∈ xs, cmp a b ≤ 0 ∨ cmp b a ≤ 0) (hfuel : xs.length ≤ fuel) :
    ∃ h1 ys, ngx_queue_sort fuel cmp h q = some h1 ∧ IsQueue h1 q ys ∧
      List.Chain' (fun a b => cmp a b ≤ 0) ys := by
  obtain ⟨h1, i1, i2⟩ := queue_sort_refines cmp h q xs fuel hq hfuel
  exact ⟨h1, sort_list cmp xs, i1, i2, sort_list_sorted cmp xs htot⟩

/-- C18 witness: the queue of the eight nodes with the keys 3, 1, 4, 1, 5, 9, 2, 6 is
sorted by the integer comparison of the keys; the result holds the nodes 102, 104, 107,
101, 103, 105, 108, 106, whose keys are 1, 1, 2, 3, 4, 5, 6, 9. -/
theorem queue_sort_sorted_witness :
    IsQueue queue8 100 nodes8 ∧
      (∃ h1 ys, ngx_queue_sort 8 cmp8 queue8 100 = some h1 ∧ IsQueue h1 100 ys ∧
        List.Chain' (fun a b => cmp8 a b ≤ 0) ys) ∧
      (∃ h1, ngx_queue_sort 8 cmp8 queue8 100 = some h1 ∧
        IsQueue h1 100 [102, 104, 107, 101, 103, 105, 108, 106]) ∧
      [102, 104, 107, 101, 103, 105, 108, 106].map key8 = [1, 1, 2, 3, 4, 5, 6, 9] :=
  ⟨by decide,
    queue_sort_sorted cmp8 queue8 100 nodes8 8 (by decide)
      (fun a _ b _ => by unfold cmp8; omega) (by decide),
    by
      have hs := queue_sort_refines cmp8 queue8 100 nodes8 8 (by decide) (by decide)
      have e : sort_list cmp8 nodes8 = [102, 104, 107, 101, 103, 105, 108, 106] := by decide
      rw [e] at hs
      exact hs,
    by decide⟩

/-! ## C19: `ngx_queue_sort` is a stable permutation -/

/-- C19: for a well-formed queue with the sentinel `q` and the nodes `xs`,
`ngx_queue_sort(q, cmp)` terminates and leaves a well-formed queue whose nodes `ys`
are exactly the original nodes, each once (a permutation of `xs`, without repetition),
and every two nodes `a`, `b` with `cmp(a, b) <= 0` and `a` before `b` in the input have
`a` before `b` in the result; in particular two nodes that compare equal
(`cmp(a, b) <= 0` and `cmp(b, a) <= 0`) keep their relative order. This holds for every
comparator, so for every total preorder. -/
theorem queue_sort_stable (cmp : Nat → Nat → Int) (h : QHeap) (q : Nat) (xs : List Nat)
    (fuel : Nat) (hq : IsQueue h q xs) (hfuel : xs.length ≤ fuel) :
    ∃ h1 ys, ngx_queue_sort fuel cmp h q = some h1 ∧ IsQueue h1 q ys ∧ ys.Nodup ∧
      ys.Perm xs ∧ ∀ a b, cmp a b ≤ 0 → [a, b].Sublist xs → [a, b].Sublist ys := by
  obtain ⟨h1, i1, i2⟩ := queue_sort_refines cmp h q xs fuel hq hfuel
  exact ⟨h1, sort_list cmp xs, i1, i2, (List.nodup_cons.mp i2.1).2, sort_list_perm cmp xs,
    sort_list_stable cmp xs⟩

/-- C19 witness: sorting the queue of the eight nodes with the keys 3, 1, 4, 1, 5, 9, 2, 6
gives the nodes 102, 104, 107, 101, 103, 105, 108, 106: the two nodes with key 1, 102 and
104, keep their original order. -/
theorem queue_sort_stable_witness :
    IsQueue queue8 100 nodes8 ∧
      (∃ h1 ys, ngx_queue_sort 8 cmp8 queue8 100 = some h1 ∧ IsQueue h1 100 ys ∧ ys.Nodup ∧
        ys.Perm nodes8 ∧
        ∀ a b, cmp8 a b ≤ 0 → [a, b].Sublist nodes8 → [a, b].Sublist ys) ∧
      (∃ h1, ngx_queue_sort 8 cmp8 queue8 100 = some h1 ∧
        IsQueue h1 100 (102 :: 104 :: [107, 101, 103, 105, 108, 106])) ∧
      key8 102 = 1 ∧ key8 104 = 1 ∧ [102, 104].Sublist nodes8 :=
  ⟨by decide, queue_sort_stable cmp8 queue8 100 nodes8 8 (by decide) (by decide),
    by
      have hs := queue_sort_refines cmp8 queue8 100 nodes8 8 (by decide) (by decide)
      have e : sort_list cmp8 nodes8 = [102, 104, 107, 101, 103, 105, 108, 106] := by decide
      rw [e] at hs
      exact hs,
    by decide, by decide, by decide⟩

/-! ## C22: the bounded scan of `ngx_palloc_large` -/

theorem palloc_large_scan_hit (x : Nat) :
    ∀ (pre : List ngx_pool_large_t) (l : ngx_pool_large_t) (post : List ngx_pool_large_t)
      (n : Nat), n + pre.length ≤ 4 → (∀ y ∈ pre, y.alloc ≠ 0) → l.alloc = 0 →
      palloc_large_scan x n (pre ++ l :: post) = some (pre ++ { l with alloc := x } :: post) := by
  intro pre
  induction pre with
  | nil =>
    intro l post n _ _ hl
    simp [palloc_large_scan, hl]
  | cons y pre ih =>
    intro l post n hn hpre hl
    have hy : y.alloc ≠ 0 := hpre y (List.mem_cons_self _ _)
    have hn3 : ¬ n > 3 := by simp only [List.length_cons] at hn; omega
    have hrec := ih l post (n + 1) (by simp only [List.length_cons] at hn; omega)
      (fun z hz => hpre z (List.mem_cons_of_mem _ hz)) hl
    show palloc_large_scan x n (y :: (pre ++ l :: post)) = _
    rw [palloc_large_scan, if_neg hy, if_neg hn3, hrec]
    rfl

theorem palloc_large_scan_miss (x : Nat) :
    ∀ (ls : List ngx_pool_large_t) (n : Nat), (∀ y ∈ ls.take (5 - n), y.alloc ≠ 0) → n ≤ 4 →
      palloc_large_scan x n ls = none := by
  intro ls
  induction ls with
  | nil => intro n _ _; rfl
  | cons y ls ih =>
    intro n h hn
    obtain ⟨k, hk⟩ : ∃ k, 5 - n = k + 1 := ⟨4 - n, by omega⟩
    rw [hk] at h
    have hy : y.alloc ≠ 0 := h y (by simp)
    simp only [palloc_large_scan, if_neg hy]
    by_cases hn3 : n > 3
    · rw [if_pos hn3]
    · rw [if_neg hn3]
      rw [ih (n + 1) (fun z hz => h z (by
        have e : 5 - (n + 1) = k := by omega
        rw [e] at hz
        simp [hz])) (by omega)]

/-- C22 (as stated) fails: in a pool whose first four large records are in use and
whose fifth record has a null raw pointer, `ngx_palloc_large` inspects the fifth record
too: it stores the new pointer there, and the list keeps its six records instead of
growing by one. -/
theorem palloc_large_recycles_fifth :
    (pool_five_large.large.take 4).all (fun l => l.alloc ≠ 0) = true ∧
      (ngx_palloc lp64 pool_five_large 5000 [69632]).1 = 69632 ∧
      (ngx_palloc lp64 pool_five_large 5000 [69632]).2.1.large.length = 6 ∧
      (ngx_palloc lp64 pool_five_large 5000 [69632]).2.1.large[4]? =
        some { addr := 1120, alloc := 69632 } ∧
      (ngx_palloc lp64 pool_five_large 5000 [69632]).2.1.large ≠ pool_five_large.large := by
  decide

/-- C22 (amended): when `ngx_palloc_large` has obtained the pointer `x` for a request
beyond `pool.max`, it inspects at most the first five records of the large list. If
one of the first five has a null raw pointer, the first such record receives `x`, no
other record changes and the list keeps its length. If none of the first five is free,
even when a later record is free, and the record for `x` can be allocated, no existing
record is modified and a fresh record holding `x` is put in front, so the list grows by
exactly one. -/
theorem palloc_large_scan_five (L : Layout) (pool : ngx_pool_t) (size x : Nat) (o o1 : Oracle)
    (hsize : pool.max < size) (ha : ngx_alloc o = (x, o1)) (hx : x ≠ 0) :
    (∀ pre l post, pool.large = pre ++ l :: post → pre.length ≤ 4 →
        (∀ y ∈ pre, y.alloc ≠ 0) → l.alloc = 0 →
        ngx_palloc L pool size o =
          (x, { pool with large := pre ++ { l with alloc := x } :: post }, o1) ∧
        (ngx_palloc L pool size o).2.1.large.length = pool.large.length) ∧
      ((∀ y ∈ pool.large.take 5, y.alloc ≠ 0) →
        ∀ c pool1 o2, ngx_palloc_small L pool L.sizeof_large true o1 = (c, pool1, o2) → c ≠ 0 →
          ngx_palloc L pool size o =
            (x, { pool1 with large := { addr := c, alloc := x } :: pool.large }, o2) ∧
          (ngx_palloc L pool size o).2.1.large.length = pool.large.length + 1) := by
  have hns : ¬ size ≤ pool.max := by omega
  constructor
  · intro pre l post hl hpre hused hfree
    have hscan := palloc_large_scan_hit x pre l post 0 (by omega) hused hfree
    have hres : ngx_palloc L pool size o =
        (x, { pool with large := pre ++ { l with alloc := x } :: post }, o1) := by
      unfold ngx_palloc
      rw [if_neg hns]
      unfold ngx_palloc_large
      rw [ha]
      simp only
      rw [if_neg hx, hl, hscan]
    rw [hres]
    refine ⟨rfl, ?_⟩
    show (pre ++ { l with alloc := x } :: post).length = pool.large.length
    rw [hl]
    simp
  · intro hused c pool1 o2 hsmall hc
    have hscan := palloc_large_scan_miss x pool.large 0 hused (by omega)
    have hlarge : pool1.large = pool.large := by
      have := (ngx_palloc_small_frame L pool L.sizeof_large true o1)
      rw [hsmall] at this
      exact this.1
    have hres : ngx_palloc L pool size o =
        (x, { pool1 with large := { addr := c, alloc := x } :: pool.large }, o2) := by
      unfold ngx_palloc
      rw [if_neg hns]
      unfold ngx_palloc_large
      rw [ha]
      simp only
      rw [if_neg hx, hscan]
      simp only
      rw [hsmall]
      simp only
      rw [if_neg hc, hlarge]
    rw [hres]
    exact ⟨rfl, rfl⟩

/-- C22 witness: with the first five records in use and the sixth free, the scan gives
up: the request for 5000 bytes, answered with 69632, gets a fresh record at 1200 in
front of the six records, and the free sixth record stays free. -/
theorem palloc_large_scan_five_witness :
    (ngx_palloc lp64 pool_six_large 5000 [69632] =
        (69632, { (ngx_palloc_small lp64 pool_six_large 16 true []).2.1 with
            large := { addr := 1200, alloc := 69632 } :: pool_six_large.large }, []) ∧
      (ngx_palloc lp64 pool_six_large 5000 [69632]).2.1.large.length =
        pool_six_large.large.length + 1) ∧
      pool_six_large.large[5]? = some { addr := 1104, alloc := 0 } :=
  ⟨(palloc_large_scan_five lp64 pool_six_large 5000 69632 [69632] [] (by decide) rfl
      (by decide)).2 (by decide) 1200 (ngx_palloc_small lp64 pool_six_large 16 true []).2.1 []
      (by decide) (by decide),
    by decide⟩

/-! ## C23: the grow step of `ngx_palloc_block` -/

theorem palloc_block_loop_get :
    ∀ (bs : List ngx_pool_data_t) (i cur j : Nat) (b : ngx_pool_data_t), bs[j]? = some b →
      (palloc_block_loop i cur bs).1[j]? =
        some { b with failed := if j + 1 < bs.length then b.failed + 1 else b.failed } := by
  intro bs
  induction bs with
  | nil => intro i cur j b h; simp at h
  | cons b0 bs ih =>
    intro i cur j b h
    cases bs with
    | nil =>
      cases j with
      | zero =>
        simp only [List.getElem?_cons_zero, Option.some.injEq] at h
        subst h
        simp [palloc_block_loop]
      | succ j => simp at h
    | cons b1 bs =>
      cases j with
      | zero =>
        simp only [List.getElem?_cons_zero, Option.some.injEq] at h
        subst h
        simp [palloc_block_loop]
      | succ j =>
        simp only [List.getElem?_cons_succ] at h
        have hrec := ih (i + 1) (if b0.failed > 4 then i + 1 else cur) j b h
        simp only [palloc_block_loop, List.getElem?_cons_succ]
        rw [hrec]
        simp only [List.length_cons]
        have e : (j + 1 + 1 < bs.length + 1 + 1) = (j + 1 < bs.length + 1) := by
          apply propext; omega
        simp only [e]

theorem palloc_block_loop_keep :
    ∀ (bs : List ngx_pool_data_t) (i cur : Nat),
      (∀ j b, j + 1 < bs.length → bs[j]? = some b → b.failed ≤ 4) →
      (palloc_block_loop i cur bs).2 = cur := by
  intro bs
  induction bs with
  | nil => intro i cur _; rfl
  | cons b0 bs ih =>
    intro i cur h
    cases bs with
    | nil => rfl
    | cons b1 bs =>
      have h0 : ¬ b0.failed > 4 := by
        have := h 0 b0 (by simp) rfl
        omega
      simp only [palloc_block_loop, if_neg h0]
      exact ih (i + 1) cur (fun j b hj hb => h (j + 1) b (by simp at hj ⊢; omega) (by simpa using hb))

theorem palloc_block_loop_advance :
    ∀ (bs : List ngx_pool_data_t) (i cur j : Nat) (b : ngx_pool_data_t),
      j + 1 < bs.length → bs[j]? = some b → 4 < b.failed →
      (∀ k b2, j < k → k + 1 < bs.length → bs[k]? = some b2 → b2.failed ≤ 4) →
      (palloc_block_loop i cur bs).2 = i + j + 1 := by
  intro bs
  induction bs with
  | nil => intro i cur j b hj; simp at hj
  | cons b0 bs ih =>
    intro i cur j b hj hb hf hrest
    cases bs with
    | nil => simp at hj
    | cons b1 bs =>
      cases j with
      | zero =>
        simp only [List.getElem?_cons_zero, Option.some.injEq] at hb
        subst hb
        simp only [palloc_block_loop, if_pos hf]
        rw [palloc_block_loop_keep (b1 :: bs) (i + 1) (i + 1)
          (fun k b2 hk hb2 => hrest (k + 1) b2 (by omega) (by simp at hk ⊢; omega)
            (by simpa using hb2))]
      | succ j =>
        simp only [palloc_block_loop]
        rw [ih (i + 1) _ j b (by simp at hj ⊢; omega) (by simpa using hb) hf
          (fun k b2 hjk hk hb2 => hrest (k + 1) b2 (by omega) (by simp at hk ⊢; omega)
            (by simpa using hb2))]
        omega

theorem ngx_palloc_block_blocks (L : Layout) (pool : ngx_pool_t) (size m : Nat) (o o1 : Oracle)
    (d : ngx_pool_data_t) (ds : List ngx_pool_data_t) (hd : pool.blocks = d :: ds)
    (ha : ngx_alloc o = (m, o1)) (hm : m ≠ 0) :
    ngx_palloc_block L pool size o =
      (ngx_align_ptr (m + L.sizeof_pool_data) L.NGX_ALIGNMENT,
        { pool with
          blocks := pool.blocks.take pool.current ++
            (palloc_block_loop pool.current pool.current (pool.blocks.drop pool.current)).1 ++
            [{ addr := m, last := ngx_align_ptr (m + L.sizeof_pool_data) L.NGX_ALIGNMENT + size,
               end_ := m + ptrdiff_to_size L d.end_ d.addr, failed := 0 }],
          current :=
            (palloc_block_loop pool.current pool.current (pool.blocks.drop pool.current)).2 },
        o1) := by
  unfold ngx_palloc_block
  rw [hd, ha]
  simp only
  rw [if_neg hm]

/-- C23 (as stated) fails: when the pool of one block, which is `current` and the last
block, has no room and a block is appended, the counter `failed` of that block stays 0:
the walk from `current` stops before the last block. -/
theorem palloc_block_skips_tail :
    (ngx_palloc lp64 pool_nine_allocs 100 [4096]).1 = 4128 ∧
      (ngx_palloc lp64 pool_nine_allocs 100 [4096]).2.1.blocks.length = 2 ∧
      pool_nine_allocs.blocks[0]? = some { addr := 1024, last := 2036, end_ := 2048, failed := 0 } ∧
      (ngx_palloc lp64 pool_nine_allocs 100 [4096]).2.1.blocks[0]? =
        some { addr := 1024, last := 2036, end_ := 2048, failed := 0 } := by
  decide

/-- C23 (amended): when a small allocation finds no block with room from `current` on
and a new block is obtained at `m`, every block from `pool.current` up to but not
including the last block that existed before has `failed` incremented by exactly one;
the last existing block and the blocks before the old `current` keep their counters;
no other field of an existing block changes; the new block is linked after the old
last block with `failed = 0`; and `pool.current` becomes the successor of the last
incremented block whose counter exceeded 4 before the increment, and is unchanged when
there is none. -/
theorem palloc_block_grow (L : Layout) (pool : ngx_pool_t) (size m : Nat) (al : Bool)
    (o o1 : Oracle) (hcur : pool.current < pool.blocks.length)
    (hfull : palloc_small_loop L size al (pool.blocks.drop pool.current) = none)
    (ha : ngx_alloc o = (m, o1)) (hm : m ≠ 0) :
    (ngx_palloc_small L pool size al o).2.1.blocks.length = pool.blocks.length + 1 ∧
      (∀ (i : Nat) (b : ngx_pool_data_t), pool.blocks[i]? = some b →
        (ngx_palloc_small L pool size al o).2.1.blocks[i]? =
          some { b with failed :=
            if pool.current ≤ i ∧ i + 1 < pool.blocks.length then b.failed + 1
            else b.failed }) ∧
      (∃ new, (ngx_palloc_small L pool size al o).2.1.blocks[pool.blocks.length]? = some new ∧
        new.addr = m ∧ new.failed = 0) ∧
      ((∀ i b, pool.current ≤ i → i + 1 < pool.blocks.length → pool.blocks[i]? = some b →
          b.failed ≤ 4) →
        (ngx_palloc_small L pool size al o).2.1.current = pool.current) ∧
      (∀ i b, pool.current ≤ i → i + 1 < pool.blocks.length → pool.blocks[i]? = some b →
        4 < b.failed →
        (∀ k b2, i < k → k + 1 < pool.blocks.length → pool.blocks[k]? = some b2 →
          b2.failed ≤ 4) →
        (ngx_palloc_small L pool size al o).2.1.current = i + 1) := by
  obtain ⟨d, ds, hd⟩ : ∃ d ds, pool.blocks = d :: ds := by
    cases hb : pool.blocks with
    | nil => rw [hb] at hcur; simp at hcur
    | cons d ds => exact ⟨d, ds, rfl⟩
  have hres : ngx_palloc_small L pool size al o = ngx_palloc_block L pool size o := by
    unfold ngx_palloc_small
    rw [hfull]
  rw [hres, ngx_palloc_block_blocks L pool size m o o1 d ds hd ha hm]
  simp only
  have hlen1 : (pool.blocks.take pool.current).length = pool.current := by
    rw [List.length_take]; omega
  have hlen2 : (palloc_block_loop pool.current pool.current
      (pool.blocks.drop pool.current)).1.length = pool.blocks.length - pool.current := by
    rw [palloc_block_loop_length, List.length_drop]
  have hdrop : ∀ j, (pool.blocks.drop pool.current)[j]? = pool.blocks[pool.current + j]? :=
    fun j => List.getElem?_drop _ _ _
  refine ⟨?_, ?_, ?_, ?_, ?_⟩
  · simp only [List.length_append, List.length_cons, List.length_nil, hlen1, hlen2]
    omega
  · intro i b hb
    have hi : i < pool.blocks.length := by
      by_contra hge
      rw [List.getElem?_eq_none (by omega)] at hb
      cases hb
    rw [List.getElem?_append_left (by
      simp only [List.length_append, hlen1, hlen2]; omega)]
    by_cases hic : i < pool.current
    · rw [List.getElem?_append_left (by rw [hlen1]; exact hic)]
      rw [List.getElem?_take_of_lt hic, hb]
      have : ¬ (pool.current ≤ i ∧ i + 1 < pool.blocks.length) := by omega
      rw [if_neg this]
    · rw [List.getElem?_append_right (by rw [hlen1]; omega), hlen1]
      have hb1 : (pool.blocks.drop pool.current)[i - pool.current]? = some b := by
        rw [hdrop]
        have : pool.current + (i - pool.current) = i := by omega
        rw [this]; exact hb
      rw [palloc_block_loop_get _ _ _ _ b hb1, List.length_drop]
      have e : (i - pool.current + 1 < pool.blocks.length - pool.current) =
          (pool.current ≤ i ∧ i + 1 < pool.blocks.length) := by
        apply propext; omega
      simp only [e]
  · refine ⟨ngx_pool_data_t.mk m
      (ngx_align_ptr (m + L.sizeof_pool_data) L.NGX_ALIGNMENT + size)
      (m + ptrdiff_to_size L d.end_ d.addr) 0, ?_, rfl, rfl⟩
    rw [List.getElem?_append_right (by
      simp only [List.length_append, hlen1, hlen2]; omega)]
    have : pool.blocks.length - (pool.blocks.take pool.current ++
        (palloc_block_loop pool.current pool.current
          (pool.blocks.drop pool.current)).1).length = 0 := by
      simp only [List.length_append, hlen1, hlen2]; omega
    rw [this]
    rfl
  · intro h
    apply palloc_block_loop_keep
    intro j b hj hb
    rw [List.length_drop] at hj
    rw [hdrop] at hb
    exact h (pool.current + j) b (by omega) (by omega) hb
  · intro i b hci hi hb hf hrest
    have hb1 : (pool.blocks.drop pool.current)[i - pool.current]? = some b := by
      rw [hdrop]
      have : pool.current + (i - pool.current) = i := by omega
      rw [this]; exact hb
    rw [palloc_block_loop_advance _ pool.current pool.current (i - pool.current) b
      (by rw [List.length_drop]; omega) hb1 hf
      (fun k b2 hk hk2 hb2 => by
        rw [List.length_drop] at hk2
        rw [hdrop] at hb2
        exact hrest (pool.current + k) b2 (by omega) (by omega) hb2)]
    omega

/-- C23 witness: a pool of three blocks with the counters 5, 4, 0 and `current` at the
head grows by a block at 12288: the counters become 6, 5, 0 and 0, the old last block
keeping its 0, and `current` moves to the second block only, although the counter of
that block is now 5. -/
theorem palloc_block_grow_witness :
    (ngx_palloc_small lp64 pool_three_blocks 100 true [12288]).2.1.blocks.length = 4 ∧
      ((ngx_palloc_small lp64 pool_three_blocks 100 true [12288]).2.1.blocks.map
        (fun b => b.failed)) = [6, 5, 0, 0] ∧
      (ngx_palloc_small lp64 pool_three_blocks 100 true [12288]).2.1.current = 1 :=
  ⟨(palloc_block_grow lp64 pool_three_blocks 100 12288 true [12288] [] (by decide) (by decide)
      rfl (by decide)).1,
    by decide,
    (palloc_block_grow lp64 pool_three_blocks 100 12288 true [12288] [] (by decide) (by decide)
      rfl (by decide)).2.2.2.2 0 { addr := 1024, last := 2036, end_ := 2048, failed := 5 }
      (by decide) (by decide) (by decide) (by decide)
      (fun k b2 hk hk2 hb2 => by
        have hk1 : k = 1 := by
          have : pool_three_blocks.blocks.length = 3 := rfl
          omega
        subst hk1
        have : b2 = { addr := 4096, last := 5108, end_ := 5120, failed := 4 } := by
          have e : pool_three_blocks.blocks[1]? =
            some { addr := 4096, last := 5108, end_ := 5120, failed := 4 } := rfl
          rw [e] at hb2
          exact (Option.some.inj hb2).symm
        rw [this])⟩

/-! ## C25: `ngx_alloc_chain_link` with a link on the freelist -/

/-- C25 (as stated) fails: with the two links 900 and 950 on the freelist,
`ngx_alloc_chain_link` returns the link 900 and leaves the link 950 at the head of the
freelist, but the `next` field of the link returned is not nil: it still holds 950. -/
theorem alloc_chain_link_keeps_next :
    chain_linked next_two_free_links pool_two_free_links.chain ∧
      (ngx_alloc_chain_link_next lp64 next_two_free_links pool_two_free_links []).1 = 900 ∧
      (ngx_alloc_chain_link_next lp64 next_two_free_links pool_two_free_links []).2.1 900 = 950 ∧
      chain_head
        (ngx_alloc_chain_link_next lp64 next_two_free_links pool_two_free_links []).2.2.1.chain =
          950 := by
  decide

/-- C25 (amended): when the freelist of the pool holds the link `cl` followed by the
links `rest`, linked through their `next` fields, `ngx_alloc_chain_link` returns `cl`,
the former head of the freelist; the freelist becomes `rest`, whose head is the former
successor of `cl`; no block of the pool changes and the allocator is not called, so no
small-block memory is consumed; and no `next` field is written: the `next` field of
the link returned still holds the address of its former successor, which is nil only
when `cl` was the last link of the freelist. The list-level function agrees. -/
theorem alloc_chain_link_reuse (L : Layout) (next : NextStore) (pool : ngx_pool_t) (o : Oracle)
    (cl : ngx_chain_t) (rest : List ngx_chain_t) (hc : pool.chain = cl :: rest)
    (hl : chain_linked next pool.chain) :
    (ngx_alloc_chain_link_next L next pool o).1 = cl.addr ∧
      (ngx_alloc_chain_link_next L next pool o).2.2.1.chain = rest ∧
      chain_head (ngx_alloc_chain_link_next L next pool o).2.2.1.chain = next cl.addr ∧
      (ngx_alloc_chain_link_next L next pool o).2.2.1.blocks = pool.blocks ∧
      (ngx_alloc_chain_link_next L next pool o).2.2.1.current = pool.current ∧
      (ngx_alloc_chain_link_next L next pool o).2.2.1.large = pool.large ∧
      (ngx_alloc_chain_link_next L next pool o).2.2.2 = o ∧
      (ngx_alloc_chain_link_next L next pool o).2.1 = next ∧
      (ngx_alloc_chain_link_next L next pool o).2.1 cl.addr = chain_head rest ∧
      chain_linked (ngx_alloc_chain_link_next L next pool o).2.1
        (ngx_alloc_chain_link_next L next pool o).2.2.1.chain ∧
      ngx_alloc_chain_link L pool o =
        ((ngx_alloc_chain_link_next L next pool o).1,
          (ngx_alloc_chain_link_next L next pool o).2.2) := by
  rw [hc] at hl
  have hres : ngx_alloc_chain_link_next L next pool o =
      (cl.addr, next, { pool with chain := rest }, o) := by
    unfold ngx_alloc_chain_link_next
    rw [hc]
  have hres2 : ngx_alloc_chain_link L pool o = (cl.addr, { pool with chain := rest }, o) := by
    unfold ngx_alloc_chain_link
    rw [hc]
  rw [hres, hres2]
  exact ⟨rfl, rfl, hl.1.symm, rfl, rfl, rfl, rfl, rfl, hl.1, hl.2, rfl⟩

/-- C25 witness: with the single link 900 on the freelist, `ngx_alloc_chain_link`
returns 900, the freelist becomes empty, the block keeps its cursor 1104, and the
`next` field of the link returned is nil, as it was. -/
theorem alloc_chain_link_reuse_witness :
    (ngx_alloc_chain_link_next lp64 (fun _ => 0) pool_one_free_link []).1 = 900 ∧
      (ngx_alloc_chain_link_next lp64 (fun _ => 0) pool_one_free_link []).2.2.1.chain = [] ∧
      (ngx_alloc_chain_link_next lp64 (fun _ => 0) pool_one_free_link []).2.2.1.blocks =
        pool_one_free_link.blocks ∧
      (ngx_alloc_chain_link_next lp64 (fun _ => 0) pool_one_free_link []).2.1 900 = 0 :=
  ⟨(alloc_chain_link_reuse lp64 (fun _ => 0) pool_one_free_link [] { addr := 900, buf := 100 } []
      rfl (by decide)).1,
    (alloc_chain_link_reuse lp64 (fun _ => 0) pool_one_free_link [] { addr := 900, buf := 100 } []
      rfl (by decide)).2.1,
    (alloc_chain_link_reuse lp64 (fun _ => 0) pool_one_free_link [] { addr := 900, buf := 100 } []
      rfl (by decide)).2.2.2.1,
    (alloc_chain_link_reuse lp64 (fun _ => 0) pool_one_free_link [] { addr := 900, buf := 100 } []
      rfl (by decide)).2.2.2.2.2.2.2.2.1⟩

/-! ## C27: conservation in `ngx_chain_update_sent` -/

theorem buf_advance_zero (L : Layout) (b : ngx_buf_t) : buf_advance L b 0 = b := by
  obtain ⟨pos, last, fp, fl, st, en, tag, fd, sh, t, m, mm, rc, inf, fls, sy, lb, lc⟩ := b
  cases t <;> cases m <;> cases mm <;> cases inf <;>
    simp [buf_advance, ngx_buf_in_memory, off_to_size]

theorem buf_advance_fields (L : Layout) (b : ngx_buf_t) (r : Int) (h0 : 0 ≤ r)
    (hr : r < (L.size_max : Int)) (hsp : ngx_buf_special b = false) :
    ngx_buf_size (buf_advance L b r) = ngx_buf_size b - r ∧
      (buf_advance L b r).pos = (if ngx_buf_in_memory b then b.pos + r.toNat else b.pos) ∧
      (buf_advance L b r).file_pos = (if b.in_file then b.file_pos + r else b.file_pos) ∧
      { buf_advance L b r with pos := b.pos, file_pos := b.file_pos } = b ∧
      ngx_buf_special (buf_advance L b r) = false := by
  have hmod : off_to_size L r = r.toNat := by
    unfold off_to_size
    rw [Int.emod_eq_of_lt h0 hr]
  obtain ⟨pos, last, fp, fl, st, en, tag, fd, sh, t, m, mm, rc, inf, fls, sy, lb, lc⟩ := b
  have hcast : ((r.toNat : Nat) : Int) = r := Int.toNat_of_nonneg h0
  cases t <;> cases m <;> cases mm <;> cases inf <;>
    simp [buf_advance, ngx_buf_in_memory, ngx_buf_size, ngx_buf_special, hmod] at hsp ⊢ <;>
    omega

theorem update_sent_conserve (L : Layout) :
    ∀ (chain : List ngx_chain_t) (bufs : BufStore) (sent : Int),
      (chain.map (fun cl => cl.buf)).Nodup →
      (∀ cl ∈ chain, 0 ≤ ngx_buf_size (bufs cl.buf)) → 0 ≤ sent → sent < (L.size_max : Int) →
      ∃ pre, chain = pre ++ (ngx_chain_update_sent L chain bufs sent).1 ∧
        chain_total (ngx_chain_update_sent L chain bufs sent).2 chain =
          max 0 (chain_total bufs chain - sent) ∧
        (∀ cl ∈ pre, ngx_buf_special (bufs cl.buf) = false →
          ngx_buf_size ((ngx_chain_update_sent L chain bufs sent).2 cl.buf) = 0) ∧
        (∀ cl ∈ pre, ngx_buf_special (bufs cl.buf) = true →
          (ngx_chain_update_sent L chain bufs sent).2 cl.buf = bufs cl.buf) ∧
        (∀ a, a ∉ pre.map (fun cl => cl.buf) →
          (∀ cl rest, (ngx_chain_update_sent L chain bufs sent).1 = cl :: rest → a ≠ cl.buf) →
          (ngx_chain_update_sent L chain bufs sent).2 a = bufs a) ∧
        (∀ cl rest, (ngx_chain_update_sent L chain bufs sent).1 = cl :: rest →
          ngx_buf_special (bufs cl.buf) = false ∧ 0 ≤ sent - chain_total bufs pre ∧
          (sent - chain_total bufs pre = 0 ∨
            sent - chain_total bufs pre < ngx_buf_size (bufs cl.buf)) ∧
          (ngx_chain_update_sent L chain bufs sent).2 cl.buf =
            buf_advance L (bufs cl.buf) (sent - chain_total bufs pre)) ∧
        ((ngx_chain_update_sent L chain bufs sent).1 = [] → chain_total bufs chain ≤ sent) := by
  intro chain
  induction chain with
  | nil =>
    intro bufs sent _ _ h0 _
    refine ⟨[], rfl, ?_, by simp, by simp, fun _ _ _ => rfl, ?_, ?_⟩
    · simp only [chain_total, ngx_chain_update_sent]
      omega
    · intro cl rest h
      simp [ngx_chain_update_sent] at h
    · intro _
      simp only [chain_total]
      exact h0
  | cons c rest ih =>
    intro bufs sent hnd hpos h0 hmax
    simp only [List.map_cons, List.nodup_cons] at hnd
    have hpos1 : ∀ cl ∈ rest, 0 ≤ ngx_buf_size (bufs cl.buf) :=
      fun cl hcl => hpos cl (List.mem_cons_of_mem _ hcl)
    have hrest := chain_total_nonneg bufs rest hpos1
    have hc := hpos c (List.mem_cons_self _ _)
    by_cases hsp : ngx_buf_special (bufs c.buf) = true
    · have hstep : ngx_chain_update_sent L (c :: rest) bufs sent =
          ngx_chain_update_sent L rest bufs sent := by
        simp [ngx_chain_update_sent, hsp]
      obtain ⟨pre, i1, i2, i3, i3b, i4, i5, i6⟩ := ih bufs sent hnd.2 hpos1 h0 hmax
      have hcnot : c.buf ∉ pre.map (fun cl => cl.buf) := by
        intro hm
        apply hnd.1
        rw [i1, List.map_append]
        exact List.mem_append_left _ hm
      have hcout : ∀ cl r, (ngx_chain_update_sent L rest bufs sent).1 = cl :: r →
          c.buf ≠ cl.buf := by
        intro cl r e he
        apply hnd.1
        rw [i1, List.map_append, e, he]
        simp
      have hcsame : (ngx_chain_update_sent L rest bufs sent).2 c.buf = bufs c.buf :=
        i4 c.buf hcnot hcout
      rw [hstep]
      refine ⟨c :: pre, by rw [List.cons_append, ← i1], ?_, ?_, ?_, ?_, ?_, ?_⟩
      · simp only [chain_total]
        rw [hcsame, hsp, i2]
        simp only [if_true, zero_add]
      · intro cl hcl hsp1
        rcases List.mem_cons.mp hcl with e | e
        · rw [e, hsp] at hsp1; exact absurd hsp1 (by simp)
        · exact i3 cl e hsp1
      · intro cl hcl hsp1
        rcases List.mem_cons.mp hcl with e | e
        · rw [e]; exact hcsame
        · exact i3b cl e hsp1
      · intro a ha hb
        simp only [List.map_cons, List.mem_cons, not_or] at ha
        exact i4 a ha.2 hb
      · intro cl r e
        have hct : chain_total bufs (c :: pre) = chain_total bufs pre := by
          simp [chain_total, hsp]
        rw [hct]
        exact i5 cl r e
      · intro e
        have := i6 e
        simp only [chain_total, hsp, if_true]
        omega
    · have hsp0 : ngx_buf_special (bufs c.buf) = false := by simpa using hsp
      have htot : chain_total bufs (c :: rest) =
          ngx_buf_size (bufs c.buf) + chain_total bufs rest := by
        simp [chain_total, hsp0]
      by_cases hz : sent = 0
      · have hstep : ngx_chain_update_sent L (c :: rest) bufs sent = (c :: rest, bufs) := by
          simp [ngx_chain_update_sent, hsp0, hz]
        rw [hstep]
        refine ⟨[], rfl, ?_, by simp, by simp, fun _ _ _ => rfl, ?_, ?_⟩
        · show chain_total bufs (c :: rest) = max 0 (chain_total bufs (c :: rest) - sent)
          rw [htot]; omega
        · intro cl r e
          simp only [List.cons.injEq] at e
          rw [← e.1]
          have hrem : sent - chain_total bufs [] = 0 := by
            simp only [chain_total]; omega
          rw [hrem]
          exact ⟨hsp0, Int.le_refl 0, Or.inl rfl, (buf_advance_zero L _).symm⟩
        · intro e; cases e
      · by_cases hge : sent ≥ ngx_buf_size (bufs c.buf)
        · have hagree : ∀ cl ∈ rest,
              Function.update bufs c.buf (buf_consume (bufs c.buf)) cl.buf = bufs cl.buf := by
            intro cl hcl
            have : cl.buf ≠ c.buf := fun e => hnd.1 (List.mem_map.mpr ⟨cl, hcl, e⟩)
            rw [Function.update_noteq this]
          have htot1 := chain_total_congr bufs _ rest hagree
          have hstep : ngx_chain_update_sent L (c :: rest) bufs sent =
              ngx_chain_update_sent L rest (Function.update bufs c.buf (buf_consume (bufs c.buf)))
                (sent - ngx_buf_size (bufs c.buf)) := by
            simp only [ngx_chain_update_sent, hsp0, hz, hge, Bool.false_eq_true, if_false,
              if_true]
          obtain ⟨pre, i1, i2, i3, i3b, i4, i5, i6⟩ :=
            ih (Function.update bufs c.buf (buf_consume (bufs c.buf)))
              (sent - ngx_buf_size (bufs c.buf)) hnd.2
              (fun cl hcl => by rw [hagree cl hcl]; exact hpos1 cl hcl) (by omega) (by omega)
          have hpre_mem : ∀ cl ∈ pre, cl ∈ rest := by
            intro cl hcl; rw [i1]; exact List.mem_append_left _ hcl
          have hcnot : c.buf ∉ pre.map (fun cl => cl.buf) := by
            intro hm
            apply hnd.1
            rw [i1, List.map_append]
            exact List.mem_append_left _ hm
          have hcout : ∀ cl r, (ngx_chain_update_sent L rest
              (Function.update bufs c.buf (buf_consume (bufs c.buf)))
              (sent - ngx_buf_size (bufs c.buf))).1 = cl :: r → c.buf ≠ cl.buf := by
            intro cl r e he
            apply hnd.1
            rw [i1, List.map_append, e, he]
            simp
          have hcsame := i4 c.buf hcnot hcout
          rw [Function.update_same] at hcsame
          have hpre_tot : chain_total (Function.update bufs c.buf (buf_consume (bufs c.buf))) pre
              = chain_total bufs pre :=
            chain_total_congr bufs _ pre (fun cl hcl => hagree cl (hpre_mem cl hcl))
          rw [hstep]
          refine ⟨c :: pre, by rw [List.cons_append, ← i1], ?_, ?_, ?_, ?_, ?_, ?_⟩
          · have hsz := ngx_buf_size_consume _ hsp0
            simp only [chain_total]
            rw [hcsame, hsz, i2, htot1]
            have : (if ngx_buf_special (buf_consume (bufs c.buf)) = true then (0 : Int) else 0)
                = 0 := by split <;> rfl
            rw [this, hsp0]
            simp only [Bool.false_eq_true, if_false]
            omega
          · intro cl hcl hsp1
            rcases List.mem_cons.mp hcl with e | e
            · rw [e, hcsame]
              exact ngx_buf_size_consume _ hsp0
            · exact i3 cl e (by rw [hagree cl (hpre_mem cl e)]; exact hsp1)
          · intro cl hcl hsp1
            rcases List.mem_cons.mp hcl with e | e
            · rw [e, hsp0] at hsp1; exact absurd hsp1 (by simp)
            · rw [i3b cl e (by rw [hagree cl (hpre_mem cl e)]; exact hsp1)]
              exact hagree cl (hpre_mem cl e)
          · intro a ha hb
            simp only [List.map_cons, List.mem_cons, not_or] at ha
            rw [i4 a ha.2 hb, Function.update_noteq ha.1]
          · intro cl r e
            have hcl : cl ∈ rest := by rw [i1, e]; simp
            obtain ⟨j1, j2, j3, j4⟩ := i5 cl r e
            rw [hagree cl hcl] at j1 j3 j4
            rw [hpre_tot] at j2 j3 j4
            have hct : chain_total bufs (c :: pre) =
                ngx_buf_size (bufs c.buf) + chain_total bufs pre := by
              simp [chain_total, hsp0]
            have hrem : sent - chain_total bufs (c :: pre) =
                sent - ngx_buf_size (bufs c.buf) - chain_total bufs pre := by
              rw [hct]; omega
            rw [hrem]
            exact ⟨j1, j2, j3, j4⟩
          · intro e
            have := i6 e
            rw [htot1] at this
            rw [htot]; omega
        · have hstep : ngx_chain_update_sent L (c :: rest) bufs sent =
              (c :: rest, Function.update bufs c.buf (buf_advance L (bufs c.buf) sent)) := by
            simp only [ngx_chain_update_sent, hsp0, hz, hge, Bool.false_eq_true, if_false]
          have hagree : ∀ cl ∈ rest,
              Function.update bufs c.buf (buf_advance L (bufs c.buf) sent) cl.buf = bufs cl.buf := by
            intro cl hcl
            have : cl.buf ≠ c.buf := fun e => hnd.1 (List.mem_map.mpr ⟨cl, hcl, e⟩)
            rw [Function.update_noteq this]
          have htot1 := chain_total_congr bufs _ rest hagree
          obtain ⟨f1, _, _, _, f5⟩ := buf_advance_fields L (bufs c.buf) sent h0 hmax hsp0
          rw [hstep]
          refine ⟨[], rfl, ?_, by simp, by simp, ?_, ?_, ?_⟩
          · have e1 : chain_total (Function.update bufs c.buf (buf_advance L (bufs c.buf) sent))
                (c :: rest) = ngx_buf_size (bufs c.buf) - sent + chain_total bufs rest := by
              rw [chain_total, Function.update_same, f5, f1, htot1]
              simp only [Bool.false_eq_true, if_false]
            show chain_total (Function.update bufs c.buf (buf_advance L (bufs c.buf) sent))
                (c :: rest) = max 0 (chain_total bufs (c :: rest) - sent)
            rw [e1, htot]
            omega
          · intro a _ hb
            have := hb c rest rfl
            exact Function.update_noteq this _ _
          · intro cl r e
            simp only [List.cons.injEq] at e
            rw [← e.1]
            have hrem : sent - chain_total bufs [] = sent := by
              simp only [chain_total]; omega
            rw [hrem]
            exact ⟨hsp0, h0, Or.inr (by omega), Function.update_same _ _ _⟩
          · intro e; cases e

/-- C27: for a chain of pairwise distinct buffers with non-negative remaining sizes and
an amount `sent >= 0` (an `off_t`, which fits `size_t`), after
`ngx_chain_update_sent(in, sent)` the sum of the remaining sizes of the non-special
buffers of the chain is `max(0, total_before - sent)`; the link returned is the chain
itself or one of its suffixes (the empty suffix for null); every non-special buffer
before it has remaining size 0 and every special buffer before it is unchanged; no
buffer after the link returned and no buffer outside the chain is modified; and the
buffer of the link returned is changed at most in `pos` and `file_pos`, which are
advanced by the unconsumed remainder of `sent` (`pos` when the buffer is in memory,
`file_pos` when it is in a file), so that its remaining size drops by that remainder. -/
theorem update_sent_conservation (L : Layout) (chain : List ngx_chain_t) (bufs : BufStore)
    (sent : Int) (hnd : (chain.map (fun cl => cl.buf)).Nodup)
    (hpos : ∀ cl ∈ chain, 0 ≤ ngx_buf_size (bufs cl.buf)) (h0 : 0 ≤ sent)
    (hmax : sent < (L.size_max : Int)) :
    chain_total (ngx_chain_update_sent L chain bufs sent).2 chain =
        max 0 (chain_total bufs chain - sent) ∧
      ∃ pre, chain = pre ++ (ngx_chain_update_sent L chain bufs sent).1 ∧
        (∀ cl ∈ pre, ngx_buf_special (bufs cl.buf) = false →
          ngx_buf_size ((ngx_chain_update_sent L chain bufs sent).2 cl.buf) = 0) ∧
        (∀ cl ∈ pre, ngx_buf_special (bufs cl.buf) = true →
          (ngx_chain_update_sent L chain bufs sent).2 cl.buf = bufs cl.buf) ∧
        (∀ cl ∈ (ngx_chain_update_sent L chain bufs sent).1.tail,
          (ngx_chain_update_sent L chain bufs sent).2 cl.buf = bufs cl.buf) ∧
        (∀ a, a ∉ chain.map (fun cl => cl.buf) →
          (ngx_chain_update_sent L chain bufs sent).2 a = bufs a) ∧
        (∀ cl rest, (ngx_chain_update_sent L chain bufs sent).1 = cl :: rest →
          0 ≤ sent - chain_total bufs pre ∧
          ngx_buf_size ((ngx_chain_update_sent L chain bufs sent).2 cl.buf) =
            ngx_buf_size (bufs cl.buf) - (sent - chain_total bufs pre) ∧
          ((ngx_chain_update_sent L chain bufs sent).2 cl.buf).pos =
            (if ngx_buf_in_memory (bufs cl.buf) then
              (bufs cl.buf).pos + (sent - chain_total bufs pre).toNat
            else (bufs cl.buf).pos) ∧
          ((ngx_chain_update_sent L chain bufs sent).2 cl.buf).file_pos =
            (if (bufs cl.buf).in_file then
              (bufs cl.buf).file_pos + (sent - chain_total bufs pre)
            else (bufs cl.buf).file_pos) ∧
          { (ngx_chain_update_sent L chain bufs sent).2 cl.buf with
              pos := (bufs cl.buf).pos, file_pos := (bufs cl.buf).file_pos } = bufs cl.buf) := by
  obtain ⟨pre, i1, i2, i3, i3b, i4, i5, _⟩ := update_sent_conserve L chain bufs sent hnd hpos h0 hmax
  refine ⟨i2, pre, i1, i3, i3b, ?_, ?_, ?_⟩
  · intro cl hcl
    cases hout : (ngx_chain_update_sent L chain bufs sent).1 with
    | nil => rw [hout] at hcl; simp at hcl
    | cons c0 r0 =>
      rw [hout] at hcl
      simp only [List.tail_cons] at hcl
      have hsplit : chain = pre ++ c0 :: r0 := by rw [← hout]; exact i1
      have hnd1 : (pre.map (fun cl => cl.buf) ++ c0.buf :: r0.map (fun cl => cl.buf)).Nodup := by
        have := hnd
        rw [hsplit, List.map_append, List.map_cons] at this
        exact this
      have hmem : cl.buf ∈ r0.map (fun cl => cl.buf) := List.mem_map.mpr ⟨cl, hcl, rfl⟩
      apply i4
      · intro hm
        exact (List.nodup_append.mp hnd1).2.2 hm (List.mem_cons_of_mem _ hmem)
      · intro c1 r1 e
        rw [hout] at e
        simp only [List.cons.injEq] at e
        rw [← e.1]
        intro he
        have := (List.nodup_cons.mp (List.nodup_append.mp hnd1).2.1).1
        rw [← he] at this
        exact this hmem
  · intro a ha
    apply i4
    · intro hm
      apply ha
      rw [i1, List.map_append]
      exact List.mem_append_left _ hm
    · intro c1 r1 e he
      apply ha
      rw [i1, List.map_append, e, he]
      simp
  · intro cl rest e
    obtain ⟨j1, j2, j3, j4⟩ := i5 cl rest e
    have hlt : sent - chain_total bufs pre < (L.size_max : Int) := by
      have hp := chain_total_nonneg bufs pre (fun c hc => hpos c (by
        rw [i1]; exact List.mem_append_left _ hc))
      omega
    obtain ⟨f1, f2, f3, f4, _⟩ := buf_advance_fields L (bufs cl.buf)
      (sent - chain_total bufs pre) j2 hlt j1
    rw [j4]
    exact ⟨j2, f1, f2, f3, f4⟩

/-- C27 witness: three temporary buffers with 0, 0 and 24 bytes left; after 10 bytes
were sent the sum is 14, the link of the third buffer is returned, and `pos` of that
buffer has moved from 7040 to 7050. -/
theorem update_sent_conservation_witness :
    chain_total (ngx_chain_update_sent lp64
        [{ addr := 10, buf := 100 }, { addr := 20, buf := 200 }, { addr := 30, buf := 300 }]
        bufs_one_pending 10).2
        [{ addr := 10, buf := 100 }, { addr := 20, buf := 200 }, { addr := 30, buf := 300 }] =
      max 0 (chain_total bufs_one_pending
        [{ addr := 10, buf := 100 }, { addr := 20, buf := 200 }, { addr := 30, buf := 300 }] - 10) ∧
    chain_total bufs_one_pending
        [{ addr := 10, buf := 100 }, { addr := 20, buf := 200 }, { addr := 30, buf := 300 }] = 24 ∧
    (ngx_chain_update_sent lp64
        [{ addr := 10, buf := 100 }, { addr := 20, buf := 200 }, { addr := 30, buf := 300 }]
        bufs_one_pending 10).1 = [{ addr := 30, buf := 300 }] ∧
    ((ngx_chain_update_sent lp64
        [{ addr := 10, buf := 100 }, { addr := 20, buf := 200 }, { addr := 30, buf := 300 }]
        bufs_one_pending 10).2 300).pos = 7050 :=
  ⟨(update_sent_conservation lp64
      [{ addr := 10, buf := 100 }, { addr := 20, buf := 200 }, { addr := 30, buf := 300 }]
      bufs_one_pending 10 (by decide) (by decide) (by decide) (by decide)).1,
    by decide, by decide, by decide⟩

/-! ## C26: how far `ngx_chain_coalesce_file` advances `*in` -/

theorem chain_file_size_append (bufs : BufStore) :
    ∀ (A B : List ngx_chain_t),
      chain_file_size bufs (A ++ B) = chain_file_size bufs A + chain_file_size bufs B := by
  intro A
  induction A with
  | nil => intro B; simp [chain_file_size]
  | cons a A ih =>
    intro B
    show chain_file_size bufs (a :: (A ++ B)) = _
    rw [chain_file_size, ih, chain_file_size]
    omega

theorem chain_file_size_nonneg (bufs : BufStore) :
    ∀ (A : List ngx_chain_t), (∀ cl ∈ A, 0 ≤ file_size (bufs cl.buf)) →
      0 ≤ chain_file_size bufs A := by
  intro A
  induction A with
  | nil => intro _; exact Int.le_refl 0
  | cons a A ih =>
    intro h
    have h1 := h a (List.mem_cons_self _ _)
    have h2 := ih (fun c hc => h c (List.mem_cons_of_mem _ hc))
    simp only [chain_file_size]
    omega

theorem coalesce_loop_cut (L : Layout) (bufs : BufStore) (fd limit : Int)
    (hps : 0 < L.ngx_pagesize) (cl : ngx_chain_t) (rest : List ngx_chain_t) (total : Int)
    (hb0 : 0 ≤ (bufs cl.buf).file_pos)
    (hb2 : (bufs cl.buf).file_last + (L.ngx_pagesize : Int) ≤ (L.off_half : Int))
    (ht0 : 0 ≤ total) (ht1 : total ≤ limit) (hl : limit < (L.off_half : Int))
    (htp : total ≤ (bufs cl.buf).file_pos)
    (hbig : (bufs cl.buf).file_last - (bufs cl.buf).file_pos > limit - total) :
    ∃ e, coalesce_loop L bufs fd limit (cl :: rest) total = (total + e, cl :: rest) ∧
      limit - total ≤ e ∧ e ≤ file_size (bufs cl.buf) := by
  have hps1 : (0 : Int) < (L.ngx_pagesize : Int) := by exact_mod_cast hps
  obtain ⟨r1, r2⟩ := page_round_bounds
    ((bufs cl.buf).file_pos + (limit - total) + (L.ngx_pagesize : Int) - 1)
    (L.ngx_pagesize : Int) hps1
  rw [coalesce_loop_cut_eq L bufs fd limit hps cl rest total hb0 hb2 ht0 ht1 hl htp hbig]
  refine ⟨_, rfl, ?_, ?_⟩
  · split <;> omega
  · simp only [file_size]
    split <;> omega

theorem file_run_tail_subset (bufs : BufStore) (fd : Int) :
    ∀ (rest : List ngx_chain_t) (fprev : Int) (c : ngx_chain_t),
      c ∈ file_run_tail bufs fd fprev rest → c ∈ rest := by
  intro rest
  induction rest with
  | nil => intro fprev c h; simp [file_run_tail] at h
  | cons a rest ih =>
    intro fprev c h
    rw [file_run_tail] at h
    split at h
    · rcases List.mem_cons.mp h with h1 | h1
      · rw [h1]; exact List.mem_cons_self _ _
      · exact List.mem_cons_of_mem _ (ih _ c h1)
    · simp at h

theorem coalesce_loop_spec (L : Layout) (bufs : BufStore) (fd limit : Int)
    (hps : 0 < L.ngx_pagesize) (hl : limit < (L.off_half : Int)) :
    ∀ (rest : List ngx_chain_t) (cl : ngx_chain_t) (total : Int), 0 ≤ total → total ≤ limit →
      total ≤ (bufs cl.buf).file_pos →
      (∀ c ∈ cl :: rest, 0 ≤ (bufs c.buf).file_pos ∧
        (bufs c.buf).file_pos ≤ (bufs c.buf).file_last ∧
        (bufs c.buf).file_last + (L.ngx_pagesize : Int) ≤ (L.off_half : Int)) →
      ∃ passed e,
        cl :: rest = passed ++ (coalesce_loop L bufs fd limit (cl :: rest) total).2 ∧
        passed <+: cl :: file_run_tail bufs fd
          ((bufs cl.buf).file_pos + file_size (bufs cl.buf)) rest ∧
        (coalesce_loop L bufs fd limit (cl :: rest) total).1 =
          total + chain_file_size bufs passed + e ∧
        total + chain_file_size bufs passed ≤ limit ∧
        ((e = 0 ∧ ((coalesce_loop L bufs fd limit (cl :: rest) total).2 = [] ∨ passed ≠ [])) ∨
          ∃ c r, (coalesce_loop L bufs fd limit (cl :: rest) total).2 = c :: r ∧
            passed ++ [c] <+: cl :: file_run_tail bufs fd
              ((bufs cl.buf).file_pos + file_size (bufs cl.buf)) rest ∧
            limit - (total + chain_file_size bufs passed) < file_size (bufs c.buf) ∧
            limit - (total + chain_file_size bufs passed) ≤ e ∧ e ≤ file_size (bufs c.buf)) ∧
        ((∀ c ∈ cl :: file_run_tail bufs fd
            ((bufs cl.buf).file_pos + file_size (bufs cl.buf)) rest, 0 ≤ file_size (bufs c.buf)) →
          total + chain_file_size bufs (cl :: file_run_tail bufs fd
            ((bufs cl.buf).file_pos + file_size (bufs cl.buf)) rest) < limit →
          passed = cl :: file_run_tail bufs fd
            ((bufs cl.buf).file_pos + file_size (bufs cl.buf)) rest ∧ e = 0) := by
  have hps1 : (0 : Int) < (L.ngx_pagesize : Int) := by exact_mod_cast hps
  intro rest
  induction rest with
  | nil =>
    intro cl total h0 hle htp hr
    obtain ⟨hb0, hb1, hb2⟩ := hr cl (List.mem_cons_self _ _)
    by_cases hbig : (bufs cl.buf).file_last - (bufs cl.buf).file_pos > limit - total
    · obtain ⟨e, hres, he1, he2⟩ := coalesce_loop_cut L bufs fd limit hps cl [] total
        hb0 hb2 h0 hle hl htp hbig
      rw [hres]
      refine ⟨[], e, rfl, List.nil_prefix, ?_, ?_, Or.inr ⟨cl, [], rfl, ?_, ?_, ?_, he2⟩, ?_⟩
      · simp only [chain_file_size]
        rw [Int.add_zero]
      · simp only [chain_file_size]; omega
      · simp [file_run_tail]
      · simp only [chain_file_size, file_size]; omega
      · simp only [chain_file_size]; omega
      · intro hnn hlt
        simp only [file_run_tail, chain_file_size, file_size] at hlt
        omega
    · rw [coalesce_loop_take_eq L bufs fd limit cl [] total hb0 hb1 (by omega) h0 hle hl hbig]
      refine ⟨[cl], 0, rfl, ?_, ?_, ?_, Or.inl ⟨rfl, Or.inl rfl⟩, ?_⟩
      · simp [file_run_tail]
      · simp only [chain_file_size, file_size]; omega
      · simp only [chain_file_size, file_size]; omega
      · intro _ _
        simp [file_run_tail]
  | cons c2 r2 ih =>
    intro cl total h0 hle htp hr
    obtain ⟨hb0, hb1, hb2⟩ := hr cl (List.mem_cons_self _ _)
    by_cases hbig : (bufs cl.buf).file_last - (bufs cl.buf).file_pos > limit - total
    · obtain ⟨e, hres, he1, he2⟩ := coalesce_loop_cut L bufs fd limit hps cl (c2 :: r2)
        total hb0 hb2 h0 hle hl htp hbig
      rw [hres]
      refine ⟨[], e, rfl, List.nil_prefix, ?_, ?_,
        Or.inr ⟨cl, c2 :: r2, rfl, ?_, ?_, ?_, he2⟩, ?_⟩
      · simp only [chain_file_size]
        rw [Int.add_zero]
      · simp only [chain_file_size]; omega
      · simp only [List.nil_append]
        exact ⟨_, rfl⟩
      · simp only [chain_file_size, file_size]; omega
      · simp only [chain_file_size]; omega
      · intro hnn hlt
        have h1 := chain_file_size_nonneg bufs _
          (fun c hc => hnn c (List.mem_cons_of_mem _ hc))
        simp only [chain_file_size, file_size] at hlt h1
        omega
    · rw [coalesce_loop_take_eq L bufs fd limit cl (c2 :: r2) total hb0 hb1 (by omega) h0 hle hl
        hbig]
      simp only
      by_cases hcond : (bufs c2.buf).in_file = true ∧
          total + ((bufs cl.buf).file_last - (bufs cl.buf).file_pos) < limit ∧
          fd = (bufs c2.buf).file_fd ∧
          (bufs cl.buf).file_pos + ((bufs cl.buf).file_last - (bufs cl.buf).file_pos) =
            (bufs c2.buf).file_pos
      · rw [if_pos hcond]
        have hrun : file_run_tail bufs fd ((bufs cl.buf).file_pos + file_size (bufs cl.buf))
            (c2 :: r2) = c2 :: file_run_tail bufs fd
              ((bufs c2.buf).file_pos + file_size (bufs c2.buf)) r2 := by
          rw [file_run_tail, if_pos ⟨hcond.1, hcond.2.2.1, hcond.2.2.2⟩]
        obtain ⟨passed, e, i1, i2, i3, i4, i5, i6⟩ := ih c2
          (total + ((bufs cl.buf).file_last - (bufs cl.buf).file_pos)) (by omega) (by omega)
          (by have := hcond.2.2.2; omega) (fun c hc => hr c (List.mem_cons_of_mem _ hc))
        rw [hrun]
        refine ⟨cl :: passed, e, ?_, ?_, ?_, ?_, ?_, ?_⟩
        · rw [List.cons_append, ← i1]
        · exact List.prefix_cons_inj cl |>.mpr i2
        · rw [i3]
          simp only [chain_file_size, file_size]; omega
        · simp only [chain_file_size, file_size]; omega
        · rcases i5 with ⟨j1, j2⟩ | ⟨c, r, j1, j2, j3, j4, j5⟩
          · exact Or.inl ⟨j1, by
              rcases j2 with j2 | j2
              · exact Or.inl j2
              · exact Or.inr (by simp)⟩
          · refine Or.inr ⟨c, r, j1, ?_, ?_, ?_, j5⟩
            · rw [List.cons_append]
              exact List.prefix_cons_inj cl |>.mpr j2
            · simp only [chain_file_size, file_size] at j3 ⊢; omega
            · simp only [chain_file_size, file_size] at j4 ⊢; omega
        · intro hnn hlt
          obtain ⟨k1, k2⟩ := i6 (fun c hc => hnn c (List.mem_cons_of_mem _ hc)) (by
            simp only [chain_file_size, file_size] at hlt ⊢; omega)
          exact ⟨by rw [k1], k2⟩
      · rw [if_neg hcond]
        refine ⟨[cl], 0, rfl, ?_, ?_, ?_, Or.inl ⟨rfl, Or.inr (by simp)⟩, ?_⟩
        · exact ⟨_, rfl⟩
        · simp only [chain_file_size, file_size]; omega
        · simp only [chain_file_size, file_size]; omega
        · intro hnn hlt
          refine ⟨?_, rfl⟩
          by_cases hc2 : (bufs c2.buf).in_file = true ∧ fd = (bufs c2.buf).file_fd ∧
              (bufs cl.buf).file_pos + file_size (bufs cl.buf) = (bufs c2.buf).file_pos
          · exfalso
            have hrun : file_run_tail bufs fd ((bufs cl.buf).file_pos + file_size (bufs cl.buf))
                (c2 :: r2) = c2 :: file_run_tail bufs fd
                  ((bufs c2.buf).file_pos + file_size (bufs c2.buf)) r2 := by
              rw [file_run_tail, if_pos hc2]
            rw [hrun] at hnn hlt
            have h1 := chain_file_size_nonneg bufs _
              (fun c hc => hnn c (List.mem_cons_of_mem _ hc))
            apply hcond
            refine ⟨hc2.1, ?_, hc2.2.1, ?_⟩
            · simp only [chain_file_size, file_size] at hlt h1; omega
            · have := hc2.2.2
              simp only [file_size] at this
              exact this
          · rw [file_run_tail, if_neg hc2]

/-- C26 (as stated) fails: with a page size of 4096 and `limit = 100`, the first link
of the chain holds the file range from 0 to 4096. Its cut contribution of 100 bytes is
rounded up to the page boundary 4096, so the total returned, 4096, is the full size of
that link, and yet `*in` is left at that link: `*in` does not end on a link that was not
fully consumed, and it is not advanced past the whole coalesced range. -/
theorem coalesce_file_stays_on_consumed_link :
    ngx_chain_coalesce_file lp64 bufs_file_pages
        [{ addr := 10, buf := 100 }, { addr := 20, buf := 200 }, { addr := 30, buf := 300 }] 100 =
      (4096, [{ addr := 10, buf := 100 }, { addr := 20, buf := 200 }, { addr := 30, buf := 300 }]) ∧
      file_size (bufs_file_pages 100) = 4096 := by
  decide

/-- C26 (amended): for a non-empty chain whose buffers all satisfy
`0 ≤ file_pos ≤ file_last` and `file_last + ngx_pagesize ≤ off_half` (the file ranges
end at least a page below the largest `off_t`), a positive page size and a `limit`
with `0 ≤ limit < off_half`, `ngx_chain_coalesce_file(&in, limit)` advances `*in` past
a prefix `passed` of the maximal leading run of file-backed links that share the file
descriptor of the first link and have contiguous file offsets; every link of `passed`
contributed its full size `file_last - file_pos` to the total returned, and these sizes
sum to at most `limit`. `*in` ends on the rest of the chain: null, or a link that
contributed nothing (then at least one link was passed), or a link of the run whose
size exceeds what was left of `limit` and that contributed `e`, at least what was left
and at most its size; page rounding can make `e` the full size of that link, which
`*in` still is not advanced past. When the sum of the sizes of the run is strictly less
than `limit`, `passed` is the whole run, the total returned is that sum, and `*in` is
the link immediately following the run. -/
theorem coalesce_file_advance (L : Layout) (bufs : BufStore) (chain : List ngx_chain_t)
    (limit : Int) (hps : 0 < L.ngx_pagesize) (hne : chain ≠ [])
    (hrange : ∀ cl ∈ chain, 0 ≤ (bufs cl.buf).file_pos ∧
      (bufs cl.buf).file_pos ≤ (bufs cl.buf).file_last ∧
      (bufs cl.buf).file_last + (L.ngx_pagesize : Int) ≤ (L.off_half : Int))
    (hlim : 0 ≤ limit) (hoff : limit < (L.off_half : Int)) :
    ∃ passed e,
      chain = passed ++ (ngx_chain_coalesce_file L bufs chain limit).2 ∧
      passed <+: file_run bufs chain ∧
      (ngx_chain_coalesce_file L bufs chain limit).1 = chain_file_size bufs passed + e ∧
      chain_file_size bufs passed ≤ limit ∧
      ((e = 0 ∧ ((ngx_chain_coalesce_file L bufs chain limit).2 = [] ∨ passed ≠ [])) ∨
        ∃ c r, (ngx_chain_coalesce_file L bufs chain limit).2 = c :: r ∧
          passed ++ [c] <+: file_run bufs chain ∧
          limit - chain_file_size bufs passed < file_size (bufs c.buf) ∧
          limit - chain_file_size bufs passed ≤ e ∧ e ≤ file_size (bufs c.buf)) ∧
      (chain_file_size bufs (file_run bufs chain) < limit →
        passed = file_run bufs chain ∧
        (ngx_chain_coalesce_file L bufs chain limit).1 =
          chain_file_size bufs (file_run bufs chain) ∧
        (ngx_chain_coalesce_file L bufs chain limit).2 =
          chain.drop (file_run bufs chain).length) := by
  cases chain with
  | nil => exact absurd rfl hne
  | cons cl rest =>
    obtain ⟨passed, e, i1, i2, i3, i4, i5, i6⟩ :=
      coalesce_loop_spec L bufs (bufs cl.buf).file_fd limit hps hoff rest cl 0 (Int.le_refl 0)
        hlim (hrange cl (List.mem_cons_self _ _)).1 hrange
    have hrun : file_run bufs (cl :: rest) = cl :: file_run_tail bufs (bufs cl.buf).file_fd
        ((bufs cl.buf).file_pos + file_size (bufs cl.buf)) rest := rfl
    have hfn : ngx_chain_coalesce_file L bufs (cl :: rest) limit =
        coalesce_loop L bufs (bufs cl.buf).file_fd limit (cl :: rest) 0 := rfl
    have hnn : ∀ c ∈ cl :: file_run_tail bufs (bufs cl.buf).file_fd
        ((bufs cl.buf).file_pos + file_size (bufs cl.buf)) rest, 0 ≤ file_size (bufs c.buf) := by
      intro c hc
      have hmem : c ∈ cl :: rest := by
        rcases List.mem_cons.mp hc with h1 | h1
        · rw [h1]; exact List.mem_cons_self _ _
        · exact List.mem_cons_of_mem _ (file_run_tail_subset bufs _ rest _ c h1)
      have := hrange c hmem
      simp only [file_size]
      omega
    rw [hrun, hfn]
    refine ⟨passed, e, i1, i2, by rw [i3]; omega, by omega, ?_, ?_⟩
    · rcases i5 with j | ⟨c, r, j1, j2, j3, j4, j5⟩
      · exact Or.inl j
      · exact Or.inr ⟨c, r, j1, j2, by omega, by omega, j5⟩
    · intro hlt
      obtain ⟨k1, k2⟩ := i6 hnn (by omega)
      refine ⟨k1, by rw [i3, k1, k2]; omega, ?_⟩
      have hlen : passed.length = (cl :: file_run_tail bufs (bufs cl.buf).file_fd
          ((bufs cl.buf).file_pos + file_size (bufs cl.buf)) rest).length := by rw [k1]
      rw [← hlen]
      have hdrop := congrArg (List.drop passed.length) i1
      rw [List.drop_left] at hdrop
      exact hdrop.symm

/-- C26 witness: two contiguous buffers of the file 3 with 10000 and 2000 bytes and
`limit = 20000`: both links are passed, the total is 12000 and `*in` ends on null. -/
theorem coalesce_file_advance_witness :
    file_run bufs_file_two [{ addr := 10, buf := 100 }, { addr := 20, buf := 200 }] =
        [{ addr := 10, buf := 100 }, { addr := 20, buf := 200 }] ∧
      (ngx_chain_coalesce_file lp64 bufs_file_two
        [{ addr := 10, buf := 100 }, { addr := 20, buf := 200 }] 20000).1 =
        chain_file_size bufs_file_two
          (file_run bufs_file_two [{ addr := 10, buf := 100 }, { addr := 20, buf := 200 }]) ∧
      (ngx_chain_coalesce_file lp64 bufs_file_two
        [{ addr := 10, buf := 100 }, { addr := 20, buf := 200 }] 20000).2 =
        List.drop (file_run bufs_file_two
          [{ addr := 10, buf := 100 }, { addr := 20, buf := 200 }]).length
          [{ addr := 10, buf := 100 }, { addr := 20, buf := 200 }] ∧
      ngx_chain_coalesce_file lp64 bufs_file_two
        [{ addr := 10, buf := 100 }, { addr := 20, buf := 200 }] 20000 = (12000, []) := by
  obtain ⟨passed, e, _, _, _, _, _, h⟩ := coalesce_file_advance lp64 bufs_file_two
    [{ addr := 10, buf := 100 }, { addr := 20, buf := 200 }] 20000 (by decide) (by decide)
    (by decide) (by decide) (by decide)
  have h1 := h (by decide)
  exact ⟨by decide, h1.2.1, h1.2.2, by decide⟩

/-! ## C24: the invariant of `current` -/

theorem palloc_block_loop_failed_mem :
    ∀ (bs : List ngx_pool_data_t) (i cur f : Nat),
      f ∈ (palloc_block_loop i cur bs).1.map (fun b => b.failed) →
      ∃ f0 ∈ bs.map (fun b => b.failed), f0 ≤ f ∧ f ≤ f0 + 1 := by
  intro bs
  induction bs with
  | nil => intro i cur f h; simp [palloc_block_loop] at h
  | cons b bs ih =>
    intro i cur f h
    cases bs with
    | nil =>
      simp only [palloc_block_loop, List.map_cons, List.map_nil, List.mem_singleton] at h
      exact ⟨b.failed, by simp, by omega, by omega⟩
    | cons b2 bs =>
      simp only [palloc_block_loop, List.map_cons, List.mem_cons] at h
      rcases h with h | h
      · exact ⟨b.failed, by simp, by omega, by omega⟩
      · obtain ⟨f0, hf0, h1, h2⟩ := ih (i + 1) _ f (by simpa using h)
        exact ⟨f0, List.mem_cons_of_mem _ hf0, h1, h2⟩

theorem palloc_block_loop_sorted :
    ∀ (bs : List ngx_pool_data_t) (i cur : Nat),
      (bs.map (fun b => b.failed)).Pairwise (fun a b => b ≤ a) →
      ((palloc_block_loop i cur bs).1.map (fun b => b.failed)).Pairwise (fun a b => b ≤ a) := by
  intro bs
  induction bs with
  | nil => intro i cur _; simp [palloc_block_loop]
  | cons b bs ih =>
    intro i cur h
    cases bs with
    | nil => simp [palloc_block_loop]
    | cons b2 bs =>
      simp only [List.map_cons, List.pairwise_cons] at h
      simp only [palloc_block_loop, List.map_cons, List.pairwise_cons]
      constructor
      · intro f hf
        obtain ⟨f0, hf0, _, h2⟩ := palloc_block_loop_failed_mem (b2 :: bs) (i + 1) _ f hf
        have := h.1 f0 (by simpa using hf0)
        omega
      · exact ih (i + 1) _ (by simpa using h.2)

theorem palloc_block_loop_low :
    ∀ (bs : List ngx_pool_data_t) (i cur : Nat), (∀ b ∈ bs, b.failed ≤ 4) →
      (palloc_block_loop i cur bs).2 = cur ∧
        ∀ f ∈ (palloc_block_loop i cur bs).1.map (fun b => b.failed), f ≤ 5 := by
  intro bs i cur h
  constructor
  · apply palloc_block_loop_keep
    intro j b _ hb
    exact h b (List.getElem?_mem hb)
  · intro f hf
    obtain ⟨f0, hf0, _, h2⟩ := palloc_block_loop_failed_mem bs i cur f hf
    obtain ⟨b0, hb0, rfl⟩ := List.mem_map.mp hf0
    have := h b0 hb0
    omega

theorem palloc_block_loop_inv :
    ∀ (bs : List ngx_pool_data_t) (i : Nat), bs ≠ [] →
      (bs.map (fun b => b.failed)).Pairwise (fun a b => b ≤ a) →
      (∀ b ∈ bs, b.failed ≤ 5) →
      i ≤ (palloc_block_loop i i bs).2 ∧ (palloc_block_loop i i bs).2 < i + bs.length ∧
        (∀ j f, ((palloc_block_loop i i bs).1.map (fun b => b.failed))[j]? = some f →
          (i + j < (palloc_block_loop i i bs).2 → 5 ≤ f) ∧
          ((palloc_block_loop i i bs).2 ≤ i + j → f ≤ 5)) ∧
        (((palloc_block_loop i i bs).1.map (fun b => b.failed)).drop
          ((palloc_block_loop i i bs).2 - i)).Pairwise (fun a b => b ≤ a) := by
  intro bs
  induction bs with
  | nil => intro i h; exact absurd rfl h
  | cons b bs ih =>
    intro i _ hsort hle
    cases bs with
    | nil =>
      have hb := hle b (List.mem_cons_self _ _)
      refine ⟨Nat.le_refl _, by simp [palloc_block_loop], ?_, ?_⟩
      · intro j f hj
        cases j with
        | zero =>
          simp only [palloc_block_loop, List.map_cons, List.getElem?_cons_zero,
            Option.some.injEq] at hj
          subst hj
          exact ⟨fun h => absurd h (by simp [palloc_block_loop]), fun _ => hb⟩
        | succ j => simp [palloc_block_loop] at hj
      · simp [palloc_block_loop]
    | cons b2 bs =>
      by_cases hf : b.failed > 4
      · obtain ⟨i1, i2, i3, i4⟩ := ih (i + 1) (by simp)
          (by simp only [List.map_cons, List.pairwise_cons] at hsort; simpa using hsort.2)
          (fun x hx => hle x (List.mem_cons_of_mem _ hx))
        have hres : palloc_block_loop i i (b :: b2 :: bs) =
            ({ b with failed := b.failed + 1 } :: (palloc_block_loop (i + 1) (i + 1) (b2 :: bs)).1,
              (palloc_block_loop (i + 1) (i + 1) (b2 :: bs)).2) := by
          simp only [palloc_block_loop, if_pos hf]
        rw [hres]
        simp only [List.map_cons, List.length_cons] at i2 ⊢
        refine ⟨by omega, by omega, ?_, ?_⟩
        · intro j f hj
          cases j with
          | zero =>
            simp only [List.getElem?_cons_zero, Option.some.injEq] at hj
            subst hj
            exact ⟨fun _ => by omega, fun h => by omega⟩
          | succ j =>
            simp only [List.getElem?_cons_succ] at hj
            obtain ⟨k1, k2⟩ := i3 j f hj
            exact ⟨fun h => k1 (by omega), fun h => k2 (by omega)⟩
        · obtain ⟨k, hk⟩ : ∃ k, (palloc_block_loop (i + 1) (i + 1) (b2 :: bs)).2 - i = k + 1 :=
            ⟨(palloc_block_loop (i + 1) (i + 1) (b2 :: bs)).2 - i - 1, by omega⟩
          rw [hk, List.drop_succ_cons]
          have : k = (palloc_block_loop (i + 1) (i + 1) (b2 :: bs)).2 - (i + 1) := by omega
          rw [this]
          exact i4
      · have hall : ∀ x ∈ b :: b2 :: bs, x.failed ≤ 4 := by
          intro x hx
          rcases List.mem_cons.mp hx with e | e
          · rw [e]; omega
          · simp only [List.map_cons, List.pairwise_cons] at hsort
            have := hsort.1 x.failed (by
              have := List.mem_map_of_mem (fun b => b.failed) e
              simpa using this)
            omega
        obtain ⟨l1, l2⟩ := palloc_block_loop_low (b :: b2 :: bs) i i hall
        have l3 := palloc_block_loop_sorted (b :: b2 :: bs) i i hsort
        rw [l1]
        refine ⟨Nat.le_refl _, by simp, ?_, ?_⟩
        · intro j f hj
          exact ⟨fun h => by omega, fun _ => l2 f (List.getElem?_mem hj)⟩
        · rw [Nat.sub_self, List.drop_zero]
          exact l3

theorem CurInv_congr (p p1 : ngx_pool_t)
    (hb : p1.blocks.map (fun b => b.failed) = p.blocks.map (fun b => b.failed))
    (hc : p1.current = p.current) (h : CurInv p) : CurInv p1 := by
  unfold CurInv at h ⊢
  rw [hb, hc]
  exact h

theorem ngx_palloc_block_curinv (L : Layout) (p : ngx_pool_t) (size : Nat) (o : Oracle)
    (h : CurInv p) : CurInv (ngx_palloc_block L p size o).2.1 := by
  obtain ⟨hcur, hidx, hsort⟩ := h
  rw [List.length_map] at hcur
  obtain ⟨d, ds, hd⟩ : ∃ d ds, p.blocks = d :: ds := by
    cases hb : p.blocks with
    | nil => rw [hb] at hcur; simp at hcur
    | cons d ds => exact ⟨d, ds, rfl⟩
  cases halloc : ngx_alloc o with
  | mk m o1 =>
    by_cases hm : m = 0
    · have hres : ngx_palloc_block L p size o = (0, p, o1) := by
        unfold ngx_palloc_block
        rw [hd, halloc]
        simp only
        rw [if_pos hm]
      rw [hres]
      exact ⟨by rw [List.length_map]; exact hcur, hidx, hsort⟩
    · rw [ngx_palloc_block_blocks L p size m o o1 d ds hd halloc hm]
      have hne : p.blocks.drop p.current ≠ [] := by
        intro e
        have := congrArg List.length e
        rw [List.length_drop] at this
        simp at this
        omega
      have hsort1 : ((p.blocks.drop p.current).map (fun b => b.failed)).Pairwise
          (fun a b => b ≤ a) := by
        rw [List.map_drop]; exact hsort
      have hle : ∀ b ∈ p.blocks.drop p.current, b.failed ≤ 5 := by
        intro b hb
        obtain ⟨j, hj⟩ := List.getElem?_of_mem hb
        rw [List.getElem?_drop] at hj
        exact (hidx (p.current + j) b.failed (by rw [List.getElem?_map, hj]; rfl)).2 (by omega)
      obtain ⟨i1, i2, i3, i4⟩ := palloc_block_loop_inv _ p.current hne hsort1 hle
      rw [List.length_drop] at i2
      have hlen1 : (p.blocks.take p.current).length = p.current := by
        rw [List.length_take]; omega
      have hlen2 : (palloc_block_loop p.current p.current
          (p.blocks.drop p.current)).1.length = p.blocks.length - p.current := by
        rw [palloc_block_loop_length, List.length_drop]
      unfold CurInv FailedInv
      simp only [List.map_append, List.map_cons, List.map_nil]
      generalize hr : palloc_block_loop p.current p.current (p.blocks.drop p.current) = r
        at i1 i2 i3 i4 hlen2
      have hlenT : ((p.blocks.take p.current).map (fun b => b.failed)).length = p.current := by
        rw [List.length_map]; exact hlen1
      have hlenR : (r.1.map (fun b => b.failed)).length = p.blocks.length - p.current := by
        rw [List.length_map]; exact hlen2
      refine ⟨?_, ?_, ?_⟩
      · simp only [List.length_append, List.length_cons, List.length_nil, hlenT, hlenR]
        omega
      · intro i f hi
        by_cases hic : i < p.current
        · rw [List.append_assoc, List.getElem?_append_left (by rw [hlenT]; exact hic)] at hi
          have hi2 : (p.blocks.map (fun b => b.failed))[i]? = some f := by
            rw [← hi, List.getElem?_map, List.getElem?_map, List.getElem?_take_of_lt hic]
          exact ⟨fun _ => (hidx i f hi2).1 hic, fun h => by omega⟩
        · by_cases hil : i < p.blocks.length
          · rw [List.getElem?_append_left (by
              simp only [List.length_append, hlenT, hlenR]; omega),
              List.getElem?_append_right (by rw [hlenT]; omega), hlenT] at hi
            obtain ⟨k1, k2⟩ := i3 (i - p.current) f hi
            exact ⟨fun h => k1 (by omega), fun h => k2 (by omega)⟩
          · rw [List.getElem?_append_right (by
              simp only [List.length_append, hlenT, hlenR]; omega)] at hi
            simp only [List.length_append, hlenT, hlenR] at hi
            have hf0 : f = 0 := by
              rcases hidx0 : i - (p.current + (p.blocks.length - p.current)) with _ | k
              · rw [hidx0] at hi
                simp only [List.getElem?_cons_zero, Option.some.injEq] at hi
                exact hi.symm
              · rw [hidx0] at hi
                simp at hi
            exact ⟨fun h => by omega, fun _ => by omega⟩
      · have hdrop : List.drop r.2 ((p.blocks.take p.current).map (fun b => b.failed) ++
            r.1.map (fun b => b.failed) ++ [0]) =
            List.drop (r.2 - p.current) (r.1.map (fun b => b.failed)) ++ [0] := by
          rw [List.append_assoc, List.drop_append_eq_append_drop, hlenT,
            List.drop_eq_nil_of_le (by rw [hlenT]; exact i1), List.nil_append,
            List.drop_append_eq_append_drop, hlenR]
          have : r.2 - p.current - (p.blocks.length - p.current) = 0 := by omega
          rw [this, List.drop_zero]
        rw [hdrop, List.pairwise_append]
        refine ⟨i4, List.pairwise_singleton _ _, ?_⟩
        intro a _ b hb
        rw [List.mem_singleton.mp hb]
        exact Nat.zero_le _

theorem ngx_palloc_small_curinv (L : Layout) (p : ngx_pool_t) (size : Nat) (al : Bool)
    (o : Oracle) (h : CurInv p) : CurInv (ngx_palloc_small L p size al o).2.1 := by
  unfold ngx_palloc_small
  cases hloop : palloc_small_loop L size al (List.drop p.current p.blocks) with
  | none => exact ngx_palloc_block_curinv L p size o h
  | some v =>
    obtain ⟨r, bs1⟩ := v
    obtain ⟨pre, b, post, h1, h2, _, _⟩ := palloc_small_loop_some L size al _ _ _ hloop
    refine CurInv_congr p _ ?_ rfl h
    show (List.take p.current p.blocks ++ bs1).map (fun b => b.failed) = _
    have : p.blocks = List.take p.current p.blocks ++ (pre ++ b :: post) := by
      rw [← h1, List.take_append_drop]
    rw [h2]
    conv_rhs => rw [this]
    simp

theorem ngx_palloc_large_curinv (L : Layout) (p : ngx_pool_t) (size : Nat) (o : Oracle)
    (h : CurInv p) : CurInv (ngx_palloc_large L p size o).2.1 := by
  unfold ngx_palloc_large
  cases halloc : ngx_alloc o with
  | mk a o1 =>
    simp only
    by_cases ha : a = 0
    · rw [if_pos ha]; exact h
    · rw [if_neg ha]
      cases hscan : palloc_large_scan a 0 p.large with
      | some ls => exact CurInv_congr p _ rfl rfl h
      | none =>
        have hs := ngx_palloc_small_curinv L p L.sizeof_large true o1 h
        cases hres : ngx_palloc_small L p L.sizeof_large true o1 with
        | mk large rest =>
          obtain ⟨pool1, o2⟩ := rest
          rw [hres] at hs
          simp only
          by_cases hl : large = 0
          · rw [if_pos hl]; exact hs
          · rw [if_neg hl]; exact CurInv_congr pool1 _ rfl rfl hs

theorem ngx_palloc_curinv (L : Layout) (p : ngx_pool_t) (size : Nat) (o : Oracle)
    (h : CurInv p) : CurInv (ngx_palloc L p size o).2.1 := by
  unfold ngx_palloc
  split
  · exact ngx_palloc_small_curinv L p size true o h
  · exact ngx_palloc_large_curinv L p size o h

theorem ngx_pnalloc_curinv (L : Layout) (p : ngx_pool_t) (size : Nat) (o : Oracle)
    (h : CurInv p) : CurInv (ngx_pnalloc L p size o).2.1 := by
  unfold ngx_pnalloc
  split
  · exact ngx_palloc_small_curinv L p size false o h
  · exact ngx_palloc_large_curinv L p size o h

theorem ngx_pmemalign_curinv (L : Layout) (p : ngx_pool_t) (size alignment : Nat) (o : Oracle)
    (h : CurInv p) : CurInv (ngx_pmemalign L p size alignment o).2.1 := by
  unfold ngx_pmemalign
  cases halloc : ngx_alloc o with
  | mk a o1 =>
    simp only
    by_cases ha : a = 0
    · rw [if_pos ha]; exact h
    · rw [if_neg ha]
      have hs := ngx_palloc_small_curinv L p L.sizeof_large true o1 h
      cases hres : ngx_palloc_small L p L.sizeof_large true o1 with
      | mk large rest =>
        obtain ⟨pool1, o2⟩ := rest
        rw [hres] at hs
        simp only
        by_cases hl : large = 0
        · rw [if_pos hl]; exact hs
        · rw [if_neg hl]; exact CurInv_congr pool1 _ rfl rfl hs

theorem ngx_pool_cleanup_add_curinv (L : Layout) (p : ngx_pool_t) (size : Nat) (o : Oracle)
    (h : CurInv p) : CurInv (ngx_pool_cleanup_add L p size o).2.1 := by
  unfold ngx_pool_cleanup_add
  have h1 := ngx_palloc_curinv L p L.sizeof_cleanup o h
  cases hres : ngx_palloc L p L.sizeof_cleanup o with
  | mk c rest =>
    obtain ⟨p1, o1⟩ := rest
    rw [hres] at h1
    simp only
    by_cases hc : c = 0
    · rw [if_pos hc]; exact h1
    · rw [if_neg hc]
      by_cases hsize : size ≠ 0
      · rw [if_pos hsize]
        have h2 := ngx_palloc_curinv L p1 size o1 h1
        cases hres2 : ngx_palloc L p1 size o1 with
        | mk data rest2 =>
          obtain ⟨p2, o2⟩ := rest2
          rw [hres2] at h2
          simp only
          by_cases hd : data = 0
          · rw [if_pos hd]; exact h2
          · rw [if_neg hd]; exact CurInv_congr p2 _ rfl rfl h2
      · rw [if_neg hsize]; exact CurInv_congr p1 _ rfl rfl h1

theorem ngx_reset_pool_curinv (L : Layout) (p : ngx_pool_t) (h : CurInv p) :
    CurInv (ngx_reset_pool L p).1 := by
  obtain ⟨hcur, _, _⟩ := h
  rw [List.length_map] at hcur
  have hmap : (ngx_reset_pool L p).1.blocks.map (fun b => b.failed) =
      List.replicate p.blocks.length 0 := by
    simp only [ngx_reset_pool, List.map_map]
    rw [List.eq_replicate_iff]
    refine ⟨by simp, ?_⟩
    intro f hf
    obtain ⟨b, _, rfl⟩ := List.mem_map.mp hf
    rfl
  unfold CurInv FailedInv
  rw [hmap]
  refine ⟨?_, ?_, ?_⟩
  · show 0 < (List.replicate p.blocks.length 0).length
    rw [List.length_replicate]; omega
  · intro i f hi
    have hf : f = 0 := List.eq_of_mem_replicate (List.getElem?_mem hi)
    exact ⟨fun _ => by
      have : (ngx_reset_pool L p).1.current = 0 := rfl
      omega, fun _ => by omega⟩
  · show (List.drop 0 (List.replicate p.blocks.length 0)).Pairwise (fun a b => b ≤ a)
    rw [List.drop_zero, List.pairwise_replicate]
    exact Or.inr (Nat.le_refl 0)

theorem ngx_create_pool_curinv (L : Layout) (S : Nat) (o o1 : Oracle) (p : ngx_pool_t)
    (hc : ngx_create_pool L S o = (some p, o1)) : CurInv p := by
  unfold ngx_create_pool at hc
  cases halloc : ngx_alloc o with
  | mk a o2 =>
    rw [halloc] at hc
    simp only at hc
    by_cases ha : a = 0
    · rw [if_pos ha] at hc; simp at hc
    · rw [if_neg ha] at hc
      simp only [Prod.mk.injEq, Option.some.injEq] at hc
      obtain ⟨rfl, rfl⟩ := hc
      refine ⟨by simp, ?_, by simp⟩
      intro i f hi
      cases i with
      | zero =>
        simp only [List.map_cons, List.getElem?_cons_zero, Option.some.injEq] at hi
        subst hi
        exact ⟨fun h => absurd h (Nat.lt_irrefl 0), fun _ => Nat.zero_le _⟩
      | succ i => simp at hi

theorem PoolOp_apply_curinv (L : Layout) (op : PoolOp) (st : ngx_pool_t × Oracle)
    (h : CurInv st.1) : CurInv (op.apply L st).1 := by
  obtain ⟨p, o⟩ := st
  cases op with
  | palloc size => exact ngx_palloc_curinv L p size o h
  | pnalloc size => exact ngx_pnalloc_curinv L p size o h
  | pcalloc size => exact ngx_palloc_curinv L p size o h
  | pmemalign size alignment => exact ngx_pmemalign_curinv L p size alignment o h
  | pfree x =>
    refine CurInv_congr p _ ?_ ?_ h
    · show (ngx_pfree p x).2.blocks.map _ = _
      rw [(ngx_pfree_blocks p x).1]
    · show (ngx_pfree p x).2.current = p.current
      unfold ngx_pfree
      cases pfree_loop x p.large <;> rfl
  | cleanup_add size => exact ngx_pool_cleanup_add_curinv L p size o h
  | reset_pool => exact ngx_reset_pool_curinv L p h

theorem run_ops_curinv (L : Layout) (ops : List PoolOp) :
    ∀ (st : ngx_pool_t × Oracle), CurInv st.1 → CurInv (run_ops L ops st).1 := by
  induction ops with
  | nil => intro st h; exact h
  | cons op ops ih =>
    intro st h
    exact ih (op.apply L st) (PoolOp_apply_curinv L op st h)

/-- C24: in every state reachable from `ngx_create_pool` by any sequence of
allocations (`ngx_palloc`, `ngx_pnalloc`, `ngx_pcalloc`, `ngx_pmemalign`), `ngx_pfree`,
`ngx_pool_cleanup_add` and `ngx_reset_pool` calls, `pool.current` is a block of the
chain of the pool and every block strictly before `pool.current` in the chain has
`failed >= 5`. -/
theorem current_pointer_invariant (L : Layout) (S : Nat) (o o1 : Oracle) (p : ngx_pool_t)
    (hr : Reachable L S o p o1) :
    p.current < p.blocks.length ∧
      ∀ i b, i < p.current → p.blocks[i]? = some b → 5 ≤ b.failed := by
  obtain ⟨p0, o0, ops, hc, hrun⟩ := hr
  have h0 := ngx_create_pool_curinv L S o o0 p0 hc
  have h1 := run_ops_curinv L ops (p0, o0) h0
  rw [hrun] at h1
  obtain ⟨hcur, hidx, _⟩ := h1
  rw [List.length_map] at hcur
  refine ⟨hcur, ?_⟩
  intro i b hi hb
  exact (hidx i b.failed (by rw [List.getElem?_map, hb]; rfl)).1 hi

/-- C24 witness: the pool created with size 1024 reaches, by eight `ngx_palloc(pool,
900)` that append seven blocks, a state with `current` at the second of eight blocks;
the head block before it has `failed = 6`. -/
theorem current_pointer_invariant_witness :
    Reachable lp64 1024 [1024, 4096, 8192, 12288, 16384, 20480, 24576, 28672]
        pool_eight_blocks [] ∧
      pool_eight_blocks.current = 1 ∧
      (pool_eight_blocks.current < pool_eight_blocks.blocks.length ∧
        ∀ i b, i < pool_eight_blocks.current → pool_eight_blocks.blocks[i]? = some b →
          5 ≤ b.failed) :=
  ⟨⟨pool_fresh, [4096, 8192, 12288, 16384, 20480, 24576, 28672],
      List.replicate 8 (PoolOp.palloc 900), by decide, by decide⟩,
    rfl,
    current_pointer_invariant lp64 1024 [1024, 4096, 8192, 12288, 16384, 20480, 24576, 28672] []
      pool_eight_blocks
      ⟨pool_fresh, [4096, 8192, 12288, 16384, 20480, 24576, 28672],
        List.replicate 8 (PoolOp.palloc 900), by decide, by decide⟩⟩

/-! ## Lemmas: the regions handed out by the pool -/

theorem Grows_refl (bs : List ngx_pool_data_t) : Grows bs bs :=
  fun _ b h => ⟨b, h, rfl, rfl, Nat.le_refl _⟩

theorem Grows_trans (a b c : List ngx_pool_data_t) (h1 : Grows a b) (h2 : Grows b c) :
    Grows a c := by
  intro i x hx
  obtain ⟨y, hy, e1, e2, e3⟩ := h1 i x hx
  obtain ⟨z, hz, f1, f2, f3⟩ := h2 i y hy
  exact ⟨z, hz, by rw [f1, e1], by rw [f2, e2], by omega⟩

theorem Grows_append_left (A X Y : List ngx_pool_data_t) (h : Grows X Y) :
    Grows (A ++ X) (A ++ Y) := by
  intro i b hb
  by_cases hi : i < A.length
  · rw [List.getElem?_append_left hi] at hb
    exact ⟨b, by rw [List.getElem?_append_left hi]; exact hb, rfl, rfl, Nat.le_refl _⟩
  · rw [List.getElem?_append_right (by omega)] at hb
    obtain ⟨b1, h1, h2⟩ := h _ b hb
    exact ⟨b1, by rw [List.getElem?_append_right (by omega)]; exact h1, h2⟩

theorem Grows_append_right (X Z : List ngx_pool_data_t) : Grows X (X ++ Z) := by
  intro i b hb
  have hi : i < X.length := by
    by_contra hge
    rw [List.getElem?_eq_none (by omega)] at hb
    cases hb
  exact ⟨b, by rw [List.getElem?_append_left hi]; exact hb, rfl, rfl, Nat.le_refl _⟩

theorem Grows_cons (b b1 : ngx_pool_data_t) (B : List ngx_pool_data_t) (h1 : b1.addr = b.addr)
    (h2 : b1.end_ = b.end_) (h3 : b.last ≤ b1.last) : Grows (b :: B) (b1 :: B) := by
  intro i x hx
  cases i with
  | zero =>
    simp only [List.getElem?_cons_zero, Option.some.injEq] at hx
    subst hx
    exact ⟨b1, List.getElem?_cons_zero, h1, h2, h3⟩
  | succ i =>
    simp only [List.getElem?_cons_succ] at hx
    exact ⟨x, by simpa using hx, rfl, rfl, Nat.le_refl _⟩

theorem palloc_block_loop_grows (bs : List ngx_pool_data_t) (i cur : Nat) :
    Grows bs (palloc_block_loop i cur bs).1 := by
  intro j b hb
  exact ⟨_, palloc_block_loop_get bs i cur j b hb, rfl, rfl, Nat.le_refl _⟩

theorem live_alloc (o o1 : Oracle) (a : Nat) (h : ngx_alloc o = (a, o1)) :
    (a ≠ 0 → live o = a :: live o1) ∧ (a = 0 → live o = live o1) := by
  cases o with
  | nil =>
    simp only [ngx_alloc, Prod.mk.injEq] at h
    obtain ⟨rfl, rfl⟩ := h
    exact ⟨fun h => absurd rfl h, fun _ => rfl⟩
  | cons x xs =>
    simp only [ngx_alloc, Prod.mk.injEq] at h
    obtain ⟨rfl, rfl⟩ := h
    constructor
    · intro hx; simp [live, hx]
    · intro hx; simp [live, hx]

theorem live_alloc_sub (o o1 : Oracle) (a : Nat) (h : ngx_alloc o = (a, o1)) :
    ∀ x ∈ live o1, x ∈ live o := by
  obtain ⟨h1, h2⟩ := live_alloc o o1 a h
  intro x hx
  by_cases ha : a = 0
  · rw [h2 ha]; exact hx
  · rw [h1 ha]; exact List.mem_cons_of_mem _ hx

theorem live_alloc_sublist (o o1 : Oracle) (a : Nat) (h : ngx_alloc o = (a, o1)) :
    (live o1).Sublist (live o) := by
  obtain ⟨h1, h2⟩ := live_alloc o o1 a h
  by_cases ha : a = 0
  · rw [h2 ha]
  · rw [h1 ha]; exact List.sublist_cons_self _ _

theorem PoolStep_refl (p : ngx_pool_t) (o : Oracle) : PoolStep p o p o :=
  ⟨Grows_refl _, fun _ h => h, rfl⟩

theorem PoolStep_trans (p p1 p2 : ngx_pool_t) (o o1 o2 : Oracle) (h1 : PoolStep p o p1 o1)
    (h2 : PoolStep p1 o1 p2 o2) : PoolStep p o p2 o2 :=
  ⟨Grows_trans _ _ _ h1.1 h2.1, fun a ha => h1.2.1 a (h2.2.1 a ha), by rw [h2.2.2, h1.2.2]⟩

theorem PoolStep_congr (p p1 p2 : ngx_pool_t) (o o1 : Oracle) (hb : p2.blocks = p1.blocks)
    (hm : p2.max = p1.max) (h : PoolStep p o p1 o1) : PoolStep p o p2 o1 := by
  unfold PoolStep bases at h ⊢
  rw [hb, hm]
  exact h

theorem PoolOK_congr (L : Layout) (S D : Nat) (p p1 : ngx_pool_t) (o : Oracle)
    (hb : p1.blocks = p.blocks) (hm : p1.max = p.max) (h : PoolOK L S D p o) :
    PoolOK L S D p1 o := by
  obtain ⟨h1, h2, h3⟩ := h
  refine ⟨PoolInv_congr L S p p1 hb hm h1, h2, ?_⟩
  unfold bases at h3 ⊢
  rw [hb]
  exact h3

theorem alloc_drop_ok (L : Layout) (S D : Nat) (p : ngx_pool_t) (o o1 : Oracle) (a : Nat)
    (ha : ngx_alloc o = (a, o1)) (h : PoolOK L S D p o) :
    PoolOK L S D p o1 ∧ PoolStep p o p o1 := by
  obtain ⟨h1, h2, h3⟩ := h
  refine ⟨⟨h1, (ngx_alloc_ok L o o1 a ha h2).2, ?_⟩, Grows_refl _, ?_, rfl⟩
  · unfold AddrSep bases at h3 ⊢
    exact List.Pairwise.sublist
      (List.Sublist.append (List.Sublist.refl _) (live_alloc_sublist o o1 a ha)) h3
  · intro x hx
    unfold bases at hx ⊢
    rcases List.mem_append.mp hx with e | e
    · exact List.mem_append_left _ e
    · exact List.mem_append_right _ (live_alloc_sub o o1 a ha x e)

theorem palloc_block_loop_addr :
    ∀ (bs : List ngx_pool_data_t) (i cur : Nat),
      (palloc_block_loop i cur bs).1.map (fun b => b.addr) = bs.map (fun b => b.addr) := by
  intro bs
  induction bs with
  | nil => intro i cur; rfl
  | cons b bs ih =>
    intro i cur
    cases bs with
    | nil => rfl
    | cons b2 bs =>
      simp only [palloc_block_loop, List.map_cons]
      rw [ih (i + 1) _]
      rfl

theorem ngx_palloc_small_region (L : Layout) (hL : L.WF) (S D : Nat) (p : ngx_pool_t)
    (size : Nat) (al : Bool) (o : Oracle) (hok : PoolOK L S D p o)
    (hsz : ngx_align_ptr L.sizeof_pool_data L.NGX_ALIGNMENT + size ≤ S) :
    PoolOK L S D (ngx_palloc_small L p size al o).2.1 (ngx_palloc_small L p size al o).2.2 ∧
      PoolStep p o (ngx_palloc_small L p size al o).2.1 (ngx_palloc_small L p size al o).2.2 ∧
      ((ngx_palloc_small L p size al o).1 ≠ 0 →
        ∃ (j : Nat) (b1 : ngx_pool_data_t),
          (ngx_palloc_small L p size al o).2.1.blocks[j]? = some b1 ∧
          b1.addr ≤ (ngx_palloc_small L p size al o).1 ∧
          (ngx_palloc_small L p size al o).1 + size ≤ b1.last ∧
          ∀ b0, p.blocks[j]? = some b0 → b0.last ≤ (ngx_palloc_small L p size al o).1) := by
  obtain ⟨hinv, ho, hsep⟩ := hok
  have hpost := ngx_palloc_small_spec L hL S p size al o hinv ho hsz
  obtain ⟨q1, q2, q3, _⟩ := hpost
  have ha := hL.1
  refine ⟨⟨q1, q2, ?_⟩, ⟨?_, ?_, q3⟩, ?_⟩
  all_goals
    revert q1 q2 q3
    unfold ngx_palloc_small
    cases hloop : palloc_small_loop L size al (List.drop p.current p.blocks) with
    | some v =>
      obtain ⟨r, bs1⟩ := v
      obtain ⟨pre, b, post, h1, h2, h3, h4⟩ := palloc_small_loop_some L size al _ _ _ hloop
      have hsplit : p.blocks = List.take p.current p.blocks ++ (pre ++ b :: post) := by
        rw [← h1, List.take_append_drop]
      have hbOK : BlockOK L S b := hinv.2.2.2.1 b (by rw [hsplit]; simp)
      have hr1 : b.last ≤ r := by
        rw [h3]; split
        · exact le_ngx_align_ptr _ _ ha
        · exact Nat.le_refl _
      have hmap : (List.take p.current p.blocks ++ bs1).map (fun b => b.addr) =
          p.blocks.map (fun b => b.addr) := by
        rw [h2]
        conv_rhs => rw [hsplit]
        simp
      intro _ _ _
      first
      | (show AddrSep D (bases { p with blocks := List.take p.current p.blocks ++ bs1 } o)
         unfold bases
         rw [show ({ p with blocks := List.take p.current p.blocks ++ bs1 } : ngx_pool_t).blocks =
           List.take p.current p.blocks ++ bs1 from rfl, hmap]
         exact hsep)
      | (show Grows p.blocks (List.take p.current p.blocks ++ bs1)
         rw [h2]
         conv_lhs => rw [hsplit]
         exact Grows_append_left _ _ _ (Grows_append_left _ _ _
           (Grows_cons b _ post rfl rfl (by show b.last ≤ r + size; omega))))
      | (intro a haa
         unfold bases at haa ⊢
         rw [show ({ p with blocks := List.take p.current p.blocks ++ bs1 } : ngx_pool_t).blocks =
           List.take p.current p.blocks ++ bs1 from rfl, hmap] at haa
         exact haa)
      | (intro _
         obtain ⟨A, hA1, hA2⟩ : ∃ A, p.blocks = A ++ b :: post ∧
             List.take p.current p.blocks ++ bs1 = A ++ { b with last := r + size } :: post :=
           ⟨List.take p.current p.blocks ++ pre, by rw [List.append_assoc]; exact hsplit,
             by rw [h2, List.append_assoc]⟩
         refine ⟨A.length, { b with last := r + size }, ?_, ?_, Nat.le_refl _, ?_⟩
         · show (List.take p.current p.blocks ++ bs1)[_]? = some _
           rw [hA2, List.getElem?_append_right (Nat.le_refl _)]
           simp
         · show b.addr ≤ r
           have := hbOK.1
           omega
         · intro b0 hb0
           rw [hA1, List.getElem?_append_right (Nat.le_refl _)] at hb0
           simp only [Nat.sub_self, List.getElem?_cons_zero, Option.some.injEq] at hb0
           rw [← hb0]
           exact hr1)
    | none =>
      obtain ⟨_, _, _, _, d, ds, hd, _⟩ := hinv
      cases halloc : ngx_alloc o with
      | mk m o1 =>
        obtain ⟨l1, l2⟩ := live_alloc o o1 m halloc
        by_cases hm : m = 0
        · have hres : ngx_palloc_block L p size o = (0, p, o1) := by
            unfold ngx_palloc_block
            rw [hd, halloc]
            simp only
            rw [if_pos hm]
          simp only
          rw [hres]
          intro _ _ _
          first
          | (show AddrSep D (bases p o1)
             unfold bases at hsep ⊢
             rw [← l2 hm]; exact hsep)
          | exact Grows_refl _
          | (intro a haa
             unfold bases at haa ⊢
             rw [l2 hm]; exact haa)
          | (intro h; exact absurd rfl h)
        · simp only
          rw [ngx_palloc_block_blocks L p size m o o1 d ds hd halloc hm]
          have hmap : (List.take p.current p.blocks ++
              (palloc_block_loop p.current p.current (List.drop p.current p.blocks)).1 ++
              [ngx_pool_data_t.mk m
                (ngx_align_ptr (m + L.sizeof_pool_data) L.NGX_ALIGNMENT + size)
                (m + ptrdiff_to_size L d.end_ d.addr) 0]).map (fun b => b.addr) ++ live o1 =
              p.blocks.map (fun b => b.addr) ++ live o := by
            rw [l1 hm, List.map_append, List.map_append, palloc_block_loop_addr,
              ← List.map_append, List.take_append_drop]
            simp
          have hlen : (List.take p.current p.blocks ++
              (palloc_block_loop p.current p.current (List.drop p.current p.blocks)).1).length =
              p.blocks.length := by
            rw [List.length_append, palloc_block_loop_length, ← List.length_append,
              List.take_append_drop]
          intro _ _ _
          first
          | (show AddrSep D (_ ++ live o1)
             rw [hmap]; exact hsep)
          | (show Grows p.blocks (_ ++ _ ++ [_])
             refine Grows_trans _ _ _ ?_ (Grows_append_right _ _)
             conv_lhs => rw [← List.take_append_drop p.current p.blocks]
             exact Grows_append_left _ _ _ (palloc_block_loop_grows _ _ _))
          | (intro a haa
             have haa1 : a ∈ _ ++ live o1 := haa
             rw [hmap] at haa1
             exact haa1)
          | (intro _
             refine ⟨p.blocks.length, ngx_pool_data_t.mk m
                (ngx_align_ptr (m + L.sizeof_pool_data) L.NGX_ALIGNMENT + size)
                (m + ptrdiff_to_size L d.end_ d.addr) 0, ?_, ?_, Nat.le_refl _, ?_⟩
             · show (_ ++ _ ++ [_])[p.blocks.length]? = some _
               rw [List.getElem?_append_right (by rw [hlen]), hlen]
               simp
             · show m ≤ ngx_align_ptr (m + L.sizeof_pool_data) L.NGX_ALIGNMENT
               have := le_ngx_align_ptr (m + L.sizeof_pool_data) L.NGX_ALIGNMENT ha
               omega
             · intro b0 hb0
               rw [List.getElem?_eq_none (Nat.le_refl _)] at hb0
               cases hb0)

theorem RegionOK_step (D : Nat) (p p1 : ngx_pool_t) (o o1 : Oracle) (x : Nat × Nat)
    (hstep : PoolStep p o p1 o1) (h : RegionOK D p o x) : RegionOK D p1 o1 x := by
  rcases h with ⟨i, b, hb, h1, h2⟩ | ⟨h1, h2⟩
  · obtain ⟨b1, hb1, e1, _, e3⟩ := hstep.1 i b hb
    exact Or.inl ⟨i, b1, hb1, by rw [e1]; exact h1, by omega⟩
  · exact Or.inr ⟨h1, fun a ha => h2 a (hstep.2.1 a ha)⟩

theorem Ledger_step (D : Nat) (p p1 : ngx_pool_t) (o o1 : Oracle) (rs : List (Nat × Nat))
    (hstep : PoolStep p o p1 o1) (h : Ledger D p o rs) : Ledger D p1 o1 rs :=
  ⟨fun x hx => RegionOK_step D p p1 o o1 x hstep (h.1 x hx), h.2⟩

theorem Ledger_add (D : Nat) (p : ngx_pool_t) (o : Oracle) (rs : List (Nat × Nat))
    (x : Nat × Nat) (h : Ledger D p o rs) (hx : RegionOK D p o x)
    (hd : ∀ y ∈ rs, region_disjoint y x) : Ledger D p o (rs ++ [x]) := by
  refine ⟨?_, ?_⟩
  · intro y hy
    rcases List.mem_append.mp hy with e | e
    · exact h.1 y e
    · rw [List.mem_singleton.mp e]; exact hx
  · rw [List.pairwise_append]
    refine ⟨h.2, List.pairwise_singleton _ _, ?_⟩
    intro y hy z hz
    rw [List.mem_singleton.mp hz]
    exact hd y hy

theorem AddrSep_blocks (D : Nat) (bs : List ngx_pool_data_t) (rest : List Nat)
    (h : AddrSep D (bs.map (fun b => b.addr) ++ rest)) :
    ∀ (i j : Nat) (a b : ngx_pool_data_t), i ≠ j → bs[i]? = some a → bs[j]? = some b →
      a.addr + D ≤ b.addr ∨ b.addr + D ≤ a.addr := by
  have h1 : (bs.map (fun b => b.addr)).Pairwise (fun a b => a + D ≤ b ∨ b + D ≤ a) :=
    (List.pairwise_append.mp h).1
  rw [List.pairwise_map] at h1
  have key : ∀ (i j : Nat) (a b : ngx_pool_data_t), i < j → bs[i]? = some a →
      bs[j]? = some b → a.addr + D ≤ b.addr ∨ b.addr + D ≤ a.addr := by
    intro i j a b hij ha hb
    have hj : j < bs.length := by
      by_contra hge
      rw [List.getElem?_eq_none (by omega)] at hb
      cases hb
    have hi : i < bs.length := by omega
    have := List.pairwise_iff_getElem.mp h1 i j hi hj hij
    rw [List.getElem?_eq_getElem hi] at ha
    rw [List.getElem?_eq_getElem hj] at hb
    rw [Option.some.inj ha, Option.some.inj hb] at this
    exact this
  intro i j a b hij ha hb
  rcases Nat.lt_or_gt_of_ne hij with h2 | h2
  · exact key i j a b h2 ha hb
  · rcases key j i b a h2 hb ha with h3 | h3
    · exact Or.inr h3
    · exact Or.inl h3

theorem block_region_fresh (L : Layout) (S D : Nat) (p p1 : ngx_pool_t) (o o1 : Oracle)
    (hok : PoolOK L S D p o) (hok1 : PoolOK L S D p1 o1) (hstep : PoolStep p o p1 o1)
    (hSD : S ≤ D) (j : Nat) (b1 : ngx_pool_data_t) (r size : Nat)
    (hb1 : p1.blocks[j]? = some b1) (h1 : b1.addr ≤ r) (h2 : r + size ≤ b1.last)
    (h3 : ∀ b0, p.blocks[j]? = some b0 → b0.last ≤ r) (y : Nat × Nat)
    (hy : RegionOK D p o y) : region_disjoint y (r, size) := by
  have hB1 : BlockOK L S b1 := hok1.1.2.2.2.1 b1 (List.getElem?_mem hb1)
  obtain ⟨_, k2, k3, _⟩ := hB1
  rcases hy with ⟨i, b, hb, g1, g2⟩ | ⟨g1, g2⟩
  · by_cases hij : i = j
    · subst hij
      have := h3 b hb
      exact Or.inl (by show y.1 + y.2 ≤ r; omega)
    · obtain ⟨b2, hb2, e1, _, _⟩ := hstep.1 i b hb
      have hB : BlockOK L S b := hok.1.2.2.2.1 b (List.getElem?_mem hb)
      obtain ⟨_, m2, m3, _⟩ := hB
      have hsep := AddrSep_blocks D p1.blocks (live o1) hok1.2.2 i j b2 b1 hij hb2 hb1
      rw [e1] at hsep
      rcases hsep with hs | hs
      · exact Or.inl (by show y.1 + y.2 ≤ r; omega)
      · exact Or.inr (by show r + size ≤ y.1; omega)
  · have hmem : b1.addr ∈ bases p o := by
      apply hstep.2.1
      unfold bases
      exact List.mem_append_left _ (List.mem_map.mpr ⟨b1, List.getElem?_mem hb1, rfl⟩)
    rcases g2 b1.addr hmem with hs | hs
    · exact Or.inl (by show y.1 + y.2 ≤ r; omega)
    · exact Or.inr (by show r + size ≤ y.1; omega)

theorem large_region_fresh (L : Layout) (S D : Nat) (p : ngx_pool_t) (o o1 : Oracle) (a : Nat)
    (hok : PoolOK L S D p o) (hSD : S ≤ D) (ha : ngx_alloc o = (a, o1)) (ha0 : a ≠ 0)
    (size : Nat) (hsize : size ≤ D) :
    (∀ y, RegionOK D p o y → region_disjoint y (a, size)) ∧
      ∀ p2 o2, PoolStep p o1 p2 o2 → RegionOK D p2 o2 (a, size) := by
  have hlive := (live_alloc o o1 a ha).1 ha0
  have hsep : AddrSep D (p.blocks.map (fun b => b.addr) ++ a :: live o1) := by
    have := hok.2.2
    unfold bases at this
    rw [hlive] at this
    exact this
  have hsep2 := List.pairwise_append.mp hsep
  have hblocks : ∀ x ∈ p.blocks.map (fun b => b.addr), x + D ≤ a ∨ a + D ≤ x :=
    fun x hx => hsep2.2.2 x hx a (List.mem_cons_self _ _)
  have hlater : ∀ x ∈ live o1, a + D ≤ x ∨ x + D ≤ a :=
    (List.pairwise_cons.mp hsep2.2.1).1
  have hmemo : a ∈ bases p o := by
    unfold bases
    rw [hlive]
    exact List.mem_append_right _ (List.mem_cons_self _ _)
  constructor
  · intro y hy
    rcases hy with ⟨i, b, hb, g1, g2⟩ | ⟨g1, g2⟩
    · have hB : BlockOK L S b := hok.1.2.2.2.1 b (List.getElem?_mem hb)
      obtain ⟨_, m2, m3, _⟩ := hB
      rcases hblocks b.addr (List.mem_map.mpr ⟨b, List.getElem?_mem hb, rfl⟩) with hs | hs
      · exact Or.inl (by show y.1 + y.2 ≤ a; omega)
      · exact Or.inr (by show a + size ≤ y.1; omega)
    · rcases g2 a hmemo with hs | hs
      · exact Or.inl (by show y.1 + y.2 ≤ a; omega)
      · exact Or.inr (by show a + size ≤ y.1; omega)
  · intro p2 o2 hstep
    refine Or.inr ⟨hsize, ?_⟩
    intro x hx
    have hx1 := hstep.2.1 x hx
    unfold bases at hx1
    rcases List.mem_append.mp hx1 with e | e
    · rcases hblocks x e with hs | hs
      · exact Or.inr hs
      · exact Or.inl hs
    · exact hlater x e

theorem ngx_palloc_small_ledger (L : Layout) (hL : L.WF) (S D : Nat) (p : ngx_pool_t)
    (size : Nat) (al : Bool) (o : Oracle) (rs : List (Nat × Nat)) (hok : PoolOK L S D p o)
    (hSD : S ≤ D) (hsz : ngx_align_ptr L.sizeof_pool_data L.NGX_ALIGNMENT + size ≤ S)
    (hled : Ledger D p o rs) :
    PoolOK L S D (ngx_palloc_small L p size al o).2.1 (ngx_palloc_small L p size al o).2.2 ∧
      PoolStep p o (ngx_palloc_small L p size al o).2.1 (ngx_palloc_small L p size al o).2.2 ∧
      Ledger D (ngx_palloc_small L p size al o).2.1 (ngx_palloc_small L p size al o).2.2 rs ∧
      ((ngx_palloc_small L p size al o).1 ≠ 0 →
        Ledger D (ngx_palloc_small L p size al o).2.1 (ngx_palloc_small L p size al o).2.2
          (rs ++ [((ngx_palloc_small L p size al o).1, size)])) := by
  obtain ⟨h1, h2, h3⟩ := ngx_palloc_small_region L hL S D p size al o hok hsz
  have hled1 := Ledger_step D p _ o _ rs h2 hled
  refine ⟨h1, h2, hled1, ?_⟩
  intro hne
  obtain ⟨j, b1, hb1, g1, g2, g3⟩ := h3 hne
  refine Ledger_add D _ _ rs _ hled1 (Or.inl ⟨j, b1, hb1, g1, g2⟩) ?_
  intro y hy
  exact block_region_fresh L S D p _ o _ hok h1 h2 hSD j b1 _ size hb1 g1 g2 g3 y (hled.1 y hy)

theorem ngx_palloc_large_step (L : Layout) (hL : L.WF) (S D : Nat) (p : ngx_pool_t)
    (size : Nat) (o : Oracle) (hok : PoolOK L S D p o) :
    ∃ a o1, ngx_alloc o = (a, o1) ∧
      PoolOK L S D (ngx_palloc_large L p size o).2.1 (ngx_palloc_large L p size o).2.2 ∧
      PoolStep p o1 (ngx_palloc_large L p size o).2.1 (ngx_palloc_large L p size o).2.2 ∧
      ((ngx_palloc_large L p size o).1 ≠ 0 → (ngx_palloc_large L p size o).1 = a ∧ a ≠ 0) := by
  cases halloc : ngx_alloc o with
  | mk a o1 =>
    refine ⟨a, o1, rfl, ?_⟩
    obtain ⟨hok1, _⟩ := alloc_drop_ok L S D p o o1 a halloc hok
    unfold ngx_palloc_large
    rw [halloc]
    simp only
    by_cases ha : a = 0
    · rw [if_pos ha]
      exact ⟨hok1, PoolStep_refl p o1, fun h => absurd rfl h⟩
    · rw [if_neg ha]
      cases hscan : palloc_large_scan a 0 p.large with
      | some ls =>
        exact ⟨PoolOK_congr L S D p _ o1 rfl rfl hok1,
          PoolStep_congr p p _ o1 o1 rfl rfl (PoolStep_refl p o1), fun _ => ⟨rfl, ha⟩⟩
      | none =>
        obtain ⟨s1, s2, _⟩ := ngx_palloc_small_region L hL S D p L.sizeof_large true o1 hok1
          (large_record_fits L hL S p hok1.1)
        cases hres : ngx_palloc_small L p L.sizeof_large true o1 with
        | mk large rest =>
          obtain ⟨pool1, o2⟩ := rest
          rw [hres] at s1 s2
          simp only
          by_cases hl : large = 0
          · rw [if_pos hl]
            exact ⟨s1, s2, fun h => absurd rfl h⟩
          · rw [if_neg hl]
            exact ⟨PoolOK_congr L S D pool1 _ o2 rfl rfl s1,
              PoolStep_congr p pool1 _ o1 o2 rfl rfl s2, fun _ => ⟨rfl, ha⟩⟩

theorem ngx_palloc_large_ledger (L : Layout) (hL : L.WF) (S D : Nat) (p : ngx_pool_t)
    (size : Nat) (o : Oracle) (rs : List (Nat × Nat)) (hok : PoolOK L S D p o) (hSD : S ≤ D)
    (hled : Ledger D p o rs) :
    PoolOK L S D (ngx_palloc_large L p size o).2.1 (ngx_palloc_large L p size o).2.2 ∧
      PoolStep p o (ngx_palloc_large L p size o).2.1 (ngx_palloc_large L p size o).2.2 ∧
      Ledger D (ngx_palloc_large L p size o).2.1 (ngx_palloc_large L p size o).2.2 rs ∧
      ((ngx_palloc_large L p size o).1 ≠ 0 → size ≤ D →
        Ledger D (ngx_palloc_large L p size o).2.1 (ngx_palloc_large L p size o).2.2
          (rs ++ [((ngx_palloc_large L p size o).1, size)])) := by
  obtain ⟨a, o1, ha, h1, h2, h3⟩ := ngx_palloc_large_step L hL S D p size o hok
  obtain ⟨_, hdrop⟩ := alloc_drop_ok L S D p o o1 a ha hok
  have hstep := PoolStep_trans p p _ o o1 _ hdrop h2
  have hled1 := Ledger_step D p _ o _ rs hstep hled
  refine ⟨h1, hstep, hled1, ?_⟩
  intro hne hsize
  obtain ⟨e, ha0⟩ := h3 hne
  rw [e]
  obtain ⟨f1, f2⟩ := large_region_fresh L S D p o o1 a hok hSD ha ha0 size hsize
  exact Ledger_add D _ _ rs _ hled1 (f2 _ _ h2) (fun y hy => f1 y (hled.1 y hy))

theorem ngx_palloc_ledger (L : Layout) (hL : L.WF) (S D : Nat) (p : ngx_pool_t)
    (size : Nat) (o : Oracle) (rs : List (Nat × Nat)) (hok : PoolOK L S D p o) (hSD : S ≤ D)
    (hled : Ledger D p o rs) :
    PoolOK L S D (ngx_palloc L p size o).2.1 (ngx_palloc L p size o).2.2 ∧
      PoolStep p o (ngx_palloc L p size o).2.1 (ngx_palloc L p size o).2.2 ∧
      Ledger D (ngx_palloc L p size o).2.1 (ngx_palloc L p size o).2.2 rs ∧
      ((ngx_palloc L p size o).1 ≠ 0 → size ≤ p.max ∨ size ≤ D →
        Ledger D (ngx_palloc L p size o).2.1 (ngx_palloc L p size o).2.2
          (rs ++ [((ngx_palloc L p size o).1, size)])) := by
  unfold ngx_palloc
  by_cases hs : size ≤ p.max
  · rw [if_pos hs]
    obtain ⟨h1, h2, h3, h4⟩ := ngx_palloc_small_ledger L hL S D p size true o rs hok hSD
      (small_request_fits L hL S p size hok.1 hs) hled
    exact ⟨h1, h2, h3, fun hne _ => h4 hne⟩
  · rw [if_neg hs]
    obtain ⟨h1, h2, h3, h4⟩ := ngx_palloc_large_ledger L hL S D p size o rs hok hSD hled
    exact ⟨h1, h2, h3, fun hne hor => h4 hne (by
      rcases hor with e | e
      · exact absurd e hs
      · exact e)⟩

theorem ngx_pnalloc_ledger (L : Layout) (hL : L.WF) (S D : Nat) (p : ngx_pool_t)
    (size : Nat) (o : Oracle) (rs : List (Nat × Nat)) (hok : PoolOK L S D p o) (hSD : S ≤ D)
    (hled : Ledger D p o rs) :
    PoolOK L S D (ngx_pnalloc L p size o).2.1 (ngx_pnalloc L p size o).2.2 ∧
      PoolStep p o (ngx_pnalloc L p size o).2.1 (ngx_pnalloc L p size o).2.2 ∧
      Ledger D (ngx_pnalloc L p size o).2.1 (ngx_pnalloc L p size o).2.2 rs ∧
      ((ngx_pnalloc L p size o).1 ≠ 0 → size ≤ p.max ∨ size ≤ D →
        Ledger D (ngx_pnalloc L p size o).2.1 (ngx_pnalloc L p size o).2.2
          (rs ++ [((ngx_pnalloc L p size o).1, size)])) := by
  unfold ngx_pnalloc
  by_cases hs : size ≤ p.max
  · rw [if_pos hs]
    obtain ⟨h1, h2, h3, h4⟩ := ngx_palloc_small_ledger L hL S D p size false o rs hok hSD
      (small_request_fits L hL S p size hok.1 hs) hled
    exact ⟨h1, h2, h3, fun hne _ => h4 hne⟩
  · rw [if_neg hs]
    obtain ⟨h1, h2, h3, h4⟩ := ngx_palloc_large_ledger L hL S D p size o rs hok hSD hled
    exact ⟨h1, h2, h3, fun hne hor => h4 hne (by
      rcases hor with e | e
      · exact absurd e hs
      · exact e)⟩

/-! ## C28: small allocations do not overlap -/

theorem ngx_pmemalign_step (L : Layout) (hL : L.WF) (S D : Nat) (p : ngx_pool_t)
    (size alignment : Nat) (o : Oracle) (hok : PoolOK L S D p o) :
    PoolOK L S D (ngx_pmemalign L p size alignment o).2.1
        (ngx_pmemalign L p size alignment o).2.2 ∧
      PoolStep p o (ngx_pmemalign L p size alignment o).2.1
        (ngx_pmemalign L p size alignment o).2.2 := by
  cases halloc : ngx_alloc o with
  | mk a o1 =>
    obtain ⟨hok1, hdrop⟩ := alloc_drop_ok L S D p o o1 a halloc hok
    unfold ngx_pmemalign
    rw [halloc]
    simp only
    by_cases ha : a = 0
    · rw [if_pos ha]
      exact ⟨hok1, hdrop⟩
    · rw [if_neg ha]
      obtain ⟨s1, s2, _⟩ := ngx_palloc_small_region L hL S D p L.sizeof_large true o1 hok1
        (large_record_fits L hL S p hok1.1)
      cases hres : ngx_palloc_small L p L.sizeof_large true o1 with
      | mk large rest =>
        obtain ⟨pool1, o2⟩ := rest
        rw [hres] at s1 s2
        simp only
        by_cases hl : large = 0
        · rw [if_pos hl]
          exact ⟨s1, PoolStep_trans p p pool1 o o1 o2 hdrop s2⟩
        · rw [if_neg hl]
          exact ⟨PoolOK_congr L S D pool1 _ o2 rfl rfl s1,
            PoolStep_congr p pool1 _ o o2 rfl rfl (PoolStep_trans p p pool1 o o1 o2 hdrop s2)⟩

theorem ngx_palloc_step (L : Layout) (hL : L.WF) (S D : Nat) (p : ngx_pool_t)
    (size : Nat) (o : Oracle) (hok : PoolOK L S D p o) (hSD : S ≤ D) :
    PoolOK L S D (ngx_palloc L p size o).2.1 (ngx_palloc L p size o).2.2 ∧
      PoolStep p o (ngx_palloc L p size o).2.1 (ngx_palloc L p size o).2.2 := by
  obtain ⟨h1, h2, _⟩ := ngx_palloc_ledger L hL S D p size o [] hok hSD
    ⟨fun _ h => absurd h (List.not_mem_nil _), List.Pairwise.nil⟩
  exact ⟨h1, h2⟩

theorem ngx_pool_cleanup_add_step (L : Layout) (hL : L.WF) (S D : Nat) (p : ngx_pool_t)
    (size : Nat) (o : Oracle) (hok : PoolOK L S D p o) (hSD : S ≤ D) :
    PoolOK L S D (ngx_pool_cleanup_add L p size o).2.1 (ngx_pool_cleanup_add L p size o).2.2 ∧
      PoolStep p o (ngx_pool_cleanup_add L p size o).2.1
        (ngx_pool_cleanup_add L p size o).2.2 := by
  unfold ngx_pool_cleanup_add
  obtain ⟨h1, h2⟩ := ngx_palloc_step L hL S D p L.sizeof_cleanup o hok hSD
  cases hres : ngx_palloc L p L.sizeof_cleanup o with
  | mk c rest =>
    obtain ⟨p1, o1⟩ := rest
    rw [hres] at h1 h2
    simp only
    by_cases hc : c = 0
    · rw [if_pos hc]; exact ⟨h1, h2⟩
    · rw [if_neg hc]
      by_cases hsize : size ≠ 0
      · rw [if_pos hsize]
        obtain ⟨g1, g2⟩ := ngx_palloc_step L hL S D p1 size o1 h1 hSD
        cases hres2 : ngx_palloc L p1 size o1 with
        | mk data rest2 =>
          obtain ⟨p2, o2⟩ := rest2
          rw [hres2] at g1 g2
          simp only
          have g3 := PoolStep_trans p p1 p2 o o1 o2 h2 g2
          by_cases hd : data = 0
          · rw [if_pos hd]; exact ⟨g1, g3⟩
          · rw [if_neg hd]
            exact ⟨PoolOK_congr L S D p2 _ o2 rfl rfl g1, PoolStep_congr p p2 _ o o2 rfl rfl g3⟩
      · rw [if_neg hsize]
        exact ⟨PoolOK_congr L S D p1 _ o1 rfl rfl h1, PoolStep_congr p p1 _ o o1 rfl rfl h2⟩

theorem PoolOp_apply_ledger (L : Layout) (hL : L.WF) (S D : Nat) (op : PoolOp)
    (st : ngx_pool_t × Oracle) (rs : List (Nat × Nat)) (hok : PoolOK L S D st.1 st.2)
    (hSD : S ≤ D) (hop : op ≠ PoolOp.reset_pool) (hled : Ledger D st.1 st.2 rs) :
    PoolOK L S D (op.apply L st).1 (op.apply L st).2 ∧
      PoolStep st.1 st.2 (op.apply L st).1 (op.apply L st).2 ∧
      Ledger D (op.apply L st).1 (op.apply L st).2 (rs ++ op_region L op st) := by
  obtain ⟨p, o⟩ := st
  cases op with
  | palloc size =>
    obtain ⟨h1, h2, h3, h4⟩ := ngx_palloc_ledger L hL S D p size o rs hok hSD hled
    refine ⟨h1, h2, ?_⟩
    show Ledger D _ _ (rs ++ if size ≤ p.max ∧ (ngx_palloc L p size o).1 ≠ 0 then _ else [])
    split
    · rename_i hc
      exact h4 hc.2 (Or.inl hc.1)
    · rw [List.append_nil]; exact h3
  | pnalloc size =>
    obtain ⟨h1, h2, h3, h4⟩ := ngx_pnalloc_ledger L hL S D p size o rs hok hSD hled
    refine ⟨h1, h2, ?_⟩
    show Ledger D _ _ (rs ++ if size ≤ p.max ∧ (ngx_pnalloc L p size o).1 ≠ 0 then _ else [])
    split
    · rename_i hc
      exact h4 hc.2 (Or.inl hc.1)
    · rw [List.append_nil]; exact h3
  | pcalloc size =>
    obtain ⟨h1, h2, h3, h4⟩ := ngx_palloc_ledger L hL S D p size o rs hok hSD hled
    refine ⟨h1, h2, ?_⟩
    show Ledger D _ _ (rs ++ if size ≤ p.max ∧ (ngx_palloc L p size o).1 ≠ 0 then _ else [])
    split
    · rename_i hc
      exact h4 hc.2 (Or.inl hc.1)
    · rw [List.append_nil]; exact h3
  | pmemalign size alignment =>
    obtain ⟨h1, h2⟩ := ngx_pmemalign_step L hL S D p size alignment o hok
    refine ⟨h1, h2, ?_⟩
    show Ledger D _ _ (rs ++ [])
    rw [List.append_nil]
    exact Ledger_step D p _ o _ rs h2 hled
  | pfree x =>
    have hb := ngx_pfree_blocks p x
    have h1 : PoolOK L S D (ngx_pfree p x).2 o := PoolOK_congr L S D p _ o hb.1 hb.2 hok
    have h2 : PoolStep p o (ngx_pfree p x).2 o :=
      PoolStep_congr p p _ o o hb.1 hb.2 (PoolStep_refl p o)
    refine ⟨h1, h2, ?_⟩
    show Ledger D _ _ (rs ++ [])
    rw [List.append_nil]
    exact Ledger_step D p _ o _ rs h2 hled
  | cleanup_add size =>
    obtain ⟨h1, h2⟩ := ngx_pool_cleanup_add_step L hL S D p size o hok hSD
    refine ⟨h1, h2, ?_⟩
    show Ledger D _ _ (rs ++ [])
    rw [List.append_nil]
    exact Ledger_step D p _ o _ rs h2 hled
  | reset_pool => exact absurd rfl hop

theorem small_regions_ledger (L : Layout) (hL : L.WF) (S D : Nat) (hSD : S ≤ D) :
    ∀ (ops : List PoolOp) (st : ngx_pool_t × Oracle) (rs : List (Nat × Nat)),
      PoolOK L S D st.1 st.2 → (∀ op ∈ ops, op ≠ PoolOp.reset_pool) → Ledger D st.1 st.2 rs →
      PoolOK L S D (run_ops L ops st).1 (run_ops L ops st).2 ∧
        PoolStep st.1 st.2 (run_ops L ops st).1 (run_ops L ops st).2 ∧
        Ledger D (run_ops L ops st).1 (run_ops L ops st).2 (rs ++ small_regions L ops st) := by
  intro ops
  induction ops with
  | nil =>
    intro st rs hok _ hled
    refine ⟨hok, PoolStep_refl _ _, ?_⟩
    show Ledger D _ _ (rs ++ [])
    rw [List.append_nil]; exact hled
  | cons op ops ih =>
    intro st rs hok hops hled
    obtain ⟨h1, h2, h3⟩ := PoolOp_apply_ledger L hL S D op st rs hok hSD
      (hops op (List.mem_cons_self _ _)) hled
    obtain ⟨g1, g2, g3⟩ := ih (op.apply L st) (rs ++ op_region L op st) h1
      (fun x hx => hops x (List.mem_cons_of_mem _ hx)) h3
    refine ⟨g1, PoolStep_trans _ _ _ _ _ _ h2 g2, ?_⟩
    show Ledger D _ _ (rs ++ (op_region L op st ++ small_regions L ops (op.apply L st)))
    rw [← List.append_assoc]
    exact g3

theorem ngx_palloc_small_grows (L : Layout) (hL : L.WF) (p : ngx_pool_t) (size : Nat)
    (al : Bool) (o : Oracle) : Grows p.blocks (ngx_palloc_small L p size al o).2.1.blocks := by
  have ha := hL.1
  unfold ngx_palloc_small
  cases hloop : palloc_small_loop L size al (List.drop p.current p.blocks) with
  | some v =>
    obtain ⟨r, bs1⟩ := v
    obtain ⟨pre, b, post, h1, h2, h3, _⟩ := palloc_small_loop_some L size al _ _ _ hloop
    have hsplit : p.blocks = List.take p.current p.blocks ++ (pre ++ b :: post) := by
      rw [← h1, List.take_append_drop]
    have hr1 : b.last ≤ r := by
      rw [h3]; split
      · exact le_ngx_align_ptr _ _ ha
      · exact Nat.le_refl _
    show Grows p.blocks (List.take p.current p.blocks ++ bs1)
    rw [h2]
    conv_lhs => rw [hsplit]
    exact Grows_append_left _ _ _ (Grows_append_left _ _ _
      (Grows_cons b _ post rfl rfl (by show b.last ≤ r + size; omega)))
  | none =>
    simp only
    cases hb : p.blocks with
    | nil =>
      have hres : ngx_palloc_block L p size o = (0, p, o) := by
        unfold ngx_palloc_block
        rw [hb]
      rw [hres]
      show Grows [] p.blocks
      intro i b h
      simp at h
    | cons d ds =>
      cases halloc : ngx_alloc o with
      | mk m o1 =>
        by_cases hm : m = 0
        · have hres : ngx_palloc_block L p size o = (0, p, o1) := by
            unfold ngx_palloc_block
            rw [hb, halloc]
            simp only
            rw [if_pos hm]
          rw [hres, ← hb]
          exact Grows_refl _
        · rw [ngx_palloc_block_blocks L p size m o o1 d ds hb halloc hm, ← hb]
          show Grows p.blocks (_ ++ _ ++ [_])
          refine Grows_trans _ _ _ ?_ (Grows_append_right _ _)
          conv_lhs => rw [← List.take_append_drop p.current p.blocks]
          exact Grows_append_left _ _ _ (palloc_block_loop_grows _ _ _)

theorem ngx_palloc_large_grows (L : Layout) (hL : L.WF) (p : ngx_pool_t) (size : Nat)
    (o : Oracle) : Grows p.blocks (ngx_palloc_large L p size o).2.1.blocks := by
  unfold ngx_palloc_large
  cases halloc : ngx_alloc o with
  | mk a o1 =>
    simp only
    by_cases ha : a = 0
    · rw [if_pos ha]; exact Grows_refl _
    · rw [if_neg ha]
      cases hscan : palloc_large_scan a 0 p.large with
      | some ls => exact Grows_refl _
      | none =>
        have hs := ngx_palloc_small_grows L hL p L.sizeof_large true o1
        cases hres : ngx_palloc_small L p L.sizeof_large true o1 with
        | mk large rest =>
          obtain ⟨pool1, o2⟩ := rest
          rw [hres] at hs
          simp only
          by_cases hl : large = 0
          · rw [if_pos hl]; exact hs
          · rw [if_neg hl]; exact hs

theorem PoolOK_create (L : Layout) (hL : L.WF) (S D : Nat) (o o1 : Oracle) (p : ngx_pool_t)
    (hS : S < L.size_max) (hsz : L.sizeof_pool ≤ S) (hal : L.NGX_ALIGNMENT ∣ S)
    (ho : OracleOK L o) (hsep : AddrSep D (live o))
    (hc : ngx_create_pool L S o = (some p, o1)) : PoolOK L S D p o1 := by
  have hpd : L.sizeof_pool_data ≤ L.sizeof_pool := by
    have h1 := hL.2
    have h2 := le_ngx_align_ptr L.sizeof_pool_data L.NGX_ALIGNMENT hL.1
    omega
  obtain ⟨h1, h2⟩ := ngx_create_pool_inv L S o o1 p hS hsz hal hpd ho hc
  refine ⟨h1, h2, ?_⟩
  unfold ngx_create_pool at hc
  cases halloc : ngx_alloc o with
  | mk a o2 =>
    rw [halloc] at hc
    simp only at hc
    by_cases ha : a = 0
    · rw [if_pos ha] at hc; simp at hc
    · rw [if_neg ha] at hc
      simp only [Prod.mk.injEq, Option.some.injEq] at hc
      obtain ⟨rfl, rfl⟩ := hc
      have hl := (live_alloc o o2 a halloc).1 ha
      unfold bases
      simp only [List.map_cons, List.map_nil, List.singleton_append]
      rw [← hl]
      exact hsep

theorem PoolOp_apply_ok (L : Layout) (hL : L.WF) (S D : Nat) (hSD : S ≤ D) (op : PoolOp)
    (st : ngx_pool_t × Oracle) (hok : PoolOK L S D st.1 st.2) :
    PoolOK L S D (op.apply L st).1 (op.apply L st).2 := by
  by_cases hop : op = PoolOp.reset_pool
  · subst hop
    obtain ⟨p, o⟩ := st
    obtain ⟨h1, h2, h3⟩ := hok
    refine ⟨ngx_reset_pool_inv L hL S p h1, h2, ?_⟩
    show AddrSep D (bases (ngx_reset_pool L p).1 o)
    unfold bases at h3 ⊢
    have : (ngx_reset_pool L p).1.blocks.map (fun b => b.addr) =
        p.blocks.map (fun b => b.addr) := by
      simp only [ngx_reset_pool, List.map_map]
      rfl
    rw [this]
    exact h3
  · exact (PoolOp_apply_ledger L hL S D op st [] hok hSD hop
      ⟨fun _ h => absurd h (List.not_mem_nil _), List.Pairwise.nil⟩).1

theorem run_ops_ok (L : Layout) (hL : L.WF) (S D : Nat) (hSD : S ≤ D) (ops : List PoolOp) :
    ∀ (st : ngx_pool_t × Oracle), PoolOK L S D st.1 st.2 →
      PoolOK L S D (run_ops L ops st).1 (run_ops L ops st).2 := by
  induction ops with
  | nil => intro st h; exact h
  | cons op ops ih =>
    intro st h
    exact ih (op.apply L st) (PoolOp_apply_ok L hL S D hSD op st h)

theorem op_region_payload (L : Layout) (hL : L.WF) (S D : Nat) (op : PoolOp)
    (st : ngx_pool_t × Oracle) (hok : PoolOK L S D st.1 st.2) (x : Nat × Nat)
    (hx : x ∈ op_region L op st) :
    ∃ (i : Nat) (b : ngx_pool_data_t), (op.apply L st).1.blocks[i]? = some b ∧
      header_end L i b ≤ x.1 ∧ x.1 + x.2 ≤ b.end_ := by
  obtain ⟨p, o⟩ := st
  have key : ∀ (al : Bool) (size : Nat), size ≤ p.max →
      (ngx_palloc_small L p size al o).1 ≠ 0 →
      ∃ (i : Nat) (b : ngx_pool_data_t),
        (ngx_palloc_small L p size al o).2.1.blocks[i]? = some b ∧
        header_end L i b ≤ (ngx_palloc_small L p size al o).1 ∧
        (ngx_palloc_small L p size al o).1 + size ≤ b.end_ := by
    intro al size hs hne
    exact (ngx_palloc_small_spec L hL S p size al o hok.1 hok.2.1
      (small_request_fits L hL S p size hok.1 hs)).2.2.2.2.2.2 hne
  cases op with
  | palloc size =>
    simp only [op_region] at hx
    split at hx
    · rename_i hc
      rw [List.mem_singleton.mp hx]
      have e : ngx_palloc L p size o = ngx_palloc_small L p size true o := by
        unfold ngx_palloc; rw [if_pos hc.1]
      show ∃ (i : Nat) (b : ngx_pool_data_t), (ngx_palloc L p size o).2.1.blocks[i]? = some b ∧ _
      rw [e]
      exact key true size hc.1 (by rw [← e]; exact hc.2)
    · simp at hx
  | pnalloc size =>
    simp only [op_region] at hx
    split at hx
    · rename_i hc
      rw [List.mem_singleton.mp hx]
      have e : ngx_pnalloc L p size o = ngx_palloc_small L p size false o := by
        unfold ngx_pnalloc; rw [if_pos hc.1]
      show ∃ (i : Nat) (b : ngx_pool_data_t), (ngx_pnalloc L p size o).2.1.blocks[i]? = some b ∧ _
      rw [e]
      exact key false size hc.1 (by rw [← e]; exact hc.2)
    · simp at hx
  | pcalloc size =>
    simp only [op_region] at hx
    split at hx
    · rename_i hc
      rw [List.mem_singleton.mp hx]
      have e : ngx_pcalloc L p size o = ngx_palloc_small L p size true o := by
        unfold ngx_pcalloc ngx_palloc; rw [if_pos hc.1]
      show ∃ (i : Nat) (b : ngx_pool_data_t), (ngx_pcalloc L p size o).2.1.blocks[i]? = some b ∧ _
      rw [e]
      exact key true size hc.1 (by rw [← e]; exact hc.2)
    · simp at hx
  | pmemalign size alignment => simp [op_region] at hx
  | pfree y => simp [op_region] at hx
  | cleanup_add size => simp [op_region] at hx
  | reset_pool => simp [op_region] at hx

theorem small_regions_payload (L : Layout) (hL : L.WF) (S D : Nat) (hSD : S ≤ D) :
    ∀ (ops : List PoolOp) (st : ngx_pool_t × Oracle), PoolOK L S D st.1 st.2 →
      (∀ op ∈ ops, op ≠ PoolOp.reset_pool) →
      ∀ x ∈ small_regions L ops st,
        ∃ (i : Nat) (b : ngx_pool_data_t), (run_ops L ops st).1.blocks[i]? = some b ∧
          header_end L i b ≤ x.1 ∧ x.1 + x.2 ≤ b.end_ := by
  intro ops
  induction ops with
  | nil => intro st _ _ x hx; simp [small_regions] at hx
  | cons op ops ih =>
    intro st hok hops x hx
    have hop := hops op (List.mem_cons_self _ _)
    have hops1 : ∀ y ∈ ops, y ≠ PoolOp.reset_pool := fun y hy => hops y (List.mem_cons_of_mem _ hy)
    obtain ⟨h1, _, _⟩ := PoolOp_apply_ledger L hL S D op st [] hok hSD hop
      ⟨fun _ h => absurd h (List.not_mem_nil _), List.Pairwise.nil⟩
    simp only [small_regions, List.mem_append] at hx
    rcases hx with hx | hx
    · obtain ⟨i, b, hb, g1, g2⟩ := op_region_payload L hL S D op st hok x hx
      obtain ⟨_, hstep, _⟩ := small_regions_ledger L hL S D hSD ops (op.apply L st) [] h1 hops1
        ⟨fun _ h => absurd h (List.not_mem_nil _), List.Pairwise.nil⟩
      obtain ⟨b1, hb1, e1, e2, _⟩ := hstep.1 i b hb
      refine ⟨i, b1, hb1, ?_, by rw [e2]; exact g2⟩
      unfold header_end at g1 ⊢
      rw [e1]; exact g1
    · exact ih (op.apply L st) h1 hops1 x hx

/-- C28: in a pool created with a size `S` that is a multiple of the alignment (`S` at
least the pool header), with a system allocator that answers with aligned addresses at
least `S` apart from one another, take any state reached from `ngx_create_pool` by
interface calls, `ngx_reset_pool` among them, and any calls after it that do not reset
the pool. The regions `[r, r + s)` that the `ngx_palloc`, `ngx_pnalloc` and
`ngx_pcalloc` calls with `s <= pool.max` among them hand out are pairwise disjoint, and
each lies entirely inside the payload of a single block, after the block header and
before the block end. No `ngx_palloc` or `ngx_pnalloc`, on any pool, removes a block or
lowers the cursor `last` of a block. -/
theorem small_allocs_disjoint (L : Layout) (hL : L.WF) (S : Nat) (o o1 : Oracle)
    (p : ngx_pool_t) (ops : List PoolOp) (hS : S < L.size_max) (hsz : L.sizeof_pool ≤ S)
    (hal : L.NGX_ALIGNMENT ∣ S) (ho : OracleOK L o) (hsep : AddrSep S (live o))
    (hr : Reachable L S o p o1) (hops : ∀ op ∈ ops, op ≠ PoolOp.reset_pool) :
    (small_regions L ops (p, o1)).Pairwise region_disjoint ∧
      (∀ x ∈ small_regions L ops (p, o1),
        ∃ (i : Nat) (b : ngx_pool_data_t), (run_ops L ops (p, o1)).1.blocks[i]? = some b ∧
          header_end L i b ≤ x.1 ∧ x.1 + x.2 ≤ b.end_) ∧
      ∀ (q : ngx_pool_t) (oq : Oracle) (size : Nat),
        Grows q.blocks (ngx_palloc L q size oq).2.1.blocks ∧
        Grows q.blocks (ngx_pnalloc L q size oq).2.1.blocks := by
  obtain ⟨p0, o0, ops0, hc, hrun⟩ := hr
  have hok0 := PoolOK_create L hL S S o o0 p0 hS hsz hal ho hsep hc
  have hok := run_ops_ok L hL S S (Nat.le_refl S) ops0 (p0, o0) hok0
  rw [hrun] at hok
  obtain ⟨_, _, hled⟩ := small_regions_ledger L hL S S (Nat.le_refl S) ops (p, o1) [] hok hops
    ⟨fun _ h => absurd h (List.not_mem_nil _), List.Pairwise.nil⟩
  refine ⟨by simpa using hled.2,
    small_regions_payload L hL S S (Nat.le_refl S) ops (p, o1) hok hops, ?_⟩
  intro q oq size
  constructor
  · unfold ngx_palloc
    split
    · exact ngx_palloc_small_grows L hL q size true oq
    · exact ngx_palloc_large_grows L hL q size oq
  · unfold ngx_pnalloc
    split
    · exact ngx_palloc_small_grows L hL q size false oq
    · exact ngx_palloc_large_grows L hL q size oq

/-- C28 witness: on the pool created with size 1024 at 1024, with the allocator
answering 4096 and 8192 next, the calls `ops_mixed` hand out five small regions, the
third from the appended block at 4096; they are pairwise disjoint. -/
theorem small_allocs_disjoint_witness :
    small_regions lp64 ops_mixed (pool_fresh, [4096, 8192]) =
        [(1104, 100), (1204, 7), (4128, 900), (1216, 8), (1240, 3)] ∧
      (small_regions lp64 ops_mixed (pool_fresh, [4096, 8192])).Pairwise region_disjoint :=
  ⟨by decide,
    (small_allocs_disjoint lp64 (by decide) 1024 [1024, 4096, 8192] [4096, 8192] pool_fresh
      ops_mixed (by decide) (by decide) (by decide) (by unfold OracleOK; decide) (by decide)
      ⟨pool_fresh, [4096, 8192], [], by decide, rfl⟩ (by decide)).1⟩

/-! ## C21: pushes to a list -/

theorem ngx_list_push_room (L : Layout) (l : ngx_list_t) (pool : ngx_pool_t) (o : Oracle)
    (init : List ngx_list_part_t) (last : ngx_list_part_t) (hp : l.parts = init ++ [last])
    (hroom : last.nelts ≠ l.nalloc) :
    ngx_list_push L l pool o =
      (last.elts + size_mul L l.size last.nelts,
        { l with parts := init ++ [{ last with nelts := last.nelts + 1 }] }, pool, o) := by
  unfold ngx_list_push
  rw [hp, List.getLast?_concat]
  simp only
  rw [if_neg hroom, List.dropLast_concat]

theorem ngx_list_push_full (L : Layout) (l : ngx_list_t) (pool : ngx_pool_t) (o : Oracle)
    (init : List ngx_list_part_t) (last : ngx_list_part_t) (hp : l.parts = init ++ [last])
    (hfull : last.nelts = l.nalloc) (part elts : Nat) (pool1 pool2 : ngx_pool_t)
    (o1 o2 : Oracle) (h1 : ngx_palloc L pool L.sizeof_list_part o = (part, pool1, o1))
    (h2 : ngx_palloc L pool1 (size_mul L l.nalloc l.size) o1 = (elts, pool2, o2)) :
    ngx_list_push L l pool o =
      (if part = 0 then (0, l, pool1, o1)
       else if elts = 0 then (0, l, pool2, o2)
       else (elts + size_mul L l.size 0,
          { l with parts := init ++ [last, { elts := elts, nelts := 1 }] }, pool2, o2)) := by
  unfold ngx_list_push
  rw [hp, List.getLast?_concat]
  simp only
  rw [if_pos hfull, h1]
  simp only
  by_cases hpz : part = 0
  · rw [if_pos hpz, if_pos hpz]
  · rw [if_neg hpz, if_neg hpz, h2]
    simp only
    by_cases hez : elts = 0
    · rw [if_pos hez, if_pos hez]
    · rw [if_neg hez, if_neg hez]
      simp

theorem list_slots_concat (size : Nat) (init : List ngx_list_part_t) (pt : ngx_list_part_t) :
    (init ++ [pt]).flatMap (part_slots size) = init.flatMap (part_slots size) ++
      part_slots size pt := by
  rw [List.flatMap_append]
  simp [List.flatMap]

theorem part_slots_succ (size : Nat) (pt : ngx_list_part_t) :
    part_slots size { pt with nelts := pt.nelts + 1 } =
      part_slots size pt ++ [pt.elts + pt.nelts * size] := by
  unfold part_slots
  simp [List.range_succ]

theorem part_regions_concat (n size : Nat) (init : List ngx_list_part_t) (pt : ngx_list_part_t) :
    part_regions n size (init ++ [pt]) = part_regions n size init ++ [(pt.elts, n * size)] := by
  simp [part_regions]

theorem ngx_list_push_inv (L : Layout) (hL : L.WF) (S D n size : Nat) (hSD : S ≤ D)
    (hn : 1 ≤ n) (hov : n * size < L.size_max) (hD : n * size ≤ D) (l : ngx_list_t)
    (pool : ngx_pool_t) (o : Oracle) (hok : PoolOK L S D pool o)
    (hinv : ListInv D n size l pool o) (e : Nat) (l1 : ngx_list_t) (p1 : ngx_pool_t)
    (o1 : Oracle) (hpush : ngx_list_push L l pool o = (e, l1, p1, o1)) (he : e ≠ 0) :
    PoolOK L S D p1 o1 ∧ ListInv D n size l1 p1 o1 ∧ list_slots l1 = list_slots l ++ [e] := by
  obtain ⟨hsize, hnalloc, hne, hle, hfullparts, htail, hled⟩ := hinv
  obtain ⟨init, last, hp⟩ : ∃ init last, l.parts = init ++ [last] :=
    ⟨l.parts.dropLast, l.parts.getLast hne, (List.dropLast_append_getLast hne).symm⟩
  have hlast_le : last.nelts ≤ n := hle last (by rw [hp]; simp)
  have hinit_full : ∀ pt ∈ init, pt.nelts = n := by
    intro pt hpt
    apply hfullparts
    rw [hp, List.dropLast_concat]
    exact hpt
  by_cases hfull : last.nelts = l.nalloc
  · cases h1 : ngx_palloc L pool L.sizeof_list_part o with
    | mk part rest1 =>
      obtain ⟨pool1, o1a⟩ := rest1
      cases h2 : ngx_palloc L pool1 (size_mul L l.nalloc l.size) o1a with
      | mk elts rest2 =>
        obtain ⟨pool2, o2⟩ := rest2
        rw [ngx_list_push_full L l pool o init last hp hfull part elts pool1 pool2 o1a o2 h1 h2]
          at hpush
        by_cases hpz : part = 0
        · rw [if_pos hpz] at hpush
          simp only [Prod.mk.injEq] at hpush
          exact absurd hpush.1.symm he
        · rw [if_neg hpz] at hpush
          by_cases hez : elts = 0
          · rw [if_pos hez] at hpush
            simp only [Prod.mk.injEq] at hpush
            exact absurd hpush.1.symm he
          · rw [if_neg hez] at hpush
            simp only [Prod.mk.injEq] at hpush
            obtain ⟨rfl, rfl, rfl, rfl⟩ := hpush
            have hmul : size_mul L l.nalloc l.size = n * size := by
              unfold size_mul
              rw [hnalloc, hsize, Nat.mod_eq_of_lt hov]
            have hzero : size_mul L l.size 0 = 0 := by
              unfold size_mul
              rw [Nat.mul_zero]
              exact Nat.zero_mod _
            obtain ⟨a1, a2, a3, _⟩ := ngx_palloc_ledger L hL S D pool L.sizeof_list_part o
              (part_regions n size l.parts) hok hSD hled
            rw [h1] at a1 a2 a3
            obtain ⟨b1, b2, _, b4⟩ := ngx_palloc_ledger L hL S D pool1
              (size_mul L l.nalloc l.size) o1a (part_regions n size l.parts) a1 hSD a3
            rw [h2] at b1 b2 b4
            have hled2 := b4 hez (Or.inr (by rw [hmul]; exact hD))
            rw [hmul] at hled2
            refine ⟨b1, ⟨hsize, hnalloc, by simp, ?_, ?_, ?_, ?_⟩, ?_⟩
            · intro pt hpt
              simp only [List.mem_append, List.mem_cons, List.mem_singleton,
                List.not_mem_nil, or_false] at hpt
              rcases hpt with hpt | hpt | hpt
              · exact hle pt (by rw [hp]; simp [hpt])
              · rw [hpt]; exact hlast_le
              · rw [hpt]; exact hn
            · intro pt hpt
              have e1 : init ++ [last, ({ elts := elts, nelts := 1 } : ngx_list_part_t)] =
                  (init ++ [last]) ++ [{ elts := elts, nelts := 1 }] := by simp
              rw [show ({ l with parts := init ++ [last, { elts := elts, nelts := 1 }] } :
                ngx_list_t).parts = init ++ [last, { elts := elts, nelts := 1 }] from rfl,
                e1, List.dropLast_concat] at hpt
              rcases List.mem_append.mp hpt with hpt | hpt
              · exact hinit_full pt hpt
              · rw [List.mem_singleton.mp hpt, hfull, hnalloc]
            · intro pt hpt
              have e1 : (init ++ [last, ({ elts := elts, nelts := 1 } : ngx_list_part_t)]).tail =
                  (init ++ [last]).tail ++ [{ elts := elts, nelts := 1 }] := by
                cases init <;> simp
              rw [show ({ l with parts := init ++ [last, { elts := elts, nelts := 1 }] } :
                ngx_list_t).parts = init ++ [last, { elts := elts, nelts := 1 }] from rfl,
                e1] at hpt
              rcases List.mem_append.mp hpt with hpt | hpt
              · exact htail pt (by rw [hp]; exact hpt)
              · rw [List.mem_singleton.mp hpt]
            · have e1 : init ++ [last, ({ elts := elts, nelts := 1 } : ngx_list_part_t)] =
                  l.parts ++ [{ elts := elts, nelts := 1 }] := by rw [hp]; simp
              show Ledger D pool2 o2 (part_regions n size (init ++ [last, _]))
              rw [e1, part_regions_concat]
              exact hled2
            · have e1 : init ++ [last, ({ elts := elts, nelts := 1 } : ngx_list_part_t)] =
                  l.parts ++ [{ elts := elts, nelts := 1 }] := by rw [hp]; simp
              show (init ++ [last, _]).flatMap (part_slots l.size) = _
              rw [e1, list_slots_concat, hzero]
              unfold list_slots part_slots
              simp [List.range_succ]
  · rw [ngx_list_push_room L l pool o init last hp hfull] at hpush
    simp only [Prod.mk.injEq] at hpush
    obtain ⟨rfl, rfl, rfl, rfl⟩ := hpush
    have hlt : last.nelts < n := by
      rw [hnalloc] at hfull
      omega
    have hmul : size_mul L l.size last.nelts = last.nelts * l.size := by
      unfold size_mul
      rw [Nat.mul_comm]
      apply Nat.mod_eq_of_lt
      have : last.nelts * l.size ≤ n * l.size := Nat.mul_le_mul_right _ hlast_le
      rw [hsize] at this ⊢
      omega
    refine ⟨hok, ⟨hsize, hnalloc, by simp, ?_, ?_, ?_, ?_⟩, ?_⟩
    · intro pt hpt
      simp only [List.mem_append, List.mem_singleton] at hpt
      rcases hpt with hpt | hpt
      · exact hle pt (by rw [hp]; simp [hpt])
      · rw [hpt]
        show last.nelts + 1 ≤ n
        omega
    · intro pt hpt
      rw [show ({ l with parts := init ++ [{ last with nelts := last.nelts + 1 }] } :
        ngx_list_t).parts = init ++ [{ last with nelts := last.nelts + 1 }] from rfl,
        List.dropLast_concat] at hpt
      exact hinit_full pt hpt
    · intro pt hpt
      rw [show ({ l with parts := init ++ [{ last with nelts := last.nelts + 1 }] } :
        ngx_list_t).parts = init ++ [{ last with nelts := last.nelts + 1 }] from rfl] at hpt
      cases init with
      | nil => simp at hpt
      | cons x xs =>
        simp only [List.cons_append, List.tail_cons, List.mem_append, List.mem_singleton] at hpt
        rcases hpt with hpt | hpt
        · exact htail pt (by rw [hp]; simp [hpt])
        · rw [hpt]
          show 1 ≤ last.nelts + 1
          omega
    · show Ledger D pool o (part_regions n size (init ++ [_]))
      rw [part_regions_concat]
      have : part_regions n size init ++ [(last.elts, n * size)] = part_regions n size l.parts := by
        rw [hp, part_regions_concat]
      rw [show ({ last with nelts := last.nelts + 1 } : ngx_list_part_t).elts = last.elts from rfl,
        this]
      exact hled
    · show (init ++ [_]).flatMap (part_slots l.size) = list_slots l ++ [_]
      rw [list_slots_concat, part_slots_succ, hmul]
      unfold list_slots
      rw [hp, list_slots_concat, List.append_assoc]

theorem list_push_all_inv (L : Layout) (hL : L.WF) (S D n size : Nat) (hSD : S ≤ D)
    (hn : 1 ≤ n) (hov : n * size < L.size_max) (hD : n * size ≤ D) :
    ∀ (k : Nat) (l : ngx_list_t) (pool : ngx_pool_t) (o : Oracle) (slots : List Nat)
      (l1 : ngx_list_t) (p1 : ngx_pool_t) (o1 : Oracle), PoolOK L S D pool o →
      ListInv D n size l pool o → list_push_all L k l pool o = some (slots, l1, p1, o1) →
      ListInv D n size l1 p1 o1 ∧ list_slots l1 = list_slots l ++ slots ∧ slots.length = k := by
  intro k
  induction k with
  | zero =>
    intro l pool o slots l1 p1 o1 _ hinv h
    simp only [list_push_all, Option.some.injEq, Prod.mk.injEq] at h
    obtain ⟨rfl, rfl, rfl, rfl⟩ := h
    exact ⟨hinv, by simp, rfl⟩
  | succ k ih =>
    intro l pool o slots l1 p1 o1 hok hinv h
    rw [list_push_all] at h
    cases hpush : ngx_list_push L l pool o with
    | mk e rest =>
      obtain ⟨l2, p2, o2⟩ := rest
      rw [hpush] at h
      simp only at h
      by_cases he : e = 0
      · rw [if_pos he] at h; cases h
      · rw [if_neg he] at h
        obtain ⟨g1, g2, g3⟩ := ngx_list_push_inv L hL S D n size hSD hn hov hD l pool o hok hinv
          e l2 p2 o2 hpush he
        cases hrec : list_push_all L k l2 p2 o2 with
        | none => rw [hrec] at h; cases h
        | some v =>
          obtain ⟨es, l3, p3, o3⟩ := v
          rw [hrec] at h
          simp only [Option.some.injEq, Prod.mk.injEq] at h
          obtain ⟨rfl, rfl, rfl, rfl⟩ := h
          obtain ⟨i1, i2, i3⟩ := ih l2 p2 o2 es l3 p3 o3 g1 g2 hrec
          refine ⟨i1, ?_, by simp [i3]⟩
          rw [i2, g3]
          simp

theorem part_slots_range (size n : Nat) (hs : 1 ≤ size) (pt : ngx_list_part_t)
    (hle : pt.nelts ≤ n) :
    ∀ x ∈ part_slots size pt, pt.elts ≤ x ∧ x < pt.elts + n * size := by
  intro x hx
  unfold part_slots at hx
  obtain ⟨i, hi, rfl⟩ := List.mem_map.mp hx
  rw [List.mem_range] at hi
  have h1 : (i + 1) * size ≤ n * size := Nat.mul_le_mul_right _ (by omega)
  have h2 : (i + 1) * size = i * size + size := Nat.succ_mul i size
  omega

theorem list_slots_nodup (D n size : Nat) (hs : 1 ≤ size) (l : ngx_list_t) (pool : ngx_pool_t)
    (o : Oracle) (hinv : ListInv D n size l pool o) : (list_slots l).Nodup := by
  obtain ⟨hsize, _, _, hle, _, _, hled⟩ := hinv
  unfold list_slots
  rw [hsize, List.nodup_flatMap]
  constructor
  · intro pt _
    unfold part_slots
    apply List.Nodup.map _ (List.nodup_range _)
    intro i j hij
    have h1 : i * size = j * size := by
      have : pt.elts + i * size = pt.elts + j * size := hij
      omega
    exact Nat.eq_of_mul_eq_mul_right (by omega) h1
  · have hpw := hled.2
    unfold part_regions at hpw
    rw [List.pairwise_map] at hpw
    refine List.Pairwise.imp_of_mem ?_ hpw
    intro a b ha hb hab
    show List.Disjoint (part_slots size a) (part_slots size b)
    intro x hxa hxb
    obtain ⟨a1, a2⟩ := part_slots_range size n hs a (hle a ha) x hxa
    obtain ⟨b1, b2⟩ := part_slots_range size n hs b (hle b hb) x hxb
    rcases hab with h | h
    · have : a.elts + n * size ≤ b.elts := h
      omega
    · have : b.elts + n * size ≤ a.elts := h
      omega

theorem list_iterate_spec (size : Nat) :
    ∀ (fuel : Nat) (part : ngx_list_part_t) (rest : List ngx_list_part_t) (i : Nat),
      i ≤ part.nelts → (∀ pt ∈ rest, 1 ≤ pt.nelts) →
      (part.nelts - i) + (rest.map (fun pt => pt.nelts)).sum < fuel →
      list_iterate size fuel part rest i =
        (List.range' i (part.nelts - i)).map (fun j => part.elts + j * size) ++
          rest.flatMap (part_slots size) := by
  intro fuel
  induction fuel with
  | zero => intro part rest i _ _ h; omega
  | succ fuel ih =>
    intro part rest i hi hrest hfuel
    have hstep : list_iterate size (fuel + 1) part rest i =
        if i ≥ part.nelts then
          match rest with
          | [] => []
          | part1 :: rest1 =>
            (part1.elts + 0 * size) :: list_iterate size fuel part1 rest1 (0 + 1)
        else (part.elts + i * size) :: list_iterate size fuel part rest (i + 1) := rfl
    rw [hstep]
    by_cases hge : i ≥ part.nelts
    · rw [if_pos hge]
      have hz : part.nelts - i = 0 := by omega
      rw [hz]
      cases rest with
      | nil => simp
      | cons p1 r1 =>
        have hp1 : 1 ≤ p1.nelts := hrest p1 (List.mem_cons_self _ _)
        simp only [List.map_cons, List.sum_cons] at hfuel
        simp only
        rw [ih p1 r1 (0 + 1) (by omega) (fun pt hpt => hrest pt (List.mem_cons_of_mem _ hpt))
          (by omega)]
        simp only [List.range'_zero, List.map_nil, List.nil_append, List.flatMap_cons]
        unfold part_slots
        obtain ⟨m, hm⟩ : ∃ m, p1.nelts = m + 1 := ⟨p1.nelts - 1, by omega⟩
        rw [hm, List.range_eq_range', List.range'_succ]
        simp
    · rw [if_neg hge]
      obtain ⟨m, hm⟩ : ∃ m, part.nelts - i = m + 1 := ⟨part.nelts - i - 1, by omega⟩
      rw [ih part rest (i + 1) (by omega) hrest (by omega), hm, List.range'_succ]
      have : part.nelts - (i + 1) = m := by omega
      rw [this]
      simp

theorem list_slots_length (size : Nat) :
    ∀ (parts : List ngx_list_part_t),
      (parts.flatMap (part_slots size)).length = (parts.map (fun pt => pt.nelts)).sum := by
  intro parts
  induction parts with
  | nil => rfl
  | cons pt parts ih =>
    simp only [List.flatMap_cons, List.length_append, List.map_cons, List.sum_cons, ih]
    simp [part_slots]

theorem ngx_list_iterate_spec (D n size : Nat) (l : ngx_list_t) (pool : ngx_pool_t)
    (o : Oracle) (hinv : ListInv D n size l pool o) (fuel : Nat)
    (hfuel : (list_slots l).length < fuel) : ngx_list_iterate fuel l = list_slots l := by
  obtain ⟨_, _, hne, _, _, htail, _⟩ := hinv
  unfold ngx_list_iterate list_slots at *
  cases hp : l.parts with
  | nil => exact absurd hp hne
  | cons part rest =>
    rw [hp] at htail hfuel
    simp only [List.tail_cons] at htail
    rw [list_slots_length] at hfuel
    simp only [List.map_cons, List.sum_cons] at hfuel
    simp only
    rw [list_iterate_spec l.size fuel part rest 0 (Nat.zero_le _) htail (by omega)]
    simp only [Nat.sub_zero, List.flatMap_cons]
    unfold part_slots
    rw [List.range_eq_range']

theorem ngx_list_init_inv (L : Layout) (hL : L.WF) (S D n size : Nat) (hSD : S ≤ D)
    (hov : n * size < L.size_max) (hD : n * size ≤ D) (pool : ngx_pool_t) (o : Oracle)
    (hok : PoolOK L S D pool o) (l : ngx_list_t) (p1 : ngx_pool_t) (o1 : Oracle)
    (h : ngx_list_init L pool n size o = (some l, p1, o1)) :
    PoolOK L S D p1 o1 ∧ ListInv D n size l p1 o1 ∧ list_slots l = [] := by
  unfold ngx_list_init at h
  have hmul : size_mul L n size = n * size := by
    unfold size_mul
    exact Nat.mod_eq_of_lt hov
  obtain ⟨a1, _, _, a4⟩ := ngx_palloc_ledger L hL S D pool (size_mul L n size) o [] hok hSD
    ⟨fun _ h => absurd h (List.not_mem_nil _), List.Pairwise.nil⟩
  cases hres : ngx_palloc L pool (size_mul L n size) o with
  | mk elts rest =>
    obtain ⟨pool1, o1a⟩ := rest
    rw [hres] at h a1 a4
    simp only at h
    by_cases hez : elts = 0
    · rw [if_pos hez] at h
      simp at h
    · rw [if_neg hez] at h
      simp only [Prod.mk.injEq, Option.some.injEq] at h
      obtain ⟨rfl, rfl, rfl⟩ := h
      have hled := a4 hez (Or.inr (by rw [hmul]; exact hD))
      rw [hmul] at hled
      refine ⟨a1, ⟨rfl, rfl, by simp, ?_, ?_, ?_, ?_⟩, ?_⟩
      · intro pt hpt
        simp only [List.mem_singleton] at hpt
        rw [hpt]
        exact Nat.zero_le _
      · intro pt hpt
        simp at hpt
      · intro pt hpt
        simp at hpt
      · exact hled
      · simp [list_slots, part_slots]

theorem ngx_list_create_inv (L : Layout) (hL : L.WF) (S D n size : Nat) (hSD : S ≤ D)
    (hov : n * size < L.size_max) (hD : n * size ≤ D) (pool : ngx_pool_t) (o : Oracle)
    (hok : PoolOK L S D pool o) (a : Nat) (l : ngx_list_t) (p1 : ngx_pool_t) (o1 : Oracle)
    (h : ngx_list_create L pool n size o = (some (a, l), p1, o1)) :
    PoolOK L S D p1 o1 ∧ ListInv D n size l p1 o1 ∧ list_slots l = [] := by
  unfold ngx_list_create at h
  obtain ⟨a1, _⟩ := ngx_palloc_step L hL S D pool L.sizeof_list o hok hSD
  cases hres : ngx_palloc L pool L.sizeof_list o with
  | mk list rest =>
    obtain ⟨pool1, o1a⟩ := rest
    rw [hres] at h a1
    simp only at h
    by_cases hz : list = 0
    · rw [if_pos hz] at h
      simp at h
    · rw [if_neg hz] at h
      cases hinit : ngx_list_init L pool1 n size o1a with
      | mk r rest2 =>
        obtain ⟨pool2, o2⟩ := rest2
        rw [hinit] at h
        cases r with
        | none => simp at h
        | some l0 =>
          simp only [Prod.mk.injEq, Option.some.injEq] at h
          obtain ⟨⟨_, rfl⟩, rfl, rfl⟩ := h
          exact ngx_list_init_inv L hL S D n size hSD hov hD pool1 o1a a1 l0 pool2 o2 hinit

/-- C21 (as stated) fails: a list made with per-part capacity 2 and element size 0
hands out the same slot twice: both pushes succeed and return 1104, so the slots
returned are not pairwise distinct. -/
theorem list_push_size_zero_repeats :
    ngx_list_init lp64 pool_fresh 2 0 [] = (some list_made_size0, pool_fresh, []) ∧
      list_push_all lp64 2 list_made_size0 pool_fresh [] =
        some ([1104, 1104], { list_made_size0 with parts := [{ elts := 1104, nelts := 2 }] },
          pool_fresh, []) ∧
      ¬ ([1104, 1104] : List Nat).Nodup := by
  decide

/-- C21 (amended): take a pool in a state reached from `ngx_create_pool` with an aligned
size `S`, the system allocator answering with aligned addresses at least `D >= S` bytes
apart, and a list made on it by `ngx_list_init` or `ngx_list_create` with per-part
capacity `n >= 1` and element size `size >= 1`, a part of `n * size` bytes fitting
`size_t` and `D`. If `k` successive `ngx_list_push` calls succeed, the `k` slots
returned are pairwise distinct, and the iteration documented in `ngx_list.h` (with
fuel for more than `k` passes), which is the nested iteration over the parts in `next`
order and the indices below `nelts` in each part, visits exactly these slots in push
order. For every list with last part `last`, a push that succeeds either finds
`last` not full, returns its slot at index `nelts` and increments `nelts`, or finds
`last` full, appends a new part that becomes the last one and returns its slot at
index 0, the count of the new part becoming 1. -/
theorem list_push_slots (L : Layout) (hL : L.WF) (S D n size k : Nat) (o oc o0 o1 : Oracle)
    (pool pool0 pool1 : ngx_pool_t) (l0 l1 : ngx_list_t) (slots : List Nat)
    (hS : S < L.size_max) (hsz : L.sizeof_pool ≤ S) (hal : L.NGX_ALIGNMENT ∣ S)
    (ho : OracleOK L o) (hSD : S ≤ D) (hsep : AddrSep D (live o))
    (hr : Reachable L S o pool oc) (hn : 1 ≤ n) (hs : 1 ≤ size)
    (hov : n * size < L.size_max) (hD : n * size ≤ D)
    (hmade : ngx_list_init L pool n size oc = (some l0, pool0, o0) ∨
      ∃ a, ngx_list_create L pool n size oc = (some (a, l0), pool0, o0))
    (hpush : list_push_all L k l0 pool0 o0 = some (slots, l1, pool1, o1)) :
    slots.length = k ∧ slots.Nodup ∧ (∀ fuel, k < fuel → ngx_list_iterate fuel l1 = slots) ∧
      list_slots l1 = slots ∧
      ∀ (l : ngx_list_t) (p : ngx_pool_t) (oo : Oracle) (init : List ngx_list_part_t)
        (last : ngx_list_part_t), l.parts = init ++ [last] →
        (ngx_list_push L l p oo).1 ≠ 0 →
        (last.nelts ≠ l.nalloc →
          (ngx_list_push L l p oo).1 = last.elts + size_mul L l.size last.nelts ∧
          (ngx_list_push L l p oo).2.1.parts =
            init ++ [{ last with nelts := last.nelts + 1 }]) ∧
        (last.nelts = l.nalloc →
          ∃ elts, (ngx_list_push L l p oo).1 = elts + size_mul L l.size 0 ∧
            (ngx_list_push L l p oo).2.1.parts = init ++ [last, { elts := elts, nelts := 1 }]) := by
  obtain ⟨p0, oa, ops0, hc, hrun⟩ := hr
  have hok0 := PoolOK_create L hL S D o oa p0 hS hsz hal ho hsep hc
  have hok := run_ops_ok L hL S D hSD ops0 (p0, oa) hok0
  rw [hrun] at hok
  have hstart : PoolOK L S D pool0 o0 ∧ ListInv D n size l0 pool0 o0 ∧ list_slots l0 = [] := by
    rcases hmade with h | ⟨a, h⟩
    · exact ngx_list_init_inv L hL S D n size hSD hov hD pool oc hok l0 pool0 o0 h
    · exact ngx_list_create_inv L hL S D n size hSD hov hD pool oc hok a l0 pool0 o0 h
  obtain ⟨s1, s2, s3⟩ := hstart
  obtain ⟨i1, i2, i3⟩ := list_push_all_inv L hL S D n size hSD hn hov hD k l0 pool0 o0 slots l1
    pool1 o1 s1 s2 hpush
  rw [s3, List.nil_append] at i2
  have hnd := list_slots_nodup D n size hs l1 pool1 o1 i1
  rw [i2] at hnd
  refine ⟨i3, hnd, ?_, i2, ?_⟩
  · intro fuel hf
    rw [ngx_list_iterate_spec D n size l1 pool1 o1 i1 fuel (by rw [i2, i3]; exact hf), i2]
  · intro l p oo init last hp hne
    constructor
    · intro hroom
      rw [ngx_list_push_room L l p oo init last hp hroom]
      exact ⟨rfl, rfl⟩
    · intro hfull
      cases h1 : ngx_palloc L p L.sizeof_list_part oo with
      | mk part rest1 =>
        obtain ⟨q1, oo1⟩ := rest1
        cases h2 : ngx_palloc L q1 (size_mul L l.nalloc l.size) oo1 with
        | mk elts rest2 =>
          obtain ⟨q2, oo2⟩ := rest2
          rw [ngx_list_push_full L l p oo init last hp hfull part elts q1 q2 oo1 oo2 h1 h2]
            at hne ⊢
          by_cases hpz : part = 0
          · rw [if_pos hpz] at hne
            exact absurd rfl hne
          · rw [if_neg hpz] at hne ⊢
            by_cases hez : elts = 0
            · rw [if_pos hez] at hne
              exact absurd rfl hne
            · rw [if_neg hez]
              exact ⟨elts, rfl, rfl⟩

/-- C21 witness: on the pool created with size 1024, the list made with capacity 2 and
element size 8 takes five pushes: they return 1104, 1112, 1144, 1152 and 1184, the
third and the fifth from a new part, and the iteration visits these five slots. -/
theorem list_push_slots_witness :
    ([1104, 1112, 1144, 1152, 1184] : List Nat).Nodup ∧
      ngx_list_iterate 6 list_five_pushed = [1104, 1112, 1144, 1152, 1184] :=
  ⟨(list_push_slots lp64 (by decide) 1024 4096 2 8 5 [1024, 8192] [8192] [8192] [8192]
      pool_fresh pool_list_made pool_list_pushed list_made list_five_pushed
      [1104, 1112, 1144, 1152, 1184] (by decide) (by decide) (by decide)
      (by unfold OracleOK; decide) (by decide) (by decide)
      ⟨pool_fresh, [8192], [], by decide, rfl⟩ (by decide) (by decide) (by decide) (by decide)
      (Or.inl (by decide)) (by decide)).2.1,
    (list_push_slots lp64 (by decide) 1024 4096 2 8 5 [1024, 8192] [8192] [8192] [8192]
      pool_fresh pool_list_made pool_list_pushed list_made list_five_pushed
      [1104, 1112, 1144, 1152, 1184] (by decide) (by decide) (by decide)
      (by unfold OracleOK; decide) (by decide) (by decide)
      ⟨pool_fresh, [8192], [], by decide, rfl⟩ (by decide) (by decide) (by decide) (by decide)
      (Or.inl (by decide)) (by decide)).2.2.1 6 (by decide)⟩

/-! ## C5: cleanup handlers run in reverse registration order -/

/-- The walk of `ngx_destroy_pool` after `cleanup_add`, `reset_pool`, `cleanup_add`
on a fresh pool never reaches the null pointer: every pass calls the handler 13. -/
theorem destroy_cleanup_loop_never_ends :
    ∀ (fuel : Nat), ngx_destroy_pool lp64 fuel pool_cleanup_cycle =
      DestroyResult.running (List.replicate fuel (13, 0)) := by
  have key : ∀ (fuel : Nat), destroy_cleanup_loop pool_cleanup_cycle.cleanup fuel 1104 =
      (List.replicate fuel (13, 0), WalkStatus.running) := by
    intro fuel
    induction fuel with
    | zero => rfl
    | succ n ih =>
      rw [destroy_cleanup_loop, if_neg (by decide)]
      have hat : cleanup_at pool_cleanup_cycle.cleanup 1104 =
          some ({ addr := 1104, handler := 13, data := 0 }, 1104) := by decide
      rw [hat]
      simp only
      rw [ih]
      rfl
  intro fuel
  unfold ngx_destroy_pool
  rw [if_pos (by decide)]
  have hh : cleanup_head pool_cleanup_cycle.cleanup = 1104 := rfl
  rw [hh, key fuel]

end Nginx
